import Mathlib

/-!
# `xnn_math_f32_expminus__neonfma_lut2048_p1`

A shallow embedding of `src/math/expminus-neonfma-lut2048-p1.c`.

* binary32 values are their 32-bit patterns, as natural numbers below `2 ^ 32`;
* the Advanced SIMD arithmetic (`FMLA`, `FSUB`, `FMUL`, `FCMGT`) follows the Arm
  pseudocode `FPMulAdd`, `FPSub`, `FPMul`, `FPCompareGT` in round-to-nearest-even, with the
  two control bits the C source does not fix (default NaN, flush-to-zero) as a parameter;
* exact values are integers: a finite binary32 value is an integer multiple of `2 ^ -149`,
  a product or fused sum an integer multiple of `2 ^ -298`;
* 32-bit integer lanes are natural numbers with explicit `% 2 ^ 32`, `size_t` is a natural
  number with explicit `% 2 ^ 64`.
-/

namespace XNN

/-! ## binary32 -/

/-- Floating-point control of the vector unit: `dn` (results that are NaN are the default
NaN) and `fz` (denormal operands and results are flushed to zero). AArch64 starts with both
clear, AArch32 Advanced SIMD arithmetic always runs with both set. -/
structure FPMode where
  dn : Bool
  fz : Bool
deriving DecidableEq

/-- Bit 31 of a pattern. -/
def signBit (b : Nat) : Nat := b / 2 ^ 31 % 2

/-- Bits 0..30 of a pattern: exponent field and fraction. -/
def absBits (b : Nat) : Nat := b % 2 ^ 31

/-- Bits 23..30 of a pattern: the biased exponent. -/
def expField (b : Nat) : Nat := b / 2 ^ 23 % 256

/-- Bits 0..22 of a pattern: the fraction. -/
def fracField (b : Nat) : Nat := b % 2 ^ 23

def isNaN (b : Nat) : Bool := decide (0x7F800000 < absBits b)

def isSNaN (b : Nat) : Bool := isNaN b && decide (b / 2 ^ 22 % 2 = 0)

def isInf (b : Nat) : Bool := decide (absBits b = 0x7F800000)

/-- The operand unpacks to zero: a zero, or a denormal under flush-to-zero (`FPUnpack`). -/
def isZero (m : FPMode) (b : Nat) : Bool :=
  decide (absBits b = 0) || (m.fz && decide (absBits b < 2 ^ 23))

/-- Magnitude of a finite operand in units of `2 ^ -149`, as `FPUnpack` sees it. -/
def mag149 (m : FPMode) (b : Nat) : Nat :=
  if absBits b < 2 ^ 23 then (if m.fz then 0 else absBits b)
  else (2 ^ 23 + absBits b % 2 ^ 23) * 2 ^ (absBits b / 2 ^ 23 - 1)

/-- Signed value of a finite operand in units of `2 ^ -149`. -/
def val149 (m : FPMode) (b : Nat) : Int :=
  if signBit b = 1 then -(mag149 m b : Int) else (mag149 m b : Int)

/-- Signed value of a non-NaN operand in units of `2 ^ -149`, an infinity standing above
every finite value. -/
def ordVal (m : FPMode) (b : Nat) : Int :=
  if isInf b then (if signBit b = 1 then -((2 ^ 300 : Nat) : Int) else ((2 ^ 300 : Nat) : Int))
  else val149 m b

def fpDefaultNaN : Nat := 0x7FC00000

def fpInfinity (s : Nat) : Nat := s * 2 ^ 31 + 0x7F800000

def fpZero (s : Nat) : Nat := s * 2 ^ 31

/-- Halve `n` until it is below 2 and count the halvings, at most `fuel` of them. -/
def log2Fuel : Nat → Nat → Nat
  | 0, _ => 0
  | fuel + 1, n => if n < 2 then 0 else log2Fuel fuel (n / 2) + 1

/-- The position of the leading bit of `n`: `2 ^ ilog2 n ≤ n < 2 ^ (ilog2 n + 1)` for
`n ≠ 0`. -/
def ilog2 (n : Nat) : Nat := log2Fuel n n

/-- The exponent of the rounding quantum for the magnitude `n * 2 ^ -298`: the quantum is
`2 ^ (roundShift n - 298)`, 24 significant bits but never below `2 ^ -149`. -/
def roundShift (n : Nat) : Nat := max (ilog2 n - 23) 149

/-- The integer nearest to `n / 2 ^ sh`, ties to even. -/
def roundMant (n sh : Nat) : Nat :=
  if 2 ^ (sh - 1) < n % 2 ^ sh ∨ (n % 2 ^ sh = 2 ^ (sh - 1) ∧ n / 2 ^ sh % 2 = 1) then
    n / 2 ^ sh + 1
  else n / 2 ^ sh

/-- Round the magnitude `n * 2 ^ -298` to binary32, nearest with ties to even; the result
is the pattern without its sign. A carry out of the 24-bit significand moves into the
exponent field by itself, and what reaches the exponent field 255 is infinity. Under
flush-to-zero a magnitude below `2 ^ -126` gives zero (`FPRound`). -/
def roundMag (fz : Bool) (n : Nat) : Nat :=
  if fz && decide (n < 2 ^ 172) then 0
  else min ((roundShift n - 149) * 2 ^ 23 + roundMant n (roundShift n)) 0x7F800000

/-- `FPRound` of the non-zero exact value `v * 2 ^ -298`. -/
def fpRound (m : FPMode) (v : Int) : Nat :=
  (if v < 0 then 2 ^ 31 else 0) + roundMag m.fz v.natAbs

/-- `FPProcessNaN`: the quieted operand, or the default NaN. -/
def fpProcessNaN (m : FPMode) (b : Nat) : Nat :=
  if m.dn then fpDefaultNaN else if b / 2 ^ 22 % 2 = 0 then b + 2 ^ 22 else b

/-- `FPProcessNaNs`: signalling NaNs first, then quiet ones, in operand order. -/
def fpProcessNaNs (m : FPMode) (a b : Nat) : Option Nat :=
  if isSNaN a then some (fpProcessNaN m a)
  else if isSNaN b then some (fpProcessNaN m b)
  else if isNaN a then some (fpProcessNaN m a)
  else if isNaN b then some (fpProcessNaN m b)
  else none

/-- `FPProcessNaNs3`. -/
def fpProcessNaNs3 (m : FPMode) (a b c : Nat) : Option Nat :=
  if isSNaN a then some (fpProcessNaN m a)
  else if isSNaN b then some (fpProcessNaN m b)
  else if isSNaN c then some (fpProcessNaN m c)
  else if isNaN a then some (fpProcessNaN m a)
  else if isNaN b then some (fpProcessNaN m b)
  else if isNaN c then some (fpProcessNaN m c)
  else none

/-- `FPMulAdd`: `addend + op1 * op2` with a single rounding. -/
def fpMulAdd (m : FPMode) (addend op1 op2 : Nat) : Nat :=
  let infZero := (isInf op1 && isZero m op2) || (isZero m op1 && isInf op2)
  match fpProcessNaNs3 m addend op1 op2 with
  | some r => if isNaN addend && !isSNaN addend && infZero then fpDefaultNaN else r
  | none =>
    let signP := (signBit op1 + signBit op2) % 2
    let infP := isInf op1 || isInf op2
    let zeroP := isZero m op1 || isZero m op2
    if infZero || (isInf addend && infP && decide (signBit addend ≠ signP)) then fpDefaultNaN
    else if isInf addend then fpInfinity (signBit addend)
    else if infP then fpInfinity signP
    else if isZero m addend && zeroP && decide (signBit addend = signP) then
      fpZero (signBit addend)
    else
      let v := val149 m addend * ((2 ^ 149 : Nat) : Int) + val149 m op1 * val149 m op2
      if v = 0 then fpZero 0 else fpRound m v

/-- `FPMul`. -/
def fpMul (m : FPMode) (op1 op2 : Nat) : Nat :=
  match fpProcessNaNs m op1 op2 with
  | some r => r
  | none =>
    let signP := (signBit op1 + signBit op2) % 2
    if (isInf op1 && isZero m op2) || (isZero m op1 && isInf op2) then fpDefaultNaN
    else if isInf op1 || isInf op2 then fpInfinity signP
    else if isZero m op1 || isZero m op2 then fpZero signP
    else fpRound m (val149 m op1 * val149 m op2)

/-- `FPSub`. -/
def fpSub (m : FPMode) (op1 op2 : Nat) : Nat :=
  match fpProcessNaNs m op1 op2 with
  | some r => r
  | none =>
    if isInf op1 && isInf op2 && decide (signBit op1 = signBit op2) then fpDefaultNaN
    else if isInf op1 then fpInfinity (signBit op1)
    else if isInf op2 then fpInfinity (1 - signBit op2)
    else if isZero m op1 && isZero m op2 && decide (signBit op1 ≠ signBit op2) then
      fpZero (signBit op1)
    else
      let v := (val149 m op1 - val149 m op2) * ((2 ^ 149 : Nat) : Int)
      if v = 0 then fpZero 0 else fpRound m v

/-- `FPCompareGT`: false when an operand is a NaN. -/
def fpCompareGT (m : FPMode) (op1 op2 : Nat) : Bool :=
  if isNaN op1 || isNaN op2 then false else decide (ordVal m op2 < ordVal m op1)

/-! ## Advanced SIMD intrinsics -/

/-- A 128-bit register as four 32-bit lanes (`float32x4_t`, `int32x4_t`, `uint32x4_t`). -/
structure Q32x4 where
  l0 : Nat
  l1 : Nat
  l2 : Nat
  l3 : Nat
deriving DecidableEq

/-- A 128-bit register as two 64-bit lanes (`uint64x2_t`). -/
structure Q64x2 where
  l0 : Nat
  l1 : Nat
deriving DecidableEq

/-- A 64-bit register as two 32-bit lanes (`float32x2_t`). -/
structure D32x2 where
  l0 : Nat
  l1 : Nat
deriving DecidableEq

def Q32x4.lane (v : Q32x4) (j : Fin 4) : Nat :=
  match j with
  | 0 => v.l0
  | 1 => v.l1
  | 2 => v.l2
  | 3 => v.l3

def Q32x4.map (f : Nat → Nat) (v : Q32x4) : Q32x4 := ⟨f v.l0, f v.l1, f v.l2, f v.l3⟩

def Q32x4.map2 (f : Nat → Nat → Nat) (a b : Q32x4) : Q32x4 :=
  ⟨f a.l0 b.l0, f a.l1 b.l1, f a.l2 b.l2, f a.l3 b.l3⟩

def Q32x4.map3 (f : Nat → Nat → Nat → Nat) (a b c : Q32x4) : Q32x4 :=
  ⟨f a.l0 b.l0 c.l0, f a.l1 b.l1 c.l1, f a.l2 b.l2 c.l2, f a.l3 b.l3 c.l3⟩

def vmovq_n_f32 (x : Nat) : Q32x4 := ⟨x, x, x, x⟩

def vmovq_n_s32 (x : Nat) : Q32x4 := ⟨x, x, x, x⟩

/-- The result is `a + b * c` in every lane. -/
def vfmaq_f32 (m : FPMode) (a b c : Q32x4) : Q32x4 := Q32x4.map3 (fpMulAdd m) a b c

def vsubq_f32 (m : FPMode) (a b : Q32x4) : Q32x4 := Q32x4.map2 (fpSub m) a b

def vmulq_f32 (m : FPMode) (a b : Q32x4) : Q32x4 := Q32x4.map2 (fpMul m) a b

/-- All ones in the lanes where `a < b`, that is `FCMGT b, a`. -/
def vcltq_f32 (m : FPMode) (a b : Q32x4) : Q32x4 :=
  Q32x4.map2 (fun x y => if fpCompareGT m y x then 0xFFFFFFFF else 0) a b

def vreinterpretq_s32_f32 (v : Q32x4) : Q32x4 := v

def vreinterpretq_f32_s32 (v : Q32x4) : Q32x4 := v

def vreinterpretq_u32_f32 (v : Q32x4) : Q32x4 := v

def vreinterpretq_f32_u32 (v : Q32x4) : Q32x4 := v

/-- Bit clear, `a & ~b`, on 32-bit lanes. -/
def vbicq_s32 (a b : Q32x4) : Q32x4 := Q32x4.map2 (fun x y => x &&& (0xFFFFFFFF ^^^ y)) a b

def vbicq_u32 (a b : Q32x4) : Q32x4 := Q32x4.map2 (fun x y => x &&& (0xFFFFFFFF ^^^ y)) a b

def vandq_s32 (a b : Q32x4) : Q32x4 := Q32x4.map2 (fun x y => x &&& y) a b

/-- Left shift of 32-bit lanes, the bits shifted out are lost. -/
def vshlq_n_s32 (a : Q32x4) (k : Nat) : Q32x4 := Q32x4.map (fun x => x <<< k % 2 ^ 32) a

/-- Addition of 32-bit lanes, wrapping. -/
def vaddq_s32 (a b : Q32x4) : Q32x4 := Q32x4.map2 (fun x y => (x + y) % 2 ^ 32) a b

/-- The same 128 bits as two 64-bit lanes (little-endian lane order). -/
def vreinterpretq_u64_s32 (v : Q32x4) : Q64x2 := ⟨v.l0 + v.l1 * 2 ^ 32, v.l2 + v.l3 * 2 ^ 32⟩

def vgetq_lane_u64 (v : Q64x2) (lane : Nat) : Nat := if lane = 0 then v.l0 else v.l1

/-- The conversion `(uint32_t) x`. -/
def uint32_t (x : Nat) : Nat := x % 2 ^ 32

/-- Load one float from element `i` of `tbl` into both lanes; `none` when `i` is outside
the array. -/
def vld1_dup_f32 (tbl : List Nat) (i : Nat) : Option D32x2 :=
  match tbl.get? i with
  | some x => some ⟨x, x⟩
  | none => none

/-- Load one float from element `i` of `tbl` into lane `lane` of `v`; `none` when `i` is
outside the array. -/
def vld1_lane_f32 (tbl : List Nat) (i : Nat) (v : D32x2) (lane : Nat) : Option D32x2 :=
  match tbl.get? i with
  | some x => some (if lane = 0 then ⟨x, v.l1⟩ else ⟨v.l0, x⟩)
  | none => none

def vcombine_f32 (lo hi : D32x2) : Q32x4 := ⟨lo.l0, lo.l1, hi.l0, hi.l1⟩

/-- Load four floats from elements `p .. p + 3` of `buf`; `none` when they are not all
inside the buffer. -/
def vld1q_f32 (buf : List Nat) (p : Nat) : Option Q32x4 :=
  match buf.get? p, buf.get? (p + 1), buf.get? (p + 2), buf.get? (p + 3) with
  | some a, some b, some c, some d => some ⟨a, b, c, d⟩
  | _, _, _, _ => none

/-- Store four floats to elements `p .. p + 3` of `buf`; `none` when they are not all
inside the buffer. -/
def vst1q_f32 (buf : List Nat) (p : Nat) (v : Q32x4) : Option (List Nat) :=
  if p + 4 ≤ buf.length then
    some ((((buf.set p v.l0).set (p + 1) v.l1).set (p + 2) v.l2).set (p + 3) v.l3)
  else none

/-! ## The table and the kernel

The literal of `exp2_table` is kept in sixteen pieces of 128 entries, in the order of the
source; an entry written `0x1.001630p+0f` there is `0x001630` here (its 24 fraction bits). -/

/-- Entries 0..127 of the literal of `exp2_table`. -/
def exp2_table_hex_0 : List Nat := [
  0x000000, 0x001630, 0x002C60, 0x004294, 0x0058C8, 0x006F00, 0x008538, 0x009B72,
  0x00B1B0, 0x00C7EE, 0x00DE2E, 0x00F472, 0x010AB6, 0x0120FC, 0x013744, 0x014D8E,
  0x0163DA, 0x017A28, 0x019078, 0x01A6CA, 0x01BD1E, 0x01D374, 0x01E9CC, 0x020026,
  0x021682, 0x022CDE, 0x02433E, 0x0259A0, 0x027004, 0x028668, 0x029CD0, 0x02B338,
  0x02C9A4, 0x02E010, 0x02F680, 0x030CF0, 0x032364, 0x0339D8, 0x035050, 0x0366C8,
  0x037D42, 0x0393C0, 0x03AA3E, 0x03C0BE, 0x03D742, 0x03EDC6, 0x04044C, 0x041AD4,
  0x04315E, 0x0447EA, 0x045E78, 0x04750A, 0x048B9C, 0x04A230, 0x04B8C6, 0x04CF5E,
  0x04E5F8, 0x04FC94, 0x051330, 0x0529D0, 0x054072, 0x055716, 0x056DBC, 0x058464,
  0x059B0E, 0x05B1B8, 0x05C866, 0x05DF16, 0x05F5C8, 0x060C7A, 0x062330, 0x0639E8,
  0x0650A0, 0x06675C, 0x067E1A, 0x0694D8, 0x06AB9A, 0x06C25E, 0x06D922, 0x06EFEA,
  0x0706B2, 0x071D7E, 0x07344A, 0x074B1A, 0x0761EA, 0x0778BE, 0x078F92, 0x07A66A,
  0x07BD42, 0x07D41E, 0x07EAFA, 0x0801DA, 0x0818BA, 0x082F9E, 0x084682, 0x085D68,
  0x087452, 0x088B3C, 0x08A22A, 0x08B918, 0x08D008, 0x08E6FC, 0x08FDF0, 0x0914E6,
  0x092BE0, 0x0942DA, 0x0959D6, 0x0970D6, 0x0987D6, 0x099ED8, 0x09B5DE, 0x09CCE4,
  0x09E3EC, 0x09FAF8, 0x0A1204, 0x0A2912, 0x0A4024, 0x0A5736, 0x0A6E4A, 0x0A8562,
  0x0A9C7A, 0x0AB394, 0x0ACAB0, 0x0AE1D0, 0x0AF8F0, 0x0B1012, 0x0B2738, 0x0B3E5E
]

/-- Entries 128..255 of the literal of `exp2_table`. -/
def exp2_table_hex_1 : List Nat := [
  0x0B5586, 0x0B6CB2, 0x0B83DE, 0x0B9B0C, 0x0BB23E, 0x0BC970, 0x0BE0A4, 0x0BF7DC,
  0x0C0F14, 0x0C2650, 0x0C3D8C, 0x0C54CA, 0x0C6C0C, 0x0C834E, 0x0C9A94, 0x0CB1DA,
  0x0CC922, 0x0CE06E, 0x0CF7BA, 0x0D0F0A, 0x0D265A, 0x0D3DAE, 0x0D5502, 0x0D6C5A,
  0x0D83B2, 0x0D9B0E, 0x0DB26A, 0x0DC9CA, 0x0DE12A, 0x0DF88E, 0x0E0FF2, 0x0E275A,
  0x0E3EC4, 0x0E562E, 0x0E6D9C, 0x0E850A, 0x0E9C7C, 0x0EB3F0, 0x0ECB66, 0x0EE2DC,
  0x0EFA56, 0x0F11D2, 0x0F2950, 0x0F40CE, 0x0F5850, 0x0F6FD4, 0x0F875A, 0x0F9EE2,
  0x0FB66A, 0x0FCDF6, 0x0FE584, 0x0FFD14, 0x1014A6, 0x102C3A, 0x1043D0, 0x105B68,
  0x107302, 0x108A9E, 0x10A23C, 0x10B9DE, 0x10D180, 0x10E924, 0x1100CA, 0x111872,
  0x11301E, 0x1147CA, 0x115F78, 0x117728, 0x118EDC, 0x11A690, 0x11BE46, 0x11D600,
  0x11EDBA, 0x120578, 0x121D36, 0x1234F8, 0x124CBA, 0x126480, 0x127C48, 0x129410,
  0x12ABDC, 0x12C3AA, 0x12DB78, 0x12F34A, 0x130B1E, 0x1322F4, 0x133ACC, 0x1352A6,
  0x136A82, 0x138260, 0x139A40, 0x13B222, 0x13CA06, 0x13E1EC, 0x13F9D4, 0x1411BE,
  0x1429AA, 0x14419A, 0x14598A, 0x14717C, 0x148972, 0x14A168, 0x14B962, 0x14D15C,
  0x14E95A, 0x150158, 0x15195A, 0x15315C, 0x154962, 0x15616A, 0x157974, 0x15917E,
  0x15A98C, 0x15C19C, 0x15D9AE, 0x15F1C2, 0x1609D8, 0x1621F0, 0x163A0A, 0x165226,
  0x166A46, 0x168266, 0x169A88, 0x16B2AE, 0x16CAD4, 0x16E2FC, 0x16FB28, 0x171354
]

/-- Entries 256..383 of the literal of `exp2_table`. -/
def exp2_table_hex_2 : List Nat := [
  0x172B84, 0x1743B6, 0x175BE8, 0x17741E, 0x178C56, 0x17A48E, 0x17BCCA, 0x17D508,
  0x17ED48, 0x18058A, 0x181DCE, 0x183614, 0x184E5E, 0x1866A8, 0x187EF4, 0x189742,
  0x18AF94, 0x18C7E6, 0x18E03C, 0x18F892, 0x1910EC, 0x192946, 0x1941A4, 0x195A04,
  0x197266, 0x198ACA, 0x19A330, 0x19BB98, 0x19D402, 0x19EC6E, 0x1A04DC, 0x1A1D4C,
  0x1A35BE, 0x1A4E34, 0x1A66AA, 0x1A7F24, 0x1A979E, 0x1AB01C, 0x1AC89A, 0x1AE11C,
  0x1AF9A0, 0x1B1226, 0x1B2AAC, 0x1B4336, 0x1B5BC2, 0x1B7452, 0x1B8CE2, 0x1BA574,
  0x1BBE08, 0x1BD69E, 0x1BEF38, 0x1C07D2, 0x1C2070, 0x1C390E, 0x1C51B0, 0x1C6A54,
  0x1C82FA, 0x1C9BA2, 0x1CB44A, 0x1CCCF6, 0x1CE5A6, 0x1CFE56, 0x1D1708, 0x1D2FBC,
  0x1D4874, 0x1D612C, 0x1D79E6, 0x1D92A4, 0x1DAB64, 0x1DC424, 0x1DDCE8, 0x1DF5AE,
  0x1E0E76, 0x1E2740, 0x1E400C, 0x1E58DA, 0x1E71AA, 0x1E8A7E, 0x1EA352, 0x1EBC2A,
  0x1ED502, 0x1EEDDE, 0x1F06BA, 0x1F1F9A, 0x1F387C, 0x1F5160, 0x1F6A46, 0x1F832E,
  0x1F9C18, 0x1FB504, 0x1FCDF4, 0x1FE6E4, 0x1FFFD8, 0x2018CC, 0x2031C4, 0x204ABC,
  0x2063B8, 0x207CB6, 0x2095B6, 0x20AEB8, 0x20C7BC, 0x20E0C4, 0x20F9CC, 0x2112D6,
  0x212BE4, 0x2144F2, 0x215E04, 0x217718, 0x21902C, 0x21A944, 0x21C25E, 0x21DB7A,
  0x21F49A, 0x220DBA, 0x2226DC, 0x224002, 0x225928, 0x227252, 0x228B7C, 0x22A4AA,
  0x22BDDA, 0x22D70C, 0x22F040, 0x230976, 0x2322B0, 0x233BEA, 0x235526, 0x236E66
]

/-- Entries 384..511 of the literal of `exp2_table`. -/
def exp2_table_hex_3 : List Nat := [
  0x2387A6, 0x23A0EA, 0x23BA30, 0x23D378, 0x23ECC2, 0x24060E, 0x241F5C, 0x2438AC,
  0x245200, 0x246B54, 0x2484AC, 0x249E06, 0x24B760, 0x24D0BE, 0x24EA1E, 0x250380,
  0x251CE4, 0x25364C, 0x254FB4, 0x256920, 0x25828C, 0x259BFC, 0x25B56E, 0x25CEE2,
  0x25E858, 0x2601D0, 0x261B4A, 0x2634C6, 0x264E46, 0x2667C6, 0x26814A, 0x269ACE,
  0x26B456, 0x26CDE0, 0x26E76C, 0x2700FA, 0x271A8C, 0x27341E, 0x274DB2, 0x27674A,
  0x2780E4, 0x279A7E, 0x27B41C, 0x27CDBC, 0x27E75E, 0x280104, 0x281AAA, 0x283452,
  0x284DFE, 0x2867AC, 0x28815C, 0x289B0C, 0x28B4C0, 0x28CE78, 0x28E830, 0x2901EA,
  0x291BA8, 0x293566, 0x294F28, 0x2968EC, 0x2982B2, 0x299C7A, 0x29B644, 0x29D010,
  0x29E9E0, 0x2A03B0, 0x2A1D84, 0x2A375A, 0x2A5130, 0x2A6B0A, 0x2A84E8, 0x2A9EC6,
  0x2AB8A6, 0x2AD28A, 0x2AEC6E, 0x2B0656, 0x2B2040, 0x2B3A2C, 0x2B541A, 0x2B6E0A,
  0x2B87FE, 0x2BA1F2, 0x2BBBEA, 0x2BD5E2, 0x2BEFDE, 0x2C09DC, 0x2C23DC, 0x2C3DDE,
  0x2C57E4, 0x2C71EA, 0x2C8BF4, 0x2CA600, 0x2CC00C, 0x2CDA1C, 0x2CF430, 0x2D0E44,
  0x2D285A, 0x2D4274, 0x2D5C8E, 0x2D76AC, 0x2D90CC, 0x2DAAEE, 0x2DC512, 0x2DDF3A,
  0x2DF962, 0x2E138E, 0x2E2DBA, 0x2E47EA, 0x2E621C, 0x2E7C50, 0x2E9686, 0x2EB0C0,
  0x2ECAFA, 0x2EE538, 0x2EFF78, 0x2F19BA, 0x2F33FE, 0x2F4E44, 0x2F688C, 0x2F82D8,
  0x2F9D24, 0x2FB774, 0x2FD1C6, 0x2FEC1A, 0x300670, 0x3020CA, 0x303B24, 0x305582
]

/-- Entries 512..639 of the literal of `exp2_table`. -/
def exp2_table_hex_4 : List Nat := [
  0x306FE0, 0x308A42, 0x30A4A6, 0x30BF0C, 0x30D976, 0x30F3E0, 0x310E4E, 0x3128BE,
  0x31432E, 0x315DA2, 0x31781A, 0x319292, 0x31AD0C, 0x31C78A, 0x31E20A, 0x31FC8C,
  0x321710, 0x323196, 0x324C1E, 0x3266AA, 0x328138, 0x329BC6, 0x32B658, 0x32D0EE,
  0x32EB84, 0x33061C, 0x3320B8, 0x333B56, 0x3355F4, 0x337098, 0x338B3C, 0x33A5E2,
  0x33C08C, 0x33DB36, 0x33F5E4, 0x341094, 0x342B46, 0x3445FA, 0x3460B2, 0x347B6A,
  0x349626, 0x34B0E4, 0x34CBA4, 0x34E666, 0x35012C, 0x351BF2, 0x3536BC, 0x355188,
  0x356C56, 0x358726, 0x35A1FA, 0x35BCCE, 0x35D7A6, 0x35F280, 0x360D5C, 0x36283A,
  0x36431A, 0x365DFE, 0x3678E2, 0x3693CA, 0x36AEB4, 0x36C9A0, 0x36E490, 0x36FF80,
  0x371A74, 0x37356A, 0x375062, 0x376B5C, 0x378658, 0x37A158, 0x37BC58, 0x37D75C,
  0x37F262, 0x380D6A, 0x382876, 0x384382, 0x385E92, 0x3879A4, 0x3894B8, 0x38AFCE,
  0x38CAE6, 0x38E602, 0x390120, 0x391C40, 0x393762, 0x395286, 0x396DAC, 0x3988D6,
  0x39A402, 0x39BF30, 0x39DA60, 0x39F592, 0x3A10C8, 0x3A2C00, 0x3A4738, 0x3A6274,
  0x3A7DB4, 0x3A98F4, 0x3AB438, 0x3ACF7C, 0x3AEAC4, 0x3B0610, 0x3B215C, 0x3B3CAA,
  0x3B57FC, 0x3B7350, 0x3B8EA6, 0x3BA9FE, 0x3BC55A, 0x3BE0B6, 0x3BFC16, 0x3C1778,
  0x3C32DC, 0x3C4E42, 0x3C69AC, 0x3C8518, 0x3CA086, 0x3CBBF6, 0x3CD768, 0x3CF2DC,
  0x3D0E54, 0x3D29CE, 0x3D454A, 0x3D60C8, 0x3D7C4A, 0x3D97CC, 0x3DB352, 0x3DCEDA
]

/-- Entries 640..767 of the literal of `exp2_table`. -/
def exp2_table_hex_5 : List Nat := [
  0x3DEA64, 0x3E05F2, 0x3E2180, 0x3E3D12, 0x3E58A6, 0x3E743C, 0x3E8FD6, 0x3EAB70,
  0x3EC70E, 0x3EE2AE, 0x3EFE50, 0x3F19F4, 0x3F359C, 0x3F5146, 0x3F6CF2, 0x3F88A0,
  0x3FA450, 0x3FC004, 0x3FDBB8, 0x3FF770, 0x40132C, 0x402EE8, 0x404AA6, 0x406668,
  0x40822C, 0x409DF2, 0x40B9BC, 0x40D586, 0x40F154, 0x410D24, 0x4128F6, 0x4144CA,
  0x4160A2, 0x417C7C, 0x419858, 0x41B436, 0x41D016, 0x41EBFA, 0x4207E0, 0x4223C8,
  0x423FB2, 0x425BA0, 0x42778E, 0x429380, 0x42AF74, 0x42CB6C, 0x42E764, 0x430360,
  0x431F5E, 0x433B5E, 0x435760, 0x437366, 0x438F6E, 0x43AB78, 0x43C784, 0x43E392,
  0x43FFA4, 0x441BB8, 0x4437CE, 0x4453E6, 0x447002, 0x448C1E, 0x44A83E, 0x44C462,
  0x44E086, 0x44FCAE, 0x4518D6, 0x453504, 0x455132, 0x456D62, 0x458996, 0x45A5CC,
  0x45C204, 0x45DE3E, 0x45FA7C, 0x4616BC, 0x4632FE, 0x464F42, 0x466B8A, 0x4687D2,
  0x46A41E, 0x46C06E, 0x46DCBE, 0x46F912, 0x471566, 0x4731C0, 0x474E1A, 0x476A76,
  0x4786D6, 0x47A338, 0x47BF9C, 0x47DC04, 0x47F86E, 0x4814DA, 0x483148, 0x484DB8,
  0x486A2C, 0x4886A2, 0x48A31A, 0x48BF94, 0x48DC10, 0x48F890, 0x491512, 0x493198,
  0x494E1E, 0x496AA8, 0x498734, 0x49A3C2, 0x49C052, 0x49DCE6, 0x49F97C, 0x4A1614,
  0x4A32B0, 0x4A4F4C, 0x4A6BEC, 0x4A888E, 0x4AA532, 0x4AC1DA, 0x4ADE84, 0x4AFB30,
  0x4B17DE, 0x4B3490, 0x4B5144, 0x4B6DFA, 0x4B8AB2, 0x4BA76E, 0x4BC42A, 0x4BE0EA
]

/-- Entries 768..895 of the literal of `exp2_table`. -/
def exp2_table_hex_6 : List Nat := [
  0x4BFDAE, 0x4C1A72, 0x4C373A, 0x4C5404, 0x4C70D0, 0x4C8DA0, 0x4CAA70, 0x4CC744,
  0x4CE41C, 0x4D00F4, 0x4D1DD0, 0x4D3AAE, 0x4D578E, 0x4D7472, 0x4D9158, 0x4DAE40,
  0x4DCB2A, 0x4DE816, 0x4E0506, 0x4E21F8, 0x4E3EEC, 0x4E5BE4, 0x4E78DE, 0x4E95DA,
  0x4EB2D8, 0x4ECFDA, 0x4EECDC, 0x4F09E2, 0x4F26EC, 0x4F43F6, 0x4F6104, 0x4F7E14,
  0x4F9B28, 0x4FB83C, 0x4FD554, 0x4FF26E, 0x500F8C, 0x502CAA, 0x5049CC, 0x5066F2,
  0x508418, 0x50A142, 0x50BE6E, 0x50DB9C, 0x50F8CC, 0x511600, 0x513336, 0x515070,
  0x516DAA, 0x518AE8, 0x51A828, 0x51C56A, 0x51E2B0, 0x51FFF8, 0x521D42, 0x523A90,
  0x5257DE, 0x527530, 0x529284, 0x52AFDC, 0x52CD36, 0x52EA92, 0x5307F0, 0x532552,
  0x5342B6, 0x53601C, 0x537D84, 0x539AF0, 0x53B85E, 0x53D5CE, 0x53F342, 0x5410B8,
  0x542E30, 0x544BAA, 0x546928, 0x5486A8, 0x54A42A, 0x54C1AE, 0x54DF36, 0x54FCC0,
  0x551A4C, 0x5537DC, 0x55556E, 0x557302, 0x559098, 0x55AE32, 0x55CBCE, 0x55E96C,
  0x56070E, 0x5624B2, 0x564258, 0x566000, 0x567DAC, 0x569B5A, 0x56B90A, 0x56D6BE,
  0x56F474, 0x57122C, 0x572FE6, 0x574DA4, 0x576B64, 0x578926, 0x57A6EC, 0x57C4B4,
  0x57E27E, 0x58004A, 0x581E1A, 0x583BEC, 0x5859C0, 0x587798, 0x589572, 0x58B34E,
  0x58D12E, 0x58EF0E, 0x590CF4, 0x592ADA, 0x5948C4, 0x5966B0, 0x59849E, 0x59A28E,
  0x59C082, 0x59DE78, 0x59FC72, 0x5A1A6E, 0x5A386C, 0x5A566C, 0x5A7470, 0x5A9276
]

/-- Entries 896..1023 of the literal of `exp2_table`. -/
def exp2_table_hex_7 : List Nat := [
  0x5AB07E, 0x5ACE88, 0x5AEC96, 0x5B0AA6, 0x5B28BA, 0x5B46D0, 0x5B64E8, 0x5B8302,
  0x5BA120, 0x5BBF40, 0x5BDD62, 0x5BFB88, 0x5C19B0, 0x5C37DA, 0x5C5606, 0x5C7436,
  0x5C9268, 0x5CB09E, 0x5CCED6, 0x5CED10, 0x5D0B4C, 0x5D298C, 0x5D47CE, 0x5D6612,
  0x5D845A, 0x5DA2A2, 0x5DC0F0, 0x5DDF3E, 0x5DFD90, 0x5E1BE4, 0x5E3A3C, 0x5E5896,
  0x5E76F2, 0x5E9550, 0x5EB3B2, 0x5ED216, 0x5EF07C, 0x5F0EE6, 0x5F2D52, 0x5F4BC0,
  0x5F6A32, 0x5F88A6, 0x5FA71C, 0x5FC596, 0x5FE412, 0x600290, 0x602112, 0x603F96,
  0x605E1C, 0x607CA4, 0x609B30, 0x60B9BE, 0x60D850, 0x60F6E4, 0x61157A, 0x613412,
  0x6152AE, 0x61714C, 0x618FEE, 0x61AE92, 0x61CD38, 0x61EBE0, 0x620A8C, 0x62293A,
  0x6247EC, 0x62669E, 0x628554, 0x62A40E, 0x62C2CA, 0x62E188, 0x630048, 0x631F0C,
  0x633DD2, 0x635C9A, 0x637B66, 0x639A34, 0x63B906, 0x63D7D8, 0x63F6AE, 0x641588,
  0x643464, 0x645342, 0x647222, 0x649106, 0x64AFEC, 0x64CED6, 0x64EDC0, 0x650CAE,
  0x652BA0, 0x654A94, 0x65698A, 0x658882, 0x65A77E, 0x65C67C, 0x65E57E, 0x660482,
  0x662388, 0x664292, 0x66619E, 0x6680AC, 0x669FBC, 0x66BED0, 0x66DDE8, 0x66FD00,
  0x671C1C, 0x673B3C, 0x675A5C, 0x677980, 0x6798A8, 0x67B7D0, 0x67D6FC, 0x67F62C,
  0x68155E, 0x683492, 0x6853C8, 0x687302, 0x68923E, 0x68B17E, 0x68D0C0, 0x68F004,
  0x690F4C, 0x692E96, 0x694DE2, 0x696D30, 0x698C84, 0x69ABD8, 0x69CB30, 0x69EA8A
]

/-- Entries 1024..1151 of the literal of `exp2_table`. -/
def exp2_table_hex_8 : List Nat := [
  0x6A09E6, 0x6A2946, 0x6A48A8, 0x6A680E, 0x6A8776, 0x6AA6E0, 0x6AC64E, 0x6AE5BC,
  0x6B0530, 0x6B24A6, 0x6B441E, 0x6B6398, 0x6B8316, 0x6BA296, 0x6BC21A, 0x6BE19E,
  0x6C0128, 0x6C20B2, 0x6C4040, 0x6C5FD2, 0x6C7F64, 0x6C9EFA, 0x6CBE94, 0x6CDE30,
  0x6CFDCE, 0x6D1D70, 0x6D3D12, 0x6D5CBA, 0x6D7C62, 0x6D9C0E, 0x6DBBBE, 0x6DDB70,
  0x6DFB24, 0x6E1ADA, 0x6E3A94, 0x6E5A52, 0x6E7A10, 0x6E99D2, 0x6EB998, 0x6ED960,
  0x6EF92A, 0x6F18F6, 0x6F38C6, 0x6F589A, 0x6F786E, 0x6F9846, 0x6FB822, 0x6FD800,
  0x6FF7E0, 0x7017C2, 0x7037A8, 0x705792, 0x70777C, 0x70976C, 0x70B75C, 0x70D750,
  0x70F746, 0x711740, 0x71373C, 0x71573A, 0x71773C, 0x719740, 0x71B748, 0x71D752,
  0x71F75E, 0x72176E, 0x723780, 0x725796, 0x7277AE, 0x7297C8, 0x72B7E6, 0x72D806,
  0x72F828, 0x73184E, 0x733876, 0x7358A2, 0x7378D0, 0x739902, 0x73B934, 0x73D96C,
  0x73F9A4, 0x7419E0, 0x743A20, 0x745A62, 0x747AA6, 0x749AEC, 0x74BB36, 0x74DB84,
  0x74FBD4, 0x751C26, 0x753C7C, 0x755CD4, 0x757D2E, 0x759D8C, 0x75BDEC, 0x75DE50,
  0x75FEB6, 0x761F1E, 0x763F8A, 0x765FF8, 0x76806A, 0x76A0DE, 0x76C154, 0x76E1CE,
  0x77024C, 0x7722CA, 0x77434C, 0x7763D2, 0x77845A, 0x77A4E4, 0x77C572, 0x77E602,
  0x780694, 0x78272A, 0x7847C4, 0x786860, 0x7888FE, 0x78A99E, 0x78CA42, 0x78EAEA,
  0x790B94, 0x792C40, 0x794CF0, 0x796DA2, 0x798E56, 0x79AF0E, 0x79CFCA, 0x79F086
]

/-- Entries 1152..1279 of the literal of `exp2_table`. -/
def exp2_table_hex_9 : List Nat := [
  0x7A1148, 0x7A320A, 0x7A52D0, 0x7A739A, 0x7A9466, 0x7AB534, 0x7AD606, 0x7AF6DA,
  0x7B17B0, 0x7B388A, 0x7B5968, 0x7B7A48, 0x7B9B2A, 0x7BBC0E, 0x7BDCF8, 0x7BFDE2,
  0x7C1ED0, 0x7C3FC0, 0x7C60B4, 0x7C81AA, 0x7CA2A4, 0x7CC3A0, 0x7CE4A0, 0x7D05A2,
  0x7D26A6, 0x7D47AE, 0x7D68B8, 0x7D89C6, 0x7DAAD6, 0x7DCBE8, 0x7DECFE, 0x7E0E18,
  0x7E2F34, 0x7E5052, 0x7E7174, 0x7E9298, 0x7EB3BE, 0x7ED4E8, 0x7EF616, 0x7F1746,
  0x7F3878, 0x7F59AE, 0x7F7AE6, 0x7F9C22, 0x7FBD60, 0x7FDEA0, 0x7FFFE4, 0x80212C,
  0x804276, 0x8063C2, 0x808512, 0x80A664, 0x80C7B8, 0x80E912, 0x810A6C, 0x812BCA,
  0x814D2A, 0x816E8E, 0x818FF6, 0x81B15E, 0x81D2CC, 0x81F43A, 0x8215AC, 0x823722,
  0x82589A, 0x827A14, 0x829B92, 0x82BD12, 0x82DE96, 0x83001E, 0x8321A6, 0x834332,
  0x8364C2, 0x838654, 0x83A7EA, 0x83C982, 0x83EB1C, 0x840CBA, 0x842E5A, 0x844FFE,
  0x8471A4, 0x84934E, 0x84B4FA, 0x84D6AA, 0x84F85C, 0x851A10, 0x853BC8, 0x855D84,
  0x857F42, 0x85A102, 0x85C2C6, 0x85E48C, 0x860656, 0x862822, 0x8649F2, 0x866BC4,
  0x868D9A, 0x86AF72, 0x86D14E, 0x86F32C, 0x87150C, 0x8736F0, 0x8758D6, 0x877AC0,
  0x879CAE, 0x87BE9E, 0x87E090, 0x880286, 0x88247E, 0x88467A, 0x886878, 0x888A7A,
  0x88AC7E, 0x88CE84, 0x88F090, 0x89129C, 0x8934AC, 0x8956C0, 0x8978D6, 0x899AEE,
  0x89BD0A, 0x89DF2A, 0x8A014A, 0x8A2370, 0x8A4598, 0x8A67C2, 0x8A89F0, 0x8AAC20
]

/-- Entries 1280..1407 of the literal of `exp2_table`. -/
def exp2_table_hex_10 : List Nat := [
  0x8ACE54, 0x8AF08A, 0x8B12C4, 0x8B3500, 0x8B5740, 0x8B7982, 0x8B9BC8, 0x8BBE10,
  0x8BE05C, 0x8C02AA, 0x8C24FC, 0x8C4750, 0x8C69A6, 0x8C8C00, 0x8CAE5E, 0x8CD0BE,
  0x8CF322, 0x8D1588, 0x8D37F0, 0x8D5A5C, 0x8D7CCC, 0x8D9F3E, 0x8DC1B2, 0x8DE42A,
  0x8E06A6, 0x8E2924, 0x8E4BA4, 0x8E6E28, 0x8E90B0, 0x8EB33A, 0x8ED5C6, 0x8EF856,
  0x8F1AEA, 0x8F3D80, 0x8F6018, 0x8F82B4, 0x8FA554, 0x8FC7F6, 0x8FEA9A, 0x900D42,
  0x902FEE, 0x90529A, 0x90754C, 0x909800, 0x90BAB6, 0x90DD70, 0x91002E, 0x9122EE,
  0x9145B0, 0x916876, 0x918B40, 0x91AE0C, 0x91D0DA, 0x91F3AC, 0x921682, 0x92395A,
  0x925C36, 0x927F14, 0x92A1F4, 0x92C4D8, 0x92E7C0, 0x930AAA, 0x932D98, 0x935088,
  0x93737C, 0x939672, 0x93B96A, 0x93DC68, 0x93FF66, 0x94226A, 0x94456E, 0x946878,
  0x948B82, 0x94AE92, 0x94D1A2, 0x94F4B8, 0x9517D0, 0x953AEA, 0x955E08, 0x958128,
  0x95A44C, 0x95C774, 0x95EA9E, 0x960DCA, 0x9630FA, 0x96542E, 0x967764, 0x969A9E,
  0x96BDDA, 0x96E118, 0x97045C, 0x9727A0, 0x974AEA, 0x976E34, 0x979184, 0x97B4D6,
  0x97D82A, 0x97FB82, 0x981EDC, 0x98423A, 0x98659C, 0x988900, 0x98AC66, 0x98CFD2,
  0x98F33E, 0x9916AE, 0x993A22, 0x995D98, 0x998112, 0x99A48E, 0x99C80E, 0x99EB92,
  0x9A0F18, 0x9A32A0, 0x9A562C, 0x9A79BC, 0x9A9D4E, 0x9AC0E2, 0x9AE47A, 0x9B0816,
  0x9B2BB4, 0x9B4F56, 0x9B72FC, 0x9B96A2, 0x9BBA4E, 0x9BDDFC, 0x9C01AC, 0x9C2560
]

/-- Entries 1408..1535 of the literal of `exp2_table`. -/
def exp2_table_hex_11 : List Nat := [
  0x9C4918, 0x9C6CD2, 0x9C9090, 0x9CB450, 0x9CD814, 0x9CFBDA, 0x9D1FA4, 0x9D4372,
  0x9D6742, 0x9D8B14, 0x9DAEEA, 0x9DD2C4, 0x9DF6A0, 0x9E1A80, 0x9E3E62, 0x9E6248,
  0x9E8632, 0x9EAA1E, 0x9ECE0C, 0x9EF1FE, 0x9F15F4, 0x9F39EC, 0x9F5DE8, 0x9F81E8,
  0x9FA5E8, 0x9FC9EE, 0x9FEDF6, 0xA01200, 0xA03610, 0xA05A20, 0xA07E36, 0xA0A24C,
  0xA0C668, 0xA0EA86, 0xA10EA6, 0xA132CA, 0xA156F2, 0xA17B1C, 0xA19F4A, 0xA1C37A,
  0xA1E7AE, 0xA20BE6, 0xA23020, 0xA2545E, 0xA2789E, 0xA29CE2, 0xA2C128, 0xA2E572,
  0xA309BE, 0xA32E0E, 0xA35262, 0xA376B8, 0xA39B12, 0xA3BF6E, 0xA3E3CE, 0xA40832,
  0xA42C98, 0xA45102, 0xA4756E, 0xA499DE, 0xA4BE50, 0xA4E2C6, 0xA50740, 0xA52BBC,
  0xA5503C, 0xA574BE, 0xA59944, 0xA5BDCC, 0xA5E258, 0xA606E8, 0xA62B7A, 0xA65010,
  0xA674A8, 0xA69944, 0xA6BDE4, 0xA6E286, 0xA7072C, 0xA72BD4, 0xA75080, 0xA77530,
  0xA799E2, 0xA7BE96, 0xA7E350, 0xA8080A, 0xA82CCA, 0xA8518C, 0xA87652, 0xA89B1A,
  0xA8BFE6, 0xA8E4B4, 0xA90986, 0xA92E5C, 0xA95334, 0xA97810, 0xA99CEE, 0xA9C1D0,
  0xA9E6B6, 0xAA0B9E, 0xAA308A, 0xAA5578, 0xAA7A6A, 0xAA9F60, 0xAAC458, 0xAAE954,
  0xAB0E52, 0xAB3354, 0xAB585A, 0xAB7D62, 0xABA26E, 0xABC77C, 0xABEC8E, 0xAC11A4,
  0xAC36BC, 0xAC5BD8, 0xAC80F6, 0xACA618, 0xACCB3E, 0xACF066, 0xAD1592, 0xAD3AC2,
  0xAD5FF4, 0xAD852A, 0xADAA62, 0xADCF9E, 0xADF4DC, 0xAE1A20, 0xAE3F64, 0xAE64AE
]

/-- Entries 1536..1663 of the literal of `exp2_table`. -/
def exp2_table_hex_12 : List Nat := [
  0xAE89FA, 0xAEAF48, 0xAED49C, 0xAEF9F2, 0xAF1F4A, 0xAF44A6, 0xAF6A06, 0xAF8F68,
  0xAFB4CE, 0xAFDA38, 0xAFFFA4, 0xB02514, 0xB04A86, 0xB06FFC, 0xB09576, 0xB0BAF2,
  0xB0E072, 0xB105F6, 0xB12B7C, 0xB15106, 0xB17692, 0xB19C22, 0xB1C1B6, 0xB1E74C,
  0xB20CE6, 0xB23284, 0xB25824, 0xB27DC8, 0xB2A370, 0xB2C91A, 0xB2EEC6, 0xB31478,
  0xB33A2C, 0xB35FE2, 0xB3859E, 0xB3AB5C, 0xB3D11C, 0xB3F6E0, 0xB41CA8, 0xB44274,
  0xB46842, 0xB48E12, 0xB4B3E8, 0xB4D9C0, 0xB4FF9A, 0xB5257A, 0xB54B5C, 0xB57140,
  0xB59728, 0xB5BD14, 0xB5E304, 0xB608F6, 0xB62EEC, 0xB654E4, 0xB67AE0, 0xB6A0E0,
  0xB6C6E2, 0xB6ECE8, 0xB712F2, 0xB738FE, 0xB75F0E, 0xB78522, 0xB7AB38, 0xB7D152,
  0xB7F770, 0xB81D90, 0xB843B4, 0xB869DA, 0xB89004, 0xB8B632, 0xB8DC64, 0xB90298,
  0xB928D0, 0xB94F0A, 0xB97548, 0xB99B8A, 0xB9C1CE, 0xB9E816, 0xBA0E62, 0xBA34B0,
  0xBA5B04, 0xBA8158, 0xBAA7B2, 0xBACE0E, 0xBAF46C, 0xBB1AD0, 0xBB4136, 0xBB679E,
  0xBB8E0C, 0xBBB47C, 0xBBDAEE, 0xBC0166, 0xBC27E0, 0xBC4E5C, 0xBC74DE, 0xBC9B62,
  0xBCC1EA, 0xBCE874, 0xBD0F02, 0xBD3594, 0xBD5C28, 0xBD82C0, 0xBDA95C, 0xBDCFFA,
  0xBDF69C, 0xBE1D42, 0xBE43EA, 0xBE6A96, 0xBE9146, 0xBEB7FA, 0xBEDEB0, 0xBF0568,
  0xBF2C26, 0xBF52E6, 0xBF79AA, 0xBFA070, 0xBFC73C, 0xBFEE08, 0xC014DA, 0xC03BAE,
  0xC06286, 0xC08962, 0xC0B040, 0xC0D722, 0xC0FE06, 0xC124F0, 0xC14BDC, 0xC172CC
]

/-- Entries 1664..1791 of the literal of `exp2_table`. -/
def exp2_table_hex_13 : List Nat := [
  0xC199BE, 0xC1C0B4, 0xC1E7AE, 0xC20EAA, 0xC235AA, 0xC25CAE, 0xC283B6, 0xC2AAC0,
  0xC2D1CE, 0xC2F8DE, 0xC31FF4, 0xC3470C, 0xC36E26, 0xC39546, 0xC3BC68, 0xC3E38E,
  0xC40AB6, 0xC431E2, 0xC45912, 0xC48046, 0xC4A77C, 0xC4CEB6, 0xC4F5F2, 0xC51D34,
  0xC54478, 0xC56BC0, 0xC5930A, 0xC5BA58, 0xC5E1AA, 0xC60900, 0xC63058, 0xC657B4,
  0xC67F12, 0xC6A676, 0xC6CDDC, 0xC6F546, 0xC71CB2, 0xC74422, 0xC76B96, 0xC7930E,
  0xC7BA88, 0xC7E206, 0xC80988, 0xC8310E, 0xC85896, 0xC88022, 0xC8A7B0, 0xC8CF44,
  0xC8F6DA, 0xC91E72, 0xC94610, 0xC96DB0, 0xC99554, 0xC9BCFC, 0xC9E4A6, 0xCA0C54,
  0xCA3406, 0xCA5BBA, 0xCA8372, 0xCAAB2E, 0xCAD2EE, 0xCAFAB0, 0xCB2278, 0xCB4A40,
  0xCB720E, 0xCB99DE, 0xCBC1B2, 0xCBE98A, 0xCC1164, 0xCC3944, 0xCC6124, 0xCC890A,
  0xCCB0F2, 0xCCD8E0, 0xCD00CE, 0xCD28C2, 0xCD50B8, 0xCD78B2, 0xCDA0B0, 0xCDC8B0,
  0xCDF0B6, 0xCE18BE, 0xCE40C8, 0xCE68D8, 0xCE90EA, 0xCEB900, 0xCEE118, 0xCF0936,
  0xCF3156, 0xCF597A, 0xCF81A0, 0xCFA9CC, 0xCFD1FA, 0xCFFA2A, 0xD02260, 0xD04A98,
  0xD072D4, 0xD09B14, 0xD0C358, 0xD0EB9E, 0xD113E8, 0xD13C36, 0xD16486, 0xD18CDA,
  0xD1B532, 0xD1DD8E, 0xD205EE, 0xD22E50, 0xD256B6, 0xD27F20, 0xD2A78C, 0xD2CFFC,
  0xD2F870, 0xD320E8, 0xD34962, 0xD371E2, 0xD39A64, 0xD3C2EA, 0xD3EB72, 0xD413FE,
  0xD43C8E, 0xD46522, 0xD48DBA, 0xD4B654, 0xD4DEF2, 0xD50794, 0xD53038, 0xD558E2
]

/-- Entries 1792..1919 of the literal of `exp2_table`. -/
def exp2_table_hex_14 : List Nat := [
  0xD5818E, 0xD5AA3E, 0xD5D2F0, 0xD5FBA8, 0xD62462, 0xD64D20, 0xD675E2, 0xD69EA6,
  0xD6C76E, 0xD6F03A, 0xD7190A, 0xD741DE, 0xD76AB4, 0xD7938E, 0xD7BC6C, 0xD7E54C,
  0xD80E32, 0xD8371A, 0xD86006, 0xD888F4, 0xD8B1E8, 0xD8DADE, 0xD903D8, 0xD92CD6,
  0xD955D8, 0xD97EDC, 0xD9A7E4, 0xD9D0F0, 0xD9FA00, 0xDA2312, 0xDA4C28, 0xDA7542,
  0xDA9E60, 0xDAC782, 0xDAF0A6, 0xDB19CE, 0xDB42FA, 0xDB6C2A, 0xDB955C, 0xDBBE94,
  0xDBE7CE, 0xDC110C, 0xDC3A4C, 0xDC6392, 0xDC8CDA, 0xDCB626, 0xDCDF76, 0xDD08C8,
  0xDD3220, 0xDD5B7A, 0xDD84D8, 0xDDAE38, 0xDDD79E, 0xDE0106, 0xDE2A72, 0xDE53E2,
  0xDE7D56, 0xDEA6CE, 0xDED048, 0xDEF9C6, 0xDF2348, 0xDF4CCE, 0xDF7656, 0xDF9FE4,
  0xDFC974, 0xDFF308, 0xE01C9E, 0xE0463A, 0xE06FD8, 0xE0997A, 0xE0C320, 0xE0ECCA,
  0xE11676, 0xE14028, 0xE169DC, 0xE19394, 0xE1BD50, 0xE1E70E, 0xE210D0, 0xE23A98,
  0xE26462, 0xE28E2E, 0xE2B800, 0xE2E1D6, 0xE30BAE, 0xE3358A, 0xE35F6A, 0xE3894C,
  0xE3B334, 0xE3DD1E, 0xE4070C, 0xE430FE, 0xE45AF4, 0xE484EE, 0xE4AEEA, 0xE4D8EA,
  0xE502EE, 0xE52CF6, 0xE55702, 0xE58110, 0xE5AB24, 0xE5D53A, 0xE5FF54, 0xE62972,
  0xE65392, 0xE67DB8, 0xE6A7E0, 0xE6D20C, 0xE6FC3C, 0xE72670, 0xE750A6, 0xE77AE2,
  0xE7A520, 0xE7CF62, 0xE7F9A8, 0xE823F2, 0xE84E3E, 0xE87890, 0xE8A2E4, 0xE8CD3C,
  0xE8F798, 0xE921F6, 0xE94C5A, 0xE976C0, 0xE9A12C, 0xE9CB9A, 0xE9F60C, 0xEA2080
]

/-- Entries 1920..2047 of the literal of `exp2_table`. -/
def exp2_table_hex_15 : List Nat := [
  0xEA4AFA, 0xEA7578, 0xEA9FF8, 0xEACA7C, 0xEAF504, 0xEB1F90, 0xEB4A1E, 0xEB74B2,
  0xEB9F48, 0xEBC9E2, 0xEBF480, 0xEC1F22, 0xEC49C8, 0xEC7472, 0xEC9F1E, 0xECC9CE,
  0xECF482, 0xED1F3A, 0xED49F6, 0xED74B6, 0xED9F78, 0xEDCA40, 0xEDF50A, 0xEE1FD8,
  0xEE4AAA, 0xEE7580, 0xEEA05A, 0xEECB36, 0xEEF616, 0xEF20FC, 0xEF4BE4, 0xEF76D0,
  0xEFA1BE, 0xEFCCB2, 0xEFF7AA, 0xF022A4, 0xF04DA2, 0xF078A4, 0xF0A3AA, 0xF0CEB4,
  0xF0F9C2, 0xF124D2, 0xF14FE8, 0xF17B00, 0xF1A61C, 0xF1D13C, 0xF1FC60, 0xF22788,
  0xF252B4, 0xF27DE2, 0xF2A916, 0xF2D44C, 0xF2FF86, 0xF32AC4, 0xF35606, 0xF3814C,
  0xF3AC94, 0xF3D7E2, 0xF40332, 0xF42E86, 0xF459E0, 0xF4853C, 0xF4B09A, 0xF4DBFE,
  0xF50766, 0xF532D0, 0xF55E40, 0xF589B2, 0xF5B528, 0xF5E0A2, 0xF60C20, 0xF637A2,
  0xF66328, 0xF68EB0, 0xF6BA3E, 0xF6E5CE, 0xF71164, 0xF73CFC, 0xF76898, 0xF79438,
  0xF7BFDA, 0xF7EB82, 0xF8172E, 0xF842DC, 0xF86E90, 0xF89A46, 0xF8C600, 0xF8F1BE,
  0xF91D80, 0xF94946, 0xF97510, 0xF9A0DC, 0xF9CCAE, 0xF9F882, 0xFA245C, 0xFA5038,
  0xFA7C18, 0xFAA7FC, 0xFAD3E4, 0xFAFFD0, 0xFB2BC0, 0xFB57B2, 0xFB83AA, 0xFBAFA4,
  0xFBDBA4, 0xFC07A6, 0xFC33AC, 0xFC5FB6, 0xFC8BC4, 0xFCB7D6, 0xFCE3EC, 0xFD1006,
  0xFD3C22, 0xFD6844, 0xFD9468, 0xFDC092, 0xFDECBE, 0xFE18EE, 0xFE4522, 0xFE715A,
  0xFE9D96, 0xFEC9D6, 0xFEF61A, 0xFF2262, 0xFF4EAC, 0xFF7AFC, 0xFFA74E, 0xFFD3A6
]

/-- The 24 fraction bits of the 2048 literals of `exp2_table`. -/
def exp2_table_hex : List Nat :=
  exp2_table_hex_0 ++ (exp2_table_hex_1 ++ (exp2_table_hex_2 ++ (exp2_table_hex_3 ++
  (exp2_table_hex_4 ++ (exp2_table_hex_5 ++ (exp2_table_hex_6 ++ (exp2_table_hex_7 ++
  (exp2_table_hex_8 ++ (exp2_table_hex_9 ++ (exp2_table_hex_10 ++ (exp2_table_hex_11 ++
  (exp2_table_hex_12 ++ (exp2_table_hex_13 ++ (exp2_table_hex_14 ++
  exp2_table_hex_15))))))))))))))

/-- The binary32 pattern of the literal `0x1.HHHHHHp+0f`: biased exponent 127 and the upper
23 of the 24 fraction bits written (the last one is 0 in every literal used). -/
def f32_of_hex (h : Nat) : Nat := 0x3F800000 + h / 2

/-- Table of exp2(k / 2048) values, k = 0..2047. -/
def exp2_table : List Nat := exp2_table_hex.map f32_of_hex

/-- The literal `0x1.800000p23f`. -/
def magic_bias : Nat := 0x4B400000

/-- The literal `-0x1.5D589Ep6f`. -/
def denorm_cutoff : Nat := 0xC2AEAC4F

/-- The literal `0x1.715476p11f`. -/
def log2e_x2048 : Nat := 0x4538AA3B

/-- The literal `-0x1.62e43p-12f`. -/
def minus_ln2_o2048_hi : Nat := 0xB9B17218

/-- The literal `0x1.05c61p-40f`. -/
def minus_ln2_o2048_lo : Nat := 0x2B82E308

/-- The literal `0x1.FFFFFEp-1f`. -/
def c1 : Nat := 0x3F7FFFFF

def vmagic_bias : Q32x4 := vmovq_n_f32 magic_bias

/-- The smallest x for which expf(x) is normalized. -/
def vdenorm_cutoff : Q32x4 := vmovq_n_f32 denorm_cutoff

def vlog2e_x2048 : Q32x4 := vmovq_n_f32 log2e_x2048

def vminus_ln2_o2048_hi : Q32x4 := vmovq_n_f32 minus_ln2_o2048_hi

def vminus_ln2_o2048_lo : Q32x4 := vmovq_n_f32 minus_ln2_o2048_lo

def vc1 : Q32x4 := vmovq_n_f32 c1

def vindex_mask : Q32x4 := vmovq_n_s32 0x7FF

/-- The body of the loop between the load of `vx` and the store of `vf`; `none` when a
table load is out of bounds. -/
def loopCompute (m : FPMode) (vx : Q32x4) : Option Q32x4 :=
  let vn := vfmaq_f32 m vmagic_bias vx vlog2e_x2048
  let ve := vshlq_n_s32 (vbicq_s32 (vreinterpretq_s32_f32 vn) (vmovq_n_s32 0x7FF)) 12
  let vidx := vreinterpretq_u64_s32 (vandq_s32 (vreinterpretq_s32_f32 vn) vindex_mask)
  let vidx01 := vgetq_lane_u64 vidx 0
  let vidx23 := vgetq_lane_u64 vidx 1
  match vld1_dup_f32 exp2_table (uint32_t vidx01), vld1_dup_f32 exp2_table (uint32_t vidx23) with
  | some vl01, some vl23 =>
    match vld1_lane_f32 exp2_table (uint32_t (vidx01 >>> 32)) vl01 1,
          vld1_lane_f32 exp2_table (uint32_t (vidx23 >>> 32)) vl23 1 with
    | some vl01, some vl23 =>
      let vl := vcombine_f32 vl01 vl23
      let vs := vreinterpretq_f32_s32 (vaddq_s32 (vreinterpretq_s32_f32 vl) ve)
      let vn := vsubq_f32 m vn vmagic_bias
      let vt := vfmaq_f32 m vx vn vminus_ln2_o2048_hi
      let vt := vfmaq_f32 m vt vn vminus_ln2_o2048_lo
      let vp := vmulq_f32 m vt vc1
      let vf := vfmaq_f32 m vs vs vp
      let vf := vreinterpretq_f32_u32
        (vbicq_u32 (vreinterpretq_u32_f32 vf) (vcltq_f32 m vx vdenorm_cutoff))
      some vf
    | _, _ => none
  | _, _ => none

/-- Why a call did not return. -/
inductive Fault where
  /-- The `assert` on `n` failed. -/
  | assertion
  /-- A load or a store left its buffer. -/
  | bounds
  /-- The loop had not ended when the step budget of the model ran out. -/
  | fuel
deriving DecidableEq

/-- How a call ends: it returns, or it stops with a fault. -/
inductive Outcome (α : Type) where
  | ok : α → Outcome α
  | fault : Fault → Outcome α
deriving DecidableEq

/-- The variables of the loop: what is left of `n` (a `size_t`), the two cursors as element
offsets into their buffers, and the contents of the output buffer. -/
structure LoopState where
  n : Nat
  input : Nat
  output : Nat
  mem : List Nat
deriving DecidableEq

/-- `sizeof(float)`. -/
def sizeof_float : Nat := 4

/-- One iteration: load `vx`, advance `input`, compute, store `vf`, advance `output`,
then `n -= 4 * sizeof(float)` in `size_t`. -/
def loopBody (m : FPMode) (inbuf : List Nat) (s : LoopState) : Outcome LoopState :=
  match vld1q_f32 inbuf s.input with
  | none => .fault .bounds
  | some vx =>
    match loopCompute m vx with
    | none => .fault .bounds
    | some vf =>
      match vst1q_f32 s.mem s.output vf with
      | none => .fault .bounds
      | some mem =>
        .ok ⟨(s.n + 2 ^ 64 - 4 * sizeof_float) % 2 ^ 64, s.input + 4, s.output + 4, mem⟩

/-- The loop `for (; n != 0; n -= 4 * sizeof(float))`, run for at most `fuel` iterations. -/
def loop (m : FPMode) (inbuf : List Nat) : Nat → LoopState → Outcome LoopState
  | 0, s => if s.n = 0 then .ok s else .fault .fuel
  | fuel + 1, s =>
    if s.n = 0 then .ok s
    else
      match loopBody m inbuf s with
      | .ok s1 => loop m inbuf fuel s1
      | .fault e => .fault e

/-- The entry point: the assertion, then the loop from the start of both buffers. The
result is the final state of the loop. -/
def xnn_math_f32_expminus__neonfma_lut2048_p1 (m : FPMode) (fuel : Nat)
    (n : Nat) (input : List Nat) (output : List Nat) : Outcome LoopState :=
  if n % (4 * sizeof_float) = 0 then loop m input fuel ⟨n, 0, 0, output⟩
  else .fault .assertion

/-! ## Calls -/

/-- A call within the contract of the code: `n` is a `size_t` and a multiple of
`4 * sizeof(float)`, each buffer holds at least `n / sizeof(float)` elements, and the
model is given at least `n / 16` iterations. -/
def ValidCall (fuel n : Nat) (input output : List Nat) : Prop :=
  n < 2 ^ 64 ∧ n % 16 = 0 ∧ n / 16 ≤ fuel ∧ n / 4 ≤ input.length ∧ n / 4 ≤ output.length

instance (fuel n : Nat) (input output : List Nat) : Decidable (ValidCall fuel n input output) := by
  unfold ValidCall; infer_instance

/-! ## One lane

The same computation for a single element, stage by stage: what the vector code does in
each lane. -/

/-- The reduced argument before the bias is taken off: `magic_bias + x * log2e_x2048`. -/
def lane_vn (m : FPMode) (x : Nat) : Nat := fpMulAdd m magic_bias x log2e_x2048

/-- Bits 11.. of `vn` moved to bits 23.. (`vbicq_s32`, `vshlq_n_s32`). -/
def lane_ve (vn : Nat) : Nat := (vn &&& (0xFFFFFFFF ^^^ 0x7FF)) <<< 12 % 2 ^ 32

/-- Bits 0..10 of `vn`. -/
def lane_idx (vn : Nat) : Nat := vn &&& 0x7FF

/-- The table entry of the lane; 0 stands for an entry outside the table. -/
def lane_l (vn : Nat) : Nat := exp2_table.getD (lane_idx vn) 0

/-- The scale: the table entry with `ve` added to its bits. -/
def lane_s (vn : Nat) : Nat := (lane_l vn + lane_ve vn) % 2 ^ 32

/-- The reduced argument, `vn - magic_bias`. -/
def lane_n (m : FPMode) (vn : Nat) : Nat := fpSub m vn magic_bias

/-- The first Cody-Waite step. -/
def lane_t_hi (m : FPMode) (x n : Nat) : Nat := fpMulAdd m x n minus_ln2_o2048_hi

/-- The residual after both Cody-Waite steps. -/
def lane_t (m : FPMode) (x n : Nat) : Nat :=
  fpMulAdd m (lane_t_hi m x n) n minus_ln2_o2048_lo

/-- The polynomial term `t * c1`. -/
def lane_p (m : FPMode) (t : Nat) : Nat := fpMul m t c1

/-- The value before the clamp, `s + s * p`. -/
def lane_f (m : FPMode) (x : Nat) : Nat :=
  fpMulAdd m (lane_s (lane_vn m x)) (lane_s (lane_vn m x))
    (lane_p m (lane_t m x (lane_n m (lane_vn m x))))

/-- The clamp mask of the lane: all ones when `x < denorm_cutoff`. -/
def lane_mask (m : FPMode) (x : Nat) : Nat :=
  if fpCompareGT m denorm_cutoff x then 0xFFFFFFFF else 0

/-- The output of one lane. -/
def expminus_lane (m : FPMode) (x : Nat) : Nat :=
  lane_f m x &&& (0xFFFFFFFF ^^^ lane_mask m x)

/-! ## Reading patterns as numbers -/

/-- The IEEE reading of the arithmetic: NaNs propagate, denormals are kept. -/
def ieee : FPMode := ⟨false, false⟩

/-- The value of a finite pattern as a rational number. -/
def toRat (b : Nat) : ℚ := (val149 ieee b : ℚ) / 2 ^ 149

/-- The pattern is a finite number. -/
def isFinite (b : Nat) : Bool := decide (absBits b < 0x7F800000)

/-- IEEE `a < b` on patterns: false when one of them is a NaN. -/
def f32Lt (a b : Nat) : Prop :=
  isNaN a = false ∧ isNaN b = false ∧ ordVal ieee a < ordVal ieee b

/-- IEEE `a ≤ b` on patterns: false when one of them is a NaN. -/
def f32Le (a b : Nat) : Prop :=
  isNaN a = false ∧ isNaN b = false ∧ ordVal ieee a ≤ ordVal ieee b

instance (a b : Nat) : Decidable (f32Lt a b) := by unfold f32Lt; infer_instance

instance (a b : Nat) : Decidable (f32Le a b) := by unfold f32Le; infer_instance

/-! ## Table checks -/

/-- The 24-bit significand of a pattern, the hidden bit included. -/
def significand (b : Nat) : Nat := 2 ^ 23 + fracField b

/-- Entry `k` with significand `s` is within half a unit in the last place of
`2 ^ (k / 2048)`: `((2 s - 1) / 2 ^ 24) ^ 2048 ≤ 2 ^ k ≤ ((2 s + 1) / 2 ^ 24) ^ 2048`,
with the denominators cleared. -/
def nearestAt (k b : Nat) : Bool :=
  decide ((2 * significand b - 1) ^ 2048 ≤ 2 ^ (k + 24 * 2048)) &&
  decide (2 ^ (k + 24 * 2048) ≤ (2 * significand b + 1) ^ 2048)

/-- Check `nearestAt` along a list whose first element has index `k`. -/
def nearestFrom : Nat → List Nat → Bool
  | _, [] => true
  | k, b :: bs => nearestAt k b && nearestFrom (k + 1) bs

/-- The pattern lies in the binade of 1.0: sign 0, biased exponent 127. -/
def inUnitBinade (b : Nat) : Bool := decide (0x3F800000 ≤ b) && decide (b < 0x40000000)

/-- Each element of the list is below the next one. -/
def strictlyIncreasing : List Nat → Bool
  | [] => true
  | [_] => true
  | a :: b :: rest => decide (a < b) && strictlyIncreasing (b :: rest)

/-- A pattern as a signed integer that orders the non-NaN patterns like their values:
the magnitude bits with the sign applied. Both zeros have key 0. -/
def ordKey (b : Nat) : Int := if signBit b = 1 then -(absBits b : Int) else (absBits b : Int)

/-- Rounding of the exact value `v * 2 ^ -298` as a key: odd, with `roundMag` on the
magnitude. -/
def rndKey (fz : Bool) (v : Int) : Int :=
  if v < 0 then -(roundMag fz v.natAbs : Int) else (roundMag fz v.natAbs : Int)

/-- The exact value of `addend + op1 * op2` in units of `2 ^ -298`. -/
def exactMulAdd (m : FPMode) (addend op1 op2 : Nat) : Int :=
  val149 m addend * ((2 ^ 149 : Nat) : Int) + val149 m op1 * val149 m op2

/-- The exact value of `op1 * op2` in units of `2 ^ -298`. -/
def exactMul (m : FPMode) (op1 op2 : Nat) : Int := val149 m op1 * val149 m op2

/-- The exact value of `op1 - op2` in units of `2 ^ -298`. -/
def exactSub (m : FPMode) (op1 op2 : Nat) : Int :=
  (val149 m op1 - val149 m op2) * ((2 ^ 149 : Nat) : Int)

/-- The value, in units of `2 ^ -149`, of the finite pattern with key `k`. -/
def keyVal (m : FPMode) (k : Int) : Int :=
  if k < 0 then -(mag149 m k.natAbs : Int) else (mag149 m k.natAbs : Int)

/-- The normal domain of the kernel: `-0x1.5D589Ep6 ≤ x ≤ 0`. -/
def inDomain (x : Nat) : Prop := f32Le denorm_cutoff x ∧ f32Le x 0

instance (x : Nat) : Decidable (inDomain x) := by unfold inDomain; infer_instance

/-- The reduced argument as an integer: `vn` is `magic_bias + N` in the binade where the
patterns step by one. -/
def lane_N (m : FPMode) (x : Nat) : Int := (lane_vn m x : Int) - 0x4B400000

/-! ## The iterations of the loop -/

/-- The loop `for (; n != 0; n -= 4 * sizeof(float))` with a record of its iterations: the
states in which the condition `n != 0` is evaluated, in order. The body runs once from
each of them but the last one, at which the loop exits, faults, or the budget ends. -/
def loopHeads (m : FPMode) (inbuf : List Nat) : Nat → LoopState → List LoopState
  | 0, s => [s]
  | fuel + 1, s =>
    if s.n = 0 then [s]
    else
      match loopBody m inbuf s with
      | .ok s1 => s :: loopHeads m inbuf fuel s1
      | .fault _ => [s]

/-- The element offsets that `vld1q_f32` and `vst1q_f32` access at the cursor `p`, in
order. -/
def quadAt (p : Nat) : List Nat := [p, p + 1, p + 2, p + 3]

/-! ## The range of the magic bias -/

/-- The bound `0x1.62E43p+10f` of the comment on the magic bias: the trick with the large
number is valid for `|x| ≤ 0x1.62E43p+10 = 1419.5654296875`. -/
def magic_bias_bound : Nat := 0x44B17218

/-- `|x| ≤ 0x1.62E43p+10`. -/
def inBiasRange (x : Nat) : Prop :=
  f32Le (magic_bias_bound + 2 ^ 31) x ∧ f32Le x magic_bias_bound

instance (x : Nat) : Decidable (inBiasRange x) := by unfold inBiasRange; infer_instance

/-! ## The accesses of the loop to its two buffers -/

/-- One access to a buffer of the call: a load of an element of `input`, or a store to an
element of `output`, by element offset. -/
inductive Access where
  | load : Nat → Access
  | store : Nat → Access
deriving DecidableEq

def Access.isLoad : Access → Bool
  | .load _ => true
  | .store _ => false

def Access.isStore : Access → Bool
  | .load _ => false
  | .store _ => true

/-- The intrinsic `vld1q_f32` with the record of the elements it loads: the four elements
that `vld1q_f32` gets, in its order. -/
def vld1q_f32_rec (buf : List Nat) (p : Nat) : Option Q32x4 × List Access :=
  (vld1q_f32 buf p, [.load p, .load (p + 1), .load (p + 2), .load (p + 3)])

/-- The intrinsic `vst1q_f32` with the record of the elements it stores: the four elements
that `vst1q_f32` sets, in its order. -/
def vst1q_f32_rec (buf : List Nat) (p : Nat) (v : Q32x4) : Option (List Nat) × List Access :=
  (vst1q_f32 buf p v, [.store p, .store (p + 1), .store (p + 2), .store (p + 3)])

/-- The body of the loop, as `loopBody`, with the record of its accesses: the load of `vx`
and, when the body gets there, the store of `vf`. -/
def loopBodyRec (m : FPMode) (inbuf : List Nat) (s : LoopState) :
    Outcome LoopState × List Access :=
  match vld1q_f32_rec inbuf s.input with
  | (none, a) => (.fault .bounds, a)
  | (some vx, a) =>
    match loopCompute m vx with
    | none => (.fault .bounds, a)
    | some vf =>
      match vst1q_f32_rec s.mem s.output vf with
      | (none, b) => (.fault .bounds, a ++ b)
      | (some mem, b) =>
        (.ok ⟨(s.n + 2 ^ 64 - 4 * sizeof_float) % 2 ^ 64, s.input + 4, s.output + 4, mem⟩,
          a ++ b)

/-- The loop, as `loop`, with the record of the accesses of all its iterations, in the
order in which they are made. -/
def loopRec (m : FPMode) (inbuf : List Nat) : Nat → LoopState → Outcome LoopState × List Access
  | 0, s => (if s.n = 0 then .ok s else .fault .fuel, [])
  | fuel + 1, s =>
    if s.n = 0 then (.ok s, [])
    else
      match loopBodyRec m inbuf s with
      | (.ok s1, a) => ((loopRec m inbuf fuel s1).1, a ++ (loopRec m inbuf fuel s1).2)
      | (.fault e, a) => (.fault e, a)

/-! ## Bit-level facts -/

theorem and_7FF (a : Nat) : a &&& 0x7FF = a % 2048 :=
  Nat.and_pow_two_sub_one_eq_mod a 11

theorem and_all_ones (a : Nat) : a &&& 0xFFFFFFFF = a % 2 ^ 32 :=
  Nat.and_pow_two_sub_one_eq_mod a 32

theorem lane_idx_eq (vn : Nat) : lane_idx vn = vn % 2048 := and_7FF vn

theorem lane_idx_lt (vn : Nat) : lane_idx vn < 2048 := by
  rw [lane_idx_eq]; omega

theorem exp2_table_length : exp2_table.length = 2048 := by decide!

theorem exp2_table_get? (i : Nat) (h : i < 2048) :
    exp2_table.get? i = some (exp2_table.getD i 0) := by
  have hi : i < exp2_table.length := by rw [exp2_table_length]; exact h
  rw [List.getD_eq_getElem?_getD, List.get?_eq_getElem?, List.getElem?_eq_getElem hi]
  rfl

/-- Clearing with an all-ones mask leaves nothing. -/
theorem bic_ones (f : Nat) : f &&& (0xFFFFFFFF ^^^ 0xFFFFFFFF) = 0 := by
  rw [Nat.xor_self, Nat.and_zero]

/-- Clearing with an empty mask keeps the 32 bits. -/
theorem bic_zero (f : Nat) : f &&& (0xFFFFFFFF ^^^ 0) = f % 2 ^ 32 := by
  rw [Nat.xor_zero]; exact and_all_ones f

/-! ## The vector code, lane by lane -/

theorem packed_lo (a b : Nat) (ha : a < 2048) : uint32_t (a + b * 2 ^ 32) = a := by
  unfold uint32_t; omega

theorem packed_hi (a b : Nat) (ha : a < 2048) (hb : b < 2048) :
    uint32_t ((a + b * 2 ^ 32) >>> 32) = b := by
  unfold uint32_t; rw [Nat.shiftRight_eq_div_pow]; omega

theorem lane_vn_fold (m : FPMode) (x : Nat) :
    fpMulAdd m magic_bias x log2e_x2048 = lane_vn m x := rfl

theorem lane_idx_fold (vn : Nat) : vn &&& 2047 = lane_idx vn := rfl

/-- The loop body computes `expminus_lane` in each of its four lanes, and its table loads
never leave the table. -/
theorem loopCompute_eq (m : FPMode) (vx : Q32x4) :
    loopCompute m vx = some (Q32x4.map (expminus_lane m) vx) := by
  obtain ⟨x0, x1, x2, x3⟩ := vx
  have h0 := lane_idx_lt (lane_vn m x0)
  have h1 := lane_idx_lt (lane_vn m x1)
  have h2 := lane_idx_lt (lane_vn m x2)
  have h3 := lane_idx_lt (lane_vn m x3)
  simp only [loopCompute, vfmaq_f32, vmagic_bias, vlog2e_x2048, vmovq_n_f32, vmovq_n_s32,
    Q32x4.map3, Q32x4.map2, Q32x4.map, vreinterpretq_s32_f32, vandq_s32, vindex_mask,
    vreinterpretq_u64_s32, vgetq_lane_u64, if_true, if_false, one_ne_zero,
    vld1_dup_f32, vld1_lane_f32, lane_vn_fold, lane_idx_fold]
  rw [packed_lo _ _ h0, packed_lo _ _ h2, packed_hi _ _ h0 h1, packed_hi _ _ h2 h3,
    exp2_table_get? _ h0, exp2_table_get? _ h1, exp2_table_get? _ h2, exp2_table_get? _ h3]
  simp only [vcombine_f32, vreinterpretq_f32_s32, vreinterpretq_s32_f32, vaddq_s32, vshlq_n_s32,
    vbicq_s32, vbicq_u32, vsubq_f32, vfmaq_f32, vmulq_f32, vcltq_f32, vreinterpretq_f32_u32,
    vreinterpretq_u32_f32, vmagic_bias, vminus_ln2_o2048_hi, vminus_ln2_o2048_lo, vc1,
    vdenorm_cutoff, vmovq_n_f32, vmovq_n_s32, Q32x4.map3, Q32x4.map2, Q32x4.map,
    if_false, one_ne_zero]
  rfl

theorem loopCompute_lane (m : FPMode) (vx : Q32x4) (j : Fin 4) :
    ∃ vf, loopCompute m vx = some vf ∧ vf.lane j = expminus_lane m (vx.lane j) := by
  refine ⟨_, loopCompute_eq m vx, ?_⟩
  obtain ⟨x0, x1, x2, x3⟩ := vx
  fin_cases j <;> rfl

/-! ## Values in the two denormal modes -/

theorem mag149_of_normal (m : FPMode) (b : Nat) (h : 2 ^ 23 ≤ absBits b) :
    mag149 m b = (2 ^ 23 + absBits b % 2 ^ 23) * 2 ^ (absBits b / 2 ^ 23 - 1) := by
  unfold mag149; rw [if_neg (by omega)]

theorem mag149_of_denormal (m : FPMode) (b : Nat) (h : absBits b < 2 ^ 23) :
    mag149 m b = if m.fz then 0 else absBits b := by
  unfold mag149; rw [if_pos h]

theorem mag149_eq_ieee (m : FPMode) (b : Nat) (h : 2 ^ 23 ≤ absBits b) :
    mag149 m b = mag149 ieee b := by
  rw [mag149_of_normal m b h, mag149_of_normal ieee b h]

theorem val149_eq_ieee (m : FPMode) (b : Nat) (h : 2 ^ 23 ≤ absBits b) :
    val149 m b = val149 ieee b := by
  unfold val149; rw [mag149_eq_ieee m b h]

theorem val149_denormal_bound (m : FPMode) (b : Nat) (h : absBits b < 2 ^ 23) :
    -(2 ^ 23 : Int) < val149 m b ∧ val149 m b < 2 ^ 23 := by
  unfold val149; rw [mag149_of_denormal m b h]
  split <;> split <;> constructor <;> omega

/-! ## The clamp -/

theorem ordVal_cutoff (m : FPMode) :
    ordVal m denorm_cutoff = -((11447375 * 2 ^ 132 : Nat) : Int) := by
  obtain ⟨dn, fz⟩ := m
  cases dn <;> cases fz <;> decide!

/-- The comparison of the code agrees with the IEEE one at the cutoff in every mode. -/
theorem compareGT_cutoff_of_lt (m : FPMode) (x : Nat) (h : f32Lt x denorm_cutoff) :
    fpCompareGT m denorm_cutoff x = true := by
  obtain ⟨hx, hc, hlt⟩ := h
  unfold fpCompareGT
  rw [hx, hc]
  simp only [Bool.or_self, Bool.false_eq_true, if_false, decide_eq_true_eq]
  rw [ordVal_cutoff] at hlt ⊢
  by_cases hn : 2 ^ 23 ≤ absBits x
  · have : ordVal m x = ordVal ieee x := by
      unfold ordVal; rw [val149_eq_ieee m x hn]
    rw [this]; exact hlt
  · have hb := val149_denormal_bound ieee x (by omega)
    have hi : isInf x = false := by
      unfold isInf; simp only [decide_eq_false_iff_not]; omega
    unfold ordVal at hlt
    rw [hi] at hlt
    simp only [Bool.false_eq_true, if_false] at hlt
    have h1 := hb.1
    norm_num at hlt h1
    omega

theorem lane_mask_of_lt (m : FPMode) (x : Nat) (h : f32Lt x denorm_cutoff) :
    lane_mask m x = 0xFFFFFFFF := by
  unfold lane_mask; rw [compareGT_cutoff_of_lt m x h]; rfl

theorem expminus_lane_of_lt (m : FPMode) (x : Nat) (h : f32Lt x denorm_cutoff) :
    expminus_lane m x = 0 := by
  unfold expminus_lane; rw [lane_mask_of_lt m x h]; exact bic_ones _

/-! ## NaN propagation -/

theorem isNaN_processNaN (m : FPMode) (b : Nat) (h : isNaN b = true) :
    isNaN (fpProcessNaN m b) = true := by
  unfold fpProcessNaN
  split
  · decide
  · unfold isNaN absBits at h ⊢
    simp only [decide_eq_true_eq] at h ⊢
    split <;> omega

theorem isNaN_of_isSNaN (b : Nat) (h : isSNaN b = true) : isNaN b = true := by
  unfold isSNaN at h
  simp only [Bool.and_eq_true] at h
  exact h.1

theorem isNaN_defaultNaN : isNaN fpDefaultNaN = true := by decide

/-- What `FPProcessNaNs3` returns is a NaN. -/
theorem isNaN_processNaNs3 (m : FPMode) (a b c r : Nat)
    (h : fpProcessNaNs3 m a b c = some r) : isNaN r = true := by
  unfold fpProcessNaNs3 at h
  split at h
  · cases h; exact isNaN_processNaN m a (isNaN_of_isSNaN a ‹_›)
  split at h
  · cases h; exact isNaN_processNaN m b (isNaN_of_isSNaN b ‹_›)
  split at h
  · cases h; exact isNaN_processNaN m c (isNaN_of_isSNaN c ‹_›)
  split at h
  · cases h; exact isNaN_processNaN m a ‹_›
  split at h
  · cases h; exact isNaN_processNaN m b ‹_›
  split at h
  · cases h; exact isNaN_processNaN m c ‹_›
  · cases h

/-- `FPProcessNaNs3` returns something as soon as an operand is a NaN. -/
theorem processNaNs3_isSome (m : FPMode) (a b c : Nat)
    (h : isNaN a = true ∨ isNaN b = true ∨ isNaN c = true) :
    ∃ r, fpProcessNaNs3 m a b c = some r := by
  unfold fpProcessNaNs3
  repeat' split
  all_goals first
    | exact ⟨_, rfl⟩
    | (exfalso; rcases h with h | h | h <;> simp_all)

theorem isNaN_processNaNs (m : FPMode) (a b r : Nat)
    (h : fpProcessNaNs m a b = some r) : isNaN r = true := by
  unfold fpProcessNaNs at h
  split at h
  · cases h; exact isNaN_processNaN m a (isNaN_of_isSNaN a ‹_›)
  split at h
  · cases h; exact isNaN_processNaN m b (isNaN_of_isSNaN b ‹_›)
  split at h
  · cases h; exact isNaN_processNaN m a ‹_›
  split at h
  · cases h; exact isNaN_processNaN m b ‹_›
  · cases h

theorem processNaNs_isSome (m : FPMode) (a b : Nat)
    (h : isNaN a = true ∨ isNaN b = true) :
    ∃ r, fpProcessNaNs m a b = some r := by
  unfold fpProcessNaNs
  repeat' split
  all_goals first
    | exact ⟨_, rfl⟩
    | (exfalso; rcases h with h | h <;> simp_all)

/-- A fused multiply-add with a NaN operand gives a NaN. -/
theorem isNaN_fpMulAdd (m : FPMode) (a b c : Nat)
    (h : isNaN a = true ∨ isNaN b = true ∨ isNaN c = true) :
    isNaN (fpMulAdd m a b c) = true := by
  obtain ⟨r, hr⟩ := processNaNs3_isSome m a b c h
  unfold fpMulAdd
  simp only [hr]
  split
  · exact isNaN_defaultNaN
  · exact isNaN_processNaNs3 m a b c r hr

theorem isNaN_fpMul (m : FPMode) (a b : Nat) (h : isNaN a = true ∨ isNaN b = true) :
    isNaN (fpMul m a b) = true := by
  obtain ⟨r, hr⟩ := processNaNs_isSome m a b h
  unfold fpMul
  simp only [hr]
  exact isNaN_processNaNs m a b r hr

theorem isNaN_fpSub (m : FPMode) (a b : Nat) (h : isNaN a = true ∨ isNaN b = true) :
    isNaN (fpSub m a b) = true := by
  obtain ⟨r, hr⟩ := processNaNs_isSome m a b h
  unfold fpSub
  simp only [hr]
  exact isNaN_processNaNs m a b r hr

theorem isNaN_mod (f : Nat) : isNaN (f % 2 ^ 32) = isNaN f := by
  unfold isNaN absBits
  congr 2
  omega

theorem lane_mask_of_isNaN (m : FPMode) (x : Nat) (h : isNaN x = true) : lane_mask m x = 0 := by
  unfold lane_mask fpCompareGT
  rw [h]
  simp

theorem isNaN_lane_f (m : FPMode) (x : Nat) (h : isNaN x = true) :
    isNaN (lane_f m x) = true := by
  have hvn : isNaN (lane_vn m x) = true := isNaN_fpMulAdd m _ _ _ (Or.inr (Or.inl h))
  have hn : isNaN (lane_n m (lane_vn m x)) = true := isNaN_fpSub m _ _ (Or.inl hvn)
  have ht : isNaN (lane_t m x (lane_n m (lane_vn m x))) = true :=
    isNaN_fpMulAdd m _ _ _ (Or.inr (Or.inl hn))
  have hp : isNaN (lane_p m (lane_t m x (lane_n m (lane_vn m x)))) = true :=
    isNaN_fpMul m _ _ (Or.inl ht)
  exact isNaN_fpMulAdd m _ _ _ (Or.inr (Or.inr hp))

theorem isNaN_expminus_lane (m : FPMode) (x : Nat) (h : isNaN x = true) :
    isNaN (expminus_lane m x) = true := by
  unfold expminus_lane
  rw [lane_mask_of_isNaN m x h, bic_zero, isNaN_mod]
  exact isNaN_lane_f m x h

/-! ## The loop -/

theorem vld1q_f32_eq (buf : List Nat) (p : Nat) (h : p + 4 ≤ buf.length) :
    vld1q_f32 buf p =
      some ⟨buf.getD p 0, buf.getD (p + 1) 0, buf.getD (p + 2) 0, buf.getD (p + 3) 0⟩ := by
  unfold vld1q_f32
  have e : ∀ i, i < buf.length → buf.get? i = some (buf.getD i 0) := by
    intro i hi
    rw [List.getD_eq_getElem?_getD, List.get?_eq_getElem?, List.getElem?_eq_getElem hi]
    rfl
  rw [e p (by omega), e (p + 1) (by omega), e (p + 2) (by omega), e (p + 3) (by omega)]

theorem vst1q_f32_eq (buf : List Nat) (p : Nat) (v : Q32x4) (h : p + 4 ≤ buf.length) :
    ∃ out, vst1q_f32 buf p v = some out ∧ out.length = buf.length ∧
      ∀ i, out.getD i 0 =
        if i = p then v.l0 else if i = p + 1 then v.l1 else if i = p + 2 then v.l2
        else if i = p + 3 then v.l3 else buf.getD i 0 := by
  refine ⟨_, by unfold vst1q_f32; rw [if_pos h], by simp, ?_⟩
  intro i
  simp only [List.getD_eq_getElem?_getD, List.getElem?_set, List.length_set]
  by_cases h3 : i = p + 3
  · subst h3
    have : p + 3 < buf.length := by omega
    simp [this]
  by_cases h2 : i = p + 2
  · subst h2
    have : p + 2 < buf.length := by omega
    simp [this]
  by_cases h1 : i = p + 1
  · subst h1
    have : p + 1 < buf.length := by omega
    simp [this]
  by_cases h0 : i = p
  · subst h0
    have : i < buf.length := by omega
    simp [this]
  · have e3 : ¬ p + 3 = i := fun e => h3 e.symm
    have e2 : ¬ p + 2 = i := fun e => h2 e.symm
    have e1 : ¬ p + 1 = i := fun e => h1 e.symm
    have e0 : ¬ p = i := fun e => h0 e.symm
    simp [h3, h2, h1, h0, e3, e2, e1, e0]

/-- The loop from a state with `16 * k` bytes left: it ends after `k` iterations, both
cursors have moved by `4 * k` elements, those elements of the output hold the lane
function of the same elements of the input, and the rest of the output is untouched. -/
theorem loop_spec (m : FPMode) (inbuf : List Nat) (k : Nat) :
    ∀ (fuel p q : Nat) (mem : List Nat), k ≤ fuel → 16 * k < 2 ^ 64 →
      p + 4 * k ≤ inbuf.length → q + 4 * k ≤ mem.length →
      ∃ out, loop m inbuf fuel ⟨16 * k, p, q, mem⟩ = .ok ⟨0, p + 4 * k, q + 4 * k, out⟩ ∧
        out.length = mem.length ∧
        ∀ i, out.getD i 0 =
          if q ≤ i ∧ i < q + 4 * k then expminus_lane m (inbuf.getD (p + (i - q)) 0)
          else mem.getD i 0 := by
  induction k with
  | zero =>
    intro fuel p q mem _ _ _ _
    refine ⟨mem, ?_, rfl, ?_⟩
    · cases fuel <;> simp [loop]
    · intro i
      rw [if_neg (by omega)]
  | succ k ih =>
    intro fuel p q mem hf hk hp hq
    obtain ⟨fuel, rfl⟩ : ∃ f, fuel = f + 1 := ⟨fuel - 1, by omega⟩
    obtain ⟨mem1, hst, hlen1, hget1⟩ := vst1q_f32_eq mem q
      (Q32x4.map (expminus_lane m)
        ⟨inbuf.getD p 0, inbuf.getD (p + 1) 0, inbuf.getD (p + 2) 0, inbuf.getD (p + 3) 0⟩)
      (by omega)
    obtain ⟨out, hrun, hlen, hget⟩ := ih fuel (p + 4) (q + 4) mem1 (by omega) (by omega)
      (by omega) (by omega)
    refine ⟨out, ?_, by omega, ?_⟩
    · have hne : ¬ 16 * (k + 1) = 0 := by omega
      have hstep : (16 * (k + 1) + 2 ^ 64 - 4 * sizeof_float) % 2 ^ 64 = 16 * k := by
        unfold sizeof_float; omega
      simp only [loop, hne, if_false, loopBody, vld1q_f32_eq inbuf p (by omega), loopCompute_eq,
        hst, hstep]
      rw [hrun, show p + 4 + 4 * k = p + 4 * (k + 1) by omega,
        show q + 4 + 4 * k = q + 4 * (k + 1) by omega]
    · intro i
      rw [hget i]
      by_cases h1 : q + 4 ≤ i ∧ i < q + 4 + 4 * k
      · rw [if_pos h1, if_pos (by omega)]
        congr 2; omega
      · rw [if_neg h1, hget1 i]
        simp only [Q32x4.map]
        by_cases e0 : i = q
        · subst e0; rw [if_pos rfl, if_pos (by omega)]; simp
        by_cases e1 : i = q + 1
        · subst e1; rw [if_neg (by omega), if_pos rfl, if_pos (by omega)]; simp
        by_cases e2 : i = q + 2
        · subst e2; rw [if_neg (by omega), if_neg (by omega), if_pos rfl, if_pos (by omega)]; simp
        by_cases e3 : i = q + 3
        · subst e3
          rw [if_neg (by omega), if_neg (by omega), if_neg (by omega), if_pos rfl,
            if_pos (by omega)]
          simp
        · rw [if_neg e0, if_neg e1, if_neg e2, if_neg e3, if_neg (by omega)]

/-- A call within the contract returns; it has consumed and produced `n / 4` elements,
each output element is the lane function of the input element at the same position, and
the output buffer is unchanged beyond them. -/
theorem kernel_spec (m : FPMode) (fuel n : Nat) (input output : List Nat)
    (h : ValidCall fuel n input output) :
    ∃ out, xnn_math_f32_expminus__neonfma_lut2048_p1 m fuel n input output
        = .ok ⟨0, n / 4, n / 4, out⟩ ∧
      out.length = output.length ∧
      ∀ i, out.getD i 0 =
        if i < n / 4 then expminus_lane m (input.getD i 0) else output.getD i 0 := by
  obtain ⟨hn, hmod, hfuel, hin, hout⟩ := h
  obtain ⟨out, hrun, hlen, hget⟩ := loop_spec m input (n / 16) fuel 0 0 output hfuel
    (by omega) (by omega) (by omega)
  refine ⟨out, ?_, hlen, ?_⟩
  · unfold xnn_math_f32_expminus__neonfma_lut2048_p1
    rw [if_pos (by unfold sizeof_float; omega)]
    have e : 16 * (n / 16) = n := by omega
    rw [e] at hrun
    rw [hrun, show 0 + 4 * (n / 16) = n / 4 by omega]
  · intro i
    rw [hget i]
    by_cases hi : i < n / 4
    · rw [if_pos hi, if_pos (by omega)]; simp
    · rw [if_neg hi, if_neg (by omega)]

/-! ## The table -/

theorem getD_mem_of_lt (l : List Nat) (i : Nat) (h : i < l.length) : l.getD i 0 ∈ l := by
  rw [List.getD_eq_getElem?_getD, List.getElem?_eq_getElem h]
  exact List.getElem_mem h

theorem nearestFrom_getD (l : List Nat) :
    ∀ k, nearestFrom k l = true → ∀ i, i < l.length → nearestAt (k + i) (l.getD i 0) = true := by
  induction l with
  | nil => intro k _ i hi; simp at hi
  | cons b bs ih =>
    intro k h i hi
    simp only [nearestFrom, Bool.and_eq_true] at h
    cases i with
    | zero => simpa using h.1
    | succ i =>
      have := ih (k + 1) h.2 i (by simpa using hi)
      simpa [Nat.add_assoc, Nat.add_comm 1 i] using this

theorem strictlyIncreasing_step (l : List Nat) :
    strictlyIncreasing l = true → ∀ i, i + 1 < l.length → l.getD i 0 < l.getD (i + 1) 0 := by
  induction l with
  | nil => intro _ i hi; simp at hi
  | cons a as ih =>
    intro h i hi
    cases as with
    | nil => simp at hi
    | cons b rest =>
      simp only [strictlyIncreasing, Bool.and_eq_true, decide_eq_true_eq] at h
      cases i with
      | zero => simpa using h.1
      | succ i =>
        have := ih h.2 i (by simpa using hi)
        simpa using this

theorem strictlyIncreasing_getD (l : List Nat) (h : strictlyIncreasing l = true)
    (i j : Nat) (hij : i < j) (hj : j < l.length) : l.getD i 0 < l.getD j 0 := by
  induction j with
  | zero => omega
  | succ j ih =>
    have hs := strictlyIncreasing_step l h j hj
    by_cases e : i = j
    · subst e; exact hs
    · exact Nat.lt_trans (ih (by omega) (by omega)) hs

theorem exp2_table_nearest : nearestFrom 0 exp2_table = true := by decide!

theorem exp2_table_unit : exp2_table.all inUnitBinade = true := by decide!

theorem exp2_table_increasing : strictlyIncreasing exp2_table = true := by decide!

theorem exp2_table_hex_even : exp2_table_hex.all (fun h => decide (h % 2 = 0 ∧ h < 2 ^ 24)) = true := by
  decide!

theorem exp2_table_bounds (k : Nat) (hk : k < 2048) :
    0x3F800000 ≤ exp2_table.getD k 0 ∧ exp2_table.getD k 0 < 0x40000000 := by
  have hmem := getD_mem_of_lt exp2_table k (by rw [exp2_table_length]; exact hk)
  have := List.all_eq_true.mp exp2_table_unit _ hmem
  simpa [inUnitBinade] using this

/-- The value of a pattern in the binade of 1.0 is its significand over `2 ^ 23`. -/
theorem val149_unit (m : FPMode) (b : Nat) (h1 : 0x3F800000 ≤ b) (h2 : b < 0x40000000) :
    val149 m b = ((significand b * 2 ^ 126 : Nat) : Int) := by
  have hs : signBit b = 0 := by unfold signBit; omega
  have ha : absBits b = b := by unfold absBits; omega
  have he : b / 2 ^ 23 = 127 := by omega
  unfold val149
  rw [hs, if_neg (by decide), mag149_of_normal m b (by rw [ha]; omega), ha, he]
  rfl

theorem significand_unit (b : Nat) (h1 : 0x3F800000 ≤ b) (h2 : b < 0x40000000) :
    significand b = b - 0x3F000000 := by
  unfold significand fracField; omega

theorem toRat_unit (b : Nat) (h1 : 0x3F800000 ≤ b) (h2 : b < 0x40000000) :
    toRat b = (significand b : ℚ) / 2 ^ 23 := by
  unfold toRat
  rw [val149_unit ieee b h1 h2]
  push_cast
  rw [div_eq_div_iff (by positivity) (by positivity)]
  norm_num
  ring

theorem exp2_table_nearestAt (k : Nat) (hk : k < 2048) :
    (2 * significand (exp2_table.getD k 0) - 1) ^ 2048 ≤ 2 ^ (k + 24 * 2048) ∧
    2 ^ (k + 24 * 2048) ≤ (2 * significand (exp2_table.getD k 0) + 1) ^ 2048 := by
  have h := nearestFrom_getD exp2_table 0 exp2_table_nearest k
    (by rw [exp2_table_length]; exact hk)
  rw [Nat.zero_add] at h
  simpa [nearestAt] using h

theorem significand_bounds (b : Nat) : 2 ^ 23 ≤ significand b ∧ significand b < 2 ^ 24 := by
  unfold significand fracField; omega

/-- Taking the `n`-th root of an enclosure of `2 ^ k` between two `n`-th powers. -/
theorem root_enclosure (n k s : ℕ) (hn : n ≠ 0) (hs : 1 ≤ s)
    (hlo : (2 * s - 1) ^ n ≤ 2 ^ (k + 24 * n)) (hhi : 2 ^ (k + 24 * n) ≤ (2 * s + 1) ^ n) :
    (2 * (s : ℝ) - 1) / 2 ^ 24 ≤ (2 : ℝ) ^ ((k : ℝ) / (n : ℝ)) ∧
    (2 : ℝ) ^ ((k : ℝ) / (n : ℝ)) ≤ (2 * (s : ℝ) + 1) / 2 ^ 24 := by
  have hn0 : (n : ℝ) ≠ 0 := Nat.cast_ne_zero.mpr hn
  have hr0 : (0 : ℝ) ≤ (2 : ℝ) ^ ((k : ℝ) / (n : ℝ)) := Real.rpow_nonneg (by norm_num) _
  have hrk : ((2 : ℝ) ^ ((k : ℝ) / (n : ℝ))) ^ n = 2 ^ k := by
    rw [← Real.rpow_natCast, ← Real.rpow_mul (by norm_num), div_mul_cancel₀ _ hn0]
    exact Real.rpow_natCast 2 k
  have hlo1 : ((2 * (s : ℝ) - 1) / 2 ^ 24) ^ n ≤ 2 ^ k := by
    rw [div_pow, div_le_iff₀ (by positivity), ← pow_mul, ← pow_add]
    have : ((2 * s - 1 : ℕ) : ℝ) = 2 * (s : ℝ) - 1 := by
      rw [Nat.cast_sub (by omega)]; push_cast; ring
    rw [← this]
    exact_mod_cast hlo
  have hhi1 : (2 : ℝ) ^ k ≤ ((2 * (s : ℝ) + 1) / 2 ^ 24) ^ n := by
    rw [div_pow, le_div_iff₀ (by positivity), ← pow_mul, ← pow_add]
    exact_mod_cast hhi
  have hs0 : (0 : ℝ) ≤ (s : ℝ) := Nat.cast_nonneg s
  have hpos : (0 : ℝ) ≤ (2 * (s : ℝ) + 1) / 2 ^ 24 :=
    div_nonneg (by linarith) (by norm_num)
  rw [← hrk] at hlo1 hhi1
  exact ⟨le_of_pow_le_pow_left₀ hn hr0 hlo1, le_of_pow_le_pow_left₀ hn hpos hhi1⟩

/-- The half-unit neighbours of entry `k` enclose `2 ^ (k / 2048)`. -/
theorem exp2_table_enclosure (k : Nat) (hk : k < 2048) :
    (2 * (significand (exp2_table.getD k 0) : ℝ) - 1) / 2 ^ 24 ≤ (2 : ℝ) ^ ((k : ℝ) / 2048) ∧
    (2 : ℝ) ^ ((k : ℝ) / 2048) ≤ (2 * (significand (exp2_table.getD k 0) : ℝ) + 1) / 2 ^ 24 := by
  obtain ⟨hlo, hhi⟩ := exp2_table_nearestAt k hk
  obtain ⟨hs1, _⟩ := significand_bounds (exp2_table.getD k 0)
  have h := root_enclosure 2048 k (significand (exp2_table.getD k 0)) (by norm_num)
    (by omega) hlo hhi
  rw [Nat.cast_ofNat] at h
  exact h

/-- Entry `k` is within half a unit in the last place of `2 ^ (k / 2048)`. -/
theorem exp2_table_half_ulp (k : Nat) (hk : k < 2048) :
    |((toRat (exp2_table.getD k 0) : ℚ) : ℝ) - (2 : ℝ) ^ ((k : ℝ) / 2048)| ≤ 1 / 2 ^ 24 := by
  obtain ⟨h1, h2⟩ := exp2_table_bounds k hk
  obtain ⟨hlo, hhi⟩ := exp2_table_enclosure k hk
  rw [toRat_unit _ h1 h2]
  push_cast
  rw [abs_le]
  constructor
  · have : (2 * (significand (exp2_table.getD k 0) : ℝ) + 1) / 2 ^ 24
        = (significand (exp2_table.getD k 0) : ℝ) / 2 ^ 23 + 1 / 2 ^ 24 := by
      field_simp; ring
    linarith
  · have : (2 * (significand (exp2_table.getD k 0) : ℝ) - 1) / 2 ^ 24
        = (significand (exp2_table.getD k 0) : ℝ) / 2 ^ 23 - 1 / 2 ^ 24 := by
      field_simp; ring
    linarith

/-! ## Rounding -/

theorem log2Fuel_spec : ∀ (fuel n : Nat), 0 < n → n < 2 ^ (fuel + 1) →
    2 ^ log2Fuel fuel n ≤ n ∧ n < 2 ^ (log2Fuel fuel n + 1) := by
  intro fuel
  induction fuel with
  | zero =>
    intro n h0 h1
    have : n = 1 := by omega
    subst this
    simp [log2Fuel]
  | succ fuel ih =>
    intro n h0 h1
    unfold log2Fuel
    by_cases h2 : n < 2
    · have : n = 1 := by omega
      subst this
      simp
    · rw [if_neg h2]
      have hpow : 2 ^ (fuel + 1 + 1) = 2 * 2 ^ (fuel + 1) := by rw [Nat.pow_succ]; omega
      obtain ⟨a, b⟩ := ih (n / 2) (by omega) (by omega)
      have e1 : 2 ^ (log2Fuel fuel (n / 2) + 1) = 2 * 2 ^ log2Fuel fuel (n / 2) := by
        rw [Nat.pow_succ]; omega
      have e2 : 2 ^ (log2Fuel fuel (n / 2) + 1 + 1) = 2 * 2 ^ (log2Fuel fuel (n / 2) + 1) := by
        rw [Nat.pow_succ]; omega
      constructor <;> omega

theorem ilog2_spec (n : Nat) (h : 0 < n) : 2 ^ ilog2 n ≤ n ∧ n < 2 ^ (ilog2 n + 1) :=
  log2Fuel_spec n n h (Nat.lt_of_lt_of_le (Nat.lt_two_pow n) (Nat.pow_le_pow_right (by norm_num) (by omega)))

theorem ilog2_unique (n e : Nat) (h1 : 2 ^ e ≤ n) (h2 : n < 2 ^ (e + 1)) : ilog2 n = e := by
  have hn : 0 < n := Nat.lt_of_lt_of_le (Nat.two_pow_pos _) h1
  obtain ⟨a, b⟩ := ilog2_spec n hn
  have c1 : ilog2 n < e + 1 := (Nat.pow_lt_pow_iff_right (by norm_num : 1 < 2)).mp (Nat.lt_of_le_of_lt a h2)
  have c2 : e < ilog2 n + 1 := (Nat.pow_lt_pow_iff_right (by norm_num : 1 < 2)).mp (Nat.lt_of_le_of_lt h1 b)
  omega

theorem ilog2_mono (a b : Nat) (ha : 0 < a) (h : a ≤ b) : ilog2 a ≤ ilog2 b := by
  obtain ⟨a1, _⟩ := ilog2_spec a ha
  obtain ⟨_, b2⟩ := ilog2_spec b (by omega)
  have : ilog2 a < ilog2 b + 1 :=
    (Nat.pow_lt_pow_iff_right (by norm_num : 1 < 2)).mp
      (Nat.lt_of_le_of_lt a1 (Nat.lt_of_le_of_lt h b2))
  omega

theorem roundShift_mono (a b : Nat) (ha : 0 < a) (h : a ≤ b) : roundShift a ≤ roundShift b := by
  have := ilog2_mono a b ha h
  unfold roundShift; omega

theorem roundShift_ge (n : Nat) : 149 ≤ roundShift n := by unfold roundShift; omega

/-- Splitting `n` at the quantum of the rounding. -/
theorem div_mod_pow (n sh : Nat) (h : 1 ≤ sh) :
    n = 2 ^ sh * (n / 2 ^ sh) + n % 2 ^ sh ∧ n % 2 ^ sh < 2 ^ sh ∧
    2 ^ sh = 2 * 2 ^ (sh - 1) := by
  refine ⟨(Nat.div_add_mod n (2 ^ sh)).symm, Nat.mod_lt _ (Nat.two_pow_pos _), ?_⟩
  obtain ⟨k, rfl⟩ : ∃ k, sh = k + 1 := ⟨sh - 1, by omega⟩
  rw [Nat.pow_succ]; simp; omega

theorem roundMant_cases (n sh : Nat) :
    roundMant n sh = n / 2 ^ sh ∨ roundMant n sh = n / 2 ^ sh + 1 := by
  unfold roundMant; split <;> simp

/-- The rounded significand is within half a quantum of `n`. -/
theorem roundMant_err (n sh : Nat) (h : 1 ≤ sh) :
    2 ^ sh * roundMant n sh ≤ n + 2 ^ (sh - 1) ∧ n ≤ 2 ^ sh * roundMant n sh + 2 ^ (sh - 1) := by
  obtain ⟨e1, e2, e3⟩ := div_mod_pow n sh h
  unfold roundMant
  split
  · rename_i hc
    rw [Nat.mul_add, Nat.mul_one]
    constructor <;> omega
  · rename_i hc
    constructor <;> omega

theorem roundMant_exact (n sh : Nat) (hd : n % 2 ^ sh = 0) :
    roundMant n sh = n / 2 ^ sh := by
  have hp : 0 < 2 ^ (sh - 1) := Nat.two_pow_pos _
  unfold roundMant
  rw [hd, if_neg (by omega)]

theorem roundMant_mono (a b sh : Nat) (hs : 1 ≤ sh) (h : a ≤ b) :
    roundMant a sh ≤ roundMant b sh := by
  obtain ⟨a1, a2, a3⟩ := div_mod_pow a sh hs
  obtain ⟨b1, b2, _⟩ := div_mod_pow b sh hs
  have hd : a / 2 ^ sh ≤ b / 2 ^ sh := Nat.div_le_div_right h
  by_cases hlt : a / 2 ^ sh < b / 2 ^ sh
  · rcases roundMant_cases a sh with e | e <;> rcases roundMant_cases b sh with f | f <;> omega
  · have he : a / 2 ^ sh = b / 2 ^ sh := by omega
    have hr : a % 2 ^ sh ≤ b % 2 ^ sh := by
      rw [he] at a1
      omega
    unfold roundMant
    rw [he]
    split <;> split <;> omega

/-- Between `2 ^ (sh + 23)` and `2 ^ (sh + 24)` the rounded significand has 24 bits, or is
`2 ^ 24`. -/
theorem roundMant_range (n sh : Nat) (h2 : n < 2 ^ (sh + 24)) :
    roundMant n sh ≤ 2 ^ 24 ∧ (2 ^ (sh + 23) ≤ n → 2 ^ 23 ≤ roundMant n sh) := by
  have hq : n / 2 ^ sh < 2 ^ 24 := by
    rw [Nat.div_lt_iff_lt_mul (Nat.two_pow_pos _), ← Nat.pow_add, Nat.add_comm]
    exact h2
  constructor
  · rcases roundMant_cases n sh with e | e <;> omega
  · intro h1
    have : 2 ^ 23 ≤ n / 2 ^ sh := by
      rw [Nat.le_div_iff_mul_le (Nat.two_pow_pos _), ← Nat.pow_add, Nat.add_comm]
      exact h1
    rcases roundMant_cases n sh with e | e <;> omega

/-- The magnitude fits the 24 bits above its quantum. -/
theorem roundShift_spec (n : Nat) (h : 0 < n) :
    n < 2 ^ (roundShift n + 24) ∧ (149 < roundShift n → 2 ^ (roundShift n + 23) ≤ n) := by
  obtain ⟨a, b⟩ := ilog2_spec n h
  constructor
  · exact Nat.lt_of_lt_of_le b (Nat.pow_le_pow_right (by norm_num) (by unfold roundShift; omega))
  · intro h1
    have : roundShift n + 23 = ilog2 n := by unfold roundShift at h1 ⊢; omega
    rw [this]; exact a

/-- The pattern before the overflow check. -/
theorem roundMag_ieee (n : Nat) :
    roundMag false n = min ((roundShift n - 149) * 2 ^ 23 + roundMant n (roundShift n)) 0x7F800000 := by
  unfold roundMag; simp

theorem roundMant_zero (sh : Nat) : roundMant 0 sh = 0 := by
  have : 0 < 2 ^ (sh - 1) := Nat.two_pow_pos _
  unfold roundMant
  simp only [Nat.zero_mod, Nat.zero_div]
  rw [if_neg (by omega)]

theorem enc_mono (a b : Nat) (h : a ≤ b) :
    (roundShift a - 149) * 2 ^ 23 + roundMant a (roundShift a)
      ≤ (roundShift b - 149) * 2 ^ 23 + roundMant b (roundShift b) := by
  by_cases ha : a = 0
  · subst ha
    have : roundShift 0 = 149 := by decide
    rw [this, roundMant_zero]; omega
  have ha' : 0 < a := by omega
  have hs := roundShift_mono a b ha' h
  have ga := roundShift_ge a
  obtain ⟨a1, _⟩ := roundShift_spec a ha'
  obtain ⟨b1, b2⟩ := roundShift_spec b (by omega)
  by_cases he : roundShift a = roundShift b
  · rw [he]
    have := roundMant_mono a b (roundShift b) (by omega) h
    omega
  · have hlt : roundShift a < roundShift b := by omega
    have ua := (roundMant_range a (roundShift a) a1).1
    have lb := (roundMant_range b (roundShift b) b1).2 (b2 (by omega))
    have : (roundShift a - 149 + 1) * 2 ^ 23 ≤ (roundShift b - 149) * 2 ^ 23 :=
      Nat.mul_le_mul_right _ (by omega)
    rw [Nat.add_mul] at this
    omega

/-- Rounding of magnitudes is monotone, in both denormal modes. -/
theorem roundMag_mono (fz : Bool) (a b : Nat) (h : a ≤ b) : roundMag fz a ≤ roundMag fz b := by
  have hm := enc_mono a b h
  unfold roundMag
  by_cases h1 : (fz && decide (a < 2 ^ 172)) = true
  · rw [if_pos h1]; exact Nat.zero_le _
  · rw [if_neg h1]
    have h2 : ¬ (fz && decide (b < 2 ^ 172)) = true := by
      intro hb
      apply h1
      simp only [Bool.and_eq_true, decide_eq_true_eq] at hb ⊢
      exact ⟨hb.1, by omega⟩
    rw [if_neg h2]
    omega

theorem roundMag_le (fz : Bool) (n : Nat) : roundMag fz n ≤ 0x7F800000 := by
  unfold roundMag; split <;> omega

/-- Reading a pattern written as exponent step `e` and significand `s`, where the
significand may be denormal (`e = 0`) or have carried to `2 ^ 24`. -/
theorem mag149_enc (e s : Nat) (hs : s ≤ 2 ^ 24) (he : e = 0 ∨ 2 ^ 23 ≤ s)
    (hfin : e * 2 ^ 23 + s < 2 ^ 31) :
    mag149 ieee (e * 2 ^ 23 + s) = s * 2 ^ e := by
  have ha : absBits (e * 2 ^ 23 + s) = e * 2 ^ 23 + s := by unfold absBits; omega
  by_cases hd : e * 2 ^ 23 + s < 2 ^ 23
  · have e0 : e = 0 := by
      rcases he with h | h
      · exact h
      · omega
    subst e0
    rw [mag149_of_denormal ieee _ (by rw [ha]; exact hd), ha]
    simp [ieee]
  · rw [mag149_of_normal ieee _ (by rw [ha]; omega), ha]
    have hs23 : 2 ^ 23 ≤ s := by
      rcases he with h | h
      · subst h; omega
      · exact h
    by_cases hc : s = 2 ^ 24
    · subst hc
      have e1 : (e * 2 ^ 23 + 2 ^ 24) / 2 ^ 23 = e + 2 := by omega
      have e2 : (e * 2 ^ 23 + 2 ^ 24) % 2 ^ 23 = 0 := by omega
      rw [e1, e2, show e + 2 - 1 = e + 1 by omega, Nat.pow_succ]
      ring
    · have e1 : (e * 2 ^ 23 + s) / 2 ^ 23 = e + 1 := by omega
      have e2 : (e * 2 ^ 23 + s) % 2 ^ 23 = s - 2 ^ 23 := by omega
      rw [e1, e2, show e + 1 - 1 = e by omega, show 2 ^ 23 + (s - 2 ^ 23) = s by omega]

/-- Below the overflow threshold the value of the rounded pattern, in units of `2 ^ -298`,
is the rounded significand times the quantum. -/
theorem mag149_roundMag (n : Nat) (hn : 0 < n) (hfin : roundMag false n < 0x7F800000) :
    roundMag false n = (roundShift n - 149) * 2 ^ 23 + roundMant n (roundShift n) ∧
    mag149 ieee (roundMag false n) * 2 ^ 149 = roundMant n (roundShift n) * 2 ^ roundShift n := by
  rw [roundMag_ieee] at hfin ⊢
  have hlt : (roundShift n - 149) * 2 ^ 23 + roundMant n (roundShift n) < 0x7F800000 := by omega
  rw [Nat.min_eq_left (by omega)]
  refine ⟨rfl, ?_⟩
  obtain ⟨a1, a2⟩ := roundShift_spec n hn
  have ge := roundShift_ge n
  obtain ⟨r1, r2⟩ := roundMant_range n (roundShift n) a1
  rw [mag149_enc _ _ r1 (by
      by_cases h : roundShift n = 149
      · left; omega
      · right; exact r2 (a2 (by omega))) (by omega)]
  rw [Nat.mul_assoc, ← Nat.pow_add, show roundShift n - 149 + 149 = roundShift n by omega]

/-! ## The arithmetic on finite operands -/

theorem isFinite_iff (b : Nat) : isFinite b = true ↔ absBits b < 0x7F800000 := by
  unfold isFinite; simp

theorem not_isNaN_of_isFinite (b : Nat) (h : isFinite b = true) : isNaN b = false := by
  rw [isFinite_iff] at h
  unfold isNaN; simp only [decide_eq_false_iff_not]; omega

theorem not_isSNaN_of_isFinite (b : Nat) (h : isFinite b = true) : isSNaN b = false := by
  unfold isSNaN; rw [not_isNaN_of_isFinite b h]; rfl

theorem not_isInf_of_isFinite (b : Nat) (h : isFinite b = true) : isInf b = false := by
  rw [isFinite_iff] at h
  unfold isInf; simp only [decide_eq_false_iff_not]; omega

theorem val149_of_isZero (m : FPMode) (b : Nat) (h : isZero m b = true) : val149 m b = 0 := by
  unfold isZero at h
  simp only [Bool.or_eq_true, decide_eq_true_eq, Bool.and_eq_true] at h
  have : mag149 m b = 0 := by
    rcases h with h | ⟨h1, h2⟩
    · rw [mag149_of_denormal m b (by omega), h]; simp
    · rw [mag149_of_denormal m b h2, h1]; simp
  unfold val149; rw [this]; simp

theorem signBit_lt_two (b : Nat) : signBit b = 0 ∨ signBit b = 1 := by
  unfold signBit; omega

theorem absBits_fpZero (s : Nat) : absBits (fpZero s) = 0 := by
  unfold absBits fpZero; omega

theorem roundMag_zero (fz : Bool) : roundMag fz 0 = 0 := by
  cases fz <;> decide

theorem absBits_fpRound_zero (m : FPMode) : absBits (fpRound m 0) = 0 := by
  unfold fpRound; rw [Int.natAbs_zero, roundMag_zero]; decide

theorem processNaNs3_finite (m : FPMode) (a b c : Nat) (ha : isFinite a = true)
    (hb : isFinite b = true) (hc : isFinite c = true) : fpProcessNaNs3 m a b c = none := by
  unfold fpProcessNaNs3
  simp [not_isNaN_of_isFinite, not_isSNaN_of_isFinite, ha, hb, hc]

theorem processNaNs_finite (m : FPMode) (a b : Nat) (ha : isFinite a = true)
    (hb : isFinite b = true) : fpProcessNaNs m a b = none := by
  unfold fpProcessNaNs
  simp [not_isNaN_of_isFinite, not_isSNaN_of_isFinite, ha, hb]

/-- On finite operands the fused multiply-add is a zero when the exact value is zero, and
the rounding of the exact value otherwise. -/
theorem fpMulAdd_finite (m : FPMode) (a x y : Nat) (ha : isFinite a = true)
    (hx : isFinite x = true) (hy : isFinite y = true) :
    (exactMulAdd m a x y = 0 → absBits (fpMulAdd m a x y) = 0) ∧
    (exactMulAdd m a x y ≠ 0 → fpMulAdd m a x y = fpRound m (exactMulAdd m a x y)) := by
  have hz : (isZero m a && (isZero m x || isZero m y)) = true → exactMulAdd m a x y = 0 := by
    intro h
    simp only [Bool.and_eq_true, Bool.or_eq_true] at h
    unfold exactMulAdd
    rw [val149_of_isZero m a h.1]
    rcases h.2 with h2 | h2
    · rw [val149_of_isZero m x h2]; simp
    · rw [val149_of_isZero m y h2]; simp
  unfold fpMulAdd
  simp only [processNaNs3_finite m a x y ha hx hy, not_isInf_of_isFinite, ha, hx, hy,
    Bool.false_and, Bool.and_false, Bool.or_self, Bool.false_eq_true, if_false]
  constructor
  · intro h0
    split
    · exact absBits_fpZero _
    · rw [← exactMulAdd, if_pos h0]; exact absBits_fpZero _
  · intro h0
    split
    · rename_i hc
      exfalso; apply h0; apply hz
      simp only [Bool.and_eq_true] at hc ⊢
      exact hc.1
    · rw [← exactMulAdd, if_neg h0]

theorem fpMul_finite (m : FPMode) (x y : Nat) (hx : isFinite x = true) (hy : isFinite y = true) :
    (exactMul m x y = 0 → absBits (fpMul m x y) = 0) ∧
    (exactMul m x y ≠ 0 → fpMul m x y = fpRound m (exactMul m x y)) := by
  unfold fpMul
  simp only [processNaNs_finite m x y hx hy, not_isInf_of_isFinite, hx, hy,
    Bool.false_and, Bool.and_false, Bool.or_self, Bool.false_eq_true, if_false]
  constructor
  · intro h0
    split
    · exact absBits_fpZero _
    · rw [← exactMul, h0]
      exact absBits_fpRound_zero m
  · intro h0
    split
    · rename_i hc
      exfalso; apply h0
      simp only [Bool.or_eq_true] at hc
      unfold exactMul
      rcases hc with h | h
      · rw [val149_of_isZero m x h]; simp
      · rw [val149_of_isZero m y h]; simp
    · rfl


theorem fpSub_finite (m : FPMode) (x y : Nat) (hx : isFinite x = true) (hy : isFinite y = true) :
    (exactSub m x y = 0 → absBits (fpSub m x y) = 0) ∧
    (exactSub m x y ≠ 0 → fpSub m x y = fpRound m (exactSub m x y)) := by
  unfold fpSub
  simp only [processNaNs_finite m x y hx hy, not_isInf_of_isFinite, hx, hy,
    Bool.false_and, Bool.and_false, Bool.or_self, Bool.false_eq_true, if_false]
  constructor
  · intro h0
    split
    · exact absBits_fpZero _
    · rw [← exactSub, if_pos h0]; exact absBits_fpZero _
  · intro h0
    split
    · rename_i hc
      exfalso; apply h0
      simp only [Bool.and_eq_true] at hc
      unfold exactSub
      rw [val149_of_isZero m x hc.1.1, val149_of_isZero m y hc.1.2]; simp
    · rw [← exactSub, if_neg h0]

/-! ## Keys -/

theorem ordKey_of_absBits_zero (b : Nat) (h : absBits b = 0) : ordKey b = 0 := by
  unfold ordKey; rw [h]; simp

theorem rndKey_zero (fz : Bool) : rndKey fz 0 = 0 := by
  unfold rndKey; simp [roundMag_zero]

/-- The sign and the magnitude bits of a rounded value. -/
theorem fpRound_bits (m : FPMode) (v : Int) :
    signBit (fpRound m v) = (if v < 0 then 1 else 0) ∧
    absBits (fpRound m v) = roundMag m.fz v.natAbs := by
  have := roundMag_le m.fz v.natAbs
  unfold fpRound signBit absBits
  split <;> constructor <;> omega

theorem ordKey_fpRound (m : FPMode) (v : Int) : ordKey (fpRound m v) = rndKey m.fz v := by
  obtain ⟨h1, h2⟩ := fpRound_bits m v
  unfold ordKey rndKey
  rw [h1, h2]
  split <;> simp_all

theorem ordKey_fpMulAdd (m : FPMode) (a x y : Nat) (ha : isFinite a = true)
    (hx : isFinite x = true) (hy : isFinite y = true) :
    ordKey (fpMulAdd m a x y) = rndKey m.fz (exactMulAdd m a x y) := by
  obtain ⟨h0, h1⟩ := fpMulAdd_finite m a x y ha hx hy
  by_cases hv : exactMulAdd m a x y = 0
  · rw [ordKey_of_absBits_zero _ (h0 hv), hv, rndKey_zero]
  · rw [h1 hv, ordKey_fpRound]

theorem ordKey_fpMul (m : FPMode) (x y : Nat) (hx : isFinite x = true) (hy : isFinite y = true) :
    ordKey (fpMul m x y) = rndKey m.fz (exactMul m x y) := by
  obtain ⟨h0, h1⟩ := fpMul_finite m x y hx hy
  by_cases hv : exactMul m x y = 0
  · rw [ordKey_of_absBits_zero _ (h0 hv), hv, rndKey_zero]
  · rw [h1 hv, ordKey_fpRound]

theorem ordKey_fpSub (m : FPMode) (x y : Nat) (hx : isFinite x = true) (hy : isFinite y = true) :
    ordKey (fpSub m x y) = rndKey m.fz (exactSub m x y) := by
  obtain ⟨h0, h1⟩ := fpSub_finite m x y hx hy
  by_cases hv : exactSub m x y = 0
  · rw [ordKey_of_absBits_zero _ (h0 hv), hv, rndKey_zero]
  · rw [h1 hv, ordKey_fpRound]

/-- Rounding is monotone on signed values. -/
theorem rndKey_mono (fz : Bool) (v w : Int) (h : v ≤ w) : rndKey fz v ≤ rndKey fz w := by
  unfold rndKey
  by_cases hv : v < 0 <;> by_cases hw : w < 0
  · rw [if_pos hv, if_pos hw]
    have := roundMag_mono fz w.natAbs v.natAbs (by omega)
    omega
  · rw [if_pos hv, if_neg hw]; omega
  · omega
  · rw [if_neg hv, if_neg hw]
    have := roundMag_mono fz v.natAbs w.natAbs (by omega)
    omega

/-! ## Values of rounded results -/

theorem roundMag_flush (n : Nat) (h : n < 2 ^ 172) : roundMag true n = 0 := by
  unfold roundMag
  rw [if_pos (by simp only [Bool.true_and, decide_eq_true_eq]; exact h)]

theorem roundMag_noflush (fz : Bool) (n : Nat) (h : 2 ^ 172 ≤ n) :
    roundMag fz n = roundMag false n := by
  unfold roundMag
  rw [if_neg (by simp only [Bool.and_eq_true, decide_eq_true_eq]; omega),
    if_neg (by simp)]

/-- The value of a rounded magnitude is the same in both denormal modes: under
flush-to-zero no denormal is produced. -/
theorem mag149_roundMag_mode (m : FPMode) (fz : Bool) (n : Nat) (h : fz = m.fz) :
    mag149 m (roundMag fz n) = mag149 ieee (roundMag fz n) := by
  by_cases hn : 2 ^ 23 ≤ absBits (roundMag fz n)
  · exact mag149_eq_ieee m _ hn
  · rw [mag149_of_denormal m _ (by omega), mag149_of_denormal ieee _ (by omega)]
    cases hz : m.fz
    · simp [ieee]
    · simp only [if_true, ieee, Bool.false_eq_true, if_false]
      rw [h, hz]
      by_cases hf : n < 2 ^ 172
      · rw [roundMag_flush n hf]; rfl
      · exfalso
        apply hn
        have hpos : 0 < n := by
          have : 0 < 2 ^ 172 := Nat.two_pow_pos _
          omega
        have hs : 149 ≤ roundShift n := roundShift_ge n
        obtain ⟨a, b⟩ := ilog2_spec n hpos
        have hl : 172 ≤ ilog2 n := by
          have : 172 < ilog2 n + 1 :=
            (Nat.pow_lt_pow_iff_right (by norm_num : 1 < 2)).mp (by omega)
          omega
        have hsh : roundShift n = ilog2 n - 23 := by unfold roundShift; omega
        obtain ⟨c1, c2⟩ := roundShift_spec n hpos
        have hm := (roundMant_range n (roundShift n) c1).2
          (by rw [hsh, show ilog2 n - 23 + 23 = ilog2 n by omega]; exact a)
        rw [h, hz, roundMag_noflush true n (by omega), roundMag_ieee]
        unfold absBits
        omega

/-- The error of a rounding in units of `2 ^ -298`: at most half a quantum when nothing
is flushed and nothing overflows. -/
theorem roundMag_err (n : Nat) (hn : 0 < n) (hfin : roundMag false n < 0x7F800000) :
    mag149 ieee (roundMag false n) * 2 ^ 149 ≤ n + 2 ^ (roundShift n - 1) ∧
    n ≤ mag149 ieee (roundMag false n) * 2 ^ 149 + 2 ^ (roundShift n - 1) := by
  obtain ⟨_, h2⟩ := mag149_roundMag n hn hfin
  have ge := roundShift_ge n
  have := roundMant_err n (roundShift n) (by omega)
  rw [h2, Nat.mul_comm]
  exact this

/-- A magnitude that is a multiple of its quantum is not changed by the rounding. -/
theorem roundMag_exact (n : Nat) (hn : 0 < n) (hfin : roundMag false n < 0x7F800000)
    (hd : n % 2 ^ roundShift n = 0) :
    mag149 ieee (roundMag false n) * 2 ^ 149 = n := by
  obtain ⟨_, h2⟩ := mag149_roundMag n hn hfin
  rw [h2, roundMant_exact n _ hd]
  exact Nat.div_mul_cancel (Nat.dvd_of_mod_eq_zero hd)

/-- A 24-bit integer times a power of two at or above `2 ^ -149` is a multiple of its
quantum. -/
theorem quantum_dvd (k j : Nat) (hk : 0 < k) (hk2 : k < 2 ^ 24) (hj : 149 ≤ j) :
    (k * 2 ^ j) % 2 ^ roundShift (k * 2 ^ j) = 0 := by
  have hpos : 0 < k * 2 ^ j := Nat.mul_pos hk (Nat.two_pow_pos _)
  obtain ⟨a, b⟩ := ilog2_spec (k * 2 ^ j) hpos
  have hlt : k * 2 ^ j < 2 ^ (24 + j) := by
    rw [Nat.pow_add]; exact Nat.mul_lt_mul_of_pos_right hk2 (Nat.two_pow_pos _)
  have : ilog2 (k * 2 ^ j) < 24 + j :=
    (Nat.pow_lt_pow_iff_right (by norm_num : 1 < 2)).mp (Nat.lt_of_le_of_lt a hlt)
  have hsh : roundShift (k * 2 ^ j) ≤ j := by unfold roundShift; omega
  apply Nat.mod_eq_zero_of_dvd
  exact Dvd.dvd.mul_left (Nat.pow_dvd_pow 2 hsh) k

/-- The pattern of a power of two. -/
theorem roundMag_two_pow (k : Nat) (h1 : 172 ≤ k) (h2 : k < 426) (fz : Bool) :
    roundMag fz (2 ^ k) = (k - 171) * 2 ^ 23 := by
  have hil : ilog2 (2 ^ k) = k :=
    ilog2_unique _ k (Nat.le_refl _) (Nat.pow_lt_pow_right (by norm_num) (by omega))
  have hsh : roundShift (2 ^ k) = k - 23 := by unfold roundShift; rw [hil]; omega
  have hm : roundMant (2 ^ k) (k - 23) = 2 ^ 23 := by
    have e : 2 ^ k = 2 ^ 23 * 2 ^ (k - 23) := by rw [← Nat.pow_add]; congr 1; omega
    rw [roundMant_exact _ _ (by rw [e]; exact Nat.mul_mod_left _ _), e,
      Nat.mul_div_cancel _ (Nat.two_pow_pos _)]
  have hnf : ¬ 2 ^ k < 2 ^ 172 := by
    have := Nat.pow_le_pow_right (by norm_num : 0 < 2) h1
    omega
  rw [roundMag_noflush fz _ (by omega), roundMag_ieee, hsh, hm]
  omega

/-- The magnitude of a pattern grows with the pattern. -/
theorem mag149_mono (a b : Nat) (ha : a < 2 ^ 31) (hb : b < 2 ^ 31) (h : a ≤ b) :
    mag149 ieee a ≤ mag149 ieee b := by
  have ea : absBits a = a := by unfold absBits; omega
  have eb : absBits b = b := by unfold absBits; omega
  by_cases hda : a < 2 ^ 23
  · rw [mag149_of_denormal ieee a (by rw [ea]; exact hda), ea]
    simp only [ieee, Bool.false_eq_true, if_false]
    by_cases hdb : b < 2 ^ 23
    · rw [mag149_of_denormal _ b (by rw [eb]; exact hdb), eb]
      simpa using h
    · rw [mag149_of_normal _ b (by rw [eb]; omega), eb]
      have : 1 ≤ 2 ^ (b / 2 ^ 23 - 1) := Nat.two_pow_pos _
      calc a ≤ 2 ^ 23 + b % 2 ^ 23 := by omega
        _ = (2 ^ 23 + b % 2 ^ 23) * 1 := by rw [Nat.mul_one]
        _ ≤ (2 ^ 23 + b % 2 ^ 23) * 2 ^ (b / 2 ^ 23 - 1) := Nat.mul_le_mul_left _ this
  · rw [mag149_of_normal ieee a (by rw [ea]; omega), mag149_of_normal ieee b (by rw [eb]; omega),
      ea, eb]
    by_cases hq : a / 2 ^ 23 = b / 2 ^ 23
    · rw [hq]
      exact Nat.mul_le_mul_right _ (by omega)
    · have hlt : a / 2 ^ 23 < b / 2 ^ 23 := by omega
      have h1 : 1 ≤ a / 2 ^ 23 := by omega
      calc (2 ^ 23 + a % 2 ^ 23) * 2 ^ (a / 2 ^ 23 - 1)
          ≤ (2 ^ 23 * 2) * 2 ^ (a / 2 ^ 23 - 1) := Nat.mul_le_mul_right _ (by omega)
        _ = 2 ^ 23 * 2 ^ (a / 2 ^ 23 - 1 + 1) := by rw [Nat.pow_succ]; ring
        _ ≤ 2 ^ 23 * 2 ^ (b / 2 ^ 23 - 1) :=
            Nat.mul_le_mul_left _ (Nat.pow_le_pow_right (by norm_num) (by omega))
        _ ≤ (2 ^ 23 + b % 2 ^ 23) * 2 ^ (b / 2 ^ 23 - 1) := Nat.mul_le_mul_right _ (by omega)

theorem mag149_zero (m : FPMode) : mag149 m 0 = 0 := by
  rw [mag149_of_denormal m 0 (by decide)]
  split <;> rfl

theorem roundMag_lt_of_le_two_pow (fz : Bool) (n k : Nat) (hk1 : 172 ≤ k) (hk2 : k < 426)
    (hn : n ≤ 2 ^ k) : roundMag fz n ≤ (k - 171) * 2 ^ 23 ∧ roundMag fz n < 0x7F800000 := by
  have h := roundMag_mono fz n (2 ^ k) hn
  rw [roundMag_two_pow k hk1 hk2 fz] at h
  exact ⟨h, by omega⟩

theorem mag149_pattern_two_pow (k : Nat) (hk1 : 172 ≤ k) (hk2 : k < 426) :
    mag149 ieee ((k - 171) * 2 ^ 23) * 2 ^ 149 = 2 ^ k := by
  have h1 : (k - 171) * 2 ^ 23 = (k - 172) * 2 ^ 23 + 2 ^ 23 := by omega
  have h2 : (2 : Nat) ^ 23 ≤ 2 ^ 24 := Nat.pow_le_pow_right (by decide) (by decide)
  have h3 : 2 ^ 23 * 2 ^ (k - 172) * 2 ^ 149 = 2 ^ k := by
    rw [← Nat.pow_add, ← Nat.pow_add]
    exact congrArg (fun j => 2 ^ j) (by omega)
  rw [h1, mag149_enc (k - 172) (2 ^ 23) h2 (Or.inr (Nat.le_refl _)) (by omega)]
  exact h3

/-- Rounding a magnitude of at most `2 ^ k`: the result is finite, at most `2 ^ k`, and
within `n / 2 ^ 24 + 2 ^ -126` of `n`, within `n / 2 ^ 24` when `n` is at least
`2 ^ -126`. -/
theorem roundMag_spec (fz : Bool) (n k : Nat) (hk1 : 172 ≤ k) (hk2 : k < 426) (hn : n ≤ 2 ^ k) :
    roundMag fz n < 0x7F800000 ∧
    mag149 ieee (roundMag fz n) * 2 ^ 149 ≤ 2 ^ k ∧
    ((mag149 ieee (roundMag fz n) * 2 ^ 149 : Nat) : Int) - n ≤ ((n / 2 ^ 24 + 2 ^ 172 : Nat) : Int) ∧
    (n : Int) - ((mag149 ieee (roundMag fz n) * 2 ^ 149 : Nat) : Int)
      ≤ ((n / 2 ^ 24 + 2 ^ 172 : Nat) : Int) ∧
    (2 ^ 172 ≤ n →
      ((mag149 ieee (roundMag fz n) * 2 ^ 149 : Nat) : Int) - n ≤ ((n / 2 ^ 24 : Nat) : Int) ∧
      (n : Int) - ((mag149 ieee (roundMag fz n) * 2 ^ 149 : Nat) : Int) ≤ ((n / 2 ^ 24 : Nat) : Int)) := by
  obtain ⟨hle, hfin⟩ := roundMag_lt_of_le_two_pow fz n k hk1 hk2 hn
  have hmag : mag149 ieee (roundMag fz n) * 2 ^ 149 ≤ 2 ^ k := by
    rw [← mag149_pattern_two_pow k hk1 hk2]
    exact Nat.mul_le_mul_right _ (mag149_mono _ _ (by omega) (by omega) hle)
  refine ⟨hfin, hmag, ?_⟩
  have h172 : 0 < 2 ^ 172 := Nat.two_pow_pos _
  by_cases hflush : n < 2 ^ 172 ∧ fz = true
  · obtain ⟨hf, rfl⟩ := hflush
    rw [roundMag_flush n hf, mag149_zero]
    refine ⟨by omega, ?_, fun h => by omega⟩
    have : n ≤ n / 2 ^ 24 + 2 ^ 172 := by omega
    omega
  · have e : roundMag fz n = roundMag false n := by
      cases fz
      · rfl
      · exact roundMag_noflush true n (by
          by_contra hc; exact hflush ⟨by omega, rfl⟩)
    rw [e] at hfin ⊢
    by_cases hn0 : n = 0
    · subst hn0
      rw [roundMag_zero, mag149_zero]
      refine ⟨by omega, by omega, fun h => by omega⟩
    have hpos : 0 < n := by omega
    obtain ⟨e1, e2⟩ := roundMag_err n hpos hfin
    obtain ⟨a, b⟩ := ilog2_spec n hpos
    have hq : 2 ^ (roundShift n - 1) ≤ n / 2 ^ 24 + 2 ^ 172 ∧
        (2 ^ 172 ≤ n → 2 ^ (roundShift n - 1) ≤ n / 2 ^ 24) := by
      by_cases hs : ilog2 n - 23 ≤ 149
      · have hsh : roundShift n = 149 := by unfold roundShift; omega
        rw [hsh]
        constructor
        · have : 2 ^ (149 - 1) ≤ 2 ^ 172 := Nat.pow_le_pow_right (by norm_num) (by norm_num)
          omega
        · intro h2
          have hl : 172 ≤ ilog2 n := by
            have : 172 < ilog2 n + 1 :=
              (Nat.pow_lt_pow_iff_right (by norm_num : 1 < 2)).mp (by omega)
            omega
          have : ilog2 n = 172 := by omega
          rw [Nat.le_div_iff_mul_le (Nat.two_pow_pos _), ← Nat.pow_add]
          exact h2
      · have hsh : roundShift n = ilog2 n - 23 := by unfold roundShift; omega
        have : 2 ^ (roundShift n - 1) ≤ n / 2 ^ 24 := by
          rw [Nat.le_div_iff_mul_le (Nat.two_pow_pos _), ← Nat.pow_add, hsh,
            show ilog2 n - 23 - 1 + 24 = ilog2 n by omega]
          exact a
        exact ⟨by omega, fun _ => this⟩
    refine ⟨by omega, by omega, fun h => ⟨by have := hq.2 h; omega, by have := hq.2 h; omega⟩⟩

/-! ## Values from keys -/

theorem absBits_lt (b : Nat) : absBits b < 2 ^ 31 := by unfold absBits; omega

theorem absBits_absBits (b : Nat) : absBits (absBits b) = absBits b := by unfold absBits; omega

theorem mag149_absBits (m : FPMode) (b : Nat) : mag149 m (absBits b) = mag149 m b := by
  unfold mag149; rw [absBits_absBits]

theorem val149_eq_keyVal (m : FPMode) (b : Nat) : val149 m b = keyVal m (ordKey b) := by
  have hb := absBits_lt b
  unfold val149 keyVal ordKey
  by_cases hs : signBit b = 1
  · rw [if_pos hs, if_pos hs]
    by_cases h0 : absBits b = 0
    · have : mag149 m b = 0 := by rw [← mag149_absBits, h0, mag149_zero]
      rw [h0, this]; simp [mag149_zero]
    · rw [if_pos (by omega), Int.natAbs_neg, Int.natAbs_ofNat, mag149_absBits]
  · rw [if_neg hs, if_neg hs, if_neg (by omega), Int.natAbs_ofNat, mag149_absBits]

theorem isFinite_iff_key (b : Nat) : isFinite b = true ↔ (ordKey b).natAbs < 0x7F800000 := by
  rw [isFinite_iff]
  unfold ordKey
  split <;> simp only [Int.natAbs_neg, Int.natAbs_ofNat]

theorem mag149_mono_mode (m : FPMode) (a b : Nat) (ha : a < 2 ^ 31) (hb : b < 2 ^ 31)
    (h : a ≤ b) : mag149 m a ≤ mag149 m b := by
  have ea : absBits a = a := by unfold absBits; omega
  have eb : absBits b = b := by unfold absBits; omega
  by_cases hda : 2 ^ 23 ≤ a
  · rw [mag149_eq_ieee m a (by rw [ea]; exact hda), mag149_eq_ieee m b (by rw [eb]; omega)]
    exact mag149_mono a b ha hb h
  · by_cases hfz : m.fz = true
    · rw [mag149_of_denormal m a (by rw [ea]; omega), if_pos hfz]
      exact Nat.zero_le _
    · by_cases hdb : 2 ^ 23 ≤ b
      · rw [mag149_eq_ieee m b (by rw [eb]; exact hdb)]
        have := mag149_mono a b ha hb h
        rw [mag149_of_denormal m a (by rw [ea]; omega), if_neg hfz]
        rw [mag149_of_denormal ieee a (by rw [ea]; omega)] at this
        simpa [ieee] using this
      · rw [mag149_of_denormal m a (by rw [ea]; omega), mag149_of_denormal m b (by rw [eb]; omega),
          if_neg hfz, if_neg hfz, ea, eb]
        exact h

/-- The value grows with the key. -/
theorem keyVal_mono (m : FPMode) (j k : Int) (hj : j.natAbs < 2 ^ 31) (hk : k.natAbs < 2 ^ 31)
    (h : j ≤ k) : keyVal m j ≤ keyVal m k := by
  unfold keyVal
  by_cases h1 : j < 0 <;> by_cases h2 : k < 0
  · rw [if_pos h1, if_pos h2]
    have := mag149_mono_mode m k.natAbs j.natAbs hk hj (by omega)
    omega
  · rw [if_pos h1, if_neg h2]; omega
  · omega
  · rw [if_neg h1, if_neg h2]
    have := mag149_mono_mode m j.natAbs k.natAbs hj hk (by omega)
    omega

theorem natAbs_rndKey (fz : Bool) (v : Int) : (rndKey fz v).natAbs = roundMag fz v.natAbs := by
  unfold rndKey; split <;> simp

/-- The rounding of an exact value of magnitude at most `2 ^ k`, read back as a value:
finite, the same in the mode that produced it and in the IEEE reading, of the sign of
the exact value, at most `2 ^ k`, and within the rounding error. -/
theorem rndKey_spec (m : FPMode) (v : Int) (k : Nat) (hk1 : 172 ≤ k) (hk2 : k < 426)
    (hv : v.natAbs ≤ 2 ^ k) :
    (rndKey m.fz v).natAbs < 0x7F800000 ∧
    keyVal m (rndKey m.fz v) = keyVal ieee (rndKey m.fz v) ∧
    (0 ≤ v → 0 ≤ keyVal ieee (rndKey m.fz v)) ∧
    (v ≤ 0 → keyVal ieee (rndKey m.fz v) ≤ 0) ∧
    (keyVal ieee (rndKey m.fz v) * 2 ^ 149).natAbs ≤ 2 ^ k ∧
    (keyVal ieee (rndKey m.fz v) * 2 ^ 149 - v).natAbs ≤ v.natAbs / 2 ^ 24 + 2 ^ 172 ∧
    (2 ^ 172 ≤ v.natAbs →
      (keyVal ieee (rndKey m.fz v) * 2 ^ 149 - v).natAbs ≤ v.natAbs / 2 ^ 24) := by
  obtain ⟨s1, s2, s3, s4, s5⟩ := roundMag_spec m.fz v.natAbs k hk1 hk2 hv
  have hmode := mag149_roundMag_mode m m.fz v.natAbs rfl
  have habs := natAbs_rndKey m.fz v
  have hkv : ∀ m', keyVal m' (rndKey m.fz v)
      = if v < 0 then -(mag149 m' (roundMag m.fz v.natAbs) : Int)
        else (mag149 m' (roundMag m.fz v.natAbs) : Int) := by
    intro m'
    unfold keyVal
    rw [habs]
    unfold rndKey
    by_cases hneg : v < 0
    · rw [if_pos hneg, if_pos hneg]
      by_cases h0 : roundMag m.fz v.natAbs = 0
      · rw [h0, mag149_zero]; simp
      · rw [if_pos (by omega)]
    · rw [if_neg hneg, if_neg hneg, if_neg (by omega)]
  refine ⟨by rw [habs]; exact s1, by rw [hkv m, hkv ieee, hmode], ?_⟩
  rw [hkv ieee]
  have hA0 : v = 0 → mag149 ieee (roundMag m.fz v.natAbs) = 0 := by
    intro h; rw [h, Int.natAbs_zero, roundMag_zero, mag149_zero]
  generalize mag149 ieee (roundMag m.fz v.natAbs) = A at s2 s3 s4 s5 hA0 ⊢
  by_cases hneg : v < 0
  · rw [if_pos hneg]
    refine ⟨fun h => by omega, fun _ => by omega, by omega, by omega, fun h => ?_⟩
    obtain ⟨t1, t2⟩ := s5 h
    omega
  · rw [if_neg hneg]
    refine ⟨fun _ => by omega, fun h => ?_, by omega, by omega, fun h => ?_⟩
    · have := hA0 (by omega)
      omega
    · obtain ⟨t1, t2⟩ := s5 h
      omega
/-! ## The normal domain -/

theorem ordVal_of_isFinite (m : FPMode) (b : Nat) (h : isFinite b = true) :
    ordVal m b = val149 m b := by
  unfold ordVal; rw [not_isInf_of_isFinite b h]; simp

theorem val149_zero (m : FPMode) : val149 m 0 = 0 := by
  unfold val149; rw [mag149_zero]; simp

/-- A value of a finite pattern is below `2 ^ 277` in units of `2 ^ -149`. -/
theorem mag149_lt (m : FPMode) (b : Nat) (h : isFinite b = true) : mag149 m b < 2 ^ 277 := by
  rw [isFinite_iff] at h
  have h1 := mag149_mono_mode m (absBits b) 0x7F7FFFFF (absBits_lt b) (by norm_num) (by omega)
  rw [mag149_absBits] at h1
  have h2 : mag149 m 0x7F7FFFFF < 2 ^ 277 := by
    rw [mag149_eq_ieee m _ (by decide)]
    decide!
  omega

/-- In the domain the input is finite and its value, in either denormal mode, lies
between the cutoff and zero; flushing moves it by less than `2 ^ -126`. -/
theorem inDomain_val (m : FPMode) (x : Nat) (h : inDomain x) :
    isFinite x = true ∧
    -((11447375 * 2 ^ 132 : Nat) : Int) ≤ val149 ieee x ∧ val149 ieee x ≤ 0 ∧
    -((11447375 * 2 ^ 132 : Nat) : Int) ≤ val149 m x ∧ val149 m x ≤ 0 ∧
    val149 ieee x ≤ val149 m x ∧ val149 m x - val149 ieee x < 2 ^ 23 := by
  obtain ⟨⟨_, hn, h1⟩, ⟨_, _, h2⟩⟩ := h
  rw [ordVal_cutoff] at h1
  have h0 : ordVal ieee 0 = 0 := by decide
  rw [h0] at h2
  have hfin : isFinite x = true := by
    rw [isFinite_iff]
    by_contra hc
    have hinf : isInf x = true := by
      unfold isNaN at hn
      unfold isInf
      simp only [decide_eq_false_iff_not, decide_eq_true_eq] at hn ⊢
      omega
    unfold ordVal at h1 h2
    rw [hinf] at h1 h2
    simp only [if_true] at h1 h2
    by_cases hs : signBit x = 1
    · rw [if_pos hs] at h1
      norm_num at h1
    · rw [if_neg hs] at h2
      norm_num at h2
  rw [ordVal_of_isFinite ieee x hfin] at h1 h2
  refine ⟨hfin, h1, h2, ?_⟩
  by_cases hnorm : 2 ^ 23 ≤ absBits x
  · rw [val149_eq_ieee m x hnorm]
    exact ⟨h1, h2, Int.le_refl _, by omega⟩
  · have hd : absBits x < 2 ^ 23 := by omega
    have e1 : val149 ieee x = if signBit x = 1 then -(absBits x : Int) else (absBits x : Int) := by
      unfold val149; rw [mag149_of_denormal ieee x hd]; simp [ieee]
    have e2 : val149 m x = if signBit x = 1 then -((if m.fz then 0 else absBits x : Nat) : Int)
        else ((if m.fz then 0 else absBits x : Nat) : Int) := by
      unfold val149; rw [mag149_of_denormal m x hd]
    rw [e1] at h1 h2 ⊢
    rw [e2]
    split <;> split <;> simp_all

theorem val149_magic_bias (m : FPMode) :
    val149 m magic_bias = ((12582912 * 2 ^ 149 : Nat) : Int) := by
  obtain ⟨dn, fz⟩ := m
  cases dn <;> cases fz <;> decide!

theorem val149_log2e (m : FPMode) :
    val149 m log2e_x2048 = ((12102203 * 2 ^ 137 : Nat) : Int) := by
  obtain ⟨dn, fz⟩ := m
  cases dn <;> cases fz <;> decide!

theorem val149_hi (m : FPMode) :
    val149 m minus_ln2_o2048_hi = -((11629080 * 2 ^ 114 : Nat) : Int) := by
  obtain ⟨dn, fz⟩ := m
  cases dn <;> cases fz <;> decide!

theorem val149_lo (m : FPMode) :
    val149 m minus_ln2_o2048_lo = ((8577800 * 2 ^ 86 : Nat) : Int) := by
  obtain ⟨dn, fz⟩ := m
  cases dn <;> cases fz <;> decide!

theorem val149_c1 (m : FPMode) : val149 m c1 = ((16777215 * 2 ^ 125 : Nat) : Int) := by
  obtain ⟨dn, fz⟩ := m
  cases dn <;> cases fz <;> decide!

/-! ## The reduced argument -/

theorem isFinite_magic_bias : isFinite magic_bias = true := by decide

theorem isFinite_log2e : isFinite log2e_x2048 = true := by decide

theorem isFinite_hi : isFinite minus_ln2_o2048_hi = true := by decide

theorem isFinite_lo : isFinite minus_ln2_o2048_lo = true := by decide

theorem isFinite_c1 : isFinite c1 = true := by decide

theorem exact_vn (m : FPMode) (x : Nat) :
    exactMulAdd m magic_bias x log2e_x2048
      = 12582912 * 2 ^ 298 + val149 m x * (12102203 * 2 ^ 137) := by
  unfold exactMulAdd
  rw [val149_magic_bias, val149_log2e]
  omega

theorem exact_vn_bounds (m : FPMode) (x : Nat) (h : inDomain x) :
    12324864 * 2 ^ 298 ≤ exactMulAdd m magic_bias x log2e_x2048 ∧
    exactMulAdd m magic_bias x log2e_x2048 ≤ 12582912 * 2 ^ 298 := by
  obtain ⟨_, _, _, h1, h2, _⟩ := inDomain_val m x h
  rw [exact_vn]
  constructor <;> omega

/-- In the domain `vn` is `0x4A800000 + M` with `M` the integer nearest to the exact
`magic_bias + x * log2e_x2048`: the rounding quantum there is 1. -/
theorem lane_vn_spec (m : FPMode) (x : Nat) (h : inDomain x) :
    lane_vn m x = 0x4A800000 + roundMant (exactMulAdd m magic_bias x log2e_x2048).natAbs 298 ∧
    12324864 ≤ roundMant (exactMulAdd m magic_bias x log2e_x2048).natAbs 298 ∧
    roundMant (exactMulAdd m magic_bias x log2e_x2048).natAbs 298 ≤ 12582912 := by
  obtain ⟨hfin, _⟩ := inDomain_val m x h
  obtain ⟨hlo, hhi⟩ := exact_vn_bounds m x h
  have hpos : 0 < exactMulAdd m magic_bias x log2e_x2048 := by
    have : (0 : Int) < 12324864 * 2 ^ 298 := by norm_num
    omega
  have hvn : lane_vn m x = roundMag m.fz (exactMulAdd m magic_bias x log2e_x2048).natAbs := by
    unfold lane_vn
    rw [(fpMulAdd_finite m magic_bias x log2e_x2048 isFinite_magic_bias hfin isFinite_log2e).2
      (by omega)]
    unfold fpRound
    rw [if_neg (by omega), Nat.zero_add]
  rw [hvn]
  have hn1 : 12324864 * 2 ^ 298 ≤ (exactMulAdd m magic_bias x log2e_x2048).natAbs := by omega
  have hn2 : (exactMulAdd m magic_bias x log2e_x2048).natAbs ≤ 12582912 * 2 ^ 298 := by omega
  generalize (exactMulAdd m magic_bias x log2e_x2048).natAbs = n at hn1 hn2
  have hm1 := roundMant_mono _ _ 298 (by norm_num) hn1
  have hm2 := roundMant_mono _ _ 298 (by norm_num) hn2
  have e1 : roundMant (12324864 * 2 ^ 298) 298 = 12324864 := by decide!
  have e2 : roundMant (12582912 * 2 ^ 298) 298 = 12582912 := by decide!
  rw [e1] at hm1
  rw [e2] at hm2
  refine ⟨?_, hm1, hm2⟩
  have hil : ilog2 n = 321 := ilog2_unique n 321 (by omega) (by omega)
  have hsh : roundShift n = 298 := by unfold roundShift; omega
  rw [roundMag_noflush m.fz n (by omega), roundMag_ieee, hsh]
  omega

/-- In the domain `vn` lies between `0x4B3C1000` and the magic bias, and `N` is within
one half of the exact `x * log2e_x2048`. -/
theorem lane_N_spec (m : FPMode) (x : Nat) (h : inDomain x) :
    0x4B3C1000 ≤ lane_vn m x ∧ lane_vn m x ≤ 0x4B400000 ∧
    -258048 ≤ lane_N m x ∧ lane_N m x ≤ 0 ∧
    lane_N m x * 2 ^ 161 - val149 m x * 12102203 ≤ 2 ^ 160 ∧
    val149 m x * 12102203 - lane_N m x * 2 ^ 161 ≤ 2 ^ 160 := by
  obtain ⟨h1, h2, h3⟩ := lane_vn_spec m x h
  obtain ⟨hlo, _⟩ := exact_vn_bounds m x h
  have hpos : 0 < exactMulAdd m magic_bias x log2e_x2048 := by
    have : (0 : Int) < 12324864 * 2 ^ 298 := by norm_num
    omega
  obtain ⟨e1, e2⟩ := roundMant_err (exactMulAdd m magic_bias x log2e_x2048).natAbs 298
    (by norm_num)
  have hv := exact_vn m x
  unfold lane_N
  rw [h1]
  generalize roundMant (exactMulAdd m magic_bias x log2e_x2048).natAbs 298 = M at *
  refine ⟨by omega, by omega, by omega, by omega, ?_, ?_⟩ <;> omega

/-- An integer of at most 24 bits times a power of two from `2 ^ -126` up is rounded to
itself. -/
theorem rndKey_exact (m : FPMode) (c : Int) (j : Nat) (hc : c.natAbs < 2 ^ 24)
    (hj1 : 172 ≤ j) (hj2 : j < 400) :
    keyVal ieee (rndKey m.fz (c * 2 ^ j)) * 2 ^ 149 = c * 2 ^ j ∧
    keyVal m (rndKey m.fz (c * 2 ^ j)) = keyVal ieee (rndKey m.fz (c * 2 ^ j)) ∧
    (rndKey m.fz (c * 2 ^ j)).natAbs < 0x7F800000 := by
  have hp : (0 : Int) < 2 ^ j := by positivity
  have hnat : (c * 2 ^ j).natAbs = c.natAbs * 2 ^ j := by
    rw [Int.natAbs_mul, Int.natAbs_pow]; rfl
  have hle : (c * 2 ^ j).natAbs ≤ 2 ^ (24 + j) := by
    rw [hnat, Nat.pow_add]
    exact Nat.mul_le_mul_right _ (by omega)
  obtain ⟨s1, s2, _⟩ := rndKey_spec m (c * 2 ^ j) (24 + j) (by omega) (by omega) hle
  refine ⟨?_, s2, s1⟩
  by_cases hc0 : c = 0
  · subst hc0
    simp [rndKey_zero, keyVal, mag149_zero]
  have hcpos : 0 < c.natAbs := by omega
  have hn172 : 2 ^ 172 ≤ c.natAbs * 2 ^ j :=
    calc 2 ^ 172 ≤ 2 ^ j := Nat.pow_le_pow_right (by norm_num) hj1
      _ = 1 * 2 ^ j := by rw [Nat.one_mul]
      _ ≤ c.natAbs * 2 ^ j := Nat.mul_le_mul_right _ hcpos
  have hfin : roundMag false (c.natAbs * 2 ^ j) < 0x7F800000 := by
    have := natAbs_rndKey m.fz (c * 2 ^ j)
    rw [hnat, roundMag_noflush m.fz _ hn172] at this
    omega
  have hex := roundMag_exact (c.natAbs * 2 ^ j) (Nat.mul_pos hcpos (Nat.two_pow_pos _)) hfin
    (quantum_dvd c.natAbs j hcpos hc (by omega))
  have hr0 : 0 < roundMag false (c.natAbs * 2 ^ j) := by
    by_contra h0
    have : roundMag false (c.natAbs * 2 ^ j) = 0 := by omega
    rw [this, mag149_zero] at hex
    have : 0 < c.natAbs * 2 ^ j := Nat.mul_pos hcpos (Nat.two_pow_pos _)
    omega
  unfold keyVal rndKey
  rw [hnat, roundMag_noflush m.fz _ hn172]
  by_cases hneg : c < 0
  · have hv : c * 2 ^ j < 0 := Int.mul_neg_of_neg_of_pos hneg hp
    rw [if_pos hv, if_pos (by omega), Int.natAbs_neg, Int.natAbs_ofNat]
    have hcast := congrArg (Nat.cast : Nat → Int) hex
    simp only [Nat.cast_mul, Nat.cast_pow, Nat.cast_ofNat] at hcast
    have hcabs : (c.natAbs : Int) = -c := by omega
    rw [hcabs] at hcast
    linarith
  · have hv : ¬ c * 2 ^ j < 0 := by
      have : 0 ≤ c * 2 ^ j := Int.mul_nonneg (by omega) (by omega)
      omega
    rw [if_neg hv, if_neg (by omega), Int.natAbs_ofNat]
    have hcast := congrArg (Nat.cast : Nat → Int) hex
    simp only [Nat.cast_mul, Nat.cast_pow, Nat.cast_ofNat] at hcast
    have hcabs : (c.natAbs : Int) = c := by omega
    rw [hcabs] at hcast
    linarith

/-- The value of a pattern in the binade of `magic_bias`, where the step is 1. -/
theorem val149_vn (m : FPMode) (M : Nat) (h1 : 2 ^ 23 ≤ M) (h2 : M < 2 ^ 24) :
    val149 m (0x4A800000 + M) = ((M * 2 ^ 149 : Nat) : Int) ∧
    isFinite (0x4A800000 + M) = true := by
  have hs : signBit (0x4A800000 + M) = 0 := by unfold signBit; omega
  have ha : absBits (0x4A800000 + M) = 0x4A800000 + M := by unfold absBits; omega
  constructor
  · unfold val149
    rw [hs, if_neg (by decide), mag149_eq_ieee m _ (by rw [ha]; omega)]
    have := mag149_enc 149 M (by omega) (Or.inr h1) (by omega)
    rw [show 149 * 2 ^ 23 + M = 0x4A800000 + M by omega] at this
    rw [this]
  · rw [isFinite_iff, ha]; omega

/-- The subtraction of the bias is exact: the value of `n` is the integer `N`. -/
theorem lane_n_spec (m : FPMode) (x : Nat) (h : inDomain x) :
    isFinite (lane_n m (lane_vn m x)) = true ∧
    val149 m (lane_n m (lane_vn m x)) = lane_N m x * 2 ^ 149 ∧
    val149 ieee (lane_n m (lane_vn m x)) = lane_N m x * 2 ^ 149 := by
  obtain ⟨h1, h2, h3⟩ := lane_vn_spec m x h
  obtain ⟨_, _, n1, n2, _⟩ := lane_N_spec m x h
  have hN : lane_N m x
      = (roundMant (exactMulAdd m magic_bias x log2e_x2048).natAbs 298 : Int) - 12582912 := by
    unfold lane_N; rw [h1]; omega
  generalize roundMant (exactMulAdd m magic_bias x log2e_x2048).natAbs 298 = M at *
  obtain ⟨hval, hfin⟩ := val149_vn m M (by omega) (by omega)
  have hex : exactSub m (lane_vn m x) magic_bias = lane_N m x * 2 ^ 298 := by
    unfold exactSub
    rw [h1, hval, val149_magic_bias, hN]
    omega
  have hkey := ordKey_fpSub m (lane_vn m x) magic_bias (by rw [h1]; exact hfin) isFinite_magic_bias
  rw [hex] at hkey
  obtain ⟨e1, e2, e3⟩ := rndKey_exact m (lane_N m x) 298 (by omega) (by norm_num) (by norm_num)
  have e4 : keyVal ieee (rndKey m.fz (lane_N m x * 2 ^ 298)) = lane_N m x * 2 ^ 149 := by
    omega
  refine ⟨?_, ?_, ?_⟩
  · unfold lane_n; rw [isFinite_iff_key, hkey]; exact e3
  · unfold lane_n; rw [val149_eq_keyVal, hkey, e2, e4]
  · unfold lane_n; rw [val149_eq_keyVal, hkey, e4]

/-! ## The scale -/

theorem xor_mod_2048 (a : Nat) : a ^^^ (a % 2 ^ 11) = 2 ^ 11 * (a / 2 ^ 11) := by
  apply Nat.eq_of_testBit_eq
  intro i
  rw [Nat.testBit_xor, Nat.testBit_mod_two_pow, Nat.testBit_mul_pow_two,
    ← Nat.shiftRight_eq_div_pow, Nat.testBit_shiftRight]
  by_cases h : i < 11
  · have : ¬ i ≥ 11 := by omega
    simp [h, this]
  · have h2 : i ≥ 11 := by omega
    simp [h, h2, show 11 + (i - 11) = i by omega]

theorem bic_7FF (a : Nat) (h : a < 2 ^ 32) : a &&& (0xFFFFFFFF ^^^ 0x7FF) = a - a % 2048 := by
  rw [Nat.and_xor_distrib_left, and_all_ones, and_7FF, Nat.mod_eq_of_lt h]
  have := xor_mod_2048 a
  norm_num at this
  rw [this]
  omega

theorem lane_ve_eq (vn : Nat) (h : vn < 2 ^ 32) :
    lane_ve vn = (vn - vn % 2048) * 4096 % 2 ^ 32 := by
  unfold lane_ve
  rw [bic_7FF vn h, Nat.shiftLeft_eq]

theorem lane_l_bounds (vn : Nat) : 0x3F800000 ≤ lane_l vn ∧ lane_l vn < 0x40000000 :=
  exp2_table_bounds _ (lane_idx_lt vn)

/-- In the range of `vn` the exponent adjustment `e = vn / 2048 - 0x96800` lies in
`-126 .. 0` and the scale is the table entry with `e` added to its exponent field. -/
theorem lane_s_eq (vn : Nat) (h1 : 0x4B3C1000 ≤ vn) (h2 : vn ≤ 0x4B400000) :
    0x96800 - vn / 2048 ≤ 126 ∧
    lane_s vn = lane_l vn - (0x96800 - vn / 2048) * 2 ^ 23 := by
  obtain ⟨l1, l2⟩ := lane_l_bounds vn
  unfold lane_s
  rw [lane_ve_eq vn (by omega)]
  constructor <;> omega

/-- The value of the scale: the significand of the table entry with the exponent moved
down by `0x96800 - vn / 2048`; a normal number in every mode. -/
theorem lane_s_val (m : FPMode) (vn : Nat) (h1 : 0x4B3C1000 ≤ vn) (h2 : vn ≤ 0x4B400000) :
    isFinite (lane_s vn) = true ∧
    val149 m (lane_s vn)
      = ((significand (lane_l vn) * 2 ^ (126 - (0x96800 - vn / 2048)) : Nat) : Int) := by
  obtain ⟨l1, l2⟩ := lane_l_bounds vn
  obtain ⟨hd, hs⟩ := lane_s_eq vn h1 h2
  have hsig := significand_unit (lane_l vn) l1 l2
  have hpat : lane_s vn = (126 - (0x96800 - vn / 2048)) * 2 ^ 23 + significand (lane_l vn) := by
    rw [hs, hsig]; omega
  have hsb := significand_bounds (lane_l vn)
  have hlt : lane_s vn < 0x40000000 := by omega
  have hge : 2 ^ 23 ≤ lane_s vn := by omega
  have hsign : signBit (lane_s vn) = 0 := by unfold signBit; omega
  have habs : absBits (lane_s vn) = lane_s vn := by unfold absBits; omega
  constructor
  · rw [isFinite_iff, habs]; omega
  · unfold val149
    rw [hsign, if_neg (by decide), mag149_eq_ieee m _ (by rw [habs]; exact hge)]
    rw [hpat, mag149_enc _ _ (by omega) (Or.inr hsb.1) (by omega)]

/-! ## Results of operations with a bounded exact value -/

/-- What is known of a result whose key is the rounding of the exact value `v`, when the
magnitude of `v` is at most `2 ^ k` in units of `2 ^ -298`. -/
theorem result_spec (m : FPMode) (r : Nat) (v : Int) (k : Nat)
    (hkey : ordKey r = rndKey m.fz v) (hk1 : 172 ≤ k) (hk2 : k < 426) (hv : v.natAbs ≤ 2 ^ k) :
    isFinite r = true ∧ val149 m r = val149 ieee r ∧
    (0 ≤ v → 0 ≤ val149 ieee r) ∧ (v ≤ 0 → val149 ieee r ≤ 0) ∧
    (val149 ieee r * 2 ^ 149).natAbs ≤ 2 ^ k ∧
    (val149 ieee r * 2 ^ 149 - v).natAbs ≤ v.natAbs / 2 ^ 24 + 2 ^ 172 ∧
    (2 ^ 172 ≤ v.natAbs → (val149 ieee r * 2 ^ 149 - v).natAbs ≤ v.natAbs / 2 ^ 24) := by
  obtain ⟨s1, s2, s3⟩ := rndKey_spec m v k hk1 hk2 hv
  rw [isFinite_iff_key, val149_eq_keyVal m r, val149_eq_keyVal ieee r, hkey]
  exact ⟨s1, s2, s3⟩

theorem natAbs_le_two_pow_of_mul (a : Int) (k : Nat) (hk : 149 ≤ k)
    (h : (a * 2 ^ 149).natAbs ≤ 2 ^ k) : a.natAbs ≤ 2 ^ (k - 149) := by
  have e : (a * 2 ^ 149).natAbs = a.natAbs * 2 ^ 149 := by
    rw [Int.natAbs_mul, Int.natAbs_pow]; rfl
  rw [e, show k = (k - 149) + 149 by omega, Nat.pow_add] at h
  have := Nat.le_of_mul_le_mul_right h (Nat.two_pow_pos 149)
  exact this

/-- The magnitude of `a * P + b * c` from bounds on the factors. -/
theorem natAbs_muladd_le (a b c : Int) (i j l k : Nat) (ha : a.natAbs ≤ 2 ^ i)
    (hb : b.natAbs ≤ 2 ^ j) (hc : c.natAbs ≤ 2 ^ l) (h1 : i + 149 + 1 ≤ k) (h2 : j + l + 1 ≤ k) :
    (a * ((2 ^ 149 : Nat) : Int) + b * c).natAbs ≤ 2 ^ k := by
  have e1 : (a * ((2 ^ 149 : Nat) : Int)).natAbs ≤ 2 ^ (k - 1) := by
    rw [Int.natAbs_mul, Int.natAbs_ofNat]
    calc a.natAbs * 2 ^ 149 ≤ 2 ^ i * 2 ^ 149 := Nat.mul_le_mul_right _ ha
      _ = 2 ^ (i + 149) := by rw [Nat.pow_add]
      _ ≤ 2 ^ (k - 1) := Nat.pow_le_pow_right (by norm_num) (by omega)
  have e2 : (b * c).natAbs ≤ 2 ^ (k - 1) := by
    rw [Int.natAbs_mul]
    calc b.natAbs * c.natAbs ≤ 2 ^ j * 2 ^ l := Nat.mul_le_mul hb hc
      _ = 2 ^ (j + l) := by rw [Nat.pow_add]
      _ ≤ 2 ^ (k - 1) := Nat.pow_le_pow_right (by norm_num) (by omega)
  have e3 : 2 ^ k = 2 ^ (k - 1) + 2 ^ (k - 1) := by
    rw [show k = (k - 1) + 1 by omega, Nat.pow_succ]; simp; omega
  have := Int.natAbs_add_le (a * ((2 ^ 149 : Nat) : Int)) (b * c)
  omega

theorem natAbs_mul_le (b c : Int) (j l k : Nat) (hb : b.natAbs ≤ 2 ^ j)
    (hc : c.natAbs ≤ 2 ^ l) (h2 : j + l ≤ k) : (b * c).natAbs ≤ 2 ^ k := by
  rw [Int.natAbs_mul]
  calc b.natAbs * c.natAbs ≤ 2 ^ j * 2 ^ l := Nat.mul_le_mul hb hc
    _ = 2 ^ (j + l) := by rw [Nat.pow_add]
    _ ≤ 2 ^ k := Nat.pow_le_pow_right (by norm_num) h2

/-! ## The stages in the domain -/

theorem natAbs_val_hi (m : FPMode) : (val149 m minus_ln2_o2048_hi).natAbs ≤ 2 ^ 138 := by
  rw [val149_hi]; decide!

theorem natAbs_val_lo (m : FPMode) : (val149 m minus_ln2_o2048_lo).natAbs ≤ 2 ^ 110 := by
  rw [val149_lo]; decide!

theorem natAbs_val_c1 (m : FPMode) : (val149 m c1).natAbs ≤ 2 ^ 149 := by
  rw [val149_c1]; decide!

/-- The four floating-point stages after the scale, for an input in the domain: each
result is finite, its key is the rounding of the exact value of its operation, its value
is the same with and without flush-to-zero, and it is within the rounding error of the
exact value (for the last stage: within the relative error when the exact value is at
least `2 ^ -126`). -/
theorem stages_finite (m : FPMode) (x : Nat) (h : inDomain x) :
    (isFinite (lane_t_hi m x (lane_n m (lane_vn m x))) = true ∧
      ordKey (lane_t_hi m x (lane_n m (lane_vn m x)))
        = rndKey m.fz (exactMulAdd m x (lane_n m (lane_vn m x)) minus_ln2_o2048_hi) ∧
      val149 m (lane_t_hi m x (lane_n m (lane_vn m x)))
        = val149 ieee (lane_t_hi m x (lane_n m (lane_vn m x))) ∧
      (val149 ieee (lane_t_hi m x (lane_n m (lane_vn m x))) * 2 ^ 149
          - exactMulAdd m x (lane_n m (lane_vn m x)) minus_ln2_o2048_hi).natAbs
        ≤ (exactMulAdd m x (lane_n m (lane_vn m x)) minus_ln2_o2048_hi).natAbs / 2 ^ 24
          + 2 ^ 172) ∧
    (isFinite (lane_t m x (lane_n m (lane_vn m x))) = true ∧
      ordKey (lane_t m x (lane_n m (lane_vn m x)))
        = rndKey m.fz (exactMulAdd m (lane_t_hi m x (lane_n m (lane_vn m x)))
            (lane_n m (lane_vn m x)) minus_ln2_o2048_lo) ∧
      val149 m (lane_t m x (lane_n m (lane_vn m x)))
        = val149 ieee (lane_t m x (lane_n m (lane_vn m x))) ∧
      (val149 ieee (lane_t m x (lane_n m (lane_vn m x))) * 2 ^ 149
          - exactMulAdd m (lane_t_hi m x (lane_n m (lane_vn m x)))
            (lane_n m (lane_vn m x)) minus_ln2_o2048_lo).natAbs
        ≤ (exactMulAdd m (lane_t_hi m x (lane_n m (lane_vn m x)))
            (lane_n m (lane_vn m x)) minus_ln2_o2048_lo).natAbs / 2 ^ 24 + 2 ^ 172) ∧
    (isFinite (lane_p m (lane_t m x (lane_n m (lane_vn m x)))) = true ∧
      ordKey (lane_p m (lane_t m x (lane_n m (lane_vn m x))))
        = rndKey m.fz (exactMul m (lane_t m x (lane_n m (lane_vn m x))) c1) ∧
      val149 m (lane_p m (lane_t m x (lane_n m (lane_vn m x))))
        = val149 ieee (lane_p m (lane_t m x (lane_n m (lane_vn m x)))) ∧
      (val149 ieee (lane_p m (lane_t m x (lane_n m (lane_vn m x)))) * 2 ^ 149
          - exactMul m (lane_t m x (lane_n m (lane_vn m x))) c1).natAbs
        ≤ (exactMul m (lane_t m x (lane_n m (lane_vn m x))) c1).natAbs / 2 ^ 24 + 2 ^ 172) ∧
    (isFinite (lane_f m x) = true ∧
      ordKey (lane_f m x)
        = rndKey m.fz (exactMulAdd m (lane_s (lane_vn m x)) (lane_s (lane_vn m x))
            (lane_p m (lane_t m x (lane_n m (lane_vn m x))))) ∧
      (2 ^ 172 ≤ (exactMulAdd m (lane_s (lane_vn m x)) (lane_s (lane_vn m x))
            (lane_p m (lane_t m x (lane_n m (lane_vn m x))))).natAbs →
        (val149 ieee (lane_f m x) * 2 ^ 149
            - exactMulAdd m (lane_s (lane_vn m x)) (lane_s (lane_vn m x))
              (lane_p m (lane_t m x (lane_n m (lane_vn m x))))).natAbs
          ≤ (exactMulAdd m (lane_s (lane_vn m x)) (lane_s (lane_vn m x))
              (lane_p m (lane_t m x (lane_n m (lane_vn m x))))).natAbs / 2 ^ 24)) := by
  obtain ⟨hxfin, _, _, hx1, hx2, _⟩ := inDomain_val m x h
  obtain ⟨v1, v2, n1, n2, _⟩ := lane_N_spec m x h
  obtain ⟨hnfin, hnval, _⟩ := lane_n_spec m x h
  obtain ⟨hsfin, hsval⟩ := lane_s_val m (lane_vn m x) v1 v2
  have hxabs : (val149 m x).natAbs ≤ 2 ^ 156 := by omega
  have hnabs : (val149 m (lane_n m (lane_vn m x))).natAbs ≤ 2 ^ 167 := by
    rw [hnval]; omega
  unfold lane_f lane_p lane_t lane_t_hi
  generalize lane_n m (lane_vn m x) = n at *
  -- first Cody-Waite step
  have k1 := ordKey_fpMulAdd m x n minus_ln2_o2048_hi hxfin hnfin isFinite_hi
  have b1 := natAbs_muladd_le _ _ _ 156 167 138 306 hxabs hnabs (natAbs_val_hi m)
    (by norm_num) (by norm_num)
  rw [← exactMulAdd] at b1
  obtain ⟨f1, m1, _, _, a1, r1, _⟩ := result_spec m _ _ 306 k1 (by norm_num) (by norm_num) b1
  have a1' : (val149 m (fpMulAdd m x n minus_ln2_o2048_hi)).natAbs ≤ 2 ^ 157 := by
    rw [m1]; exact natAbs_le_two_pow_of_mul _ 306 (by norm_num) a1
  -- second Cody-Waite step
  have k2 := ordKey_fpMulAdd m (fpMulAdd m x n minus_ln2_o2048_hi) n minus_ln2_o2048_lo
    f1 hnfin isFinite_lo
  have b2 := natAbs_muladd_le _ _ _ 157 167 110 307 a1' hnabs (natAbs_val_lo m)
    (by norm_num) (by norm_num)
  rw [← exactMulAdd] at b2
  obtain ⟨f2, m2, _, _, a2, r2, _⟩ := result_spec m _ _ 307 k2 (by norm_num) (by norm_num) b2
  have a2' : (val149 m (fpMulAdd m (fpMulAdd m x n minus_ln2_o2048_hi) n
      minus_ln2_o2048_lo)).natAbs ≤ 2 ^ 158 := by
    rw [m2]; exact natAbs_le_two_pow_of_mul _ 307 (by norm_num) a2
  -- polynomial term
  have k3 := ordKey_fpMul m (fpMulAdd m (fpMulAdd m x n minus_ln2_o2048_hi) n
    minus_ln2_o2048_lo) c1 f2 isFinite_c1
  have b3 := natAbs_mul_le _ _ 158 149 307 a2' (natAbs_val_c1 m) (by norm_num)
  rw [← exactMul] at b3
  obtain ⟨f3, m3, _, _, a3, r3, _⟩ := result_spec m _ _ 307 k3 (by norm_num) (by norm_num) b3
  have a3' : (val149 m (fpMul m (fpMulAdd m (fpMulAdd m x n minus_ln2_o2048_hi) n
      minus_ln2_o2048_lo) c1)).natAbs ≤ 2 ^ 158 := by
    rw [m3]; exact natAbs_le_two_pow_of_mul _ 307 (by norm_num) a3
  -- reconstruction
  have hsabs : (val149 m (lane_s (lane_vn m x))).natAbs ≤ 2 ^ 150 := by
    rw [hsval, Int.natAbs_ofNat]
    have hsb := significand_bounds (lane_l (lane_vn m x))
    calc significand (lane_l (lane_vn m x)) * 2 ^ (126 - (0x96800 - lane_vn m x / 2048))
        ≤ 2 ^ 24 * 2 ^ 126 := Nat.mul_le_mul (by omega)
          (Nat.pow_le_pow_right (by norm_num) (by omega))
      _ = 2 ^ 150 := by rw [← Nat.pow_add]
  have k4 := ordKey_fpMulAdd m (lane_s (lane_vn m x)) (lane_s (lane_vn m x))
    (fpMul m (fpMulAdd m (fpMulAdd m x n minus_ln2_o2048_hi) n minus_ln2_o2048_lo) c1)
    hsfin hsfin f3
  have b4 := natAbs_muladd_le _ _ _ 150 150 158 309 hsabs hsabs a3' (by norm_num) (by norm_num)
  rw [← exactMulAdd] at b4
  obtain ⟨f4, _, _, _, _, _, r4⟩ := result_spec m _ _ 309 k4 (by norm_num) (by norm_num) b4
  exact ⟨⟨f1, k1, m1, r1⟩, ⟨f2, k2, m2, r2⟩, ⟨f3, k3, m3, r3⟩, ⟨f4, k4, r4⟩⟩

/-! ## Monotonicity inside one table segment -/

theorem ordKey_natAbs_lt (b : Nat) : (ordKey b).natAbs < 2 ^ 31 := by
  have := absBits_lt b
  unfold ordKey
  split <;> simp only [Int.natAbs_neg, Int.natAbs_ofNat] <;> exact this

/-- Values are ordered like keys, in every mode. -/
theorem val149_mono_of_key (m : FPMode) (a b : Nat) (h : ordKey a ≤ ordKey b) :
    val149 m a ≤ val149 m b := by
  rw [val149_eq_keyVal m a, val149_eq_keyVal m b]
  exact keyVal_mono m _ _ (ordKey_natAbs_lt a) (ordKey_natAbs_lt b) h

theorem key_le_of_val149_lt (a b : Nat) (h : val149 ieee a < val149 ieee b) :
    ordKey a ≤ ordKey b := by
  by_contra hc
  have := val149_mono_of_key ieee b a (by omega)
  omega

theorem ordKey_mod (f : Nat) : ordKey (f % 2 ^ 32) = ordKey f := by
  unfold ordKey signBit absBits
  rw [show f % 2 ^ 32 / 2 ^ 31 % 2 = f / 2 ^ 31 % 2 by omega,
    show f % 2 ^ 32 % 2 ^ 31 = f % 2 ^ 31 by omega]

theorem isFinite_mod (f : Nat) : isFinite (f % 2 ^ 32) = isFinite f := by
  unfold isFinite absBits
  rw [show f % 2 ^ 32 % 2 ^ 31 = f % 2 ^ 31 by omega]

/-- In the domain the clamp leaves the result alone. -/
theorem lane_mask_inDomain (m : FPMode) (x : Nat) (h : inDomain x) : lane_mask m x = 0 := by
  obtain ⟨hfin, _, _, h1, _⟩ := inDomain_val m x h
  unfold lane_mask fpCompareGT
  rw [not_isNaN_of_isFinite x hfin, ordVal_cutoff, ordVal_of_isFinite m x hfin]
  have : isNaN denorm_cutoff = false := by decide
  rw [this]
  simp only [Bool.or_self, Bool.false_eq_true, if_false, decide_eq_true_eq]
  rw [if_neg (by omega)]

theorem expminus_lane_inDomain (m : FPMode) (x : Nat) (h : inDomain x) :
    expminus_lane m x = lane_f m x % 2 ^ 32 := by
  unfold expminus_lane
  rw [lane_mask_inDomain m x h, bic_zero]

/-- Two inputs of the domain with the same `vn`: every stage keeps their order. -/
theorem lane_f_mono (m : FPMode) (x1 x2 : Nat) (h1 : inDomain x1) (h2 : inDomain x2)
    (hlt : val149 ieee x1 < val149 ieee x2) (hvn : lane_vn m x1 = lane_vn m x2) :
    ordKey (lane_f m x1) ≤ ordKey (lane_f m x2) := by
  obtain ⟨⟨_, ka1, _⟩, ⟨_, kb1, _⟩, ⟨_, kc1, _⟩, ⟨_, kd1, _⟩⟩ := stages_finite m x1 h1
  obtain ⟨⟨_, ka2, _⟩, ⟨_, kb2, _⟩, ⟨_, kc2, _⟩, ⟨_, kd2, _⟩⟩ := stages_finite m x2 h2
  obtain ⟨v1, v2, _⟩ := lane_N_spec m x2 h2
  obtain ⟨_, hsval⟩ := lane_s_val m (lane_vn m x2) v1 v2
  have hP : (0 : Int) ≤ ((2 ^ 149 : Nat) : Int) := Int.ofNat_nonneg _
  have hx : val149 m x1 ≤ val149 m x2 := val149_mono_of_key m x1 x2 (key_le_of_val149_lt x1 x2 hlt)
  rw [hvn] at ka1 kb1 kc1 kd1
  generalize lane_n m (lane_vn m x2) = n at *
  -- first Cody-Waite step
  have ea : ordKey (lane_t_hi m x1 n) ≤ ordKey (lane_t_hi m x2 n) := by
    rw [ka1, ka2]
    apply rndKey_mono
    unfold exactMulAdd
    have := Int.mul_le_mul_of_nonneg_right hx hP
    omega
  have va := val149_mono_of_key m _ _ ea
  -- second Cody-Waite step
  have eb : ordKey (lane_t m x1 n) ≤ ordKey (lane_t m x2 n) := by
    rw [kb1, kb2]
    apply rndKey_mono
    unfold exactMulAdd
    have := Int.mul_le_mul_of_nonneg_right va hP
    omega
  have vb := val149_mono_of_key m _ _ eb
  -- polynomial term
  have ec : ordKey (lane_p m (lane_t m x1 n)) ≤ ordKey (lane_p m (lane_t m x2 n)) := by
    rw [kc1, kc2]
    apply rndKey_mono
    unfold exactMul
    exact Int.mul_le_mul_of_nonneg_right vb (by rw [val149_c1]; exact Int.ofNat_nonneg _)
  have vc := val149_mono_of_key m _ _ ec
  -- reconstruction
  rw [kd1, kd2]
  apply rndKey_mono
  unfold exactMulAdd
  have hs0 : 0 ≤ val149 m (lane_s (lane_vn m x2)) := by rw [hsval]; exact Int.ofNat_nonneg _
  have := Int.mul_le_mul_of_nonneg_left vc hs0
  omega

/-- Outputs of two inputs of the domain with the same `vn` are ordered like the inputs. -/
theorem expminus_lane_mono (m : FPMode) (x1 x2 : Nat) (h1 : inDomain x1) (h2 : inDomain x2)
    (hlt : f32Lt x1 x2) (hvn : lane_vn m x1 = lane_vn m x2) :
    f32Le (expminus_lane m x1) (expminus_lane m x2) := by
  obtain ⟨hf1, _⟩ := inDomain_val m x1 h1
  obtain ⟨hf2, _⟩ := inDomain_val m x2 h2
  obtain ⟨_, _, hv⟩ := hlt
  rw [ordVal_of_isFinite ieee x1 hf1, ordVal_of_isFinite ieee x2 hf2] at hv
  have hk := lane_f_mono m x1 x2 h1 h2 hv hvn
  obtain ⟨_, _, _, ⟨g1, _⟩⟩ := stages_finite m x1 h1
  obtain ⟨_, _, _, ⟨g2, _⟩⟩ := stages_finite m x2 h2
  rw [expminus_lane_inDomain m x1 h1, expminus_lane_inDomain m x2 h2]
  have q1 : isFinite (lane_f m x1 % 2 ^ 32) = true := by rw [isFinite_mod]; exact g1
  have q2 : isFinite (lane_f m x2 % 2 ^ 32) = true := by rw [isFinite_mod]; exact g2
  refine ⟨not_isNaN_of_isFinite _ q1, not_isNaN_of_isFinite _ q2, ?_⟩
  rw [ordVal_of_isFinite ieee _ q1, ordVal_of_isFinite ieee _ q2]
  apply val149_mono_of_key
  rw [ordKey_mod, ordKey_mod]
  exact hk

/-! ## From integers in units of `2 ^ -298` to real numbers -/

theorem two_pow_split : (2 : ℝ) ^ 172 * 2 ^ 126 = 2 ^ 149 * 2 ^ 149 := by
  rw [← pow_add, ← pow_add]

theorem natAbs_cast_real (a : Int) : ((a.natAbs : ℕ) : ℝ) = |(a : ℝ)| := by
  rw [Nat.cast_natAbs, Int.cast_abs]

theorem floor_div_cast (n : ℕ) : ((n / 2 ^ 24 : ℕ) : ℝ) ≤ (n : ℝ) / 2 ^ 24 := by
  have h := @Nat.cast_div_le ℝ _ n (2 ^ 24)
  simp only [Nat.cast_pow, Nat.cast_ofNat] at h
  exact h

/-- An integer inequality between a result `r` (units of `2 ^ -149`) and the exact value
`v` (units of `2 ^ -298`), as real numbers. -/
theorem abs_cast_le (r v : Int) (c : ℕ) (h : (r * 2 ^ 149 - v).natAbs ≤ v.natAbs / 2 ^ 24 + c) :
    |(r : ℝ) * 2 ^ 149 - (v : ℝ)| ≤ |(v : ℝ)| / 2 ^ 24 + (c : ℝ) := by
  have h1 : (((r * 2 ^ 149 - v).natAbs : ℕ) : ℝ) ≤ ((v.natAbs / 2 ^ 24 + c : ℕ) : ℝ) :=
    Nat.cast_le.mpr h
  rw [natAbs_cast_real, Nat.cast_add] at h1
  simp only [Int.cast_sub, Int.cast_mul, Int.cast_pow, Int.cast_ofNat] at h1
  have h2 := floor_div_cast v.natAbs
  rw [natAbs_cast_real] at h2
  linarith

/-- The rounding error of a result as real numbers: `r` is the value of the result in
units of `2 ^ -149`, `v` the exact value in units of `2 ^ -298`. -/
theorem err_cast (r v : Int)
    (h : (r * 2 ^ 149 - v).natAbs ≤ v.natAbs / 2 ^ 24 + 2 ^ 172) :
    |(r : ℝ) / 2 ^ 149 - (v : ℝ) / (2 ^ 149 * 2 ^ 149)|
      ≤ |(v : ℝ) / (2 ^ 149 * 2 ^ 149)| / 2 ^ 24 + 1 / 2 ^ 126 := by
  have h1 := abs_cast_le r v (2 ^ 172) h
  rw [Nat.cast_pow, Nat.cast_ofNat] at h1
  have hsplit := two_pow_split
  have hA : (0 : ℝ) < 2 ^ 172 := by positivity
  have hB : (0 : ℝ) < 2 ^ 126 := by positivity
  have hP : (0 : ℝ) < 2 ^ 149 := by positivity
  generalize (2 : ℝ) ^ 172 = A at h1 hsplit hA
  generalize (2 : ℝ) ^ 126 = B at hsplit hB ⊢
  generalize (2 : ℝ) ^ 149 = P at h1 hsplit hP ⊢
  have hPP : 0 < P * P := mul_pos hP hP
  have e1 : (r : ℝ) / P - (v : ℝ) / (P * P) = ((r : ℝ) * P - v) / (P * P) := by
    field_simp
    ring
  have e2 : 1 / B = A / (P * P) := by
    rw [← hsplit]
    field_simp
  have e3 : |(v : ℝ) / (P * P)| / 2 ^ 24 + A / (P * P) = (|(v : ℝ)| / 2 ^ 24 + A) / (P * P) := by
    rw [abs_div, abs_of_pos hPP]
    field_simp
    ring
  rw [e1, e2, e3, abs_div, abs_of_pos hPP]
  exact div_le_div_of_nonneg_right h1 hPP.le

/-- The same without the absolute term, for an exact value of at least `2 ^ -126`. -/
theorem err_cast_rel (r v : Int)
    (h : 2 ^ 172 ≤ v.natAbs → (r * 2 ^ 149 - v).natAbs ≤ v.natAbs / 2 ^ 24) :
    1 / 2 ^ 126 ≤ |(v : ℝ) / (2 ^ 149 * 2 ^ 149)| →
    |(r : ℝ) / 2 ^ 149 - (v : ℝ) / (2 ^ 149 * 2 ^ 149)|
      ≤ |(v : ℝ) / (2 ^ 149 * 2 ^ 149)| / 2 ^ 24 := by
  intro hbig
  have hsplit := two_pow_split
  have hv : 2 ^ 172 ≤ v.natAbs := by
    have hPP : (0 : ℝ) < 2 ^ 149 * 2 ^ 149 := by positivity
    have hB : (0 : ℝ) < 2 ^ 126 := by positivity
    rw [abs_div, abs_of_pos hPP, le_div_iff₀ hPP, ← hsplit, ← natAbs_cast_real] at hbig
    have h3 : (2 : ℝ) ^ 172 ≤ ((v.natAbs : ℕ) : ℝ) := by
      have e : 1 / (2 : ℝ) ^ 126 * (2 ^ 172 * 2 ^ 126) = 2 ^ 172 := by
        field_simp
      rw [e] at hbig
      exact hbig
    have h4 : (((2 ^ 172 : ℕ)) : ℝ) ≤ ((v.natAbs : ℕ) : ℝ) := by
      rw [Nat.cast_pow, Nat.cast_ofNat]; exact h3
    exact Nat.cast_le.mp h4
  have h0 : (r * 2 ^ 149 - v).natAbs ≤ v.natAbs / 2 ^ 24 + 0 := h hv
  have h1 := abs_cast_le r v 0 h0
  rw [Nat.cast_zero, add_zero] at h1
  have hP : (0 : ℝ) < 2 ^ 149 := by positivity
  generalize (2 : ℝ) ^ 149 = P at h1 hP ⊢
  have hPP : 0 < P * P := mul_pos hP hP
  have e1 : (r : ℝ) / P - (v : ℝ) / (P * P) = ((r : ℝ) * P - v) / (P * P) := by
    field_simp
    ring
  have e3 : |(v : ℝ) / (P * P)| / 2 ^ 24 = (|(v : ℝ)| / 2 ^ 24) / (P * P) := by
    rw [abs_div, abs_of_pos hPP, div_div, div_div, mul_comm]
  rw [e1, e3, abs_div, abs_of_pos hPP]
  exact div_le_div_of_nonneg_right h1 hPP.le

theorem exactMulAdd_real (m : FPMode) (a x y : Nat) :
    ((exactMulAdd m a x y : Int) : ℝ) / (2 ^ 149 * 2 ^ 149)
      = (val149 m a : ℝ) / 2 ^ 149 + (val149 m x : ℝ) / 2 ^ 149 * ((val149 m y : ℝ) / 2 ^ 149) := by
  have hc : (((2 ^ 149 : ℕ) : ℤ) : ℝ) = (2 : ℝ) ^ 149 := by norm_cast
  unfold exactMulAdd
  rw [Int.cast_add, Int.cast_mul, Int.cast_mul, hc]
  have hP : (0 : ℝ) < 2 ^ 149 := by positivity
  generalize (2 : ℝ) ^ 149 = P at hP ⊢
  field_simp
  ring

theorem exactMul_real (m : FPMode) (x y : Nat) :
    ((exactMul m x y : Int) : ℝ) / (2 ^ 149 * 2 ^ 149)
      = (val149 m x : ℝ) / 2 ^ 149 * ((val149 m y : ℝ) / 2 ^ 149) := by
  unfold exactMul
  simp only [Int.cast_mul]
  have hP : (0 : ℝ) < 2 ^ 149 := by positivity
  generalize (2 : ℝ) ^ 149 = P at hP ⊢
  field_simp

/-! ## The error analysis over the reals -/

/-- `log 2 / 2048` between two rationals. -/
theorem ell_bounds :
    (287209 / 414355 - 1 / 10 ^ 10) / 2048 ≤ Real.log 2 / 2048 ∧
    Real.log 2 / 2048 ≤ (287209 / 414355 + 1 / 10 ^ 10) / 2048 := by
  have h := abs_le.mp Real.log_two_near_10
  constructor
  · apply div_le_div_of_nonneg_right _ (by norm_num)
    linarith [h.1]
  · apply div_le_div_of_nonneg_right _ (by norm_num)
    linarith [h.2]

/-- The residual against the real `log 2 / 2048` is below `2 * 10 ^ -4` in magnitude. -/
theorem residual_bound (Xm : ℝ) (N : ℤ) (hX1 : -(11447375 / 2 ^ 17) ≤ Xm) (hX4 : Xm ≤ 0)
    (hN3 : |(N : ℝ) - Xm * (12102203 / 4096)| ≤ 1 / 2) :
    |Xm - N * (Real.log 2 / 2048)| ≤ 2 / 10 ^ 4 := by
  obtain ⟨l1, l2⟩ := ell_bounds
  obtain ⟨n1, n2⟩ := abs_le.mp hN3
  set ell := Real.log 2 / 2048 with hell
  have hl0 : 0 ≤ ell := by linarith
  -- a = 1 - C * ell is tiny and positive
  have ha1 : 0 ≤ 1 - 12102203 / 4096 * ell := by
    have : 12102203 / 4096 * ell ≤ 12102203 / 4096 * ((287209 / 414355 + 1 / 10 ^ 10) / 2048) :=
      mul_le_mul_of_nonneg_left l2 (by norm_num)
    norm_num at this ⊢
    linarith
  have ha2 : 1 - 12102203 / 4096 * ell ≤ 14 / 10 ^ 9 := by
    have : 12102203 / 4096 * ((287209 / 414355 - 1 / 10 ^ 10) / 2048) ≤ 12102203 / 4096 * ell :=
      mul_le_mul_of_nonneg_left l1 (by norm_num)
    norm_num at this ⊢
    linarith
  have p1 : 0 ≤ ((N : ℝ) - Xm * (12102203 / 4096) + 1 / 2) * ell := mul_nonneg (by linarith) hl0
  have p2 : 0 ≤ (Xm * (12102203 / 4096) + 1 / 2 - (N : ℝ)) * ell := mul_nonneg (by linarith) hl0
  have p3 : Xm * (1 - 12102203 / 4096 * ell) ≤ 0 := mul_nonpos_of_nonpos_of_nonneg hX4 ha1
  have p4 : -(11447375 / 2 ^ 17) * (14 / 10 ^ 9) ≤ Xm * (1 - 12102203 / 4096 * ell) := by
    have q1 : -(11447375 / 2 ^ 17) * (1 - 12102203 / 4096 * ell) ≤ Xm * (1 - 12102203 / 4096 * ell) :=
      mul_le_mul_of_nonneg_right hX1 ha1
    have q2 : -(11447375 / 2 ^ 17 : ℝ) * (14 / 10 ^ 9) ≤ -(11447375 / 2 ^ 17) * (1 - 12102203 / 4096 * ell) := by
      apply mul_le_mul_of_nonpos_left ha2
      norm_num
    linarith
  rw [abs_le]
  norm_num at l1 l2 p4 ⊢
  constructor <;> linarith


/-- The computed polynomial term against the exact residual: the two Cody-Waite constants
differ from `log 2 / 2048` by less than `5 * 10 ^ -14`, and three roundings add less than
`10 ^ -10`. -/
theorem poly_term_bound (Xm Thi Tt P : ℝ) (N : ℤ)
    (hN1 : -258048 ≤ N) (hN2 : N ≤ 0)
    (hr : |Xm - N * (Real.log 2 / 2048)| ≤ 2 / 10 ^ 4)
    (hThi : |Thi - (Xm + N * (-(11629080 / 2 ^ 35)))|
      ≤ |Xm + N * (-(11629080 / 2 ^ 35))| / 2 ^ 24 + 1 / 2 ^ 126)
    (hTt : |Tt - (Thi + N * (8577800 / 2 ^ 63))|
      ≤ |Thi + N * (8577800 / 2 ^ 63)| / 2 ^ 24 + 1 / 2 ^ 126)
    (hP : |P - Tt * (16777215 / 2 ^ 24)| ≤ |Tt * (16777215 / 2 ^ 24)| / 2 ^ 24 + 1 / 2 ^ 126) :
    |P - (Xm - N * (Real.log 2 / 2048))| ≤ 2 / 10 ^ 8 := by
  obtain ⟨l1, l2⟩ := ell_bounds
  set ell := Real.log 2 / 2048 with hell
  set r := Xm - N * ell with hrdef
  have hNa : |(N : ℝ)| ≤ 258048 := by
    rw [abs_le]
    constructor
    · exact_mod_cast (by omega : (-258048 : ℤ) ≤ N)
    · have : (N : ℝ) ≤ 0 := by exact_mod_cast hN2
      linarith
  -- the first step: Vhi = r + N * (ell - HI)
  have d1 : |ell - 11629080 / 2 ^ 35| ≤ 1 / 10 ^ 12 := by
    rw [abs_le]; norm_num at l1 l2 ⊢; constructor <;> linarith
  have d2 : |ell - (11629080 / 2 ^ 35 - 8577800 / 2 ^ 63)| ≤ 5 / 10 ^ 14 := by
    rw [abs_le]; norm_num at l1 l2 ⊢; constructor <;> linarith
  have m1 : |(N : ℝ) * (ell - 11629080 / 2 ^ 35)| ≤ 258048 * (1 / 10 ^ 12) := by
    rw [abs_mul]; exact mul_le_mul hNa d1 (abs_nonneg _) (by norm_num)
  have m2 : |(N : ℝ) * (ell - (11629080 / 2 ^ 35 - 8577800 / 2 ^ 63))| ≤ 258048 * (5 / 10 ^ 14) := by
    rw [abs_mul]; exact mul_le_mul hNa d2 (abs_nonneg _) (by norm_num)
  have eVhi : Xm + N * (-(11629080 / 2 ^ 35)) = r + N * (ell - 11629080 / 2 ^ 35) := by
    rw [hrdef]; ring
  have bVhi : |Xm + N * (-(11629080 / 2 ^ 35))| ≤ 201 / 10 ^ 6 := by
    rw [eVhi]
    calc |r + N * (ell - 11629080 / 2 ^ 35)| ≤ |r| + |(N : ℝ) * (ell - 11629080 / 2 ^ 35)| :=
          abs_add _ _
      _ ≤ 2 / 10 ^ 4 + 258048 * (1 / 10 ^ 12) := add_le_add hr m1
      _ ≤ 201 / 10 ^ 6 := by norm_num
  have e1 : |Thi - (Xm + N * (-(11629080 / 2 ^ 35)))| ≤ 2 / 10 ^ 11 := by
    refine le_trans hThi ?_
    have : |Xm + N * (-(11629080 / 2 ^ 35))| / 2 ^ 24 ≤ 201 / 10 ^ 6 / 2 ^ 24 :=
      div_le_div_of_nonneg_right bVhi (by norm_num)
    norm_num at this ⊢
    linarith
  -- the second step: Vt = r + N * (ell - Lambda) + e1
  have eVt : Thi + N * (8577800 / 2 ^ 63)
      = r + N * (ell - (11629080 / 2 ^ 35 - 8577800 / 2 ^ 63))
        + (Thi - (Xm + N * (-(11629080 / 2 ^ 35)))) := by
    rw [hrdef]; ring
  have bVt_r : |Thi + N * (8577800 / 2 ^ 63) - r| ≤ 258048 * (5 / 10 ^ 14) + 2 / 10 ^ 11 := by
    rw [eVt, show r + N * (ell - (11629080 / 2 ^ 35 - 8577800 / 2 ^ 63))
        + (Thi - (Xm + N * (-(11629080 / 2 ^ 35)))) - r
        = N * (ell - (11629080 / 2 ^ 35 - 8577800 / 2 ^ 63))
          + (Thi - (Xm + N * (-(11629080 / 2 ^ 35)))) by ring]
    exact le_trans (abs_add _ _) (add_le_add m2 e1)
  have bVt : |Thi + N * (8577800 / 2 ^ 63)| ≤ 201 / 10 ^ 6 := by
    have := abs_sub_abs_le_abs_sub (Thi + N * (8577800 / 2 ^ 63)) r
    norm_num at bVt_r this ⊢
    linarith
  have e2 : |Tt - (Thi + N * (8577800 / 2 ^ 63))| ≤ 2 / 10 ^ 11 := by
    refine le_trans hTt ?_
    have : |Thi + N * (8577800 / 2 ^ 63)| / 2 ^ 24 ≤ 201 / 10 ^ 6 / 2 ^ 24 :=
      div_le_div_of_nonneg_right bVt (by norm_num)
    norm_num at this ⊢
    linarith
  have bTt : |Tt| ≤ 202 / 10 ^ 6 := by
    have := abs_sub_abs_le_abs_sub Tt (Thi + N * (8577800 / 2 ^ 63))
    norm_num at bVt e2 this ⊢
    linarith
  -- the product with c1 = 1 - 2 ^ -24
  have bVp : |Tt * (16777215 / 2 ^ 24)| ≤ 202 / 10 ^ 6 := by
    rw [abs_mul]
    calc |Tt| * |(16777215 / 2 ^ 24 : ℝ)| ≤ |Tt| * 1 :=
          mul_le_mul_of_nonneg_left (by rw [abs_le]; constructor <;> norm_num) (abs_nonneg _)
      _ ≤ 202 / 10 ^ 6 := by rw [mul_one]; exact bTt
  have e3 : |P - Tt * (16777215 / 2 ^ 24)| ≤ 2 / 10 ^ 11 := by
    refine le_trans hP ?_
    have : |Tt * (16777215 / 2 ^ 24)| / 2 ^ 24 ≤ 202 / 10 ^ 6 / 2 ^ 24 :=
      div_le_div_of_nonneg_right bVp (by norm_num)
    norm_num at this ⊢
    linarith
  have e4 : |Tt * (16777215 / 2 ^ 24) - Tt| ≤ 2 / 10 ^ 11 := by
    rw [show Tt * (16777215 / 2 ^ 24) - Tt = Tt * (-(1 / 2 ^ 24)) by ring, abs_mul]
    calc |Tt| * |(-(1 / 2 ^ 24) : ℝ)| ≤ 202 / 10 ^ 6 * (1 / 2 ^ 24) := by
          apply mul_le_mul bTt _ (abs_nonneg _) (by norm_num)
          rw [abs_neg, abs_of_nonneg (by norm_num)]
      _ ≤ 2 / 10 ^ 11 := by norm_num
  have split : P - r = (P - Tt * (16777215 / 2 ^ 24)) + (Tt * (16777215 / 2 ^ 24) - Tt)
      + (Tt - (Thi + N * (8577800 / 2 ^ 63))) + (Thi + N * (8577800 / 2 ^ 63) - r) := by ring
  rw [split]
  calc _ ≤ |P - Tt * (16777215 / 2 ^ 24)| + |Tt * (16777215 / 2 ^ 24) - Tt|
        + |Tt - (Thi + N * (8577800 / 2 ^ 63))| + |Thi + N * (8577800 / 2 ^ 63) - r| := by
        refine le_trans (abs_add _ _) (add_le_add ?_ le_rfl)
        refine le_trans (abs_add _ _) (add_le_add ?_ le_rfl)
        exact abs_add _ _
    _ ≤ 2 / 10 ^ 11 + 2 / 10 ^ 11 + 2 / 10 ^ 11 + (258048 * (5 / 10 ^ 14) + 2 / 10 ^ 11) :=
        add_le_add (add_le_add (add_le_add e3 e4) e2) bVt_r
    _ ≤ 2 / 10 ^ 8 := by norm_num

/-- `exp x` split at the reduced argument `N = k - 2048 d`. -/
theorem exp_split (Xm : ℝ) (N : ℤ) (k d : ℕ) (hNk : N = (k : ℤ) - 2048 * (d : ℤ)) :
    Real.exp Xm
      = (2 : ℝ) ^ ((k : ℝ) / 2048) / 2 ^ d * Real.exp (Xm - N * (Real.log 2 / 2048)) := by
  have h2 : (0 : ℝ) < 2 := by norm_num
  have hN : (N : ℝ) = (k : ℝ) - 2048 * (d : ℝ) := by rw [hNk]; push_cast; ring
  have e1 : (2 : ℝ) ^ ((k : ℝ) / 2048) = Real.exp (Real.log 2 * ((k : ℝ) / 2048)) :=
    Real.rpow_def_of_pos h2 _
  have e2 : (2 : ℝ) ^ d = Real.exp ((d : ℝ) * Real.log 2) := by
    rw [Real.exp_nat_mul, Real.exp_log h2]
  rw [e1, e2, ← Real.exp_sub, ← Real.exp_add]
  congr 1
  rw [hN]
  ring

/-- The degree-1 polynomial against `exp r` on the residual interval. -/
theorem poly_bound (r P : ℝ) (hr : |r| ≤ 2 / 10 ^ 4) (hPr : |P - r| ≤ 2 / 10 ^ 8) :
    |1 + P - Real.exp r| ≤ 6 / 10 ^ 8 ∧ 0 ≤ 1 + P ∧ 1 + P ≤ 1 + 3 / 10 ^ 4 ∧
    1 - 2 / 10 ^ 4 ≤ Real.exp r := by
  obtain ⟨r1, r2⟩ := abs_le.mp hr
  obtain ⟨p1, p2⟩ := abs_le.mp hPr
  have hexp2 := Real.abs_exp_sub_one_sub_id_le (x := r)
    (by rw [abs_le]; norm_num at r1 r2 ⊢; constructor <;> linarith)
  have hr2 : r ^ 2 ≤ 4 / 10 ^ 8 := by
    have : r ^ 2 = |r| * |r| := by rw [abs_mul_abs_self r]; ring
    rw [this]
    calc |r| * |r| ≤ 2 / 10 ^ 4 * (2 / 10 ^ 4) := mul_le_mul hr hr (abs_nonneg _) (by norm_num)
      _ = 4 / 10 ^ 8 := by norm_num
  have h1 := Real.add_one_le_exp r
  refine ⟨?_, ?_, ?_, ?_⟩
  · have : 1 + P - Real.exp r = (P - r) - (Real.exp r - 1 - r) := by ring
    rw [this]
    calc _ ≤ |P - r| + |Real.exp r - 1 - r| := abs_sub _ _
      _ ≤ 2 / 10 ^ 8 + 4 / 10 ^ 8 := add_le_add hPr (le_trans hexp2 hr2)
      _ = 6 / 10 ^ 8 := by norm_num
  · norm_num at r1 p1 ⊢; linarith
  · norm_num at r2 p2 ⊢; linarith
  · norm_num at r1 ⊢; linarith

/-- The scale against the exact power of two. -/
theorem scale_bound (Tk S : ℝ) (k d : ℕ)
    (hT : |Tk - (2 : ℝ) ^ ((k : ℝ) / 2048)| ≤ 1 / 2 ^ 24) (hS : S = Tk / 2 ^ d) :
    0 < (2 : ℝ) ^ ((k : ℝ) / 2048) / 2 ^ d ∧
    |S - (2 : ℝ) ^ ((k : ℝ) / 2048) / 2 ^ d|
      ≤ 1 / 2 ^ 24 * ((2 : ℝ) ^ ((k : ℝ) / 2048) / 2 ^ d) := by
  have hpow1 : (1 : ℝ) ≤ (2 : ℝ) ^ ((k : ℝ) / 2048) :=
    Real.one_le_rpow (by norm_num) (by positivity)
  have h2d : (0 : ℝ) < 2 ^ d := by positivity
  refine ⟨by positivity, ?_⟩
  rw [hS, ← sub_div, abs_div, abs_of_pos h2d, ← mul_div_assoc]
  apply div_le_div_of_nonneg_right _ h2d.le
  calc |Tk - (2 : ℝ) ^ ((k : ℝ) / 2048)| ≤ 1 / 2 ^ 24 := hT
    _ = 1 / 2 ^ 24 * 1 := by ring
    _ ≤ 1 / 2 ^ 24 * (2 : ℝ) ^ ((k : ℝ) / 2048) :=
        mul_le_mul_of_nonneg_left hpow1 (by norm_num)

/-- The exact value before the last rounding against `exp x`. -/
theorem before_rounding_bound (S P E0 er eX : ℝ) (hE0 : 0 < E0)
    (hsplit : eX = E0 * er) (hSE : |S - E0| ≤ 1 / 2 ^ 24 * E0)
    (hpoly : |1 + P - er| ≤ 6 / 10 ^ 8) (hP1 : 0 ≤ 1 + P) (hP2 : 1 + P ≤ 1 + 3 / 10 ^ 4)
    (her : 1 - 2 / 10 ^ 4 ≤ er) :
    |S + S * P - eX| ≤ 12 / 10 ^ 8 * eX := by
  have hE0le : E0 * (1 - 2 / 10 ^ 4) ≤ eX := by
    rw [hsplit]; exact mul_le_mul_of_nonneg_left her hE0.le
  have e : S + S * P - eX = (S - E0) * (1 + P) + E0 * (1 + P - er) := by
    rw [hsplit]; ring
  have b1 : |(S - E0) * (1 + P)| ≤ 1 / 2 ^ 24 * E0 * (1 + 3 / 10 ^ 4) := by
    rw [abs_mul, abs_of_nonneg hP1]
    exact mul_le_mul hSE hP2 hP1 (by positivity)
  have b2 : |E0 * (1 + P - er)| ≤ E0 * (6 / 10 ^ 8) := by
    rw [abs_mul, abs_of_pos hE0]
    exact mul_le_mul_of_nonneg_left hpoly hE0.le
  have b3 : 1 / 2 ^ 24 * E0 * (1 + 3 / 10 ^ 4) + E0 * (6 / 10 ^ 8)
      ≤ 12 / 10 ^ 8 * (E0 * (1 - 2 / 10 ^ 4)) := by
    have : 1 / 2 ^ 24 * E0 * (1 + 3 / 10 ^ 4) + E0 * (6 / 10 ^ 8)
        = (1 / 2 ^ 24 * (1 + 3 / 10 ^ 4) + 6 / 10 ^ 8) * E0 := by ring
    rw [this, show 12 / 10 ^ 8 * (E0 * (1 - 2 / 10 ^ 4))
        = (12 / 10 ^ 8 * (1 - 2 / 10 ^ 4)) * E0 by ring]
    exact mul_le_mul_of_nonneg_right (by norm_num) hE0.le
  rw [e]
  calc _ ≤ |(S - E0) * (1 + P)| + |E0 * (1 + P - er)| := abs_add _ _
    _ ≤ 1 / 2 ^ 24 * E0 * (1 + 3 / 10 ^ 4) + E0 * (6 / 10 ^ 8) := add_le_add b1 b2
    _ ≤ 12 / 10 ^ 8 * (E0 * (1 - 2 / 10 ^ 4)) := b3
    _ ≤ 12 / 10 ^ 8 * eX := mul_le_mul_of_nonneg_left hE0le (by norm_num)

/-- At or above the cutoff `exp` is above `2 ^ -126` by four parts in a million. -/
theorem exp_above_cutoff (Xm : ℝ) (hXm1 : -(11447375 / 2 ^ 17) ≤ Xm) :
    (1 + 4 / 10 ^ 6) * (1 / 2 ^ 126) ≤ Real.exp Xm := by
  have e126 : Real.exp (-(126 * Real.log 2)) = 1 / 2 ^ 126 := by
    have h := Real.exp_nat_mul (Real.log 2) 126
    rw [Real.exp_log (by norm_num)] at h
    rw [Real.exp_neg, one_div]
    congr 1
  have hL := abs_le.mp Real.log_two_near_10
  have hsum : Xm = (Xm + 126 * Real.log 2) + -(126 * Real.log 2) := by ring
  have h1 : 1 + 4 / 10 ^ 6 ≤ Real.exp (Xm + 126 * Real.log 2) := by
    have h4 := Real.add_one_le_exp (Xm + 126 * Real.log 2)
    have h3 : (4 : ℝ) / 10 ^ 6 ≤ Xm + 126 * Real.log 2 := by
      have h5 := hL.1
      norm_num at h5 hXm1 ⊢
      linarith
    linarith
  rw [hsum, Real.exp_add, e126]
  exact mul_le_mul_of_nonneg_right h1 (by positivity)

/-- The last rounding: the exact value is normal, so the rounding is a relative error. -/
theorem after_rounding_bound (F V eX Q : ℝ) (hQ : 0 < Q) (heX : (1 + 4 / 10 ^ 6) * Q ≤ eX)
    (hV : |V - eX| ≤ 12 / 10 ^ 8 * eX) (hF : Q ≤ |V| → |F - V| ≤ |V| / 2 ^ 24) :
    |F - eX| ≤ 18 / 10 ^ 8 * eX := by
  obtain ⟨v1, v2⟩ := abs_le.mp hV
  have hpos : 0 < eX := lt_of_lt_of_le (by positivity) heX
  have h6 : (1 - 12 / 10 ^ 8) * ((1 + 4 / 10 ^ 6) * Q) ≤ (1 - 12 / 10 ^ 8) * eX :=
    mul_le_mul_of_nonneg_left heX (by norm_num)
  have h2 : Q ≤ (1 - 12 / 10 ^ 8) * ((1 + 4 / 10 ^ 6) * Q) := by
    have h7 : (1 : ℝ) ≤ (1 - 12 / 10 ^ 8) * (1 + 4 / 10 ^ 6) := by norm_num
    calc Q = 1 * Q := (one_mul Q).symm
      _ ≤ (1 - 12 / 10 ^ 8) * (1 + 4 / 10 ^ 6) * Q := mul_le_mul_of_nonneg_right h7 hQ.le
      _ = (1 - 12 / 10 ^ 8) * ((1 + 4 / 10 ^ 6) * Q) := by ring
  have h9 : (1 - 12 / 10 ^ 8) * eX ≤ V := by linarith only [v1]
  have hVQ : Q ≤ V := le_trans h2 (le_trans h6 h9)
  have hV0 : 0 ≤ V := le_trans hQ.le hVQ
  have hFerr := hF (by rw [abs_of_nonneg hV0]; exact hVQ)
  rw [abs_of_nonneg hV0] at hFerr
  have e : F - eX = (F - V) + (V - eX) := by ring
  have h10 : V / 2 ^ 24 ≤ (1 + 12 / 10 ^ 8) * eX / 2 ^ 24 :=
    div_le_div_of_nonneg_right (by linarith only [v2]) (by norm_num)
  have h11 : (1 + 12 / 10 ^ 8) * eX / 2 ^ 24 + 12 / 10 ^ 8 * eX
      = ((1 + 12 / 10 ^ 8) / 2 ^ 24 + 12 / 10 ^ 8) * eX := by ring
  have h12 : ((1 + 12 / 10 ^ 8) / 2 ^ 24 + 12 / 10 ^ 8) * eX ≤ 18 / 10 ^ 8 * eX :=
    mul_le_mul_of_nonneg_right (by norm_num) hpos.le
  rw [e]
  calc _ ≤ |F - V| + |V - eX| := abs_add _ _
    _ ≤ V / 2 ^ 24 + 12 / 10 ^ 8 * eX := add_le_add hFerr hV
    _ ≤ 18 / 10 ^ 8 * eX := by linarith only [h10, h11, h12]

/-- From the operand as the arithmetic reads it (a flushed denormal is zero) to the input
itself. -/
theorem flush_bound (F X Xm : ℝ) (hX2 : X ≤ Xm) (hX3 : Xm - X ≤ 1 / 2 ^ 126)
    (hF : |F - Real.exp Xm| ≤ 18 / 10 ^ 8 * Real.exp Xm) :
    |F - Real.exp X| ≤ 4 / 2 ^ 24 * Real.exp X := by
  have hQ1 : (1 : ℝ) / 2 ^ 126 ≤ 1 / 10 ^ 30 := by norm_num
  have hy0 : 0 ≤ Xm - X := by linarith only [hX2]
  have hy1 : |Xm - X| ≤ 1 := by
    rw [abs_of_nonneg hy0]
    have : (1 : ℝ) / 10 ^ 30 ≤ 1 := by norm_num
    linarith only [hX3, hQ1, this]
  have hexpy := Real.abs_exp_sub_one_le hy1
  rw [abs_of_nonneg hy0] at hexpy
  obtain ⟨y1, y2⟩ := abs_le.mp hexpy
  have hexpX : 0 < Real.exp X := Real.exp_pos X
  have hXmX : Real.exp Xm = Real.exp X * Real.exp (Xm - X) := by
    rw [← Real.exp_add]; congr 1; ring
  have hratio : Real.exp (Xm - X) - 1 ≤ 2 / 10 ^ 30 := by
    linarith only [y2, hX3, hQ1]
  have hratio1 : 0 ≤ Real.exp (Xm - X) - 1 := by
    have := Real.add_one_le_exp (Xm - X)
    linarith only [this, hy0]
  have e : F - Real.exp X = (F - Real.exp Xm) + (Real.exp Xm - Real.exp X) := by ring
  rw [e]
  have hd : |Real.exp Xm - Real.exp X| ≤ Real.exp X * (2 / 10 ^ 30) := by
    rw [hXmX, show Real.exp X * Real.exp (Xm - X) - Real.exp X
        = Real.exp X * (Real.exp (Xm - X) - 1) by ring, abs_mul, abs_of_pos hexpX,
      abs_of_nonneg hratio1]
    exact mul_le_mul_of_nonneg_left hratio hexpX.le
  have hXm_le : Real.exp Xm ≤ Real.exp X * (1 + 2 / 10 ^ 30) := by
    rw [hXmX]
    exact mul_le_mul_of_nonneg_left (by linarith only [hratio]) hexpX.le
  calc _ ≤ |F - Real.exp Xm| + |Real.exp Xm - Real.exp X| := abs_add _ _
    _ ≤ 18 / 10 ^ 8 * Real.exp Xm + Real.exp X * (2 / 10 ^ 30) := add_le_add hF hd
    _ ≤ 18 / 10 ^ 8 * (Real.exp X * (1 + 2 / 10 ^ 30)) + Real.exp X * (2 / 10 ^ 30) := by
        have := mul_le_mul_of_nonneg_left hXm_le (by norm_num : (0 : ℝ) ≤ 18 / 10 ^ 8)
        linarith only [this]
    _ = (18 / 10 ^ 8 * (1 + 2 / 10 ^ 30) + 2 / 10 ^ 30) * Real.exp X := by ring
    _ ≤ 4 / 2 ^ 24 * Real.exp X :=
        mul_le_mul_of_nonneg_right (by norm_num) hexpX.le

/-- The error analysis: from the relations between the exact values of the stages to the
relative error of the result. -/
theorem accuracy_analysis (X Xm Thi Tt P F S Tk : ℝ) (N : ℤ) (k d : ℕ)
    (hX1 : -(11447375 / 2 ^ 17) ≤ X) (hX2 : X ≤ Xm) (hX3 : Xm - X ≤ 1 / 2 ^ 126) (hX4 : Xm ≤ 0)
    (hN1 : -258048 ≤ N) (hN2 : N ≤ 0) (hN3 : |(N : ℝ) - Xm * (12102203 / 4096)| ≤ 1 / 2)
    (hNk : N = (k : ℤ) - 2048 * (d : ℤ))
    (hT : |Tk - (2 : ℝ) ^ ((k : ℝ) / 2048)| ≤ 1 / 2 ^ 24) (hS : S = Tk / 2 ^ d)
    (hThi : |Thi - (Xm + N * (-(11629080 / 2 ^ 35)))|
      ≤ |Xm + N * (-(11629080 / 2 ^ 35))| / 2 ^ 24 + 1 / 2 ^ 126)
    (hTt : |Tt - (Thi + N * (8577800 / 2 ^ 63))|
      ≤ |Thi + N * (8577800 / 2 ^ 63)| / 2 ^ 24 + 1 / 2 ^ 126)
    (hP : |P - Tt * (16777215 / 2 ^ 24)| ≤ |Tt * (16777215 / 2 ^ 24)| / 2 ^ 24 + 1 / 2 ^ 126)
    (hF : 1 / 2 ^ 126 ≤ |S + S * P| → |F - (S + S * P)| ≤ |S + S * P| / 2 ^ 24) :
    |F - Real.exp X| ≤ 4 / 2 ^ 24 * Real.exp X := by
  have hXm1 : -(11447375 / 2 ^ 17) ≤ Xm := le_trans hX1 hX2
  have hr := residual_bound Xm N hXm1 hX4 hN3
  have hPr := poly_term_bound Xm Thi Tt P N hN1 hN2 hr hThi hTt hP
  have hsplit := exp_split Xm N k d hNk
  obtain ⟨hpoly, hP1, hP2, her⟩ := poly_bound _ P hr hPr
  obtain ⟨hE0, hSE⟩ := scale_bound Tk S k d hT hS
  have hV := before_rounding_bound S P _ _ _ hE0 hsplit hSE hpoly hP1 hP2 her
  have hFX := after_rounding_bound F (S + S * P) (Real.exp Xm) (1 / 2 ^ 126) (by positivity)
    (exp_above_cutoff Xm hXm1) hV hF
  exact flush_bound F X Xm hX2 hX3 hFX

/-! ## Accuracy in the domain -/

theorem toRat_cast (b : Nat) : ((toRat b : ℚ) : ℝ) = (val149 ieee b : ℝ) / 2 ^ 149 := by
  unfold toRat
  rw [Rat.cast_div, Rat.cast_intCast, Rat.cast_pow, Rat.cast_ofNat]

/-- The input as a real number, as it is and as the arithmetic reads it. -/
theorem domain_real (m : FPMode) (x : Nat) (h : inDomain x) :
    -(11447375 / 2 ^ 17) ≤ (val149 ieee x : ℝ) / 2 ^ 149 ∧
    (val149 ieee x : ℝ) / 2 ^ 149 ≤ (val149 m x : ℝ) / 2 ^ 149 ∧
    (val149 m x : ℝ) / 2 ^ 149 - (val149 ieee x : ℝ) / 2 ^ 149 ≤ 1 / 2 ^ 126 ∧
    (val149 m x : ℝ) / 2 ^ 149 ≤ 0 := by
  obtain ⟨_, h1, _, _, h4, h5, h6⟩ := inDomain_val m x h
  have c1 : (-((11447375 * 2 ^ 132 : ℕ) : ℤ) : ℝ) ≤ (val149 ieee x : ℝ) := by exact_mod_cast h1
  have c4 : (val149 m x : ℝ) ≤ 0 := by exact_mod_cast h4
  have c5 : (val149 ieee x : ℝ) ≤ (val149 m x : ℝ) := by exact_mod_cast h5
  have c6 : (val149 m x : ℝ) - (val149 ieee x : ℝ) ≤ 2 ^ 23 := by
    have : val149 m x - val149 ieee x ≤ 2 ^ 23 := by omega
    exact_mod_cast this
  have hP : (0 : ℝ) < 2 ^ 149 := by positivity
  refine ⟨?_, div_le_div_of_nonneg_right c5 hP.le, ?_, div_nonpos_of_nonpos_of_nonneg c4 hP.le⟩
  · rw [le_div_iff₀ hP]
    have e : -(11447375 / 2 ^ 17 : ℝ) * 2 ^ 149 = -(11447375 * 2 ^ 132) := by norm_num
    rw [e]
    push_cast at c1
    norm_num at c1 ⊢
    exact c1
  · rw [← sub_div, div_le_iff₀ hP]
    have e : (1 : ℝ) / 2 ^ 126 * 2 ^ 149 = 2 ^ 23 := by norm_num
    rw [e]
    exact c6

/-- The reduced argument is within one half of `x * log2e_x2048`. -/
theorem N_real (m : FPMode) (x : Nat) (h : inDomain x) :
    |(lane_N m x : ℝ) - (val149 m x : ℝ) / 2 ^ 149 * (12102203 / 4096)| ≤ 1 / 2 := by
  obtain ⟨_, _, _, _, h5, h6⟩ := lane_N_spec m x h
  have c5 : (lane_N m x : ℝ) * 2 ^ 161 - (val149 m x : ℝ) * 12102203 ≤ 2 ^ 160 := by
    exact_mod_cast h5
  have c6 : (val149 m x : ℝ) * 12102203 - (lane_N m x : ℝ) * 2 ^ 161 ≤ 2 ^ 160 := by
    exact_mod_cast h6
  have hQ : (0 : ℝ) < 2 ^ 161 := by positivity
  have e : (lane_N m x : ℝ) - (val149 m x : ℝ) / 2 ^ 149 * (12102203 / 4096)
      = ((lane_N m x : ℝ) * 2 ^ 161 - (val149 m x : ℝ) * 12102203) / 2 ^ 161 := by
    field_simp
    ring
  rw [e, abs_div, abs_of_pos hQ, div_le_iff₀ hQ, abs_le]
  have e2 : (1 : ℝ) / 2 * 2 ^ 161 = 2 ^ 160 := by norm_num
  rw [e2]
  constructor <;> linarith

theorem val149_mod (m : FPMode) (f : Nat) : val149 m (f % 2 ^ 32) = val149 m f := by
  rw [val149_eq_keyVal, val149_eq_keyVal, ordKey_mod]

/-- `N = k - 2048 d` with `k` the table index and `d` the number of exponent steps. -/
theorem lane_N_split (m : FPMode) (x : Nat) (h : inDomain x) :
    lane_N m x = (lane_idx (lane_vn m x) : ℤ)
      - 2048 * ((0x96800 - lane_vn m x / 2048 : ℕ) : ℤ) := by
  obtain ⟨v1, v2, _⟩ := lane_N_spec m x h
  unfold lane_N
  rw [lane_idx_eq]
  omega

/-- The scale is the table entry divided by `2 ^ d`. -/
theorem scale_real (m : FPMode) (vn : Nat) (h1 : 0x4B3C1000 ≤ vn) (h2 : vn ≤ 0x4B400000) :
    (val149 m (lane_s vn) : ℝ) / 2 ^ 149
      = (val149 ieee (lane_l vn) : ℝ) / 2 ^ 149 / 2 ^ (0x96800 - vn / 2048) := by
  obtain ⟨hd, _⟩ := lane_s_eq vn h1 h2
  obtain ⟨_, hs⟩ := lane_s_val m vn h1 h2
  obtain ⟨l1, l2⟩ := lane_l_bounds vn
  rw [hs, val149_unit ieee _ l1 l2]
  generalize 0x96800 - vn / 2048 = d at hd ⊢
  have e : (85070591730234615865843651857942052864 : ℝ) = 2 ^ (126 - d) * 2 ^ d := by
    rw [← pow_add, show 126 - d + d = 126 by omega]
    norm_num
  push_cast
  rw [e]
  have hP : (0 : ℝ) < 2 ^ 149 := by positivity
  have hD : (0 : ℝ) < 2 ^ d := by positivity
  generalize (2 : ℝ) ^ 149 = P at hP ⊢
  field_simp
  ring

theorem hi_real (m : FPMode) :
    (val149 m minus_ln2_o2048_hi : ℝ) / 2 ^ 149 = -(11629080 / 2 ^ 35) := by
  rw [val149_hi]
  push_cast
  norm_num

theorem lo_real (m : FPMode) :
    (val149 m minus_ln2_o2048_lo : ℝ) / 2 ^ 149 = 8577800 / 2 ^ 63 := by
  rw [val149_lo]
  push_cast
  norm_num

theorem c1_real (m : FPMode) : (val149 m c1 : ℝ) / 2 ^ 149 = 16777215 / 2 ^ 24 := by
  rw [val149_c1]
  push_cast
  norm_num

/-- In the domain the output of a lane is within `4 * 2 ^ -24` of `exp x`, relatively. -/
theorem expminus_lane_accuracy (m : FPMode) (x : Nat) (h : inDomain x) :
    |((toRat (expminus_lane m x) : ℚ) : ℝ) - Real.exp ((toRat x : ℚ) : ℝ)|
      ≤ 4 / 2 ^ 24 * Real.exp ((toRat x : ℚ) : ℝ) := by
  obtain ⟨hX1, hX2, hX3, hX4⟩ := domain_real m x h
  obtain ⟨v1, v2, n1, n2, _⟩ := lane_N_spec m x h
  have hN3 := N_real m x h
  have hNk := lane_N_split m x h
  obtain ⟨_, hnval, _⟩ := lane_n_spec m x h
  have hS := scale_real m (lane_vn m x) v1 v2
  have hT := exp2_table_half_ulp (lane_idx (lane_vn m x)) (lane_idx_lt _)
  rw [toRat_cast] at hT
  obtain ⟨⟨_, _, ma, ra⟩, ⟨_, _, mb, rb⟩, ⟨_, _, mc, rc⟩, ⟨_, _, rd⟩⟩ := stages_finite m x h
  have hnreal : (val149 m (lane_n m (lane_vn m x)) : ℝ) / 2 ^ 149 = (lane_N m x : ℝ) := by
    rw [hnval, Int.cast_mul, Int.cast_pow, Int.cast_ofNat]
    exact mul_div_cancel_right₀ _ (by positivity)
  have hThi := err_cast _ _ ra
  rw [exactMulAdd_real, hnreal, hi_real] at hThi
  have hTt := err_cast _ _ rb
  rw [exactMulAdd_real, hnreal, lo_real, ma] at hTt
  have hP := err_cast _ _ rc
  rw [exactMul_real, c1_real, mb] at hP
  have hF := err_cast_rel _ _ rd
  rw [exactMulAdd_real, mc] at hF
  rw [toRat_cast, toRat_cast, expminus_lane_inDomain m x h, val149_mod]
  exact accuracy_analysis _ _ _ _ _ _ _ _ (lane_N m x) (lane_idx (lane_vn m x))
    (0x96800 - lane_vn m x / 2048) hX1 hX2 hX3 hX4 n1 n2 hN3 hNk hT hS hThi hTt hP hF

/-! ## Results are 32-bit patterns -/

theorem fpProcessNaN_lt (m : FPMode) (b : Nat) (hb : b < 2 ^ 32) :
    fpProcessNaN m b < 2 ^ 32 := by
  unfold fpProcessNaN fpDefaultNaN
  split
  · omega
  · split <;> omega

theorem processNaNs3_lt (m : FPMode) (a b c r : Nat) (ha : a < 2 ^ 32) (hb : b < 2 ^ 32)
    (hc : c < 2 ^ 32) (h : fpProcessNaNs3 m a b c = some r) : r < 2 ^ 32 := by
  unfold fpProcessNaNs3 at h
  split at h
  · cases h; exact fpProcessNaN_lt m a ha
  split at h
  · cases h; exact fpProcessNaN_lt m b hb
  split at h
  · cases h; exact fpProcessNaN_lt m c hc
  split at h
  · cases h; exact fpProcessNaN_lt m a ha
  split at h
  · cases h; exact fpProcessNaN_lt m b hb
  split at h
  · cases h; exact fpProcessNaN_lt m c hc
  · cases h

theorem processNaNs_lt (m : FPMode) (a b r : Nat) (ha : a < 2 ^ 32) (hb : b < 2 ^ 32)
    (h : fpProcessNaNs m a b = some r) : r < 2 ^ 32 := by
  unfold fpProcessNaNs at h
  split at h
  · cases h; exact fpProcessNaN_lt m a ha
  split at h
  · cases h; exact fpProcessNaN_lt m b hb
  split at h
  · cases h; exact fpProcessNaN_lt m a ha
  split at h
  · cases h; exact fpProcessNaN_lt m b hb
  · cases h

theorem fpRound_lt (m : FPMode) (v : Int) : fpRound m v < 2 ^ 32 := by
  have := roundMag_le m.fz v.natAbs
  unfold fpRound
  split <;> omega

theorem fpInfinity_lt (s : Nat) (h : s = 0 ∨ s = 1) : fpInfinity s < 2 ^ 32 := by
  unfold fpInfinity; omega

theorem fpZero_lt (s : Nat) (h : s = 0 ∨ s = 1) : fpZero s < 2 ^ 32 := by
  unfold fpZero; omega

theorem signP_lt_two (a b : Nat) : (a + b) % 2 = 0 ∨ (a + b) % 2 = 1 := by omega

theorem fpMulAdd_lt (m : FPMode) (a b c : Nat) (ha : a < 2 ^ 32) (hb : b < 2 ^ 32)
    (hc : c < 2 ^ 32) : fpMulAdd m a b c < 2 ^ 32 := by
  unfold fpMulAdd
  split
  · rename_i r hr
    have := processNaNs3_lt m a b c r ha hb hc hr
    dsimp only
    split
    · unfold fpDefaultNaN; omega
    · exact this
  · dsimp only
    split
    · unfold fpDefaultNaN; omega
    split
    · exact fpInfinity_lt _ (signBit_lt_two a)
    split
    · exact fpInfinity_lt _ (signP_lt_two _ _)
    split
    · exact fpZero_lt _ (signBit_lt_two a)
    split
    · exact fpZero_lt 0 (Or.inl rfl)
    · exact fpRound_lt m _

theorem fpMul_lt (m : FPMode) (a b : Nat) (ha : a < 2 ^ 32) (hb : b < 2 ^ 32) :
    fpMul m a b < 2 ^ 32 := by
  unfold fpMul
  split
  · rename_i r hr
    exact processNaNs_lt m a b r ha hb hr
  · dsimp only
    split
    · unfold fpDefaultNaN; omega
    split
    · exact fpInfinity_lt _ (signP_lt_two _ _)
    split
    · exact fpZero_lt _ (signP_lt_two _ _)
    · exact fpRound_lt m _

theorem fpSub_lt (m : FPMode) (a b : Nat) (ha : a < 2 ^ 32) (hb : b < 2 ^ 32) :
    fpSub m a b < 2 ^ 32 := by
  unfold fpSub
  split
  · rename_i r hr
    exact processNaNs_lt m a b r ha hb hr
  · dsimp only
    split
    · unfold fpDefaultNaN; omega
    split
    · exact fpInfinity_lt _ (signBit_lt_two a)
    split
    · refine fpInfinity_lt _ ?_
      rcases signBit_lt_two b with h | h <;> rw [h] <;> simp
    split
    · exact fpZero_lt _ (signBit_lt_two a)
    split
    · exact fpZero_lt 0 (Or.inl rfl)
    · exact fpRound_lt m _

/-- The value before the clamp is a 32-bit pattern. -/
theorem lane_f_lt (m : FPMode) (x : Nat) (hx : x < 2 ^ 32) : lane_f m x < 2 ^ 32 := by
  have hs : lane_s (lane_vn m x) < 2 ^ 32 := by unfold lane_s; omega
  have hvn : lane_vn m x < 2 ^ 32 :=
    fpMulAdd_lt m _ _ _ (by decide) hx (by decide)
  have hn : lane_n m (lane_vn m x) < 2 ^ 32 := fpSub_lt m _ _ hvn (by decide)
  have hthi : lane_t_hi m x (lane_n m (lane_vn m x)) < 2 ^ 32 :=
    fpMulAdd_lt m _ _ _ hx hn (by decide)
  have ht : lane_t m x (lane_n m (lane_vn m x)) < 2 ^ 32 :=
    fpMulAdd_lt m _ _ _ hthi hn (by decide)
  have hp : lane_p m (lane_t m x (lane_n m (lane_vn m x))) < 2 ^ 32 :=
    fpMul_lt m _ _ ht (by decide)
  exact fpMulAdd_lt m _ _ _ hs hs hp

/-! ## The clamp on every input -/

/-- The comparison of the code is false whenever `x < denorm_cutoff` fails in the IEEE
reading: for `x ≥ denorm_cutoff` and for a NaN, in every mode. -/
theorem compareGT_cutoff_of_not_lt (m : FPMode) (x : Nat) (h : ¬ f32Lt x denorm_cutoff) :
    fpCompareGT m denorm_cutoff x = false := by
  unfold fpCompareGT
  by_cases hx : isNaN x = true
  · rw [hx]; simp
  · have hx0 : isNaN x = false := by simpa using hx
    have hc : isNaN denorm_cutoff = false := by decide
    rw [hx0, hc]
    simp only [Bool.or_self, Bool.false_eq_true, if_false, decide_eq_false_iff_not, not_lt]
    have hle : ordVal ieee denorm_cutoff ≤ ordVal ieee x := by
      by_contra hcon
      exact h ⟨hx0, hc, by omega⟩
    rw [ordVal_cutoff] at hle ⊢
    by_cases hn : 2 ^ 23 ≤ absBits x
    · have : ordVal m x = ordVal ieee x := by
        unfold ordVal; rw [val149_eq_ieee m x hn]
      rw [this]; exact hle
    · have hb := val149_denormal_bound m x (by omega)
      have hi : isInf x = false := by
        unfold isInf; simp only [decide_eq_false_iff_not]; omega
      unfold ordVal
      rw [hi]
      simp only [Bool.false_eq_true, if_false]
      have h1 := hb.1
      norm_num at h1 ⊢
      omega

theorem lane_mask_of_not_lt (m : FPMode) (x : Nat) (h : ¬ f32Lt x denorm_cutoff) :
    lane_mask m x = 0 := by
  unfold lane_mask; rw [compareGT_cutoff_of_not_lt m x h]; rfl

theorem expminus_lane_of_not_lt (m : FPMode) (x : Nat) (hx : x < 2 ^ 32)
    (h : ¬ f32Lt x denorm_cutoff) : expminus_lane m x = lane_f m x := by
  unfold expminus_lane
  rw [lane_mask_of_not_lt m x h, bic_zero]
  exact Nat.mod_eq_of_lt (lane_f_lt m x hx)

theorem not_lt_of_le_or_nan (x : Nat) (h : f32Le denorm_cutoff x ∨ isNaN x = true) :
    ¬ f32Lt x denorm_cutoff := by
  intro ⟨h1, _, h3⟩
  rcases h with ⟨_, _, h4⟩ | h
  · omega
  · rw [h] at h1; cases h1

/-! ## Counting the iterations -/

theorem loopHeads_ne_nil (m : FPMode) (inbuf : List Nat) (fuel : Nat) (s : LoopState) :
    loopHeads m inbuf fuel s ≠ [] := by
  cases fuel with
  | zero => simp [loopHeads]
  | succ fuel =>
    unfold loopHeads
    split
    · simp
    · split <;> simp

/-- One run of the body from a state whose cursors have four elements ahead. -/
theorem loopBody_spec (m : FPMode) (inbuf : List Nat) (k p q : Nat) (mem : List Nat)
    (hk : 16 * (k + 1) < 2 ^ 64) (hp : p + 4 ≤ inbuf.length) (hq : q + 4 ≤ mem.length) :
    ∃ mem1, loopBody m inbuf ⟨16 * (k + 1), p, q, mem⟩ = .ok ⟨16 * k, p + 4, q + 4, mem1⟩ ∧
      mem1.length = mem.length := by
  obtain ⟨mem1, hst, hlen1, _⟩ := vst1q_f32_eq mem q
    (Q32x4.map (expminus_lane m)
      ⟨inbuf.getD p 0, inbuf.getD (p + 1) 0, inbuf.getD (p + 2) 0, inbuf.getD (p + 3) 0⟩) hq
  refine ⟨mem1, ?_, hlen1⟩
  have hstep : (16 * (k + 1) + 2 ^ 64 - 4 * sizeof_float) % 2 ^ 64 = 16 * k := by
    unfold sizeof_float; omega
  simp only [loopBody, vld1q_f32_eq inbuf p hp, loopCompute_eq, hst, hstep]

theorem range_quads (p k : Nat) :
    (List.range (4 * (k + 1))).map (fun i => p + i)
      = quadAt p ++ (List.range (4 * k)).map (fun i => p + 4 + i) := by
  rw [show 4 * (k + 1) = 4 + 4 * k by omega, List.range_add, List.map_append, List.map_map]
  congr 1
  apply List.map_congr_left
  intro i _
  simp only [Function.comp]
  omega

/-- The record of a loop started with `16 * k` bytes left: `k + 1` heads, the cursors go
up by four from one to the next, and the loop returns the last head. -/
theorem loopHeads_spec (m : FPMode) (inbuf : List Nat) (k : Nat) :
    ∀ (fuel p q : Nat) (mem : List Nat), k ≤ fuel → 16 * k < 2 ^ 64 →
      p + 4 * k ≤ inbuf.length → q + 4 * k ≤ mem.length →
      (loopHeads m inbuf fuel ⟨16 * k, p, q, mem⟩).map (fun s => (s.n, s.input, s.output))
          = (List.range (k + 1)).map (fun j => (16 * (k - j), p + 4 * j, q + 4 * j)) ∧
      ((loopHeads m inbuf fuel ⟨16 * k, p, q, mem⟩).dropLast.flatMap fun s => quadAt s.input)
          = (List.range (4 * k)).map (fun i => p + i) ∧
      ((loopHeads m inbuf fuel ⟨16 * k, p, q, mem⟩).dropLast.flatMap fun s => quadAt s.output)
          = (List.range (4 * k)).map (fun i => q + i) ∧
      ∃ s, (loopHeads m inbuf fuel ⟨16 * k, p, q, mem⟩).getLast? = some s ∧
        loop m inbuf fuel ⟨16 * k, p, q, mem⟩ = .ok s := by
  induction k with
  | zero =>
    intro fuel p q mem _ _ _ _
    cases fuel <;> simp [loopHeads, loop, List.range_succ]
  | succ k ih =>
    intro fuel p q mem hf hk hp hq
    obtain ⟨fuel, rfl⟩ : ∃ f, fuel = f + 1 := ⟨fuel - 1, by omega⟩
    obtain ⟨mem1, hbody, hlen1⟩ := loopBody_spec m inbuf k p q mem hk (by omega) (by omega)
    obtain ⟨h1, h2, h3, s, h4, h5⟩ := ih fuel (p + 4) (q + 4) mem1 (by omega) (by omega)
      (by omega) (by omega)
    have hne : ¬ 16 * (k + 1) = 0 := by omega
    have hnil := loopHeads_ne_nil m inbuf fuel ⟨16 * k, p + 4, q + 4, mem1⟩
    have hheads : loopHeads m inbuf (fuel + 1) ⟨16 * (k + 1), p, q, mem⟩
        = ⟨16 * (k + 1), p, q, mem⟩ :: loopHeads m inbuf fuel ⟨16 * k, p + 4, q + 4, mem1⟩ := by
      simp only [loopHeads, hne, if_false, hbody]
    have hloop : loop m inbuf (fuel + 1) ⟨16 * (k + 1), p, q, mem⟩
        = loop m inbuf fuel ⟨16 * k, p + 4, q + 4, mem1⟩ := by
      simp only [loop, hne, if_false, hbody]
    rw [hheads, hloop]
    refine ⟨?_, ?_, ?_, s, ?_, h5⟩
    · rw [List.map_cons, h1]
      conv_rhs => rw [List.range_succ_eq_map, List.map_cons, List.map_map]
      congr 1
      apply List.map_congr_left
      intro j _
      simp only [Function.comp, Nat.succ_eq_add_one, Prod.mk.injEq]
      omega
    · rw [List.dropLast_cons_of_ne_nil hnil, List.flatMap_cons, h2, range_quads]
    · rw [List.dropLast_cons_of_ne_nil hnil, List.flatMap_cons, h3, range_quads]
    · obtain ⟨b, l, hl⟩ := List.exists_cons_of_ne_nil hnil
      rw [hl] at h4 ⊢
      rw [List.getLast?_cons_cons]
      exact h4

/-- With fewer than `k` iterations allowed, a loop started with `16 * k` bytes left has not
ended. -/
theorem loop_short (m : FPMode) (inbuf : List Nat) (fuel : Nat) :
    ∀ (k p q : Nat) (mem : List Nat), fuel < k → 16 * k < 2 ^ 64 →
      p + 4 * k ≤ inbuf.length → q + 4 * k ≤ mem.length →
      loop m inbuf fuel ⟨16 * k, p, q, mem⟩ = .fault .fuel := by
  induction fuel with
  | zero =>
    intro k p q mem hf _ _ _
    have hne : ¬ 16 * k = 0 := by omega
    simp only [loop, hne, if_false]
  | succ fuel ih =>
    intro k p q mem hf hk hp hq
    obtain ⟨k, rfl⟩ : ∃ j, k = j + 1 := ⟨k - 1, by omega⟩
    obtain ⟨mem1, hbody, hlen1⟩ := loopBody_spec m inbuf k p q mem hk (by omega) (by omega)
    have hne : ¬ 16 * (k + 1) = 0 := by omega
    simp only [loop, hne, if_false, hbody]
    exact ih k (p + 4) (q + 4) mem1 (by omega) (by omega) (by omega) (by omega)

/-! ## The magic bias on its whole range -/

theorem ordVal_bias_bound :
    ordVal ieee magic_bias_bound = ((11629080 * 2 ^ 136 : Nat) : Int) ∧
    ordVal ieee (magic_bias_bound + 2 ^ 31) = -((11629080 * 2 ^ 136 : Nat) : Int) := by
  constructor <;> decide!

/-- In the range of the magic bias the input is finite and its value, in either denormal
mode, is at most `0x1.62E43p+10` in magnitude; flushing changes only denormal values. -/
theorem inBiasRange_val (m : FPMode) (x : Nat) (h : inBiasRange x) :
    isFinite x = true ∧
    -((11629080 * 2 ^ 136 : Nat) : Int) ≤ val149 ieee x ∧
    val149 ieee x ≤ ((11629080 * 2 ^ 136 : Nat) : Int) ∧
    -((11629080 * 2 ^ 136 : Nat) : Int) ≤ val149 m x ∧
    val149 m x ≤ ((11629080 * 2 ^ 136 : Nat) : Int) ∧
    (val149 m x = val149 ieee x ∨
      (val149 m x = 0 ∧ -(2 ^ 23 : Int) < val149 ieee x ∧ val149 ieee x < 2 ^ 23)) := by
  obtain ⟨⟨_, hn, h1⟩, ⟨_, _, h2⟩⟩ := h
  rw [ordVal_bias_bound.2] at h1
  rw [ordVal_bias_bound.1] at h2
  have hfin : isFinite x = true := by
    rw [isFinite_iff]
    by_contra hc
    have hinf : isInf x = true := by
      unfold isNaN at hn
      unfold isInf
      simp only [decide_eq_false_iff_not, decide_eq_true_eq] at hn ⊢
      omega
    unfold ordVal at h1 h2
    rw [hinf] at h1 h2
    simp only [if_true] at h1 h2
    by_cases hs : signBit x = 1
    · rw [if_pos hs] at h1
      norm_num at h1
    · rw [if_neg hs] at h2
      norm_num at h2
  rw [ordVal_of_isFinite ieee x hfin] at h1 h2
  refine ⟨hfin, h1, h2, ?_⟩
  by_cases hnorm : 2 ^ 23 ≤ absBits x
  · rw [val149_eq_ieee m x hnorm]
    exact ⟨h1, h2, Or.inl rfl⟩
  · have hd : absBits x < 2 ^ 23 := by omega
    have hb := val149_denormal_bound ieee x hd
    have e2 : val149 m x = val149 ieee x ∨ val149 m x = 0 := by
      unfold val149
      rw [mag149_of_denormal m x hd, mag149_of_denormal ieee x hd]
      cases m.fz <;> simp [ieee]
    rcases e2 with e | e
    · rw [e]; exact ⟨h1, h2, Or.inl rfl⟩
    · rw [e]
      exact ⟨by omega, by omega, Or.inr ⟨rfl, hb.1, hb.2⟩⟩

theorem exact_vn_bounds_wide (m : FPMode) (x : Nat) (h : inBiasRange x) :
    8388608 * 2 ^ 298 < exactMulAdd m magic_bias x log2e_x2048 ∧
    exactMulAdd m magic_bias x log2e_x2048 < 16777216 * 2 ^ 298 := by
  obtain ⟨_, _, _, h1, h2, _⟩ := inBiasRange_val m x h
  rw [exact_vn]
  constructor <;> omega

/-- On a tie the rounded significand is even. -/
theorem roundMant_tie (n sh : Nat) (h : n % 2 ^ sh = 2 ^ (sh - 1)) :
    roundMant n sh % 2 = 0 := by
  unfold roundMant
  rw [h]
  simp only [lt_irrefl, false_or, true_and]
  split <;> omega

/-- In the range of the magic bias `vn` is `0x4A800000 + M` with `M` the integer nearest
to the exact `magic_bias + x * log2e_x2048`, ties to even, and `2 ^ 23 ≤ M ≤ 2 ^ 24`. -/
theorem lane_vn_wide (m : FPMode) (x : Nat) (h : inBiasRange x) :
    0 < exactMulAdd m magic_bias x log2e_x2048 ∧
    lane_vn m x = 0x4A800000 + roundMant (exactMulAdd m magic_bias x log2e_x2048).natAbs 298 ∧
    8388608 ≤ roundMant (exactMulAdd m magic_bias x log2e_x2048).natAbs 298 ∧
    roundMant (exactMulAdd m magic_bias x log2e_x2048).natAbs 298 ≤ 16777216 := by
  obtain ⟨hfin, _⟩ := inBiasRange_val m x h
  obtain ⟨hlo, hhi⟩ := exact_vn_bounds_wide m x h
  have hpos : 0 < exactMulAdd m magic_bias x log2e_x2048 := by
    have : (0 : Int) < 8388608 * 2 ^ 298 := by norm_num
    omega
  have hvn : lane_vn m x = roundMag m.fz (exactMulAdd m magic_bias x log2e_x2048).natAbs := by
    unfold lane_vn
    rw [(fpMulAdd_finite m magic_bias x log2e_x2048 isFinite_magic_bias hfin isFinite_log2e).2
      (by omega)]
    unfold fpRound
    rw [if_neg (by omega), Nat.zero_add]
  rw [hvn]
  have hn1 : 8388608 * 2 ^ 298 ≤ (exactMulAdd m magic_bias x log2e_x2048).natAbs := by omega
  have hn2 : (exactMulAdd m magic_bias x log2e_x2048).natAbs ≤ 16777216 * 2 ^ 298 := by omega
  have hn3 : (exactMulAdd m magic_bias x log2e_x2048).natAbs < 16777216 * 2 ^ 298 := by omega
  generalize (exactMulAdd m magic_bias x log2e_x2048).natAbs = n at hn1 hn2 hn3
  have hm1 := roundMant_mono _ _ 298 (by norm_num) hn1
  have hm2 := roundMant_mono _ _ 298 (by norm_num) hn2
  have e1 : roundMant (8388608 * 2 ^ 298) 298 = 8388608 := by decide!
  have e2 : roundMant (16777216 * 2 ^ 298) 298 = 16777216 := by decide!
  rw [e1] at hm1
  rw [e2] at hm2
  refine ⟨hpos, ?_, hm1, hm2⟩
  have hil : ilog2 n = 321 := ilog2_unique n 321 (by omega) (by omega)
  have hsh : roundShift n = 298 := by unfold roundShift; omega
  rw [roundMag_noflush m.fz n (by omega), roundMag_ieee, hsh]
  omega

/-- In the range of the magic bias `N` is an integer of at most 23 bits within one half of
the exact `x * log2e_x2048`, and it is even when it is exactly one half away. -/
theorem lane_N_wide (m : FPMode) (x : Nat) (h : inBiasRange x) :
    0x4B000000 ≤ lane_vn m x ∧ lane_vn m x ≤ 0x4B800000 ∧
    -4194304 ≤ lane_N m x ∧ lane_N m x ≤ 4194304 ∧
    lane_N m x * 2 ^ 161 - val149 m x * 12102203 ≤ 2 ^ 160 ∧
    val149 m x * 12102203 - lane_N m x * 2 ^ 161 ≤ 2 ^ 160 ∧
    (lane_N m x * 2 ^ 161 - val149 m x * 12102203 = 2 ^ 160 ∨
      val149 m x * 12102203 - lane_N m x * 2 ^ 161 = 2 ^ 160 → lane_N m x % 2 = 0) := by
  obtain ⟨hpos, h1, h2, h3⟩ := lane_vn_wide m x h
  obtain ⟨e1, e2⟩ := roundMant_err (exactMulAdd m magic_bias x log2e_x2048).natAbs 298
    (by norm_num)
  have htie := roundMant_tie (exactMulAdd m magic_bias x log2e_x2048).natAbs 298
  have hv : exactMulAdd m magic_bias x log2e_x2048
      = 12582912 * 2 ^ 298 + val149 m x * 12102203 * 2 ^ 137 := by
    rw [exact_vn, Int.mul_assoc]
  have hn : ((exactMulAdd m magic_bias x log2e_x2048).natAbs : Int)
      = exactMulAdd m magic_bias x log2e_x2048 := Int.natAbs_of_nonneg (Int.le_of_lt hpos)
  unfold lane_N
  rw [h1]
  generalize roundMant (exactMulAdd m magic_bias x log2e_x2048).natAbs 298 = M at *
  generalize (exactMulAdd m magic_bias x log2e_x2048).natAbs = n at *
  generalize exactMulAdd m magic_bias x log2e_x2048 = E at *
  generalize val149 m x * 12102203 = w at *
  have e297 : 298 - 1 = 297 := rfl
  rw [e297] at e1 e2 htie
  refine ⟨by omega, by omega, by omega, by omega, by omega, by omega, ?_⟩
  intro ht
  have hmod : n % 2 ^ 298 = 2 ^ 297 := by
    rcases ht with ht | ht
    · have : (n : Int) = (M : Int) * 2 ^ 298 - 2 ^ 297 := by omega
      omega
    · have : (n : Int) = (M : Int) * 2 ^ 298 + 2 ^ 297 := by omega
      omega
  have := htie hmod
  omega

/-- The value of a pattern in the binade of `magic_bias` or at its upper end. -/
theorem val149_vn_wide (m : FPMode) (M : Nat) (h1 : 2 ^ 23 ≤ M) (h2 : M ≤ 2 ^ 24) :
    val149 m (0x4A800000 + M) = ((M * 2 ^ 149 : Nat) : Int) ∧
    isFinite (0x4A800000 + M) = true := by
  by_cases hM : M < 2 ^ 24
  · exact val149_vn m M h1 hM
  · have e : M = 2 ^ 24 := by omega
    subst e
    obtain ⟨dn, fz⟩ := m
    cases dn <;> cases fz <;> constructor <;> decide!

/-- The subtraction of the bias is exact on the whole range of the magic bias. -/
theorem lane_n_wide (m : FPMode) (x : Nat) (h : inBiasRange x) :
    isFinite (lane_vn m x) = true ∧
    val149 ieee (lane_vn m x) = (lane_N m x + 12582912) * 2 ^ 149 ∧
    isFinite (lane_n m (lane_vn m x)) = true ∧
    val149 m (lane_n m (lane_vn m x)) = lane_N m x * 2 ^ 149 ∧
    val149 ieee (lane_n m (lane_vn m x)) = lane_N m x * 2 ^ 149 := by
  obtain ⟨_, h1, h2, h3⟩ := lane_vn_wide m x h
  obtain ⟨_, _, n1, n2, _⟩ := lane_N_wide m x h
  have hN : lane_N m x
      = (roundMant (exactMulAdd m magic_bias x log2e_x2048).natAbs 298 : Int) - 12582912 := by
    unfold lane_N; rw [h1]; omega
  generalize roundMant (exactMulAdd m magic_bias x log2e_x2048).natAbs 298 = M at *
  obtain ⟨hval, hfin⟩ := val149_vn_wide m M (by omega) (by omega)
  obtain ⟨hvali, _⟩ := val149_vn_wide ieee M (by omega) (by omega)
  have hex : exactSub m (lane_vn m x) magic_bias = lane_N m x * 2 ^ 298 := by
    unfold exactSub
    rw [h1, hval, val149_magic_bias, hN]
    omega
  have hkey := ordKey_fpSub m (lane_vn m x) magic_bias (by rw [h1]; exact hfin) isFinite_magic_bias
  rw [hex] at hkey
  obtain ⟨e1, e2, e3⟩ := rndKey_exact m (lane_N m x) 298 (by omega) (by norm_num) (by norm_num)
  have e4 : keyVal ieee (rndKey m.fz (lane_N m x * 2 ^ 298)) = lane_N m x * 2 ^ 149 := by
    omega
  refine ⟨by rw [h1]; exact hfin, ?_, ?_, ?_, ?_⟩
  · rw [h1, hvali, hN]; omega
  · unfold lane_n; rw [isFinite_iff_key, hkey]; exact e3
  · unfold lane_n; rw [val149_eq_keyVal, hkey, e2, e4]
  · unfold lane_n; rw [val149_eq_keyVal, hkey, e4]

/-- The facts of `lane_N_wide` for the IEEE value of the input: a flushed denormal input
gives `N = 0` and is itself far below one half. -/
theorem lane_N_wide_ieee (m : FPMode) (x : Nat) (h : inBiasRange x) :
    lane_N m x * 2 ^ 161 - val149 ieee x * 12102203 ≤ 2 ^ 160 ∧
    val149 ieee x * 12102203 - lane_N m x * 2 ^ 161 ≤ 2 ^ 160 ∧
    (lane_N m x * 2 ^ 161 - val149 ieee x * 12102203 = 2 ^ 160 ∨
      val149 ieee x * 12102203 - lane_N m x * 2 ^ 161 = 2 ^ 160 → lane_N m x % 2 = 0) := by
  obtain ⟨_, _, _, _, _, hc⟩ := inBiasRange_val m x h
  obtain ⟨_, _, _, _, a, b, c⟩ := lane_N_wide m x h
  rcases hc with e | ⟨e, l, u⟩
  · rw [e] at a b c
    exact ⟨a, b, c⟩
  · rw [e] at a b
    have hN : lane_N m x = 0 := by omega
    rw [hN]
    refine ⟨by omega, by omega, ?_⟩
    intro _
    rfl

/-- The distance between an integer and `x * log2e_x2048` as a rational number. -/
theorem N_sub_rat (N : Int) (x : Nat) :
    (N : ℚ) - toRat x * toRat log2e_x2048
      = ((N * 2 ^ 161 - val149 ieee x * 12102203 : Int) : ℚ) / 2 ^ 161 := by
  unfold toRat
  rw [val149_log2e]
  push_cast
  field_simp
  ring

theorem toRat_of_val (b : Nat) (c : Int) (h : val149 ieee b = c * 2 ^ 149) :
    toRat b = (c : ℚ) := by
  unfold toRat
  rw [h, Int.cast_mul, Int.cast_pow, Int.cast_ofNat]
  exact mul_div_cancel_right₀ _ (by positivity)

/-! ## Patching the exponent field -/

/-- A pattern of the binade of 1.0 with `d ≤ 126` taken off its exponent field: the
fraction is kept, the exponent field is `127 - d`, and the value is the significand times
`2 ^ (126 - d)` in units of `2 ^ -149`, in every mode. -/
theorem patch_val (m : FPMode) (l d : Nat) (l1 : 0x3F800000 ≤ l) (l2 : l < 0x40000000)
    (hd : d ≤ 126) :
    isFinite (l - d * 2 ^ 23) = true ∧ signBit (l - d * 2 ^ 23) = 0 ∧
    expField (l - d * 2 ^ 23) = 127 - d ∧ fracField (l - d * 2 ^ 23) = fracField l ∧
    val149 m (l - d * 2 ^ 23) = ((significand l * 2 ^ (126 - d) : Nat) : Int) := by
  have hsig := significand_unit l l1 l2
  have hpat : l - d * 2 ^ 23 = (126 - d) * 2 ^ 23 + significand l := by
    rw [hsig]; omega
  have hsb := significand_bounds l
  have hlt : l - d * 2 ^ 23 < 0x40000000 := by omega
  have hge : 2 ^ 23 ≤ l - d * 2 ^ 23 := by omega
  have hsign : signBit (l - d * 2 ^ 23) = 0 := by unfold signBit; omega
  have habs : absBits (l - d * 2 ^ 23) = l - d * 2 ^ 23 := by unfold absBits; omega
  refine ⟨?_, hsign, ?_, ?_, ?_⟩
  · rw [isFinite_iff, habs]; omega
  · unfold expField; omega
  · unfold fracField; omega
  · unfold val149
    rw [hsign, if_neg (by decide), mag149_eq_ieee m _ (by rw [habs]; exact hge)]
    rw [hpat, mag149_enc _ _ (by omega) (Or.inr hsb.1) (by omega)]

/-- The wrap-around addition of `e * 2 ^ 23`, `-126 ≤ e ≤ 0`, to a pattern of the binade
of 1.0 takes `-e` off the exponent field. -/
theorem patch_add (l : Nat) (e : Int) (l1 : 0x3F800000 ≤ l) (l2 : l < 0x40000000)
    (he1 : -126 ≤ e) (he2 : e ≤ 0) :
    (l + (e * 2 ^ 23 % 2 ^ 32).toNat) % 2 ^ 32 = l - e.natAbs * 2 ^ 23 := by
  omega

/-- The value of the patched pattern as a rational number. -/
theorem patch_rat (l d : Nat) (l1 : 0x3F800000 ≤ l) (l2 : l < 0x40000000) (hd : d ≤ 126) :
    toRat (l - d * 2 ^ 23) = toRat l / 2 ^ d := by
  unfold toRat
  rw [(patch_val ieee l d l1 l2 hd).2.2.2.2, val149_unit ieee l l1 l2]
  have e : (2 : ℚ) ^ 126 = 2 ^ (126 - d) * 2 ^ d := by
    rw [← pow_add, show 126 - d + d = 126 by omega]
  have hP : (0 : ℚ) < 2 ^ 149 := by positivity
  have hD : (0 : ℚ) < 2 ^ d := by positivity
  rw [Int.cast_natCast, Int.cast_natCast, Nat.cast_mul, Nat.cast_mul, Nat.cast_pow,
    Nat.cast_pow, Nat.cast_ofNat, e]
  generalize (2 : ℚ) ^ 149 = P at hP ⊢
  field_simp
  ring

/-! ## The size of the residual -/

/-- The exact residual is at most half a reduction step plus the drift of the rounded
constant `log2e_x2048` over the domain. -/
theorem residual_sharp_of (ell Xm : ℝ) (N : ℤ)
    (l1 : (287209 / 414355 - 1 / 10 ^ 10) / 2048 ≤ ell)
    (l2 : ell ≤ (287209 / 414355 + 1 / 10 ^ 10) / 2048)
    (hX1 : -(11447375 / 2 ^ 17) ≤ Xm) (hX4 : Xm ≤ 0)
    (hN3 : |(N : ℝ) - Xm * (12102203 / 4096)| ≤ 1 / 2) :
    |Xm - N * ell| ≤ ell / 2 + 1223 / 10 ^ 9 := by
  obtain ⟨n1, n2⟩ := abs_le.mp hN3
  have hl0 : 0 ≤ ell := by
    have : (0 : ℝ) ≤ (287209 / 414355 - 1 / 10 ^ 10) / 2048 := by norm_num
    linarith only [this, l1]
  have ha1 : 0 ≤ 1 - 12102203 / 4096 * ell := by
    have : 12102203 / 4096 * ell ≤ 12102203 / 4096 * ((287209 / 414355 + 1 / 10 ^ 10) / 2048) :=
      mul_le_mul_of_nonneg_left l2 (by norm_num)
    norm_num at this ⊢
    linarith only [this]
  have ha2 : 1 - 12102203 / 4096 * ell ≤ 14 / 10 ^ 9 := by
    have : 12102203 / 4096 * ((287209 / 414355 - 1 / 10 ^ 10) / 2048) ≤ 12102203 / 4096 * ell :=
      mul_le_mul_of_nonneg_left l1 (by norm_num)
    norm_num at this ⊢
    linarith only [this]
  have p1 : 0 ≤ ((N : ℝ) - Xm * (12102203 / 4096) + 1 / 2) * ell :=
    mul_nonneg (by linarith only [n1]) hl0
  have p2 : 0 ≤ (Xm * (12102203 / 4096) + 1 / 2 - (N : ℝ)) * ell :=
    mul_nonneg (by linarith only [n2]) hl0
  have p3 : Xm * (1 - 12102203 / 4096 * ell) ≤ 0 := mul_nonpos_of_nonpos_of_nonneg hX4 ha1
  have p4 : -(11447375 / 2 ^ 17) * (14 / 10 ^ 9) ≤ Xm * (1 - 12102203 / 4096 * ell) := by
    have q1 : -(11447375 / 2 ^ 17) * (1 - 12102203 / 4096 * ell)
        ≤ Xm * (1 - 12102203 / 4096 * ell) :=
      mul_le_mul_of_nonneg_right hX1 ha1
    have q2 : -(11447375 / 2 ^ 17 : ℝ) * (14 / 10 ^ 9)
        ≤ -(11447375 / 2 ^ 17) * (1 - 12102203 / 4096 * ell) := by
      apply mul_le_mul_of_nonpos_left ha2
      norm_num
    linarith only [q1, q2]
  rw [abs_le]
  norm_num at p4 ⊢
  constructor
  · linarith only [p2, p4]
  · linarith only [p1, p3]

theorem residual_sharp (Xm : ℝ) (N : ℤ) (hX1 : -(11447375 / 2 ^ 17) ≤ Xm) (hX4 : Xm ≤ 0)
    (hN3 : |(N : ℝ) - Xm * (12102203 / 4096)| ≤ 1 / 2) :
    |Xm - N * (Real.log 2 / 2048)| ≤ Real.log 2 / 2048 / 2 + 1223 / 10 ^ 9 :=
  residual_sharp_of _ Xm N ell_bounds.1 ell_bounds.2 hX1 hX4 hN3

/-- The computed residual against the exact one: the two Cody-Waite constants differ from
`log 2 / 2048` by less than `5 * 10 ^ -14`, and the two roundings add less than
`4 * 10 ^ -11`. -/
theorem computed_residual_of (ell Xm Thi Tt : ℝ) (N : ℤ)
    (l1 : (287209 / 414355 - 1 / 10 ^ 10) / 2048 ≤ ell)
    (l2 : ell ≤ (287209 / 414355 + 1 / 10 ^ 10) / 2048)
    (hN1 : -258048 ≤ N) (hN2 : N ≤ 0)
    (hr : |Xm - N * ell| ≤ 2 / 10 ^ 4)
    (hThi : |Thi - (Xm + N * (-(11629080 / 2 ^ 35)))|
      ≤ |Xm + N * (-(11629080 / 2 ^ 35))| / 2 ^ 24 + 1 / 2 ^ 126)
    (hTt : |Tt - (Thi + N * (8577800 / 2 ^ 63))|
      ≤ |Thi + N * (8577800 / 2 ^ 63)| / 2 ^ 24 + 1 / 2 ^ 126) :
    |Tt - (Xm - N * ell)| ≤ 13 / 10 ^ 9 := by
  generalize hrdef : Xm - N * ell = r at hr ⊢
  have hNa : |(N : ℝ)| ≤ 258048 := by
    rw [abs_le]
    constructor
    · exact_mod_cast (by omega : (-258048 : ℤ) ≤ N)
    · have : (N : ℝ) ≤ 0 := by exact_mod_cast hN2
      linarith only [this]
  have d1 : |ell - 11629080 / 2 ^ 35| ≤ 1 / 10 ^ 12 := by
    rw [abs_le]; norm_num at l1 l2 ⊢; constructor <;> linarith only [l1, l2]
  have d2 : |ell - (11629080 / 2 ^ 35 - 8577800 / 2 ^ 63)| ≤ 5 / 10 ^ 14 := by
    rw [abs_le]; norm_num at l1 l2 ⊢; constructor <;> linarith only [l1, l2]
  have m1 : |(N : ℝ) * (ell - 11629080 / 2 ^ 35)| ≤ 258048 * (1 / 10 ^ 12) := by
    rw [abs_mul]; exact mul_le_mul hNa d1 (abs_nonneg _) (by norm_num)
  have m2 : |(N : ℝ) * (ell - (11629080 / 2 ^ 35 - 8577800 / 2 ^ 63))|
      ≤ 258048 * (5 / 10 ^ 14) := by
    rw [abs_mul]; exact mul_le_mul hNa d2 (abs_nonneg _) (by norm_num)
  have eVhi : Xm + N * (-(11629080 / 2 ^ 35)) = r + N * (ell - 11629080 / 2 ^ 35) := by
    rw [← hrdef]; ring
  have bVhi : |Xm + N * (-(11629080 / 2 ^ 35))| ≤ 201 / 10 ^ 6 := by
    rw [eVhi]
    calc |r + N * (ell - 11629080 / 2 ^ 35)| ≤ |r| + |(N : ℝ) * (ell - 11629080 / 2 ^ 35)| :=
          abs_add _ _
      _ ≤ 2 / 10 ^ 4 + 258048 * (1 / 10 ^ 12) := add_le_add hr m1
      _ ≤ 201 / 10 ^ 6 := by norm_num
  have e1 : |Thi - (Xm + N * (-(11629080 / 2 ^ 35)))| ≤ 2 / 10 ^ 11 := by
    refine le_trans hThi ?_
    have : |Xm + N * (-(11629080 / 2 ^ 35))| / 2 ^ 24 ≤ 201 / 10 ^ 6 / 2 ^ 24 :=
      div_le_div_of_nonneg_right bVhi (by norm_num)
    norm_num at this ⊢
    linarith only [this]
  have eVt : Thi + N * (8577800 / 2 ^ 63) - r
      = N * (ell - (11629080 / 2 ^ 35 - 8577800 / 2 ^ 63))
        + (Thi - (Xm + N * (-(11629080 / 2 ^ 35)))) := by
    rw [← hrdef]; ring
  have bVt_r : |Thi + N * (8577800 / 2 ^ 63) - r| ≤ 258048 * (5 / 10 ^ 14) + 2 / 10 ^ 11 := by
    rw [eVt]
    exact le_trans (abs_add _ _) (add_le_add m2 e1)
  have bVt : |Thi + N * (8577800 / 2 ^ 63)| ≤ 201 / 10 ^ 6 := by
    have := abs_sub_abs_le_abs_sub (Thi + N * (8577800 / 2 ^ 63)) r
    norm_num at bVt_r hr this ⊢
    linarith only [bVt_r, hr, this]
  have e2 : |Tt - (Thi + N * (8577800 / 2 ^ 63))| ≤ 2 / 10 ^ 11 := by
    refine le_trans hTt ?_
    have : |Thi + N * (8577800 / 2 ^ 63)| / 2 ^ 24 ≤ 201 / 10 ^ 6 / 2 ^ 24 :=
      div_le_div_of_nonneg_right bVt (by norm_num)
    norm_num at this ⊢
    linarith only [this]
  have split : Tt - r = (Tt - (Thi + N * (8577800 / 2 ^ 63)))
      + (Thi + N * (8577800 / 2 ^ 63) - r) := by ring
  rw [split]
  calc _ ≤ |Tt - (Thi + N * (8577800 / 2 ^ 63))| + |Thi + N * (8577800 / 2 ^ 63) - r| :=
        abs_add _ _
    _ ≤ 2 / 10 ^ 11 + (258048 * (5 / 10 ^ 14) + 2 / 10 ^ 11) := add_le_add e2 bVt_r
    _ ≤ 13 / 10 ^ 9 := by norm_num

/-- The computed residual is within `1 / 128` of half a reduction step, relatively. -/
theorem computed_residual_bound (Xm Thi Tt : ℝ) (N : ℤ)
    (hX1 : -(11447375 / 2 ^ 17) ≤ Xm) (hX4 : Xm ≤ 0)
    (hN1 : -258048 ≤ N) (hN2 : N ≤ 0)
    (hN3 : |(N : ℝ) - Xm * (12102203 / 4096)| ≤ 1 / 2)
    (hThi : |Thi - (Xm + N * (-(11629080 / 2 ^ 35)))|
      ≤ |Xm + N * (-(11629080 / 2 ^ 35))| / 2 ^ 24 + 1 / 2 ^ 126)
    (hTt : |Tt - (Thi + N * (8577800 / 2 ^ 63))|
      ≤ |Thi + N * (8577800 / 2 ^ 63)| / 2 ^ 24 + 1 / 2 ^ 126) :
    |Tt| ≤ 129 / 128 * (Real.log 2 / 4096) := by
  obtain ⟨l1, l2⟩ := ell_bounds
  have hr := residual_bound Xm N hX1 hX4 hN3
  have hs := residual_sharp Xm N hX1 hX4 hN3
  have hc := computed_residual_of _ Xm Thi Tt N l1 l2 hN1 hN2 hr hThi hTt
  have h3 := abs_sub_abs_le_abs_sub Tt (Xm - N * (Real.log 2 / 2048))
  generalize Real.log 2 = L at *
  generalize |Tt| = a at *
  generalize |Xm - (N : ℝ) * (L / 2048)| = b at *
  generalize |Tt - (Xm - (N : ℝ) * (L / 2048))| = c at *
  norm_num at l1 hs hc ⊢
  linarith only [l1, hs, hc, h3]

/-- The computed residual of an input of the domain, as a real number. -/
theorem lane_t_bound (m : FPMode) (x : Nat) (h : inDomain x) :
    |((toRat (lane_t m x (lane_n m (lane_vn m x))) : ℚ) : ℝ)|
      ≤ 129 / 128 * (Real.log 2 / 4096) := by
  obtain ⟨hX1, hX2, hX3, hX4⟩ := domain_real m x h
  obtain ⟨v1, v2, n1, n2, _⟩ := lane_N_spec m x h
  have hN3 := N_real m x h
  obtain ⟨_, hnval, _⟩ := lane_n_spec m x h
  obtain ⟨⟨_, _, ma, ra⟩, ⟨_, _, mb, rb⟩, _, _⟩ := stages_finite m x h
  have hnreal : (val149 m (lane_n m (lane_vn m x)) : ℝ) / 2 ^ 149 = (lane_N m x : ℝ) := by
    rw [hnval, Int.cast_mul, Int.cast_pow, Int.cast_ofNat]
    exact mul_div_cancel_right₀ _ (by positivity)
  have hThi := err_cast _ _ ra
  rw [exactMulAdd_real, hnreal, hi_real] at hThi
  have hTt := err_cast _ _ rb
  rw [exactMulAdd_real, hnreal, lo_real, ma] at hTt
  rw [toRat_cast]
  exact computed_residual_bound _ _ _ (lane_N m x) (le_trans hX1 hX2) hX4 n1 n2 hN3 hThi hTt

/-! ## The cutoff -/

theorem exp_neg_126 : Real.exp (-(126 * Real.log 2)) = 1 / 2 ^ 126 := by
  have h := Real.exp_nat_mul (Real.log 2) 126
  rw [Real.exp_log (by norm_num)] at h
  rw [Real.exp_neg, one_div]
  congr 1

theorem val149_cutoff :
    val149 ieee denorm_cutoff = -((11447375 * 2 ^ 132 : Nat) : Int) ∧
    val149 ieee (denorm_cutoff + 1) = -((11447376 * 2 ^ 132 : Nat) : Int) := by
  constructor <;> decide!

theorem cutoff_real :
    ((toRat denorm_cutoff : ℚ) : ℝ) = -(11447375 / 2 ^ 17) ∧
    ((toRat (denorm_cutoff + 1) : ℚ) : ℝ) = -(11447376 / 2 ^ 17) := by
  rw [toRat_cast, toRat_cast, val149_cutoff.1, val149_cutoff.2]
  constructor <;> · push_cast; norm_num

/-- The pattern after `denorm_cutoff` is the next value below it. -/
theorem next_below_cutoff (b : Nat) (h : val149 ieee b < val149 ieee denorm_cutoff) :
    val149 ieee b ≤ val149 ieee (denorm_cutoff + 1) := by
  have hk := key_le_of_val149_lt b denorm_cutoff h
  have hne : ordKey b ≠ ordKey denorm_cutoff := by
    intro e
    rw [val149_eq_keyVal ieee b, val149_eq_keyVal ieee denorm_cutoff, e] at h
    omega
  have k1 : ordKey denorm_cutoff = -0x42AEAC4F := by decide!
  have k2 : ordKey (denorm_cutoff + 1) = -0x42AEAC50 := by decide!
  exact val149_mono_of_key ieee b (denorm_cutoff + 1) (by omega)

/-- The two neighbours against `-126 * log 2`. -/
theorem cutoff_brackets :
    -(11447376 / 2 ^ 17 : ℝ) < -(126 * Real.log 2) ∧
    -(126 * Real.log 2) ≤ -(11447375 / 2 ^ 17 : ℝ) := by
  have h1 := Real.log_two_lt_d9
  have h2 := Real.log_two_gt_d9
  norm_num at h1 h2 ⊢
  constructor <;> linarith only [h1, h2]

theorem toRat_le_real (a b : Nat) :
    ((toRat a : ℚ) : ℝ) ≤ ((toRat b : ℚ) : ℝ) ↔ val149 ieee a ≤ val149 ieee b := by
  rw [toRat_cast, toRat_cast, div_le_div_iff_of_pos_right (by positivity)]
  exact Int.cast_le

/-! ## The loop without its precondition -/

/-- One run of the body from any state with four elements ahead of both cursors. -/
theorem loopBody_any (m : FPMode) (inbuf : List Nat) (c p q : Nat) (mem : List Nat)
    (hp : p + 4 ≤ inbuf.length) (hq : q + 4 ≤ mem.length) :
    ∃ mem1, loopBody m inbuf ⟨c, p, q, mem⟩
        = .ok ⟨(c + 2 ^ 64 - 16) % 2 ^ 64, p + 4, q + 4, mem1⟩ ∧
      mem1.length = mem.length := by
  obtain ⟨mem1, hst, hlen1, _⟩ := vst1q_f32_eq mem q
    (Q32x4.map (expminus_lane m)
      ⟨inbuf.getD p 0, inbuf.getD (p + 1) 0, inbuf.getD (p + 2) 0, inbuf.getD (p + 3) 0⟩) hq
  refine ⟨mem1, ?_, hlen1⟩
  simp only [loopBody, vld1q_f32_eq inbuf p hp, loopCompute_eq, hst, sizeof_float]

/-- The body takes 16 off `n` modulo `2 ^ 64`: `n` modulo 16 does not change. -/
theorem loopBody_mod (m : FPMode) (inbuf : List Nat) (s s1 : LoopState)
    (h : loopBody m inbuf s = .ok s1) : s1.n % 16 = s.n % 16 := by
  unfold loopBody at h
  split at h
  · cases h
  · split at h
    · cases h
    · split at h
      · cases h
      · have e := Outcome.ok.inj h
        rw [← e]
        simp only [sizeof_float]
        omega

/-- From a state whose `n` is not a multiple of 16 the loop does not return, whatever the
number of iterations allowed. -/
theorem loop_not_ok (m : FPMode) (inbuf : List Nat) :
    ∀ (fuel : Nat) (s : LoopState), s.n % 16 ≠ 0 → ∀ r, loop m inbuf fuel s ≠ .ok r := by
  intro fuel
  induction fuel with
  | zero =>
    intro s hs r
    have hne : ¬ s.n = 0 := by omega
    simp only [loop, hne, if_false]
    intro hc
    cases hc
  | succ fuel ih =>
    intro s hs r
    have hne : ¬ s.n = 0 := by omega
    simp only [loop, hne, if_false]
    cases hb : loopBody m inbuf s with
    | ok s1 =>
      have := loopBody_mod m inbuf s s1 hb
      exact ih s1 (by omega) r
    | fault e =>
      intro hc
      cases hc

/-- Every head of such a loop has `n` non-zero. -/
theorem loopHeads_mod (m : FPMode) (inbuf : List Nat) :
    ∀ (fuel : Nat) (s : LoopState), ∀ t ∈ loopHeads m inbuf fuel s, t.n % 16 = s.n % 16 := by
  intro fuel
  induction fuel with
  | zero =>
    intro s t ht
    simp only [loopHeads, List.mem_singleton] at ht
    rw [ht]
  | succ fuel ih =>
    intro s t ht
    unfold loopHeads at ht
    split at ht
    · simp only [List.mem_singleton] at ht
      rw [ht]
    · cases hb : loopBody m inbuf s with
      | ok s1 =>
        rw [hb] at ht
        simp only [List.mem_cons] at ht
        rcases ht with ht | ht
        · rw [ht]
        · rw [ih s1 t ht]
          exact loopBody_mod m inbuf s s1 hb
      | fault e =>
        rw [hb] at ht
        simp only [List.mem_singleton] at ht
        rw [ht]

/-- With room in both buffers for every iteration allowed, such a loop is still running
when the iterations are used up. -/
theorem loop_still_running (m : FPMode) (inbuf : List Nat) :
    ∀ (fuel c p q : Nat) (mem : List Nat), c % 16 ≠ 0 →
      p + 4 * fuel ≤ inbuf.length → q + 4 * fuel ≤ mem.length →
      loop m inbuf fuel ⟨c, p, q, mem⟩ = .fault .fuel := by
  intro fuel
  induction fuel with
  | zero =>
    intro c p q mem hc _ _
    have hne : ¬ c = 0 := by omega
    simp only [loop, hne, if_false]
  | succ fuel ih =>
    intro c p q mem hc hp hq
    have hne : ¬ c = 0 := by omega
    obtain ⟨mem1, hbody, hlen1⟩ := loopBody_any m inbuf c p q mem (by omega) (by omega)
    simp only [loop, hne, if_false, hbody]
    exact ih _ (p + 4) (q + 4) mem1 (by omega) (by omega) (by omega)

/-! ## The first Cody-Waite step -/

/-- An integer of at most 24 bits times a power of two from `2 ^ -149` up is rounded to
itself; under flush-to-zero the value has to be zero or at least `2 ^ -126`. -/
theorem rndKey_exact_of (m : FPMode) (c : Int) (j : Nat) (hc : c.natAbs < 2 ^ 24)
    (hj1 : 149 ≤ j) (hj2 : j < 400)
    (hfl : m.fz = true → c ≠ 0 → 2 ^ 172 ≤ c.natAbs * 2 ^ j) :
    keyVal ieee (rndKey m.fz (c * 2 ^ j)) * 2 ^ 149 = c * 2 ^ j := by
  have hp : (0 : Int) < 2 ^ j := by positivity
  have hnat : (c * 2 ^ j).natAbs = c.natAbs * 2 ^ j := by
    rw [Int.natAbs_mul, Int.natAbs_pow]; rfl
  by_cases hc0 : c = 0
  · subst hc0
    simp [rndKey_zero, keyVal, mag149_zero]
  have hcpos : 0 < c.natAbs := by omega
  have hle : c.natAbs * 2 ^ j ≤ 2 ^ (24 + j) := by
    rw [Nat.pow_add]
    exact Nat.mul_le_mul_right _ (by omega)
  have hfin : roundMag false (c.natAbs * 2 ^ j) < 0x7F800000 :=
    (roundMag_lt_of_le_two_pow false _ (24 + j) (by omega) (by omega) hle).2
  have hmode : roundMag m.fz (c.natAbs * 2 ^ j) = roundMag false (c.natAbs * 2 ^ j) := by
    by_cases hz : m.fz = true
    · exact roundMag_noflush m.fz _ (hfl hz hc0)
    · have : m.fz = false := by simpa using hz
      rw [this]
  have hex := roundMag_exact (c.natAbs * 2 ^ j) (Nat.mul_pos hcpos (Nat.two_pow_pos _)) hfin
    (quantum_dvd c.natAbs j hcpos hc hj1)
  have hr0 : 0 < roundMag false (c.natAbs * 2 ^ j) := by
    by_contra h0
    have : roundMag false (c.natAbs * 2 ^ j) = 0 := by omega
    rw [this, mag149_zero] at hex
    have : 0 < c.natAbs * 2 ^ j := Nat.mul_pos hcpos (Nat.two_pow_pos _)
    omega
  unfold keyVal rndKey
  rw [hnat, hmode]
  by_cases hneg : c < 0
  · have hv : c * 2 ^ j < 0 := Int.mul_neg_of_neg_of_pos hneg hp
    rw [if_pos hv, if_pos (by omega), Int.natAbs_neg, Int.natAbs_ofNat]
    have hcast := congrArg (Nat.cast : Nat → Int) hex
    simp only [Nat.cast_mul, Nat.cast_pow, Nat.cast_ofNat] at hcast
    have hcabs : (c.natAbs : Int) = -c := by omega
    rw [hcabs] at hcast
    linarith
  · have hv : ¬ c * 2 ^ j < 0 := by
      have : 0 ≤ c * 2 ^ j := Int.mul_nonneg (by omega) (by omega)
      omega
    rw [if_neg hv, if_neg (by omega), Int.natAbs_ofNat]
    have hcast := congrArg (Nat.cast : Nat → Int) hex
    simp only [Nat.cast_mul, Nat.cast_pow, Nat.cast_ofNat] at hcast
    have hcabs : (c.natAbs : Int) = c := by omega
    rw [hcabs] at hcast
    linarith

/-- The value of a pattern, as the arithmetic reads it, is a 24-bit integer times a power
of two; under flush-to-zero it is zero or at least `2 ^ -126`. -/
theorem val149_form (m : FPMode) (b : Nat) :
    ∃ (c : Int) (i : Nat), val149 m b = c * 2 ^ i ∧ c.natAbs < 2 ^ 24 ∧
      i = absBits b / 2 ^ 23 - 1 ∧
      (m.fz = true → c ≠ 0 → 2 ^ 23 ≤ c.natAbs) := by
  have hs := signBit_lt_two b
  by_cases hd : absBits b < 2 ^ 23
  · have hi : absBits b / 2 ^ 23 - 1 = 0 := by omega
    refine ⟨val149 m b, 0, by simp, ?_, hi.symm, ?_⟩
    · unfold val149
      rw [mag149_of_denormal m b hd]
      split <;> split <;> simp <;> omega
    · intro hz hc
      exfalso
      apply hc
      unfold val149
      rw [mag149_of_denormal m b hd, hz]
      simp
  · have hn : 2 ^ 23 ≤ absBits b := by omega
    have hm := mag149_of_normal m b hn
    by_cases hsb : signBit b = 1
    · refine ⟨-((2 ^ 23 + absBits b % 2 ^ 23 : Nat) : Int), absBits b / 2 ^ 23 - 1, ?_, ?_, rfl, ?_⟩
      · unfold val149
        rw [if_pos hsb, hm]
        push_cast
        ring
      · rw [Int.natAbs_neg, Int.natAbs_ofNat]; omega
      · intro _ _
        rw [Int.natAbs_neg, Int.natAbs_ofNat]; omega
    · refine ⟨((2 ^ 23 + absBits b % 2 ^ 23 : Nat) : Int), absBits b / 2 ^ 23 - 1, ?_, ?_, rfl, ?_⟩
      · unfold val149
        rw [if_neg hsb, hm]
        push_cast
        ring
      · rw [Int.natAbs_ofNat]; omega
      · intro _ _
        rw [Int.natAbs_ofNat]; omega

/-- A value that is read from a pattern is rounded to itself. -/
theorem rndKey_of_val (m : FPMode) (b : Nat) (hb : absBits b < 200 * 2 ^ 23) :
    keyVal ieee (rndKey m.fz (val149 m b * 2 ^ 149)) * 2 ^ 149 = val149 m b * 2 ^ 149 := by
  obtain ⟨c, i, hv, hc, hi, hfl⟩ := val149_form m b
  have hi2 : i < 200 := by omega
  have e : val149 m b * 2 ^ 149 = c * 2 ^ (i + 149) := by
    rw [hv, pow_add]; ring
  rw [e]
  apply rndKey_exact_of m c (i + 149) hc (by omega) (by omega)
  intro hz hc0
  have h1 := hfl hz hc0
  calc 2 ^ 172 = 2 ^ 23 * 2 ^ 149 := by norm_num
    _ ≤ c.natAbs * 2 ^ 149 := Nat.mul_le_mul_right _ h1
    _ ≤ c.natAbs * 2 ^ (i + 149) :=
        Nat.mul_le_mul_left _ (Nat.pow_le_pow_right (by norm_num) (by omega))

/-- A normal value of exponent `-13` or more is a multiple of `2 ^ -36`. -/
theorem val149_dvd (m : FPMode) (b : Nat) (h : 114 * 2 ^ 23 ≤ absBits b) :
    ∃ c : Int, val149 m b = c * 2 ^ 113 := by
  obtain ⟨c, i, hv, _, hi, _⟩ := val149_form m b
  have hi2 : 113 ≤ i := by omega
  refine ⟨c * 2 ^ (i - 113), ?_⟩
  rw [hv, mul_assoc, ← pow_add, show i - 113 + 113 = i by omega]

theorem mag149_below_exp114 (m : FPMode) (b : Nat) (h : absBits b < 114 * 2 ^ 23) :
    mag149 m b < 2 ^ 136 := by
  have h1 := mag149_mono_mode m (absBits b) (114 * 2 ^ 23 - 1) (absBits_lt b) (by norm_num)
    (by omega)
  rw [mag149_absBits] at h1
  have h2 : mag149 m (114 * 2 ^ 23 - 1) < 2 ^ 136 := by
    obtain ⟨dn, fz⟩ := m
    cases dn <;> cases fz <;> decide!
  omega

/-- The exact value of the first Cody-Waite step, `x + n * minus_ln2_o2048_hi`, in the
domain. -/
theorem exact_t_hi (m : FPMode) (x : Nat) (h : inDomain x) :
    exactMulAdd m x (lane_n m (lane_vn m x)) minus_ln2_o2048_hi
      = (val149 m x - lane_N m x * (11629080 * 2 ^ 114)) * 2 ^ 149 := by
  obtain ⟨_, hn, _⟩ := lane_n_spec m x h
  unfold exactMulAdd
  rw [hn, val149_hi]
  generalize val149 m x = vx
  generalize lane_N m x = N
  have e : ((2 ^ 149 : Nat) : Int) = 2 ^ 149 := by norm_cast
  have e2 : ((11629080 * 2 ^ 114 : Nat) : Int) = 11629080 * 2 ^ 114 := by norm_cast
  rw [e, e2]
  ring

/-- The first Cody-Waite step is exact: the result is the exact value of
`x + n * minus_ln2_o2048_hi`. -/
theorem lane_t_hi_exact (m : FPMode) (x : Nat) (h : inDomain x) :
    val149 ieee (lane_t_hi m x (lane_n m (lane_vn m x))) * 2 ^ 149
      = exactMulAdd m x (lane_n m (lane_vn m x)) minus_ln2_o2048_hi := by
  obtain ⟨⟨_, ka, _, _⟩, _⟩ := stages_finite m x h
  obtain ⟨_, _, n1, n2, n3, n4⟩ := lane_N_spec m x h
  rw [val149_eq_keyVal ieee, ka, exact_t_hi m x h]
  by_cases hA : 114 * 2 ^ 23 ≤ absBits x
  · obtain ⟨c0, hc0⟩ := val149_dvd m x hA
    rw [hc0] at n3 n4 ⊢
    generalize lane_N m x = N at *
    have hc : (c0 - 23258160 * N).natAbs < 2 ^ 24 := by omega
    have e : (c0 * 2 ^ 113 - N * (11629080 * 2 ^ 114)) * 2 ^ 149
        = (c0 - 23258160 * N) * 2 ^ 262 := by
      rw [show (2 : Int) ^ 114 = 2 * 2 ^ 113 by norm_num,
        show (2 : Int) ^ 262 = 2 ^ 113 * 2 ^ 149 by rw [← pow_add]]
      generalize (2 : Int) ^ 113 = A
      generalize (2 : Int) ^ 149 = B
      ring
    rw [e]
    exact (rndKey_exact m (c0 - 23258160 * N) 262 hc (by norm_num) (by norm_num)).1
  · have hB : absBits x < 114 * 2 ^ 23 := by omega
    have hmag := mag149_below_exp114 m x hB
    have hv : -(2 ^ 136 : Int) < val149 m x ∧ val149 m x < 2 ^ 136 := by
      unfold val149
      split <;> constructor <;> omega
    have hN : lane_N m x = 0 := by omega
    rw [hN, zero_mul, sub_zero]
    exact rndKey_of_val m x (by omega)

/-! ## The range of the output -/

/-- A result within `4 * 2 ^ -24` of `exp x`, at or above the cutoff, is at least
`2 ^ -126`. -/
theorem output_lower (F X : ℝ) (hX : -(11447375 / 2 ^ 17) ≤ X)
    (hacc : |F - Real.exp X| ≤ 4 / 2 ^ 24 * Real.exp X) : 1 / 2 ^ 126 ≤ F := by
  have hE := exp_above_cutoff X hX
  obtain ⟨a1, _⟩ := abs_le.mp hacc
  have hQ : (0 : ℝ) < 1 / 2 ^ 126 := by positivity
  generalize (1 : ℝ) / 2 ^ 126 = Q at hE hQ ⊢
  generalize Real.exp X = E at hE a1
  have h1 : (1 - 4 / 2 ^ 24) * ((1 + 4 / 10 ^ 6) * Q) ≤ (1 - 4 / 2 ^ 24) * E :=
    mul_le_mul_of_nonneg_left hE (by norm_num)
  have h2 : Q ≤ (1 - 4 / 2 ^ 24) * ((1 + 4 / 10 ^ 6) * Q) := by
    have h7 : (1 : ℝ) ≤ (1 - 4 / 2 ^ 24) * (1 + 4 / 10 ^ 6) := by norm_num
    calc Q = 1 * Q := (one_mul Q).symm
      _ ≤ (1 - 4 / 2 ^ 24) * (1 + 4 / 10 ^ 6) * Q := mul_le_mul_of_nonneg_right h7 hQ.le
      _ = (1 - 4 / 2 ^ 24) * ((1 + 4 / 10 ^ 6) * Q) := by ring
  linarith only [h1, h2, a1]

/-- A result within `4 * 2 ^ -24` of `exp x` is at most 1 when the reduced argument is
negative: then `x` is below `-1.6 * 10 ^ -4`. -/
theorem output_upper (F X Xm : ℝ) (N : ℤ) (hX2 : X ≤ Xm) (hN : N ≤ -1)
    (hN3 : |(N : ℝ) - Xm * (12102203 / 4096)| ≤ 1 / 2)
    (hacc : |F - Real.exp X| ≤ 4 / 2 ^ 24 * Real.exp X) : F ≤ 1 := by
  obtain ⟨n1, _⟩ := abs_le.mp hN3
  obtain ⟨_, a2⟩ := abs_le.mp hacc
  have hNr : (N : ℝ) ≤ -1 := by exact_mod_cast hN
  have hXm : Xm ≤ -(1 / 10 ^ 4) := by
    norm_num at n1 ⊢
    linarith only [n1, hNr]
  have h1 := Real.add_one_le_exp (-X)
  have hmul : Real.exp X * Real.exp (-X) = 1 := by rw [← Real.exp_add, add_neg_cancel, Real.exp_zero]
  have hpos : 0 < Real.exp X := Real.exp_pos X
  have h2 : Real.exp X * (-X + 1) ≤ Real.exp X * Real.exp (-X) :=
    mul_le_mul_of_nonneg_left h1 hpos.le
  have h3 : Real.exp X * (4 / 2 ^ 24) ≤ Real.exp X * (-X) :=
    mul_le_mul_of_nonneg_left (by norm_num at hXm ⊢; linarith only [hXm, hX2]) hpos.le
  rw [hmul] at h2
  linarith only [a2, h2, h3]

/-- A result whose exact value is not positive is not positive. -/
theorem val149_nonpos_of_key (m : FPMode) (r : Nat) (v : Int)
    (hkey : ordKey r = rndKey m.fz v) (hv : v ≤ 0) : val149 m r ≤ 0 := by
  have h1 := rndKey_mono m.fz v 0 hv
  rw [rndKey_zero] at h1
  have h0 : ordKey 0 = 0 := by decide
  have := val149_mono_of_key m r 0 (by rw [hkey, h0]; exact h1)
  rw [val149_zero] at this
  exact this

theorem rndKey_one (fz : Bool) : rndKey fz (2 ^ 298) = 0x3F800000 := by
  cases fz <;> decide!

theorem val149_one (m : FPMode) : val149 m 0x3F800000 = 2 ^ 149 := by
  obtain ⟨dn, fz⟩ := m
  cases dn <;> cases fz <;> decide!

/-- With the reduced argument zero the scale is 1, the polynomial term is not positive,
and the value before the clamp is at most 1. -/
theorem lane_f_le_one (m : FPMode) (x : Nat) (h : inDomain x) (hN : lane_N m x = 0) :
    val149 ieee (lane_f m x) ≤ 2 ^ 149 := by
  obtain ⟨_, _, _, _, hx, _⟩ := inDomain_val m x h
  obtain ⟨_, hn, _⟩ := lane_n_spec m x h
  obtain ⟨⟨_, ka, _, _⟩, ⟨_, kb, _, _⟩, ⟨_, kc, _, _⟩, ⟨_, kd, _⟩⟩ := stages_finite m x h
  rw [hN, zero_mul] at hn
  have hvn : lane_vn m x = 0x4B400000 := by unfold lane_N at hN; omega
  have hs : lane_s (lane_vn m x) = 0x3F800000 := by rw [hvn]; decide!
  have hP : (0 : Int) < ((2 ^ 149 : Nat) : Int) := by positivity
  have h1 : val149 m (lane_t_hi m x (lane_n m (lane_vn m x))) ≤ 0 := by
    apply val149_nonpos_of_key m _ _ ka
    unfold exactMulAdd
    rw [hn, zero_mul, add_zero]
    exact Int.mul_nonpos_of_nonpos_of_nonneg hx hP.le
  have h2 : val149 m (lane_t m x (lane_n m (lane_vn m x))) ≤ 0 := by
    apply val149_nonpos_of_key m _ _ kb
    unfold exactMulAdd
    rw [hn, zero_mul, add_zero]
    exact Int.mul_nonpos_of_nonpos_of_nonneg h1 hP.le
  have h3 : val149 m (lane_p m (lane_t m x (lane_n m (lane_vn m x)))) ≤ 0 := by
    apply val149_nonpos_of_key m _ _ kc
    unfold exactMul
    rw [val149_c1]
    exact Int.mul_nonpos_of_nonpos_of_nonneg h2 (by positivity)
  have h4 : exactMulAdd m (lane_s (lane_vn m x)) (lane_s (lane_vn m x))
      (lane_p m (lane_t m x (lane_n m (lane_vn m x)))) ≤ 2 ^ 298 := by
    unfold exactMulAdd
    rw [hs, val149_one]
    have e : ((2 ^ 149 : Nat) : Int) = 2 ^ 149 := by norm_cast
    rw [e]
    generalize val149 m (lane_p m (lane_t m x (lane_n m (lane_vn m x)))) = p at h3 ⊢
    omega
  have h5 := rndKey_mono m.fz _ _ h4
  rw [rndKey_one, ← kd] at h5
  have h6 : ordKey 0x3F800000 = 0x3F800000 := by decide
  have := val149_mono_of_key ieee (lane_f m x) 0x3F800000 (by rw [h6]; exact h5)
  rw [val149_one] at this
  exact this

/-- A 32-bit pattern with a value from `2 ^ -126` to 1 is a positive normal number. -/
theorem normal_of_val (b : Nat) (hb : b < 2 ^ 32) (h1 : 2 ^ 23 ≤ val149 ieee b)
    (h2 : val149 ieee b ≤ 2 ^ 149) :
    signBit b = 0 ∧ 1 ≤ expField b ∧ expField b ≤ 127 ∧ isFinite b = true ∧
    isNaN b = false ∧ isInf b = false ∧ b ≠ 0 := by
  have hs : signBit b = 0 := by
    rcases signBit_lt_two b with e | e
    · exact e
    · exfalso
      unfold val149 at h1
      rw [if_pos e] at h1
      omega
  have hval : val149 ieee b = (mag149 ieee b : Int) := by
    unfold val149; rw [if_neg (by omega)]
  rw [hval] at h1 h2
  have hlo : 2 ^ 23 ≤ absBits b := by
    by_contra hc
    rw [mag149_of_denormal ieee b (by omega)] at h1
    simp only [ieee, Bool.false_eq_true, if_false] at h1
    omega
  have hhi : absBits b ≤ 0x3F800000 := by
    by_contra hc
    have := mag149_mono 0x3F800001 (absBits b) (by norm_num) (absBits_lt b) (by omega)
    rw [mag149_absBits] at this
    have e : mag149 ieee 0x3F800001 = (2 ^ 23 + 1) * 2 ^ 126 := by decide!
    rw [e] at this
    omega
  have hab : absBits b = b := by unfold absBits signBit at *; omega
  rw [hab] at hlo hhi
  refine ⟨hs, ?_, ?_, ?_, ?_, ?_, ?_⟩
  · unfold expField; omega
  · unfold expField; omega
  · rw [isFinite_iff, hab]; omega
  · unfold isNaN; rw [hab]; simp only [decide_eq_false_iff_not]; omega
  · unfold isInf; rw [hab]; simp only [decide_eq_false_iff_not]; omega
  · omega

/-- In the domain the output of a lane has a value from `2 ^ -126` to 1. -/
theorem expminus_lane_range (m : FPMode) (x : Nat) (h : inDomain x) :
    2 ^ 23 ≤ val149 ieee (expminus_lane m x) ∧ val149 ieee (expminus_lane m x) ≤ 2 ^ 149 := by
  have hacc := expminus_lane_accuracy m x h
  rw [toRat_cast, toRat_cast] at hacc
  obtain ⟨hX1, hX2, _, _⟩ := domain_real m x h
  obtain ⟨_, _, _, n2, _⟩ := lane_N_spec m x h
  have hP : (0 : ℝ) < 2 ^ 149 := by positivity
  constructor
  · have hlow := output_lower _ _ hX1 hacc
    rw [le_div_iff₀ hP] at hlow
    have e : (1 : ℝ) / 2 ^ 126 * 2 ^ 149 = 2 ^ 23 := by norm_num
    rw [e] at hlow
    exact_mod_cast hlow
  · by_cases hN : lane_N m x = 0
    · rw [expminus_lane_inDomain m x h, val149_mod]
      exact lane_f_le_one m x h hN
    · have hup := output_upper _ _ _ (lane_N m x) hX2 (by omega) (N_real m x h) hacc
      rw [div_le_iff₀ hP, one_mul] at hup
      exact_mod_cast hup

/-! ## What the loop loads and stores -/

/-- The recorded body returns what `loopBody` returns. -/
theorem loopBodyRec_fst (m : FPMode) (inbuf : List Nat) (s : LoopState) :
    (loopBodyRec m inbuf s).1 = loopBody m inbuf s := by
  unfold loopBodyRec loopBody vld1q_f32_rec vst1q_f32_rec
  cases vld1q_f32 inbuf s.input with
  | none => rfl
  | some vx =>
    dsimp only
    cases loopCompute m vx with
    | none => rfl
    | some vf =>
      dsimp only
      cases vst1q_f32 s.mem s.output vf with
      | none => rfl
      | some mem => rfl

/-- The recorded loop returns what `loop` returns. -/
theorem loopRec_fst (m : FPMode) (inbuf : List Nat) :
    ∀ (fuel : Nat) (s : LoopState), (loopRec m inbuf fuel s).1 = loop m inbuf fuel s := by
  intro fuel
  induction fuel with
  | zero => intro s; rfl
  | succ fuel ih =>
    intro s
    unfold loopRec loop
    by_cases h0 : s.n = 0
    · rw [if_pos h0, if_pos h0]
    · rw [if_neg h0, if_neg h0, ← loopBodyRec_fst]
      rcases hb : loopBodyRec m inbuf s with ⟨r, a⟩
      cases r with
      | ok s1 => exact ih s1
      | fault e => rfl

/-- One run of the body from a state with four elements ahead of both cursors: the four
elements of the output at the cursor get the lane function of the four elements of the
input at its cursor, nothing else changes. -/
theorem loopBody_mem (m : FPMode) (inbuf : List Nat) (k p q : Nat) (mem : List Nat)
    (hk : 16 * (k + 1) < 2 ^ 64) (hp : p + 4 ≤ inbuf.length) (hq : q + 4 ≤ mem.length) :
    ∃ mem1, loopBody m inbuf ⟨16 * (k + 1), p, q, mem⟩ = .ok ⟨16 * k, p + 4, q + 4, mem1⟩ ∧
      loopBodyRec m inbuf ⟨16 * (k + 1), p, q, mem⟩
        = (.ok ⟨16 * k, p + 4, q + 4, mem1⟩,
            (quadAt p).map Access.load ++ (quadAt q).map Access.store) ∧
      mem1.length = mem.length ∧
      ∀ i, mem1.getD i 0 =
        if q ≤ i ∧ i < q + 4 then expminus_lane m (inbuf.getD (p + (i - q)) 0)
        else mem.getD i 0 := by
  obtain ⟨mem1, hst, hlen1, hget1⟩ := vst1q_f32_eq mem q
    (Q32x4.map (expminus_lane m)
      ⟨inbuf.getD p 0, inbuf.getD (p + 1) 0, inbuf.getD (p + 2) 0, inbuf.getD (p + 3) 0⟩) hq
  have hstep : (16 * (k + 1) + 2 ^ 64 - 4 * sizeof_float) % 2 ^ 64 = 16 * k := by
    unfold sizeof_float; omega
  refine ⟨mem1, ?_, ?_, hlen1, ?_⟩
  · simp only [loopBody, vld1q_f32_eq inbuf p hp, loopCompute_eq, hst, hstep]
  · simp only [loopBodyRec, vld1q_f32_rec, vst1q_f32_rec, vld1q_f32_eq inbuf p hp,
      loopCompute_eq, hst, hstep, quadAt, List.map_cons, List.map_nil]
  · intro i
    rw [hget1 i]
    simp only [Q32x4.map]
    by_cases e0 : i = q
    · subst e0; rw [if_pos rfl, if_pos (by omega)]; simp
    by_cases e1 : i = q + 1
    · subst e1; rw [if_neg (by omega), if_pos rfl, if_pos (by omega)]; simp
    by_cases e2 : i = q + 2
    · subst e2; rw [if_neg (by omega), if_neg (by omega), if_pos rfl, if_pos (by omega)]; simp
    by_cases e3 : i = q + 3
    · subst e3
      rw [if_neg (by omega), if_neg (by omega), if_neg (by omega), if_pos rfl,
        if_pos (by omega)]
      simp
    · rw [if_neg e0, if_neg e1, if_neg e2, if_neg e3, if_neg (by omega)]

theorem filter_isLoad_quads (p q : Nat) (rest : List Access) :
    ((quadAt p).map Access.load ++ (quadAt q).map Access.store ++ rest).filter Access.isLoad
      = (quadAt p).map Access.load ++ rest.filter Access.isLoad := by
  simp [quadAt, Access.isLoad, List.filter_cons]

theorem filter_isStore_quads (p q : Nat) (rest : List Access) :
    ((quadAt p).map Access.load ++ (quadAt q).map Access.store ++ rest).filter Access.isStore
      = (quadAt q).map Access.store ++ rest.filter Access.isStore := by
  simp [quadAt, Access.isStore, List.filter_cons]

theorem range_quads_map (f : Nat → Access) (p k : Nat) :
    (List.range (4 * (k + 1))).map (fun i => f (p + i))
      = (quadAt p).map f ++ (List.range (4 * k)).map (fun i => f (p + 4 + i)) := by
  have h := congrArg (List.map f) (range_quads p k)
  rw [List.map_map, List.map_append, List.map_map] at h
  exact h

/-- The record of a loop started with `16 * k` bytes left: iteration `j` loads the four
elements of the input at `p + 4 * j` and then stores the four elements of the output at
`q + 4 * j`; the loads, in order, are the elements `p .. p + 4 * k - 1`, each once, and
the stores, in order, are the elements `q .. q + 4 * k - 1`, each once. -/
theorem loopRec_spec (m : FPMode) (inbuf : List Nat) (k : Nat) :
    ∀ (fuel p q : Nat) (mem : List Nat), k ≤ fuel → 16 * k < 2 ^ 64 →
      p + 4 * k ≤ inbuf.length → q + 4 * k ≤ mem.length →
      (loopRec m inbuf fuel ⟨16 * k, p, q, mem⟩).2
        = (List.range k).flatMap (fun j =>
            (quadAt (p + 4 * j)).map Access.load ++ (quadAt (q + 4 * j)).map Access.store) ∧
      (loopRec m inbuf fuel ⟨16 * k, p, q, mem⟩).2.filter Access.isLoad
        = (List.range (4 * k)).map (fun i => Access.load (p + i)) ∧
      (loopRec m inbuf fuel ⟨16 * k, p, q, mem⟩).2.filter Access.isStore
        = (List.range (4 * k)).map (fun i => Access.store (q + i)) := by
  induction k with
  | zero =>
    intro fuel p q mem _ _ _ _
    cases fuel <;> simp [loopRec]
  | succ k ih =>
    intro fuel p q mem hf hk hp hq
    obtain ⟨fuel, rfl⟩ : ∃ f, fuel = f + 1 := ⟨fuel - 1, by omega⟩
    obtain ⟨mem1, _, hrec, hlen1, _⟩ := loopBody_mem m inbuf k p q mem hk (by omega) (by omega)
    obtain ⟨h1, h2, h3⟩ := ih fuel (p + 4) (q + 4) mem1 (by omega) (by omega)
      (by omega) (by omega)
    have hne : ¬ 16 * (k + 1) = 0 := by omega
    have hlog : (loopRec m inbuf (fuel + 1) ⟨16 * (k + 1), p, q, mem⟩).2
        = (quadAt p).map Access.load ++ (quadAt q).map Access.store
          ++ (loopRec m inbuf fuel ⟨16 * k, p + 4, q + 4, mem1⟩).2 := by
      simp only [loopRec, hne, if_false, hrec]
    rw [hlog]
    refine ⟨?_, ?_, ?_⟩
    · rw [h1, List.range_succ_eq_map, List.flatMap_cons, List.flatMap_map]
      congr 1
      apply List.flatMap_congr
      intro j _
      simp only [Function.comp, Nat.succ_eq_add_one]
      rw [show p + 4 * (j + 1) = p + 4 + 4 * j by omega,
        show q + 4 * (j + 1) = q + 4 + 4 * j by omega]
    · rw [filter_isLoad_quads, h2, range_quads_map]
    · rw [filter_isStore_quads, h3, range_quads_map]

/-- The output buffer at each head of the loop: at head `j` the first `4 * j` elements
from the cursor hold the lane function of the input, the rest is as it was. -/
theorem loopHeads_mem (m : FPMode) (inbuf : List Nat) (k : Nat) :
    ∀ (fuel p q : Nat) (mem : List Nat), k ≤ fuel → 16 * k < 2 ^ 64 →
      p + 4 * k ≤ inbuf.length → q + 4 * k ≤ mem.length →
      ∀ (j : Nat) (s : LoopState), (loopHeads m inbuf fuel ⟨16 * k, p, q, mem⟩)[j]? = some s →
        ∀ i, s.mem.getD i 0 =
          if q ≤ i ∧ i < q + 4 * j then expminus_lane m (inbuf.getD (p + (i - q)) 0)
          else mem.getD i 0 := by
  induction k with
  | zero =>
    intro fuel p q mem _ _ _ _ j s hs i
    have hh : loopHeads m inbuf fuel ⟨16 * 0, p, q, mem⟩ = [⟨16 * 0, p, q, mem⟩] := by
      cases fuel <;> simp [loopHeads]
    rw [hh] at hs
    cases j with
    | zero =>
      simp only [List.getElem?_cons_zero, Option.some.injEq] at hs
      rw [← hs, if_neg (by omega)]
    | succ j => simp at hs
  | succ k ih =>
    intro fuel p q mem hf hk hp hq j s hs i
    obtain ⟨fuel, rfl⟩ : ∃ f, fuel = f + 1 := ⟨fuel - 1, by omega⟩
    obtain ⟨mem1, hbody, _, hlen1, hget1⟩ :=
      loopBody_mem m inbuf k p q mem hk (by omega) (by omega)
    have hne : ¬ 16 * (k + 1) = 0 := by omega
    have hheads : loopHeads m inbuf (fuel + 1) ⟨16 * (k + 1), p, q, mem⟩
        = ⟨16 * (k + 1), p, q, mem⟩ :: loopHeads m inbuf fuel ⟨16 * k, p + 4, q + 4, mem1⟩ := by
      simp only [loopHeads, hne, if_false, hbody]
    rw [hheads] at hs
    cases j with
    | zero =>
      simp only [List.getElem?_cons_zero, Option.some.injEq] at hs
      rw [← hs, if_neg (by omega)]
    | succ j =>
      rw [List.getElem?_cons_succ] at hs
      have := ih fuel (p + 4) (q + 4) mem1 (by omega) (by omega) (by omega) (by omega) j s hs i
      rw [this]
      by_cases h1 : q + 4 ≤ i ∧ i < q + 4 + 4 * j
      · rw [if_pos h1, if_pos (by omega), show p + 4 + (i - (q + 4)) = p + (i - q) by omega]
      · rw [if_neg h1, hget1 i]
        by_cases h2 : q ≤ i ∧ i < q + 4
        · rw [if_pos h2, if_pos (by omega)]
        · rw [if_neg h2, if_neg (by omega)]

theorem vld1q_f32_none (buf : List Nat) (p : Nat) (h : buf.length < p + 4) :
    vld1q_f32 buf p = none := by
  unfold vld1q_f32
  have e : buf.get? (p + 3) = none := by
    rw [List.get?_eq_getElem?, List.getElem?_eq_none_iff]; omega
  rw [e]
  cases buf.get? p <;> cases buf.get? (p + 1) <;> cases buf.get? (p + 2) <;> rfl

/-- When the input buffer ends before the `4 * k` elements ahead of the cursor, the loop
stops at a load. -/
theorem loop_short_input (m : FPMode) (inbuf : List Nat) (k : Nat) :
    ∀ (fuel p q : Nat) (mem : List Nat), k ≤ fuel → 16 * k < 2 ^ 64 →
      p ≤ inbuf.length → inbuf.length < p + 4 * k → q + 4 * k ≤ mem.length →
      loop m inbuf fuel ⟨16 * k, p, q, mem⟩ = .fault .bounds := by
  induction k with
  | zero => intro fuel p q mem _ _ h1 h2 _; omega
  | succ k ih =>
    intro fuel p q mem hf hk hp1 hp2 hq
    obtain ⟨fuel, rfl⟩ : ∃ f, fuel = f + 1 := ⟨fuel - 1, by omega⟩
    have hne : ¬ 16 * (k + 1) = 0 := by omega
    by_cases hroom : p + 4 ≤ inbuf.length
    · obtain ⟨mem1, hbody, _, hlen1, _⟩ := loopBody_mem m inbuf k p q mem hk hroom (by omega)
      simp only [loop, hne, if_false, hbody]
      exact ih fuel (p + 4) (q + 4) mem1 (by omega) (by omega) hroom (by omega) (by omega)
    · simp only [loop, hne, if_false, loopBody, vld1q_f32_none inbuf p (by omega)]

/-- When the output buffer ends before the `4 * k` elements ahead of the cursor, the loop
stops at a store. -/
theorem loop_short_output (m : FPMode) (inbuf : List Nat) (k : Nat) :
    ∀ (fuel p q : Nat) (mem : List Nat), k ≤ fuel → 16 * k < 2 ^ 64 →
      p + 4 * k ≤ inbuf.length → q ≤ mem.length → mem.length < q + 4 * k →
      loop m inbuf fuel ⟨16 * k, p, q, mem⟩ = .fault .bounds := by
  induction k with
  | zero => intro fuel p q mem _ _ _ h1 h2; omega
  | succ k ih =>
    intro fuel p q mem hf hk hp hq1 hq2
    obtain ⟨fuel, rfl⟩ : ∃ f, fuel = f + 1 := ⟨fuel - 1, by omega⟩
    have hne : ¬ 16 * (k + 1) = 0 := by omega
    by_cases hroom : q + 4 ≤ mem.length
    · obtain ⟨mem1, hbody, _, hlen1, _⟩ := loopBody_mem m inbuf k p q mem hk (by omega) hroom
      simp only [loop, hne, if_false, hbody]
      exact ih fuel (p + 4) (q + 4) mem1 (by omega) (by omega) (by omega) (by omega) (by omega)
    · have hst : ∀ v, vst1q_f32 mem q v = none := by
        intro v; unfold vst1q_f32; rw [if_neg (by omega)]
      simp only [loop, hne, if_false, loopBody, vld1q_f32_eq inbuf p (by omega),
        loopCompute_eq, hst]

/-! ## Claims -/

/-- C1: in a call within the contract, every element whose input is strictly below the
cutoff `-0x1.5D589Ep6` (minus infinity included) gets the output pattern `0x00000000`,
that is `+0.0`, whatever the value computed before the clamp. -/
theorem below_cutoff_output_is_zero (m : FPMode) (fuel n : Nat) (input output : List Nat)
    (h : ValidCall fuel n input output) (i : Nat) (hi : i < n / 4)
    (hx : f32Lt (input.getD i 0) denorm_cutoff) :
    ∃ s, xnn_math_f32_expminus__neonfma_lut2048_p1 m fuel n input output = .ok s ∧
      s.mem.getD i 0 = 0 := by
  obtain ⟨out, hrun, _, hget⟩ := kernel_spec m fuel n input output h
  refine ⟨_, hrun, ?_⟩
  rw [hget i, if_pos hi]
  exact expminus_lane_of_lt m _ hx

/-- Witness for C1: the buffer `[-1000.0, -0.5, -0.0001, -87.5]`, last element. -/
theorem below_cutoff_output_is_zero_witness :
    f32Lt 0xFF800000 denorm_cutoff ∧ f32Lt 0xC47A0000 denorm_cutoff ∧
    f32Lt ([0xC47A0000, 0xBF000000, 0xB8D1B717, 0xC2AF0000].getD 3 0) denorm_cutoff ∧
    ∃ s, xnn_math_f32_expminus__neonfma_lut2048_p1 ieee 1 16
        [0xC47A0000, 0xBF000000, 0xB8D1B717, 0xC2AF0000] [0, 0, 0, 0] = .ok s ∧
      s.mem.getD 3 0 = 0 :=
  ⟨by decide!, by decide!, by decide!,
    below_cutoff_output_is_zero ieee 1 16 [0xC47A0000, 0xBF000000, 0xB8D1B717, 0xC2AF0000]
      [0, 0, 0, 0] (by decide!) 3 (by decide!) (by decide!)⟩

/-- C2: in a call within the contract, every element whose input is a NaN (any sign, any
payload) gets a NaN as output, in every mode: the clamp mask is zero and the NaN goes
through the residual, the polynomial and the final fused multiply-add whatever the scale
is. -/
theorem nan_input_gives_nan (m : FPMode) (fuel n : Nat) (input output : List Nat)
    (h : ValidCall fuel n input output) (i : Nat) (hi : i < n / 4)
    (hx : isNaN (input.getD i 0) = true) :
    ∃ s, xnn_math_f32_expminus__neonfma_lut2048_p1 m fuel n input output = .ok s ∧
      isNaN (s.mem.getD i 0) = true ∧ lane_mask m (input.getD i 0) = 0 := by
  obtain ⟨out, hrun, _, hget⟩ := kernel_spec m fuel n input output h
  refine ⟨_, hrun, ?_, lane_mask_of_isNaN m _ hx⟩
  rw [hget i, if_pos hi]
  exact isNaN_expminus_lane m _ hx

/-- Witness for C2: a quiet NaN, a signalling NaN and a negative NaN in one buffer. -/
theorem nan_input_gives_nan_witness :
    isNaN ([0x7FC00000, 0x7F800001, 0xFFFFFFFF, 0].getD 1 0) = true ∧
    ∃ s, xnn_math_f32_expminus__neonfma_lut2048_p1 ieee 1 16
        [0x7FC00000, 0x7F800001, 0xFFFFFFFF, 0] [0, 0, 0, 0] = .ok s ∧
      isNaN (s.mem.getD 1 0) = true ∧
      lane_mask ieee ([0x7FC00000, 0x7F800001, 0xFFFFFFFF, 0].getD 1 0) = 0 :=
  ⟨by decide!,
    nan_input_gives_nan ieee 1 16 [0x7FC00000, 0x7F800001, 0xFFFFFFFF, 0] [0, 0, 0, 0]
      (by decide!) 1 (by decide!) (by decide!)⟩

/-- C4, as stated, fails: `n = 4` is a positive multiple of the lane width and the
assertion rejects it; `n = 16` passes the assertion and 4 elements are processed, not 16
(the other 12 elements of the output keep their old contents). -/
theorem n_is_not_an_element_count :
    xnn_math_f32_expminus__neonfma_lut2048_p1 ieee 4 4 [0, 0, 0, 0] [7, 7, 7, 7]
      = .fault .assertion ∧
    xnn_math_f32_expminus__neonfma_lut2048_p1 ieee 16 16
      [0, 0, 0, 0, 0, 0, 0, 0, 0, 0, 0, 0, 0, 0, 0, 0]
      [7, 7, 7, 7, 7, 7, 7, 7, 7, 7, 7, 7, 7, 7, 7, 7]
      = .ok ⟨0, 4, 4, [0x3F800000, 0x3F800000, 0x3F800000, 0x3F800000,
          7, 7, 7, 7, 7, 7, 7, 7, 7, 7, 7, 7]⟩ := by
  constructor <;> decide!

/-- C4, amended: `n` is a byte count. For every `size_t` `n` that is a multiple of
`4 * sizeof(float) = 16`, with buffers of at least `n / 4` elements, the call passes the
assertion and returns after processing exactly `n / 4` elements: both cursors end at
`n / 4`, the elements `0 .. n / 4` of the output are written from the same elements of
the input, no other element of the output changes, and the result does not depend on
the input beyond its first `n / 4` elements. -/
theorem n_is_a_byte_count (m : FPMode) (fuel n : Nat) (input output : List Nat)
    (h : ValidCall fuel n input output) :
    n % (4 * sizeof_float) = 0 ∧
    ∃ out, xnn_math_f32_expminus__neonfma_lut2048_p1 m fuel n input output
        = .ok ⟨0, n / 4, n / 4, out⟩ ∧
      out.length = output.length ∧
      (∀ i, i < n / 4 → out.getD i 0 = expminus_lane m (input.getD i 0)) ∧
      (∀ i, n / 4 ≤ i → out.getD i 0 = output.getD i 0) ∧
      xnn_math_f32_expminus__neonfma_lut2048_p1 m fuel n (input.take (n / 4)) output
        = .ok ⟨0, n / 4, n / 4, out⟩ := by
  have hmod : n % (4 * sizeof_float) = 0 := h.2.1
  obtain ⟨out, hrun, hlen, hget⟩ := kernel_spec m fuel n input output h
  have h2 : ValidCall fuel n (input.take (n / 4)) output := by
    obtain ⟨a, b, c, d, e⟩ := h
    exact ⟨a, b, c, by rw [List.length_take]; omega, e⟩
  obtain ⟨out2, hrun2, hlen2, hget2⟩ := kernel_spec m fuel n (input.take (n / 4)) output h2
  have hout : out2 = out := by
    apply List.ext_getElem (by rw [hlen, hlen2])
    intro i h1 h2
    have e1 := hget i
    have e2 := hget2 i
    rw [List.getD_eq_getElem?_getD, List.getElem?_eq_getElem h2] at e1
    rw [List.getD_eq_getElem?_getD, List.getElem?_eq_getElem h1] at e2
    simp only [Option.getD_some] at e1 e2
    rw [e1, e2]
    by_cases hi : i < n / 4
    · rw [if_pos hi, if_pos hi, List.getD_eq_getElem?_getD, List.getD_eq_getElem?_getD,
        List.getElem?_take_of_lt hi]
    · rw [if_neg hi, if_neg hi]
  refine ⟨hmod, out, hrun, hlen, ?_, ?_, ?_⟩
  · intro i hi; rw [hget i, if_pos hi]
  · intro i hi; rw [hget i, if_neg (by omega)]
  · rw [hrun2, hout]

/-- Witness for C4 amended: 32 bytes, 8 elements, from a 9-element input into a
10-element output. -/
theorem n_is_a_byte_count_witness :
    ValidCall 2 32 [0, 0, 0, 0, 0, 0, 0, 0, 5] [7, 7, 7, 7, 7, 7, 7, 7, 7, 7] ∧
    (32 % (4 * sizeof_float) = 0 ∧
    ∃ out, xnn_math_f32_expminus__neonfma_lut2048_p1 ieee 2 32
        [0, 0, 0, 0, 0, 0, 0, 0, 5] [7, 7, 7, 7, 7, 7, 7, 7, 7, 7]
        = .ok ⟨0, 32 / 4, 32 / 4, out⟩ ∧
      out.length = [7, 7, 7, 7, 7, 7, 7, 7, 7, 7].length ∧
      (∀ i, i < 32 / 4 →
        out.getD i 0 = expminus_lane ieee ([0, 0, 0, 0, 0, 0, 0, 0, 5].getD i 0)) ∧
      (∀ i, 32 / 4 ≤ i → out.getD i 0 = [7, 7, 7, 7, 7, 7, 7, 7, 7, 7].getD i 0) ∧
      xnn_math_f32_expminus__neonfma_lut2048_p1 ieee 2 32
        ([0, 0, 0, 0, 0, 0, 0, 0, 5].take (32 / 4)) [7, 7, 7, 7, 7, 7, 7, 7, 7, 7]
        = .ok ⟨0, 32 / 4, 32 / 4, out⟩) :=
  ⟨by decide!, n_is_a_byte_count ieee 2 32 [0, 0, 0, 0, 0, 0, 0, 0, 5]
    [7, 7, 7, 7, 7, 7, 7, 7, 7, 7] (by decide!)⟩

/-- C5: the four-lane code is the element-wise map of the one-lane function. The loop
body gives each lane `expminus_lane` of that lane's input, the table entry of a lane
being the one at the lane's own index (bits 0..10 of its own `vn`) through the packed
64-bit extraction; and a call within the contract returns the map of `expminus_lane`
over the first `n / 4` inputs, followed by the untouched rest of the output buffer:
nothing passes from one chunk to the next. -/
theorem kernel_is_elementwise_map (m : FPMode) (fuel n : Nat) (input output : List Nat)
    (h : ValidCall fuel n input output) :
    (∀ vx : Q32x4, loopCompute m vx = some (Q32x4.map (expminus_lane m) vx)) ∧
    (∀ x, lane_l (lane_vn m x) = exp2_table.getD (lane_vn m x % 2048) 0) ∧
    xnn_math_f32_expminus__neonfma_lut2048_p1 m fuel n input output
      = .ok ⟨0, n / 4, n / 4,
          (input.take (n / 4)).map (expminus_lane m) ++ output.drop (n / 4)⟩ := by
  refine ⟨loopCompute_eq m, fun x => by rw [lane_l, lane_idx_eq], ?_⟩
  obtain ⟨out, hrun, hlen, hget⟩ := kernel_spec m fuel n input output h
  obtain ⟨_, _, _, hin, hout⟩ := h
  rw [hrun]
  have hl : ((input.take (n / 4)).map (expminus_lane m) ++ output.drop (n / 4)).length
      = output.length := by
    rw [List.length_append, List.length_map, List.length_take, List.length_drop]; omega
  have : out = (input.take (n / 4)).map (expminus_lane m) ++ output.drop (n / 4) := by
    apply List.ext_getElem (by rw [hlen, hl])
    intro i h1 h2
    have e1 := hget i
    rw [List.getD_eq_getElem?_getD, List.getElem?_eq_getElem h1] at e1
    simp only [Option.getD_some] at e1
    rw [e1]
    by_cases hi : i < n / 4
    · rw [if_pos hi, List.getElem_append_left (by simp; omega)]
      simp only [List.getElem_map, List.getElem_take]
      rw [List.getD_eq_getElem?_getD, List.getElem?_eq_getElem (by omega)]
      rfl
    · rw [if_neg hi, List.getElem_append_right (by simp; omega)]
      simp only [List.getElem_drop, List.length_map, List.length_take]
      rw [List.getD_eq_getElem?_getD, List.getElem?_eq_getElem (by omega)]
      simp only [Option.getD_some]
      congr 1
      omega
  rw [this]

/-- Witness for C5: two chunks with different inputs. -/
theorem kernel_is_elementwise_map_witness :
    ValidCall 2 32 [0, 0xBF000000, 0xC2AF0000, 0x42C80000, 0xB8D1B717, 0, 0, 0]
      [7, 7, 7, 7, 7, 7, 7, 7, 7] ∧
    ((∀ vx : Q32x4, loopCompute ieee vx = some (Q32x4.map (expminus_lane ieee) vx)) ∧
    (∀ x, lane_l (lane_vn ieee x) = exp2_table.getD (lane_vn ieee x % 2048) 0) ∧
    xnn_math_f32_expminus__neonfma_lut2048_p1 ieee 2 32
        [0, 0xBF000000, 0xC2AF0000, 0x42C80000, 0xB8D1B717, 0, 0, 0]
        [7, 7, 7, 7, 7, 7, 7, 7, 7]
      = .ok ⟨0, 32 / 4, 32 / 4,
          ([0, 0xBF000000, 0xC2AF0000, 0x42C80000, 0xB8D1B717, 0, 0, 0].take (32 / 4)).map
            (expminus_lane ieee) ++ [7, 7, 7, 7, 7, 7, 7, 7, 7].drop (32 / 4)⟩) :=
  ⟨by decide!, kernel_is_elementwise_map ieee 2 32
    [0, 0xBF000000, 0xC2AF0000, 0x42C80000, 0xB8D1B717, 0, 0, 0]
    [7, 7, 7, 7, 7, 7, 7, 7, 7] (by decide!)⟩

/-- C6: every entry of `exp2_table` is the binary32 value nearest to `2 ^ (k / 2048)`.
With `s` the 24-bit significand of entry `k`, the entry is `s / 2 ^ 23`,
`2 ^ 23 ≤ s < 2 ^ 24`, and `((2 s - 1) / 2 ^ 24) ^ 2048 ≤ 2 ^ k ≤ ((2 s + 1) / 2 ^ 24) ^ 2048`;
so the entry is within half a unit in the last place, `2 ^ -24`, of the real number
`2 ^ (k / 2048)`. -/
theorem exp2_table_correctly_rounded (k : Nat) (hk : k < 2048) :
    toRat (exp2_table.getD k 0) = (significand (exp2_table.getD k 0) : ℚ) / 2 ^ 23 ∧
    2 ^ 23 ≤ significand (exp2_table.getD k 0) ∧
    significand (exp2_table.getD k 0) < 2 ^ 24 ∧
    ((2 * (significand (exp2_table.getD k 0) : ℚ) - 1) / 2 ^ 24) ^ 2048 ≤ 2 ^ k ∧
    (2 : ℚ) ^ k ≤ ((2 * (significand (exp2_table.getD k 0) : ℚ) + 1) / 2 ^ 24) ^ 2048 ∧
    |((toRat (exp2_table.getD k 0) : ℚ) : ℝ) - (2 : ℝ) ^ ((k : ℝ) / 2048)| ≤ 1 / 2 ^ 24 := by
  obtain ⟨h1, h2⟩ := exp2_table_bounds k hk
  obtain ⟨hs1, hs2⟩ := significand_bounds (exp2_table.getD k 0)
  obtain ⟨hlo, hhi⟩ := exp2_table_nearestAt k hk
  refine ⟨toRat_unit _ h1 h2, hs1, hs2, ?_, ?_, exp2_table_half_ulp k hk⟩
  · generalize significand (exp2_table.getD k 0) = s at hlo hs1
    generalize 2048 = n at hlo
    rw [div_pow, div_le_iff₀ (by positivity), ← pow_mul, ← pow_add]
    have : ((2 * s - 1 : ℕ) : ℚ) = 2 * (s : ℚ) - 1 := by
      rw [Nat.cast_sub (by omega)]; push_cast; ring
    rw [← this]
    exact_mod_cast hlo
  · generalize significand (exp2_table.getD k 0) = s at hhi
    generalize 2048 = n at hhi
    rw [div_pow, le_div_iff₀ (by positivity), ← pow_mul, ← pow_add]
    exact_mod_cast hhi

/-- Witness for C6: the last entry, `0x1.FFD3A6p+0f`. -/
theorem exp2_table_correctly_rounded_witness :
    exp2_table.getD 2047 0 = 0x3FFFE9D3 ∧
    (toRat (exp2_table.getD 2047 0) = (significand (exp2_table.getD 2047 0) : ℚ) / 2 ^ 23 ∧
    2 ^ 23 ≤ significand (exp2_table.getD 2047 0) ∧
    significand (exp2_table.getD 2047 0) < 2 ^ 24 ∧
    ((2 * (significand (exp2_table.getD 2047 0) : ℚ) - 1) / 2 ^ 24) ^ 2048 ≤ 2 ^ 2047 ∧
    (2 : ℚ) ^ 2047 ≤ ((2 * (significand (exp2_table.getD 2047 0) : ℚ) + 1) / 2 ^ 24) ^ 2048 ∧
    |((toRat (exp2_table.getD 2047 0) : ℚ) : ℝ) - (2 : ℝ) ^ (((2047 : ℕ) : ℝ) / 2048)|
      ≤ 1 / 2 ^ 24) :=
  ⟨by decide!, exp2_table_correctly_rounded 2047 (by decide)⟩

/-- C8: for the input buffer `[0.0, 0.0, 0.0, 0.0]` with `n = 16` bytes every output
element is `1.0`, pattern `0x3F800000`, in every mode and whatever the output buffer held;
for `x = +0.0` and `x = -0.0` the stages are exact: `vn` is the magic bias, `n` is `+0.0`,
the table index is 0, `ve` is 0, `s` is `1.0`, the residual and the polynomial term are
zeros, the clamp mask is empty and the output pattern is `0x3F800000`. -/
theorem zeros_give_ones (m : FPMode) :
    (∀ o0 o1 o2 o3 : Nat,
      xnn_math_f32_expminus__neonfma_lut2048_p1 m 1 16 [0, 0, 0, 0] [o0, o1, o2, o3]
        = .ok ⟨0, 4, 4, [0x3F800000, 0x3F800000, 0x3F800000, 0x3F800000]⟩) ∧
    (∀ x, x = 0 ∨ x = 0x80000000 →
      lane_vn m x = magic_bias ∧ lane_n m (lane_vn m x) = 0 ∧
      lane_idx (lane_vn m x) = 0 ∧ lane_ve (lane_vn m x) = 0 ∧
      lane_s (lane_vn m x) = 0x3F800000 ∧
      absBits (lane_t m x (lane_n m (lane_vn m x))) = 0 ∧
      absBits (lane_p m (lane_t m x (lane_n m (lane_vn m x)))) = 0 ∧
      lane_mask m x = 0 ∧
      expminus_lane m x = 0x3F800000) := by
  have hlane : expminus_lane m 0 = 0x3F800000 := by
    obtain ⟨dn, fz⟩ := m
    cases dn <;> cases fz <;> decide!
  constructor
  · intro o0 o1 o2 o3
    obtain ⟨out, hrun, hlen, hget⟩ := kernel_spec m 1 16 [0, 0, 0, 0] [o0, o1, o2, o3]
      ⟨by norm_num, by norm_num, by norm_num, by simp, by simp⟩
    rw [hrun]
    have : out = [0x3F800000, 0x3F800000, 0x3F800000, 0x3F800000] := by
      apply List.ext_getElem (by rw [hlen]; rfl)
      intro i h1 h2
      have e1 := hget i
      rw [List.getD_eq_getElem?_getD, List.getElem?_eq_getElem h1] at e1
      simp only [Option.getD_some] at e1
      have hi : i < 4 := by simpa using h2
      rw [e1, if_pos (by omega)]
      have hx : [0, 0, 0, 0].getD i 0 = 0 := by
        interval_cases i <;> rfl
      rw [hx, hlane]
      interval_cases i <;> rfl
    rw [this]
  · intro x hx
    obtain ⟨dn, fz⟩ := m
    rcases hx with rfl | rfl <;> cases dn <;> cases fz <;> decide!

/-- C9: `exp2_table` has exactly 2048 entries, entry 0 is `1.0`, the entries are strictly
increasing in `k`, and every entry lies in `[1.0, 2.0)`: its sign bit is 0 and its biased
exponent field is 127. -/
theorem exp2_table_shape :
    exp2_table.length = 2048 ∧
    exp2_table.getD 0 0 = 0x3F800000 ∧ toRat (exp2_table.getD 0 0) = 1 ∧
    (∀ i j, i < j → j < 2048 →
      toRat (exp2_table.getD i 0) < toRat (exp2_table.getD j 0)) ∧
    (∀ k, k < 2048 →
      1 ≤ toRat (exp2_table.getD k 0) ∧ toRat (exp2_table.getD k 0) < 2 ∧
      signBit (exp2_table.getD k 0) = 0 ∧ expField (exp2_table.getD k 0) = 127 ∧
      exp2_table.getD k 0 < 2 ^ 32) := by
  have h0 : exp2_table.getD 0 0 = 0x3F800000 := by decide!
  have hval : ∀ k, k < 2048 →
      toRat (exp2_table.getD k 0) = ((exp2_table.getD k 0 - 0x3F000000 : ℕ) : ℚ) / 2 ^ 23 := by
    intro k hk
    obtain ⟨h1, h2⟩ := exp2_table_bounds k hk
    rw [toRat_unit _ h1 h2, significand_unit _ h1 h2]
  refine ⟨exp2_table_length, h0, ?_, ?_, ?_⟩
  · rw [hval 0 (by norm_num), h0]; norm_num
  · intro i j hij hj
    have hlt := strictlyIncreasing_getD exp2_table exp2_table_increasing i j hij
      (by rw [exp2_table_length]; exact hj)
    obtain ⟨hi1, _⟩ := exp2_table_bounds i (by omega)
    rw [hval i (by omega), hval j hj]
    apply div_lt_div_of_pos_right _ (by positivity)
    exact_mod_cast (by omega : exp2_table.getD i 0 - 0x3F000000 < exp2_table.getD j 0 - 0x3F000000)
  · intro k hk
    obtain ⟨h1, h2⟩ := exp2_table_bounds k hk
    rw [hval k hk]
    refine ⟨?_, ?_, by unfold signBit; omega, by unfold expField; omega, by omega⟩
    · rw [le_div_iff₀ (by positivity)]
      have : (2 ^ 23 : ℕ) ≤ exp2_table.getD k 0 - 0x3F000000 := by omega
      exact_mod_cast this
    · rw [div_lt_iff₀ (by positivity)]
      have : exp2_table.getD k 0 - 0x3F000000 < (2 * 2 ^ 23 : ℕ) := by omega
      exact_mod_cast this

/-- C10: every entry of `exp2_table` is within one unit in the last place of binary32 on
`[1, 2)` of the real number `2 ^ (k / 2048)`: `|exp2_table[k] - 2 ^ (k / 2048)| ≤ 2 ^ -23`. -/
theorem exp2_table_within_one_ulp (k : Nat) (hk : k < 2048) :
    |((toRat (exp2_table.getD k 0) : ℚ) : ℝ) - (2 : ℝ) ^ ((k : ℝ) / 2048)| ≤ 1 / 2 ^ 23 := by
  have h := exp2_table_half_ulp k hk
  have : (1 : ℝ) / 2 ^ 24 ≤ 1 / 2 ^ 23 := by norm_num
  linarith

/-- Witness for C10: entry 1, `0x1.001630p+0f`. -/
theorem exp2_table_within_one_ulp_witness :
    exp2_table.getD 1 0 = 0x3F800B18 ∧
    |((toRat (exp2_table.getD 1 0) : ℚ) : ℝ) - (2 : ℝ) ^ (((1 : ℕ) : ℝ) / 2048)|
      ≤ 1 / 2 ^ 23 :=
  ⟨by decide!, exp2_table_within_one_ulp 1 (by decide)⟩

/-- C7, as stated, fails across a table-index transition: `x1 = -0x1.D1CB80p-9` and
`x2 = -0x1.D1CB7Ep-9` are adjacent inputs of the domain, `x1 < x2`, the reduced argument
steps from -11 (table index 2037) to -10 (table index 2038) between them, and the output
goes down from `0x3F7F1784` to `0x3F7F1783`, in the IEEE reading as with flush-to-zero
and default NaN. -/
theorem not_monotone_across_table_index :
    inDomain 0xBB68E5C0 ∧ inDomain 0xBB68E5BF ∧ f32Lt 0xBB68E5C0 0xBB68E5BF ∧
    lane_N ieee 0xBB68E5C0 = -11 ∧ lane_N ieee 0xBB68E5BF = -10 ∧
    lane_idx (lane_vn ieee 0xBB68E5C0) = 2037 ∧ lane_idx (lane_vn ieee 0xBB68E5BF) = 2038 ∧
    xnn_math_f32_expminus__neonfma_lut2048_p1 ieee 1 16 [0xBB68E5C0, 0xBB68E5BF, 0, 0]
      [0, 0, 0, 0] = .ok ⟨0, 4, 4, [0x3F7F1784, 0x3F7F1783, 0x3F800000, 0x3F800000]⟩ ∧
    xnn_math_f32_expminus__neonfma_lut2048_p1 ⟨true, true⟩ 1 16
      [0xBB68E5C0, 0xBB68E5BF, 0, 0]
      [0, 0, 0, 0] = .ok ⟨0, 4, 4, [0x3F7F1784, 0x3F7F1783, 0x3F800000, 0x3F800000]⟩ ∧
    ¬ f32Le 0x3F7F1784 0x3F7F1783 := by
  refine ⟨?_, ?_, ?_, ?_, ?_, ?_, ?_, ?_, ?_, ?_⟩ <;> decide!

/-- C7, amended: the kernel is monotone inside each table segment. In a call within the
contract, for two elements whose inputs lie in the normal domain with `x1 < x2` and have
the same reduced argument (`vn`, hence the same table index and the same scale), the
outputs satisfy `output(x1) ≤ output(x2)`. -/
theorem monotone_within_table_segment (m : FPMode) (fuel n : Nat) (input output : List Nat)
    (h : ValidCall fuel n input output) (i j : Nat) (hi : i < n / 4) (hj : j < n / 4)
    (h1 : inDomain (input.getD i 0)) (h2 : inDomain (input.getD j 0))
    (hlt : f32Lt (input.getD i 0) (input.getD j 0))
    (hvn : lane_vn m (input.getD i 0) = lane_vn m (input.getD j 0)) :
    ∃ s, xnn_math_f32_expminus__neonfma_lut2048_p1 m fuel n input output = .ok s ∧
      f32Le (s.mem.getD i 0) (s.mem.getD j 0) := by
  obtain ⟨out, hrun, _, hget⟩ := kernel_spec m fuel n input output h
  refine ⟨_, hrun, ?_⟩
  show f32Le (out.getD i 0) (out.getD j 0)
  rw [hget i, hget j, if_pos hi, if_pos hj]
  exact expminus_lane_mono m _ _ h1 h2 hlt hvn

/-- Witness for C7 amended: `-0.50000006` and `-0.5` share `vn = 0x4B3FFA3B`. -/
theorem monotone_within_table_segment_witness :
    lane_vn ieee 0xBF000001 = 0x4B3FFA3B ∧
    ∃ s, xnn_math_f32_expminus__neonfma_lut2048_p1 ieee 1 16 [0xBF000001, 0xBF000000, 0, 0]
        [0, 0, 0, 0] = .ok s ∧
      f32Le (s.mem.getD 0 0) (s.mem.getD 1 0) :=
  ⟨by decide!,
    monotone_within_table_segment ieee 1 16 [0xBF000001, 0xBF000000, 0, 0] [0, 0, 0, 0]
      (by decide!) 0 1 (by decide!) (by decide!) (by decide!) (by decide!) (by decide!)
      (by decide!)⟩

/-- C3: in a call within the contract, every element whose input `x` is a binary32 value
of the normal domain `-0x1.5D589Ep6 ≤ x ≤ 0` gets an output `f` with
`|f - exp x| ≤ 4 * 2 ^ -24 * exp x`, where `exp` is the real exponential and `x`, `f` are
read as exact rationals. The bound holds in the IEEE reading and with flush-to-zero or
default NaN set. -/
theorem relative_error_within_four_ulp (m : FPMode) (fuel n : Nat) (input output : List Nat)
    (h : ValidCall fuel n input output) (i : Nat) (hi : i < n / 4)
    (hx : inDomain (input.getD i 0)) :
    ∃ s, xnn_math_f32_expminus__neonfma_lut2048_p1 m fuel n input output = .ok s ∧
      |((toRat (s.mem.getD i 0) : ℚ) : ℝ) - Real.exp ((toRat (input.getD i 0) : ℚ) : ℝ)|
        ≤ 4 / 2 ^ 24 * Real.exp ((toRat (input.getD i 0) : ℚ) : ℝ) := by
  obtain ⟨out, hrun, _, hget⟩ := kernel_spec m fuel n input output h
  refine ⟨_, hrun, ?_⟩
  show |((toRat (out.getD i 0) : ℚ) : ℝ) - _| ≤ _
  rw [hget i, if_pos hi]
  exact expminus_lane_accuracy m _ hx

/-- Witness for C3: one group holding `-0.5`, `-87.0`, the cutoff and `-0.0`; the bound is
read off at the second element. -/
theorem relative_error_within_four_ulp_witness :
    ValidCall 1 16 [0xBF000000, 0xC2AE0000, 0xC2AEAC4F, 0x80000000] [0, 0, 0, 0] ∧
    inDomain 0xC2AE0000 ∧
    ∃ s, xnn_math_f32_expminus__neonfma_lut2048_p1 ⟨true, true⟩ 1 16
        [0xBF000000, 0xC2AE0000, 0xC2AEAC4F, 0x80000000] [0, 0, 0, 0] = .ok s ∧
      |((toRat (s.mem.getD 1 0) : ℚ) : ℝ)
          - Real.exp ((toRat ([0xBF000000, 0xC2AE0000, 0xC2AEAC4F, 0x80000000].getD 1 0) : ℚ) : ℝ)|
        ≤ 4 / 2 ^ 24
          * Real.exp ((toRat ([0xBF000000, 0xC2AE0000, 0xC2AEAC4F, 0x80000000].getD 1 0) : ℚ) : ℝ) :=
  ⟨by decide!, by decide!,
    relative_error_within_four_ulp ⟨true, true⟩ 1 16
      [0xBF000000, 0xC2AE0000, 0xC2AEAC4F, 0x80000000] [0, 0, 0, 0]
      (by decide!) 1 (by decide!) (by decide!)⟩

/-- C11: the clamp changes nothing unless the input is below the cutoff. In a call within
the contract, for an element whose input `x` is a 32-bit pattern: if `x < denorm_cutoff`
the stored pattern is all zeros, and otherwise, which is exactly when
`x ≥ denorm_cutoff` or `x` is a NaN, the stored pattern is the pattern of the computed
`f = fma(s, p, s)`, bit for bit. -/
theorem clamp_keeps_f_unless_below_cutoff (m : FPMode) (fuel n : Nat)
    (input output : List Nat) (h : ValidCall fuel n input output) (i : Nat) (hi : i < n / 4)
    (hx : input.getD i 0 < 2 ^ 32) :
    ∃ s, xnn_math_f32_expminus__neonfma_lut2048_p1 m fuel n input output = .ok s ∧
      (f32Lt (input.getD i 0) denorm_cutoff → s.mem.getD i 0 = 0) ∧
      (¬ f32Lt (input.getD i 0) denorm_cutoff →
        s.mem.getD i 0 = lane_f m (input.getD i 0)) ∧
      (¬ f32Lt (input.getD i 0) denorm_cutoff ↔
        (f32Le denorm_cutoff (input.getD i 0) ∨ isNaN (input.getD i 0) = true)) := by
  obtain ⟨out, hrun, _, hget⟩ := kernel_spec m fuel n input output h
  refine ⟨_, hrun, ?_, ?_, ?_, not_lt_of_le_or_nan _⟩
  · intro hlt
    show out.getD i 0 = 0
    rw [hget i, if_pos hi]
    exact expminus_lane_of_lt m _ hlt
  · intro hlt
    show out.getD i 0 = _
    rw [hget i, if_pos hi]
    exact expminus_lane_of_not_lt m _ hx hlt
  · intro hlt
    by_cases hn : isNaN (input.getD i 0) = true
    · exact Or.inr hn
    · have hn0 : isNaN (input.getD i 0) = false := by simpa using hn
      refine Or.inl ⟨by decide, hn0, ?_⟩
      by_contra hcon
      exact hlt ⟨hn0, by decide, by omega⟩

/-- Witness for C11: a group holding the cutoff, a NaN, the value just below the cutoff
and `100.0`; the statement is read at the first element. -/
theorem clamp_keeps_f_unless_below_cutoff_witness :
    ∃ s, xnn_math_f32_expminus__neonfma_lut2048_p1 ieee 1 16
        [0xC2AEAC4F, 0x7FC00000, 0xC2AEAC50, 0x42C80000] [7, 7, 7, 7] = .ok s ∧
      (f32Lt ([0xC2AEAC4F, 0x7FC00000, 0xC2AEAC50, 0x42C80000].getD 0 0) denorm_cutoff →
        s.mem.getD 0 0 = 0) ∧
      (¬ f32Lt ([0xC2AEAC4F, 0x7FC00000, 0xC2AEAC50, 0x42C80000].getD 0 0) denorm_cutoff →
        s.mem.getD 0 0
          = lane_f ieee ([0xC2AEAC4F, 0x7FC00000, 0xC2AEAC50, 0x42C80000].getD 0 0)) ∧
      (¬ f32Lt ([0xC2AEAC4F, 0x7FC00000, 0xC2AEAC50, 0x42C80000].getD 0 0) denorm_cutoff ↔
        (f32Le denorm_cutoff ([0xC2AEAC4F, 0x7FC00000, 0xC2AEAC50, 0x42C80000].getD 0 0) ∨
          isNaN ([0xC2AEAC4F, 0x7FC00000, 0xC2AEAC50, 0x42C80000].getD 0 0) = true)) :=
  clamp_keeps_f_unless_below_cutoff ieee 1 16
    [0xC2AEAC4F, 0x7FC00000, 0xC2AEAC50, 0x42C80000] [7, 7, 7, 7]
    (by decide!) 0 (by decide!) (by decide!)

/-- C12: under the asserted precondition the loop ends after exactly `n / 16` iterations,
having loaded `n / 4` floats from `input` and stored `n / 4` floats to `output`, each
position once and in increasing order. In a call within the contract:
the record of the loop has `n / 16 + 1` heads, with `n - 16 * j` bytes left and both
cursors at element `4 * j` at head `j`, and the call returns the last head;
with fewer than `n / 16` iterations allowed the loop has not ended;
the loop with the record of its accesses returns the same state, iteration `j` loads
elements `4 * j .. 4 * j + 3` of `input` and then stores elements `4 * j .. 4 * j + 3` of
`output`, so the loads, in the order in which they are made, are the elements
`0, 1, .., n / 4 - 1`, each once, and so are the stores;
at head `j` the output buffer holds the results for the elements below `4 * j` and its
previous contents from `4 * j` on, so iteration `j` changes elements `4 * j .. 4 * j + 3`
only, and the returned buffer is untouched from element `n / 4` on;
each of the `n / 4` elements is really accessed: with an input buffer, or an output buffer,
of fewer than `n / 4` elements the call stops at a load, or at a store, that leaves the
buffer. -/
theorem loop_runs_n_div_16_iterations (m : FPMode) (fuel n : Nat) (input output : List Nat)
    (h : ValidCall fuel n input output) :
    ∃ s, xnn_math_f32_expminus__neonfma_lut2048_p1 m fuel n input output = .ok s ∧
      (loopHeads m input fuel ⟨n, 0, 0, output⟩).getLast? = some s ∧
      (loopHeads m input fuel ⟨n, 0, 0, output⟩).length = n / 16 + 1 ∧
      (loopHeads m input fuel ⟨n, 0, 0, output⟩).map (fun s => (s.n, s.input, s.output))
        = (List.range (n / 16 + 1)).map (fun j => (n - 16 * j, 4 * j, 4 * j)) ∧
      ((loopHeads m input fuel ⟨n, 0, 0, output⟩).dropLast.flatMap fun s => quadAt s.input)
        = List.range (n / 4) ∧
      ((loopHeads m input fuel ⟨n, 0, 0, output⟩).dropLast.flatMap fun s => quadAt s.output)
        = List.range (n / 4) ∧
      (∀ i, n / 4 ≤ i → s.mem.getD i 0 = output.getD i 0) ∧
      (∀ fuel1, fuel1 < n / 16 →
        xnn_math_f32_expminus__neonfma_lut2048_p1 m fuel1 n input output = .fault .fuel) ∧
      (loopRec m input fuel ⟨n, 0, 0, output⟩).1 = .ok s ∧
      (loopRec m input fuel ⟨n, 0, 0, output⟩).2
        = (List.range (n / 16)).flatMap (fun j =>
            (quadAt (4 * j)).map Access.load ++ (quadAt (4 * j)).map Access.store) ∧
      (loopRec m input fuel ⟨n, 0, 0, output⟩).2.filter Access.isLoad
        = (List.range (n / 4)).map Access.load ∧
      (loopRec m input fuel ⟨n, 0, 0, output⟩).2.filter Access.isStore
        = (List.range (n / 4)).map Access.store ∧
      (∀ (j : Nat) (t : LoopState),
        (loopHeads m input fuel ⟨n, 0, 0, output⟩)[j]? = some t →
        ∀ i, t.mem.getD i 0 =
          if i < 4 * j then expminus_lane m (input.getD i 0) else output.getD i 0) ∧
      (∀ input1 : List Nat, input1.length < n / 4 →
        xnn_math_f32_expminus__neonfma_lut2048_p1 m fuel n input1 output = .fault .bounds) ∧
      (∀ output1 : List Nat, output1.length < n / 4 →
        xnn_math_f32_expminus__neonfma_lut2048_p1 m fuel n input output1 = .fault .bounds) := by
  obtain ⟨out, hrun, _, hget⟩ := kernel_spec m fuel n input output h
  obtain ⟨hn, hmod, hfuel, hin, hout⟩ := h
  have e : 16 * (n / 16) = n := by omega
  have e4 : 4 * (n / 16) = n / 4 := by omega
  have hassert : n % (4 * sizeof_float) = 0 := by unfold sizeof_float; omega
  obtain ⟨h1, h2, h3, s, h4, h5⟩ := loopHeads_spec m input (n / 16) fuel 0 0 output hfuel
    (by omega) (by omega) (by omega)
  obtain ⟨r1, r2, r3⟩ := loopRec_spec m input (n / 16) fuel 0 0 output hfuel
    (by omega) (by omega) (by omega)
  have hmem := loopHeads_mem m input (n / 16) fuel 0 0 output hfuel
    (by omega) (by omega) (by omega)
  rw [e] at h1 h2 h3 h4 h5 r1 r2 r3 hmem
  have hmap : (loopHeads m input fuel ⟨n, 0, 0, output⟩).map (fun s => (s.n, s.input, s.output))
      = (List.range (n / 16 + 1)).map (fun j => (n - 16 * j, 4 * j, 4 * j)) := by
    rw [h1]
    apply List.map_congr_left
    intro j hj
    rw [List.mem_range] at hj
    simp only [Prod.mk.injEq]
    omega
  have hs : s = ⟨0, n / 4, n / 4, out⟩ := by
    unfold xnn_math_f32_expminus__neonfma_lut2048_p1 at hrun
    rw [if_pos hassert, h5] at hrun
    exact Outcome.ok.inj hrun
  refine ⟨s, ?_, h4, ?_, hmap, ?_, ?_, ?_, ?_, ?_, ?_, ?_, ?_, ?_, ?_, ?_⟩
  · rw [hrun, hs]
  · have := congrArg List.length hmap
    simpa using this
  · rw [h2, e4]; simp
  · rw [h3, e4]; simp
  · intro i hi
    rw [hs]
    show out.getD i 0 = _
    rw [hget i, if_neg (by omega)]
  · intro fuel1 hf1
    unfold xnn_math_f32_expminus__neonfma_lut2048_p1
    rw [if_pos hassert]
    have := loop_short m input fuel1 (n / 16) 0 0 output hf1 (by omega) (by omega) (by omega)
    rw [e] at this
    exact this
  · rw [loopRec_fst, h5]
  · rw [r1]
    apply List.flatMap_congr
    intro j _
    rw [Nat.zero_add]
  · rw [r2, e4]
    apply List.map_congr_left
    intro i _
    rw [Nat.zero_add]
  · rw [r3, e4]
    apply List.map_congr_left
    intro i _
    rw [Nat.zero_add]
  · intro j t ht i
    rw [hmem j t ht i]
    by_cases hi : i < 4 * j
    · rw [if_pos hi, if_pos (by omega)]; simp
    · rw [if_neg hi, if_neg (by omega)]
  · intro input1 hlen
    unfold xnn_math_f32_expminus__neonfma_lut2048_p1
    rw [if_pos hassert]
    have := loop_short_input m input1 (n / 16) fuel 0 0 output hfuel (by omega) (by omega)
      (by omega) (by omega)
    rw [e] at this
    exact this
  · intro output1 hlen
    unfold xnn_math_f32_expminus__neonfma_lut2048_p1
    rw [if_pos hassert]
    have := loop_short_output m input (n / 16) fuel 0 0 output1 hfuel (by omega) (by omega)
      (by omega) (by omega)
    rw [e] at this
    exact this

/-- Witness for C12: 32 bytes, two iterations over eight elements, with the record of the
accesses written out. -/
theorem loop_runs_n_div_16_iterations_witness :
    ValidCall 2 32 [0, 0xBF000000, 0, 0, 0, 0, 0, 0xC2AE0000] [7, 7, 7, 7, 7, 7, 7, 7, 7] ∧
    (loopRec ieee [0, 0xBF000000, 0, 0, 0, 0, 0, 0xC2AE0000] 2
      ⟨32, 0, 0, [7, 7, 7, 7, 7, 7, 7, 7, 7]⟩).2
      = [.load 0, .load 1, .load 2, .load 3, .store 0, .store 1, .store 2, .store 3,
          .load 4, .load 5, .load 6, .load 7, .store 4, .store 5, .store 6, .store 7] ∧
    ∃ s, xnn_math_f32_expminus__neonfma_lut2048_p1 ieee 2 32 [0, 0xBF000000, 0, 0, 0, 0, 0,
        0xC2AE0000] [7, 7, 7, 7, 7, 7, 7, 7, 7] = .ok s ∧
      (loopHeads ieee [0, 0xBF000000, 0, 0, 0, 0, 0, 0xC2AE0000] 2 ⟨32, 0, 0, [7, 7, 7, 7, 7, 7,
          7, 7, 7]⟩).getLast? = some s ∧
      (loopHeads ieee [0, 0xBF000000, 0, 0, 0, 0, 0, 0xC2AE0000] 2 ⟨32, 0, 0, [7, 7, 7, 7, 7, 7,
          7, 7, 7]⟩).length = 32 / 16 + 1 ∧
      (loopHeads ieee [0, 0xBF000000, 0, 0, 0, 0, 0, 0xC2AE0000] 2 ⟨32, 0, 0, [7, 7, 7, 7, 7, 7,
          7, 7, 7]⟩).map (fun s => (s.n, s.input, s.output))
        = (List.range (32 / 16 + 1)).map (fun j => (32 - 16 * j, 4 * j, 4 * j)) ∧
      ((loopHeads ieee [0, 0xBF000000, 0, 0, 0, 0, 0, 0xC2AE0000] 2 ⟨32, 0, 0, [7, 7, 7, 7, 7, 7,
          7, 7, 7]⟩).dropLast.flatMap fun s => quadAt s.input)
        = List.range (32 / 4) ∧
      ((loopHeads ieee [0, 0xBF000000, 0, 0, 0, 0, 0, 0xC2AE0000] 2 ⟨32, 0, 0, [7, 7, 7, 7, 7, 7,
          7, 7, 7]⟩).dropLast.flatMap fun s => quadAt s.output)
        = List.range (32 / 4) ∧
      (∀ i, 32 / 4 ≤ i → s.mem.getD i 0 = [7, 7, 7, 7, 7, 7, 7, 7, 7].getD i 0) ∧
      (∀ fuel1, fuel1 < 32 / 16 →
        xnn_math_f32_expminus__neonfma_lut2048_p1 ieee fuel1 32 [0, 0xBF000000, 0, 0, 0, 0, 0,
            0xC2AE0000] [7, 7, 7, 7, 7, 7, 7, 7, 7] = .fault .fuel) ∧
      (loopRec ieee [0, 0xBF000000, 0, 0, 0, 0, 0, 0xC2AE0000] 2 ⟨32, 0, 0, [7, 7, 7, 7, 7, 7, 7,
          7, 7]⟩).1 = .ok s ∧
      (loopRec ieee [0, 0xBF000000, 0, 0, 0, 0, 0, 0xC2AE0000] 2 ⟨32, 0, 0, [7, 7, 7, 7, 7, 7, 7,
          7, 7]⟩).2
        = (List.range (32 / 16)).flatMap (fun j =>
            (quadAt (4 * j)).map Access.load ++ (quadAt (4 * j)).map Access.store) ∧
      (loopRec ieee [0, 0xBF000000, 0, 0, 0, 0, 0, 0xC2AE0000] 2 ⟨32, 0, 0, [7, 7, 7, 7, 7, 7, 7,
          7, 7]⟩).2.filter Access.isLoad
        = (List.range (32 / 4)).map Access.load ∧
      (loopRec ieee [0, 0xBF000000, 0, 0, 0, 0, 0, 0xC2AE0000] 2 ⟨32, 0, 0, [7, 7, 7, 7, 7, 7, 7,
          7, 7]⟩).2.filter Access.isStore
        = (List.range (32 / 4)).map Access.store ∧
      (∀ (j : Nat) (t : LoopState),
        (loopHeads ieee [0, 0xBF000000, 0, 0, 0, 0, 0, 0xC2AE0000] 2 ⟨32, 0, 0, [7, 7, 7, 7, 7, 7,
            7, 7, 7]⟩)[j]? = some t →
        ∀ i, t.mem.getD i 0 =
          if i < 4 * j then expminus_lane ieee ([0, 0xBF000000, 0, 0, 0, 0, 0, 0xC2AE0000].getD i
              0) else [7, 7, 7, 7, 7, 7, 7, 7, 7].getD i 0) ∧
      (∀ input1 : List Nat, input1.length < 32 / 4 →
        xnn_math_f32_expminus__neonfma_lut2048_p1 ieee 2 32 input1 [7, 7, 7, 7, 7, 7, 7, 7, 7] =
            .fault .bounds) ∧
      (∀ output1 : List Nat, output1.length < 32 / 4 →
        xnn_math_f32_expminus__neonfma_lut2048_p1 ieee 2 32 [0, 0xBF000000, 0, 0, 0, 0, 0,
            0xC2AE0000] output1 = .fault .bounds) :=
  ⟨by decide!, by decide!,
    loop_runs_n_div_16_iterations ieee 2 32 [0, 0xBF000000, 0, 0, 0, 0, 0, 0xC2AE0000]
      [7, 7, 7, 7, 7, 7, 7, 7, 7] (by decide!)⟩

/-- C13: the table loads are in bounds for every input. For any four lanes of `vx`, whatever
their bits, each of the four indices the loop body passes to `exp2_table` is the low 11
bits of its own lane of `vn`, lies below 2048, the length of the table, and the four loads
and the whole body succeed. -/
theorem table_lookup_in_bounds (m : FPMode) (vx : Q32x4) :
    let vn := vfmaq_f32 m vmagic_bias vx vlog2e_x2048
    let vidx := vreinterpretq_u64_s32 (vandq_s32 (vreinterpretq_s32_f32 vn) vindex_mask)
    let vidx01 := vgetq_lane_u64 vidx 0
    let vidx23 := vgetq_lane_u64 vidx 1
    exp2_table.length = 2048 ∧
    uint32_t vidx01 = vn.l0 &&& 0x7FF ∧ uint32_t (vidx01 >>> 32) = vn.l1 &&& 0x7FF ∧
    uint32_t vidx23 = vn.l2 &&& 0x7FF ∧ uint32_t (vidx23 >>> 32) = vn.l3 &&& 0x7FF ∧
    uint32_t vidx01 < 2048 ∧ uint32_t (vidx01 >>> 32) < 2048 ∧
    uint32_t vidx23 < 2048 ∧ uint32_t (vidx23 >>> 32) < 2048 ∧
    (∀ v, (vld1_dup_f32 exp2_table (uint32_t vidx01)).isSome = true ∧
      (vld1_dup_f32 exp2_table (uint32_t vidx23)).isSome = true ∧
      (vld1_lane_f32 exp2_table (uint32_t (vidx01 >>> 32)) v 1).isSome = true ∧
      (vld1_lane_f32 exp2_table (uint32_t (vidx23 >>> 32)) v 1).isSome = true) ∧
    (loopCompute m vx).isSome = true := by
  intro vn vidx vidx01 vidx23
  have h0 := lane_idx_lt vn.l0
  have h1 := lane_idx_lt vn.l1
  have h2 := lane_idx_lt vn.l2
  have h3 := lane_idx_lt vn.l3
  have e0 : uint32_t vidx01 = vn.l0 &&& 0x7FF := packed_lo _ _ h0
  have e1 : uint32_t (vidx01 >>> 32) = vn.l1 &&& 0x7FF := packed_hi _ _ h0 h1
  have e2 : uint32_t vidx23 = vn.l2 &&& 0x7FF := packed_lo _ _ h2
  have e3 : uint32_t (vidx23 >>> 32) = vn.l3 &&& 0x7FF := packed_hi _ _ h2 h3
  refine ⟨exp2_table_length, e0, e1, e2, e3, ?_, ?_, ?_, ?_, ?_, ?_⟩
  · rw [e0]; exact h0
  · rw [e1]; exact h1
  · rw [e2]; exact h2
  · rw [e3]; exact h3
  · intro v
    rw [e0, e1, e2, e3]
    unfold vld1_dup_f32 vld1_lane_f32
    simp only [lane_idx_fold]
    rw [exp2_table_get? _ h0, exp2_table_get? _ h1, exp2_table_get? _ h2,
      exp2_table_get? _ h3]
    simp
  · rw [loopCompute_eq]; rfl

/-- C14: the magic bias rounds to the nearest integer. For every binary32 `x` with
`|x| ≤ 0x1.62E43p+10` the product `x * C`, `C = 0x1.715476p11`, is at most `2 ^ 22` in
magnitude, `vn = fma(x, C, 0x1.8p23)` is finite and lies in `[2 ^ 23, 2 ^ 24]`, the
subtraction `vn - 0x1.8p23` is exact, and its result is an integer `N` with
`|N - x * C| ≤ 1 / 2` that is even when the distance is exactly one half. The values are
the IEEE ones; the statement holds in every mode of the arithmetic. -/
theorem magic_bias_rounds_to_nearest_integer (m : FPMode) (x : Nat) (h : inBiasRange x) :
    |toRat x * toRat log2e_x2048| ≤ 2 ^ 22 ∧
    isFinite (lane_vn m x) = true ∧
    (2 : ℚ) ^ 23 ≤ toRat (lane_vn m x) ∧ toRat (lane_vn m x) ≤ 2 ^ 24 ∧
    isFinite (lane_n m (lane_vn m x)) = true ∧
    toRat (lane_n m (lane_vn m x)) = toRat (lane_vn m x) - toRat magic_bias ∧
    ∃ N : Int, toRat (lane_n m (lane_vn m x)) = (N : ℚ) ∧
      |(N : ℚ) - toRat x * toRat log2e_x2048| ≤ 1 / 2 ∧
      (|(N : ℚ) - toRat x * toRat log2e_x2048| = 1 / 2 → Even N) := by
  obtain ⟨_, b1, b2, _⟩ := inBiasRange_val m x h
  obtain ⟨_, _, n1, n2, _⟩ := lane_N_wide m x h
  obtain ⟨a, b, c⟩ := lane_N_wide_ieee m x h
  obtain ⟨f1, v1, f2, _, v2⟩ := lane_n_wide m x h
  have hvn : toRat (lane_vn m x) = ((lane_N m x + 12582912 : Int) : ℚ) := toRat_of_val _ _ v1
  have hn : toRat (lane_n m (lane_vn m x)) = (lane_N m x : ℚ) := toRat_of_val _ _ v2
  have hb : toRat magic_bias = ((12582912 : Int) : ℚ) :=
    toRat_of_val _ _ (by rw [val149_magic_bias]; omega)
  have hQ : (0 : ℚ) < 2 ^ 161 := by positivity
  refine ⟨?_, f1, ?_, ?_, f2, ?_, lane_N m x, hn, ?_, ?_⟩
  · have e := N_sub_rat 0 x
    rw [Int.cast_zero, zero_sub] at e
    rw [← abs_neg, e, abs_div, abs_of_pos hQ, div_le_iff₀ hQ, abs_le]
    have l1 : -(2 ^ 183 : Int) ≤ 0 * 2 ^ 161 - val149 ieee x * 12102203 := by omega
    have l2 : 0 * 2 ^ 161 - val149 ieee x * 12102203 ≤ (2 ^ 183 : Int) := by omega
    have e2 : (2 : ℚ) ^ 22 * 2 ^ 161 = 2 ^ 183 := by norm_num
    rw [e2]
    exact ⟨by exact_mod_cast l1, by exact_mod_cast l2⟩
  · rw [hvn]
    have : (2 ^ 23 : Int) ≤ lane_N m x + 12582912 := by omega
    exact_mod_cast this
  · rw [hvn]
    have : lane_N m x + 12582912 ≤ (2 ^ 24 : Int) := by omega
    exact_mod_cast this
  · rw [hn, hvn, hb]
    push_cast
    ring
  · rw [N_sub_rat, abs_div, abs_of_pos hQ, div_le_iff₀ hQ, abs_le]
    have e2 : (1 : ℚ) / 2 * 2 ^ 161 = 2 ^ 160 := by norm_num
    rw [e2]
    have l1 : -(2 ^ 160 : Int) ≤ lane_N m x * 2 ^ 161 - val149 ieee x * 12102203 := by omega
    exact ⟨by exact_mod_cast l1, by exact_mod_cast a⟩
  · intro ht
    rw [N_sub_rat, abs_div, abs_of_pos hQ, div_eq_iff hQ.ne'] at ht
    have e2 : (1 : ℚ) / 2 * 2 ^ 161 = 2 ^ 160 := by norm_num
    rw [e2] at ht
    have hcases := (abs_eq (by positivity : (0 : ℚ) ≤ 2 ^ 160)).mp ht
    rw [Int.even_iff]
    apply c
    rcases hcases with e | e
    · left
      exact_mod_cast e
    · right
      have e1 : lane_N m x * 2 ^ 161 - val149 ieee x * 12102203 = -(2 ^ 160 : Int) := by
        exact_mod_cast e
      linarith

/-- Witness for C14: `x = 100.0` lies in the range of the magic bias. -/
theorem magic_bias_rounds_to_nearest_integer_witness :
    inBiasRange 0x42C80000 ∧
    |toRat 0x42C80000 * toRat log2e_x2048| ≤ 2 ^ 22 ∧
    isFinite (lane_vn ieee 0x42C80000) = true ∧
    (2 : ℚ) ^ 23 ≤ toRat (lane_vn ieee 0x42C80000) ∧ toRat (lane_vn ieee 0x42C80000) ≤ 2 ^ 24 ∧
    isFinite (lane_n ieee (lane_vn ieee 0x42C80000)) = true ∧
    toRat (lane_n ieee (lane_vn ieee 0x42C80000))
      = toRat (lane_vn ieee 0x42C80000) - toRat magic_bias ∧
    ∃ N : Int, toRat (lane_n ieee (lane_vn ieee 0x42C80000)) = (N : ℚ) ∧
      |(N : ℚ) - toRat 0x42C80000 * toRat log2e_x2048| ≤ 1 / 2 ∧
      (|(N : ℚ) - toRat 0x42C80000 * toRat log2e_x2048| = 1 / 2 → Even N) :=
  ⟨by decide!, magic_bias_rounds_to_nearest_integer ieee 0x42C80000 (by decide!)⟩

/-- C15: index and exponent extraction. For every binary32 `x` with
`|x| ≤ 0x1.62E43p+10`, with `N` the integer value of `vn - 0x1.8p23`: the table index
`bits(vn) & 0x7FF` is `N mod 2048`, the non-negative remainder, `ve`, the bits of `vn` with
the low 11 cleared and shifted left by 12 in 32 bits, is `floor(N / 2048) * 2 ^ 23` modulo
`2 ^ 32`, and `N = 2048 * floor(N / 2048) + index`. -/
theorem index_and_exponent_extraction (m : FPMode) (x : Nat) (h : inBiasRange x) :
    ∃ N : Int, toRat (lane_n m (lane_vn m x)) = (N : ℚ) ∧
      lane_vn m x &&& 0x7FF = lane_idx (lane_vn m x) ∧
      (lane_idx (lane_vn m x) : Int) = N % 2048 ∧
      (lane_vn m x &&& (0xFFFFFFFF ^^^ 0x7FF)) <<< 12 % 2 ^ 32 = lane_ve (lane_vn m x) ∧
      (lane_ve (lane_vn m x) : Int) = N / 2048 * 2 ^ 23 % 2 ^ 32 ∧
      N = 2048 * (N / 2048) + (lane_idx (lane_vn m x) : Int) := by
  obtain ⟨v1, v2, _⟩ := lane_N_wide m x h
  obtain ⟨_, _, _, _, hn⟩ := lane_n_wide m x h
  refine ⟨lane_N m x, toRat_of_val _ _ hn, rfl, ?_, rfl, ?_, ?_⟩
  · rw [lane_idx_eq]; unfold lane_N; omega
  · rw [lane_ve_eq _ (by omega)]; unfold lane_N; omega
  · rw [lane_idx_eq]; unfold lane_N; omega

/-- Witness for C15: `x = -1.0`, where `N = -2955` is negative, the index is 1141 and
`floor(N / 2048) = -2`. -/
theorem index_and_exponent_extraction_witness :
    inBiasRange 0xBF800000 ∧ lane_N ieee 0xBF800000 = -2955 ∧
    lane_idx (lane_vn ieee 0xBF800000) = 1141 ∧
    lane_ve (lane_vn ieee 0xBF800000) = 0xFF000000 ∧
    ∃ N : Int, toRat (lane_n ieee (lane_vn ieee 0xBF800000)) = (N : ℚ) ∧
      lane_vn ieee 0xBF800000 &&& 0x7FF = lane_idx (lane_vn ieee 0xBF800000) ∧
      (lane_idx (lane_vn ieee 0xBF800000) : Int) = N % 2048 ∧
      (lane_vn ieee 0xBF800000 &&& (0xFFFFFFFF ^^^ 0x7FF)) <<< 12 % 2 ^ 32
        = lane_ve (lane_vn ieee 0xBF800000) ∧
      (lane_ve (lane_vn ieee 0xBF800000) : Int) = N / 2048 * 2 ^ 23 % 2 ^ 32 ∧
      N = 2048 * (N / 2048) + (lane_idx (lane_vn ieee 0xBF800000) : Int) :=
  ⟨by decide!, by decide!, by decide!, by decide!,
    index_and_exponent_extraction ieee 0xBF800000 (by decide!)⟩

/-- C16: patching the exponent field is an exact scaling. For every `k` in `0 .. 2047` and
every integer `e` with `-126 ≤ e ≤ 0`, the pattern `bits(exp2_table[k]) + e * 2 ^ 23`,
added with 32-bit wrap-around, has the value `exp2_table[k] * 2 ^ e` exactly, the fraction
bits of `exp2_table[k]`, sign 0 and the exponent field `127 + e`, which lies in `1 .. 254`:
a positive normal number, read alike with and without flush-to-zero. -/
theorem exponent_patch_is_exact_scaling (k : Nat) (hk : k < 2048) (e : Int)
    (he1 : -126 ≤ e) (he2 : e ≤ 0) :
    toRat ((exp2_table.getD k 0 + (e * 2 ^ 23 % 2 ^ 32).toNat) % 2 ^ 32)
      = toRat (exp2_table.getD k 0) * (2 : ℚ) ^ e ∧
    fracField ((exp2_table.getD k 0 + (e * 2 ^ 23 % 2 ^ 32).toNat) % 2 ^ 32)
      = fracField (exp2_table.getD k 0) ∧
    signBit ((exp2_table.getD k 0 + (e * 2 ^ 23 % 2 ^ 32).toNat) % 2 ^ 32) = 0 ∧
    (expField ((exp2_table.getD k 0 + (e * 2 ^ 23 % 2 ^ 32).toNat) % 2 ^ 32) : Int)
      = 127 + e ∧
    1 ≤ expField ((exp2_table.getD k 0 + (e * 2 ^ 23 % 2 ^ 32).toNat) % 2 ^ 32) ∧
    expField ((exp2_table.getD k 0 + (e * 2 ^ 23 % 2 ^ 32).toNat) % 2 ^ 32) ≤ 254 ∧
    0 < toRat ((exp2_table.getD k 0 + (e * 2 ^ 23 % 2 ^ 32).toNat) % 2 ^ 32) ∧
    ∀ m, val149 m ((exp2_table.getD k 0 + (e * 2 ^ 23 % 2 ^ 32).toNat) % 2 ^ 32)
      = val149 ieee ((exp2_table.getD k 0 + (e * 2 ^ 23 % 2 ^ 32).toNat) % 2 ^ 32) := by
  obtain ⟨l1, l2⟩ := exp2_table_bounds k hk
  have hd : e.natAbs ≤ 126 := by omega
  rw [patch_add _ e l1 l2 he1 he2]
  obtain ⟨_, p2, p3, p4, p5⟩ := patch_val ieee _ e.natAbs l1 l2 hd
  have hrat := patch_rat _ e.natAbs l1 l2 hd
  have hl : 0 < toRat (exp2_table.getD k 0) := by
    rw [toRat_unit _ l1 l2]
    have := (significand_bounds (exp2_table.getD k 0)).1
    positivity
  have he : e = -((e.natAbs : Nat) : Int) := by omega
  have hpow : (2 : ℚ) ^ e = 1 / 2 ^ e.natAbs := by
    conv_lhs => rw [he]
    rw [zpow_neg, zpow_natCast, one_div]
  refine ⟨?_, p4, p2, ?_, ?_, ?_, ?_, ?_⟩
  · rw [hrat, hpow]; ring
  · rw [p3]; omega
  · rw [p3]; omega
  · rw [p3]; omega
  · rw [hrat]; positivity
  · intro m
    rw [(patch_val m _ e.natAbs l1 l2 hd).2.2.2.2, p5]

/-- Witness for C16: the last table entry with `e = -126`. -/
theorem exponent_patch_is_exact_scaling_witness :
    toRat ((exp2_table.getD 2047 0 + ((-126 : Int) * 2 ^ 23 % 2 ^ 32).toNat) % 2 ^ 32)
      = toRat (exp2_table.getD 2047 0) * (2 : ℚ) ^ (-126 : Int) ∧
    fracField ((exp2_table.getD 2047 0 + ((-126 : Int) * 2 ^ 23 % 2 ^ 32).toNat) % 2 ^ 32)
      = fracField (exp2_table.getD 2047 0) ∧
    signBit ((exp2_table.getD 2047 0 + ((-126 : Int) * 2 ^ 23 % 2 ^ 32).toNat) % 2 ^ 32) = 0 ∧
    (expField ((exp2_table.getD 2047 0 + ((-126 : Int) * 2 ^ 23 % 2 ^ 32).toNat) % 2 ^ 32) : Int)
      = 127 + (-126 : Int) ∧
    1 ≤ expField ((exp2_table.getD 2047 0 + ((-126 : Int) * 2 ^ 23 % 2 ^ 32).toNat) % 2 ^ 32) ∧
    expField ((exp2_table.getD 2047 0 + ((-126 : Int) * 2 ^ 23 % 2 ^ 32).toNat) % 2 ^ 32)
      ≤ 254 ∧
    0 < toRat ((exp2_table.getD 2047 0 + ((-126 : Int) * 2 ^ 23 % 2 ^ 32).toNat) % 2 ^ 32) ∧
    ∀ m, val149 m ((exp2_table.getD 2047 0 + ((-126 : Int) * 2 ^ 23 % 2 ^ 32).toNat) % 2 ^ 32)
      = val149 ieee
        ((exp2_table.getD 2047 0 + ((-126 : Int) * 2 ^ 23 % 2 ^ 32).toNat) % 2 ^ 32) :=
  exponent_patch_is_exact_scaling 2047 (by decide) (-126) (by decide) (by decide)

/-- C17, as stated, fails: `x = -0x1.5D4D5Cp6` lies in the domain, its reduced argument is
`N = -258015`, and the computed residual is `t = -0x1.655534p-13`, about
`-1.70390 * 10 ^ -4`, below `-ln(2) / 4096`, about `-1.69225 * 10 ^ -4`; the same in the
IEEE reading and with flush-to-zero and default NaN. -/
theorem residual_exceeds_half_step :
    inDomain 0xC2AEA6AE ∧ lane_N ieee 0xC2AEA6AE = -258015 ∧
    lane_t ieee 0xC2AEA6AE (lane_n ieee (lane_vn ieee 0xC2AEA6AE)) = 0xB932AA9A ∧
    lane_t ⟨true, true⟩ 0xC2AEA6AE (lane_n ⟨true, true⟩ (lane_vn ⟨true, true⟩ 0xC2AEA6AE))
      = 0xB932AA9A ∧
    toRat 0xB932AA9A = -(11709082 / 2 ^ 36) ∧
    ¬ (-(Real.log 2 / 4096) ≤ ((toRat 0xB932AA9A : ℚ) : ℝ) ∧
      ((toRat 0xB932AA9A : ℚ) : ℝ) ≤ Real.log 2 / 4096) := by
  have hv : val149 ieee 0xB932AA9A = -((11709082 * 2 ^ 113 : Nat) : Int) := by decide!
  have hq : toRat 0xB932AA9A = -(11709082 / 2 ^ 36) := by
    unfold toRat
    rw [hv]
    push_cast
    norm_num
  refine ⟨by decide!, by decide!, by decide!, by decide!, hq, ?_⟩
  rw [hq]
  intro ⟨h1, _⟩
  have hL := Real.log_two_lt_d9
  push_cast at h1
  norm_num at h1 hL
  linarith only [h1, hL]

/-- C17, amended: for every binary32 `x` of the domain `-0x1.5D589Ep6 ≤ x ≤ 0` the
computed residual `t = fma(N, 0x1.05c61p-40, fma(N, -0x1.62e43p-12, x))` satisfies
`|t| ≤ (1 + 1 / 128) * ln(2) / 4096`, in every mode of the arithmetic. -/
theorem residual_near_half_step (m : FPMode) (x : Nat) (h : inDomain x) :
    |((toRat (lane_t m x (lane_n m (lane_vn m x))) : ℚ) : ℝ)|
      ≤ (1 + 1 / 128) * (Real.log 2 / 4096) := by
  have := lane_t_bound m x h
  rw [show (1 + 1 / 128 : ℝ) = 129 / 128 by norm_num]
  exact this

/-- Witness for C17 amended, at the input where the residual leaves `ln(2) / 4096`. -/
theorem residual_near_half_step_witness :
    inDomain 0xC2AEA6AE ∧
    |((toRat (lane_t ieee 0xC2AEA6AE (lane_n ieee (lane_vn ieee 0xC2AEA6AE))) : ℚ) : ℝ)|
      ≤ (1 + 1 / 128) * (Real.log 2 / 4096) :=
  ⟨by decide!, residual_near_half_step ieee 0xC2AEA6AE (by decide!)⟩

/-- C18: the residual bound the code documents. For every binary32 `x` with
`-0x1.5D589Ep6 ≤ x ≤ 0` the computed residual `t` that is fed to the degree-1 polynomial
lies in `[-ln(2) / 2048, ln(2) / 2048]`, in every mode of the arithmetic. -/
theorem residual_within_reduction_step (m : FPMode) (x : Nat) (h : inDomain x) :
    -(Real.log 2 / 2048) ≤ ((toRat (lane_t m x (lane_n m (lane_vn m x))) : ℚ) : ℝ) ∧
    ((toRat (lane_t m x (lane_n m (lane_vn m x))) : ℚ) : ℝ) ≤ Real.log 2 / 2048 := by
  have hb := lane_t_bound m x h
  have hL : 0 < Real.log 2 := Real.log_pos (by norm_num)
  rw [← abs_le]
  refine le_trans hb ?_
  linarith only [hL]

/-- Witness for C18: the cutoff itself. -/
theorem residual_within_reduction_step_witness :
    inDomain 0xC2AEAC4F ∧
    -(Real.log 2 / 2048)
      ≤ ((toRat (lane_t ieee 0xC2AEAC4F (lane_n ieee (lane_vn ieee 0xC2AEAC4F))) : ℚ) : ℝ) ∧
    ((toRat (lane_t ieee 0xC2AEAC4F (lane_n ieee (lane_vn ieee 0xC2AEAC4F))) : ℚ) : ℝ)
      ≤ Real.log 2 / 2048 :=
  ⟨by decide!, residual_within_reduction_step ieee 0xC2AEAC4F (by decide!)⟩

/-- C19: in the domain the scale is a normal number. For every binary32 `x` with
`-0x1.5D589Ep6 ≤ x ≤ 0`, with `N` the integer value of `vn - 0x1.8p23`, the exponent
adjustment `e = floor(N / 2048)` satisfies `-126 ≤ e ≤ 0`, and the scale `s` is
`exp2_table[N mod 2048] * 2 ^ e` exactly: sign 0, exponent field `127 + e ≥ 1`, at least
`2 ^ -126`. -/
theorem scale_is_normal_in_domain (m : FPMode) (x : Nat) (h : inDomain x) :
    ∃ N : Int, toRat (lane_n m (lane_vn m x)) = (N : ℚ) ∧
      -126 ≤ N / 2048 ∧ N / 2048 ≤ 0 ∧
      lane_l (lane_vn m x) = exp2_table.getD (N % 2048).toNat 0 ∧
      toRat (lane_s (lane_vn m x))
        = toRat (exp2_table.getD (N % 2048).toNat 0) * (2 : ℚ) ^ (N / 2048) ∧
      signBit (lane_s (lane_vn m x)) = 0 ∧
      (expField (lane_s (lane_vn m x)) : Int) = 127 + N / 2048 ∧
      1 ≤ expField (lane_s (lane_vn m x)) ∧ expField (lane_s (lane_vn m x)) ≤ 127 ∧
      (2 : ℚ) ^ (-126 : Int) ≤ toRat (lane_s (lane_vn m x)) := by
  obtain ⟨v1, v2, _⟩ := lane_N_spec m x h
  obtain ⟨_, _, hn⟩ := lane_n_spec m x h
  obtain ⟨hd, hs⟩ := lane_s_eq (lane_vn m x) v1 v2
  obtain ⟨l1, l2⟩ := lane_l_bounds (lane_vn m x)
  obtain ⟨_, p2, p3, _, _⟩ := patch_val ieee _ _ l1 l2 hd
  have hrat := patch_rat _ _ l1 l2 hd
  have hidx : lane_idx (lane_vn m x) = (lane_N m x % 2048).toNat := by
    rw [lane_idx_eq]; unfold lane_N; omega
  have he : lane_N m x / 2048 = -((0x96800 - lane_vn m x / 2048 : Nat) : Int) := by
    unfold lane_N; omega
  have hpow : (2 : ℚ) ^ (lane_N m x / 2048) = 1 / 2 ^ (0x96800 - lane_vn m x / 2048) := by
    rw [he, zpow_neg, zpow_natCast, one_div]
  have hl : toRat (lane_l (lane_vn m x)) = toRat (exp2_table.getD (lane_N m x % 2048).toNat 0) := by
    unfold lane_l; rw [hidx]
  have hl1 : (1 : ℚ) ≤ toRat (lane_l (lane_vn m x)) := by
    rw [toRat_unit _ l1 l2, le_div_iff₀ (by positivity), one_mul]
    have := (significand_bounds (lane_l (lane_vn m x))).1
    exact_mod_cast this
  rw [← hs] at p2 p3 hrat
  refine ⟨lane_N m x, toRat_of_val _ _ hn, by omega, by omega, ?_, ?_, p2, ?_, ?_, ?_, ?_⟩
  · unfold lane_l; rw [hidx]
  · rw [hrat, hpow, hl]; ring
  · rw [p3]; omega
  · rw [p3]; omega
  · rw [p3]; omega
  · rw [hrat, zpow_neg, ← one_div]
    have h2 : (0 : ℚ) < 2 ^ (0x96800 - lane_vn m x / 2048) := by positivity
    have h3 : (2 : ℚ) ^ (0x96800 - lane_vn m x / 2048) ≤ 2 ^ 126 :=
      pow_le_pow_right₀ (by norm_num) hd
    have h4 : (2 : ℚ) ^ (126 : Int) = 2 ^ 126 := by norm_cast
    rw [h4]
    calc (1 : ℚ) / 2 ^ 126 ≤ 1 / 2 ^ (0x96800 - lane_vn m x / 2048) :=
          one_div_le_one_div_of_le h2 h3
      _ ≤ toRat (lane_l (lane_vn m x)) / 2 ^ (0x96800 - lane_vn m x / 2048) :=
          div_le_div_of_nonneg_right hl1 h2.le

/-- Witness for C19: the cutoff, where `e = -126`. -/
theorem scale_is_normal_in_domain_witness :
    inDomain 0xC2AEAC4F ∧ lane_N ieee 0xC2AEAC4F = -258048 ∧
    ∃ N : Int, toRat (lane_n ieee (lane_vn ieee 0xC2AEAC4F)) = (N : ℚ) ∧
      -126 ≤ N / 2048 ∧ N / 2048 ≤ 0 ∧
      lane_l (lane_vn ieee 0xC2AEAC4F) = exp2_table.getD (N % 2048).toNat 0 ∧
      toRat (lane_s (lane_vn ieee 0xC2AEAC4F))
        = toRat (exp2_table.getD (N % 2048).toNat 0) * (2 : ℚ) ^ (N / 2048) ∧
      signBit (lane_s (lane_vn ieee 0xC2AEAC4F)) = 0 ∧
      (expField (lane_s (lane_vn ieee 0xC2AEAC4F)) : Int) = 127 + N / 2048 ∧
      1 ≤ expField (lane_s (lane_vn ieee 0xC2AEAC4F)) ∧
      expField (lane_s (lane_vn ieee 0xC2AEAC4F)) ≤ 127 ∧
      (2 : ℚ) ^ (-126 : Int) ≤ toRat (lane_s (lane_vn ieee 0xC2AEAC4F)) :=
  ⟨by decide!, by decide!, scale_is_normal_in_domain ieee 0xC2AEAC4F (by decide!)⟩

/-- C20: `denorm_cutoff = -0x1.5D589Ep6` is the smallest binary32 `x` for which `exp x` is
normalized. `exp(-0x1.5D589Ep6) ≥ 2 ^ -126`; the pattern after it, `-0x1.5D58A0p6`, is the
next binary32 value below it, and `exp(-0x1.5D58A0p6) < 2 ^ -126`; equivalently
`-0x1.5D58A0p6 < -126 * ln 2 ≤ -0x1.5D589Ep6`. So a finite binary32 `b` has
`exp b ≥ 2 ^ -126` exactly when `denorm_cutoff ≤ b`. -/
theorem denorm_cutoff_is_smallest_normal_argument :
    toRat denorm_cutoff = -(11447375 / 2 ^ 17) ∧
    toRat (denorm_cutoff + 1) = -(11447376 / 2 ^ 17) ∧
    1 / 2 ^ 126 ≤ Real.exp ((toRat denorm_cutoff : ℚ) : ℝ) ∧
    Real.exp ((toRat (denorm_cutoff + 1) : ℚ) : ℝ) < 1 / 2 ^ 126 ∧
    ((toRat (denorm_cutoff + 1) : ℚ) : ℝ) < -(126 * Real.log 2) ∧
    -(126 * Real.log 2) ≤ ((toRat denorm_cutoff : ℚ) : ℝ) ∧
    (∀ b, isFinite b = true → toRat b < toRat denorm_cutoff →
      toRat b ≤ toRat (denorm_cutoff + 1)) ∧
    ∀ b, isFinite b = true →
      (1 / 2 ^ 126 ≤ Real.exp ((toRat b : ℚ) : ℝ) ↔ f32Le denorm_cutoff b) := by
  obtain ⟨c1, c2⟩ := cutoff_real
  obtain ⟨b1, b2⟩ := cutoff_brackets
  have hq : ∀ a b : Nat, toRat a ≤ toRat b ↔ val149 ieee a ≤ val149 ieee b := by
    intro a b
    rw [← toRat_le_real, Rat.cast_le]
  have hnext : ∀ b, toRat b < toRat denorm_cutoff → toRat b ≤ toRat (denorm_cutoff + 1) := by
    intro b hb
    rw [hq]
    apply next_below_cutoff
    by_contra hc
    exact absurd ((hq _ _).mpr (by omega)) (not_le.mpr hb)
  have hlow : Real.exp ((toRat (denorm_cutoff + 1) : ℚ) : ℝ) < 1 / 2 ^ 126 := by
    rw [← exp_neg_126, Real.exp_lt_exp, c2]
    exact b1
  have hup : ∀ X : ℝ, -(11447375 / 2 ^ 17) ≤ X → 1 / 2 ^ 126 ≤ Real.exp X := by
    intro X hX
    rw [← exp_neg_126, Real.exp_le_exp]
    exact le_trans b2 hX
  refine ⟨?_, ?_, hup _ (le_of_eq c1.symm), hlow, by rw [c2]; exact b1, by rw [c1]; exact b2,
    fun b _ => hnext b, ?_⟩
  · unfold toRat
    rw [val149_cutoff.1]
    push_cast
    norm_num
  · unfold toRat
    rw [val149_cutoff.2]
    push_cast
    norm_num
  · intro b hfin
    have hle : f32Le denorm_cutoff b ↔ toRat denorm_cutoff ≤ toRat b := by
      rw [hq]
      unfold f32Le
      rw [not_isNaN_of_isFinite b hfin, ordVal_of_isFinite ieee b hfin,
        ordVal_of_isFinite ieee denorm_cutoff (by decide)]
      simp only [true_and, and_iff_right_iff_imp]
      intro _
      decide
    rw [hle]
    constructor
    · intro hexp
      by_contra hc
      have h1 := hnext b (not_le.mp hc)
      have h2 : ((toRat b : ℚ) : ℝ) ≤ ((toRat (denorm_cutoff + 1) : ℚ) : ℝ) := by
        exact_mod_cast h1
      have h3 := Real.exp_le_exp.mpr h2
      linarith only [hexp, h3, hlow]
    · intro hc
      apply hup
      rw [← c1]
      exact_mod_cast hc

/-- Witness for C20: the two neighbours of the cutoff on either side of the last
statement. -/
theorem denorm_cutoff_is_smallest_normal_argument_witness :
    (1 / 2 ^ 126 ≤ Real.exp ((toRat 0xC2AEAC4E : ℚ) : ℝ) ↔ f32Le denorm_cutoff 0xC2AEAC4E) ∧
    f32Le denorm_cutoff 0xC2AEAC4E ∧
    (1 / 2 ^ 126 ≤ Real.exp ((toRat 0xC2AEAC50 : ℚ) : ℝ) ↔ f32Le denorm_cutoff 0xC2AEAC50) ∧
    ¬ f32Le denorm_cutoff 0xC2AEAC50 :=
  ⟨denorm_cutoff_is_smallest_normal_argument.2.2.2.2.2.2.2 0xC2AEAC4E (by decide),
    by decide!,
    denorm_cutoff_is_smallest_normal_argument.2.2.2.2.2.2.2 0xC2AEAC50 (by decide),
    by decide!⟩

/-- C21: the output range on the domain. In a call within the contract, every element
whose input is a binary32 value with `-0x1.5D589Ep6 ≤ x ≤ 0` gets an output that is a
positive normal binary32 number with `2 ^ -126 ≤ output ≤ 1`: sign 0, exponent field from 1
to 127, so not a zero, a subnormal, a negative number, an infinity or a NaN. The cutoff
itself lies in the domain. Holds in every mode of the arithmetic. -/
theorem output_is_normal_in_domain (m : FPMode) (fuel n : Nat) (input output : List Nat)
    (h : ValidCall fuel n input output) (i : Nat) (hi : i < n / 4)
    (hx : inDomain (input.getD i 0)) :
    inDomain denorm_cutoff ∧
    ∃ s, xnn_math_f32_expminus__neonfma_lut2048_p1 m fuel n input output = .ok s ∧
      1 / 2 ^ 126 ≤ toRat (s.mem.getD i 0) ∧ toRat (s.mem.getD i 0) ≤ 1 ∧
      signBit (s.mem.getD i 0) = 0 ∧
      1 ≤ expField (s.mem.getD i 0) ∧ expField (s.mem.getD i 0) ≤ 127 ∧
      isFinite (s.mem.getD i 0) = true ∧ isNaN (s.mem.getD i 0) = false ∧
      isInf (s.mem.getD i 0) = false ∧ s.mem.getD i 0 ≠ 0 := by
  obtain ⟨out, hrun, _, hget⟩ := kernel_spec m fuel n input output h
  refine ⟨by decide!, _, hrun, ?_⟩
  show 1 / 2 ^ 126 ≤ toRat (out.getD i 0) ∧ toRat (out.getD i 0) ≤ 1 ∧
    signBit (out.getD i 0) = 0 ∧ 1 ≤ expField (out.getD i 0) ∧ expField (out.getD i 0) ≤ 127 ∧
    isFinite (out.getD i 0) = true ∧ isNaN (out.getD i 0) = false ∧
    isInf (out.getD i 0) = false ∧ out.getD i 0 ≠ 0
  rw [hget i, if_pos hi]
  obtain ⟨r1, r2⟩ := expminus_lane_range m _ hx
  have hlt : expminus_lane m (input.getD i 0) < 2 ^ 32 := by
    rw [expminus_lane_inDomain m _ hx]; omega
  have hP : (0 : ℚ) < 2 ^ 149 := by positivity
  refine ⟨?_, ?_, normal_of_val _ hlt r1 r2⟩
  · unfold toRat
    rw [le_div_iff₀ hP]
    have e : (1 : ℚ) / 2 ^ 126 * 2 ^ 149 = 2 ^ 23 := by norm_num
    rw [e]
    exact_mod_cast r1
  · unfold toRat
    rw [div_le_iff₀ hP, one_mul]
    exact_mod_cast r2

/-- Witness for C21: a group holding the cutoff, `-0.0`, the smallest negative denormal
and `-87.0`, with flush-to-zero and default NaN set; the output for the cutoff is
`0x00800026`, not zero. -/
theorem output_is_normal_in_domain_witness :
    xnn_math_f32_expminus__neonfma_lut2048_p1 ⟨true, true⟩ 1 16
      [0xC2AEAC4F, 0x80000000, 0x80000001, 0xC2AE0000] [0, 0, 0, 0]
      = .ok ⟨0, 4, 4, [0x00800026, 0x3F800000, 0x3F800000, 0x00B33687]⟩ ∧
    inDomain denorm_cutoff ∧
    ∃ s, xnn_math_f32_expminus__neonfma_lut2048_p1 ⟨true, true⟩ 1 16
        [0xC2AEAC4F, 0x80000000, 0x80000001, 0xC2AE0000] [0, 0, 0, 0] = .ok s ∧
      1 / 2 ^ 126 ≤ toRat (s.mem.getD 0 0) ∧ toRat (s.mem.getD 0 0) ≤ 1 ∧
      signBit (s.mem.getD 0 0) = 0 ∧
      1 ≤ expField (s.mem.getD 0 0) ∧ expField (s.mem.getD 0 0) ≤ 127 ∧
      isFinite (s.mem.getD 0 0) = true ∧ isNaN (s.mem.getD 0 0) = false ∧
      isInf (s.mem.getD 0 0) = false ∧ s.mem.getD 0 0 ≠ 0 :=
  ⟨by decide!,
    output_is_normal_in_domain ⟨true, true⟩ 1 16
      [0xC2AEAC4F, 0x80000000, 0x80000001, 0xC2AE0000] [0, 0, 0, 0]
      (by decide!) 0 (by decide!) (by decide!)⟩

/-- C22: the first Cody-Waite step is error-free. For every binary32 `x` with
`-0x1.5D589Ep6 ≤ x ≤ 0`, with `N` the integer value of `n`, the result of
`fma(n, -0x1.62e43p-12, x)` is finite and its value is the exact value of
`x + n * (-0x1.62e43p-12)` on the operands as the arithmetic reads them: no rounding. Where
the input is read as it is (always in the IEEE reading) this is `x - N * 0x1.62e43p-12`.
The second step does round for some inputs, the cutoff among them. -/
theorem first_cody_waite_step_is_exact (m : FPMode) (x : Nat) (h : inDomain x) :
    isFinite (lane_t_hi m x (lane_n m (lane_vn m x))) = true ∧
    val149 ieee (lane_t_hi m x (lane_n m (lane_vn m x))) * 2 ^ 149
      = exactMulAdd m x (lane_n m (lane_vn m x)) minus_ln2_o2048_hi ∧
    val149 m (lane_t_hi m x (lane_n m (lane_vn m x)))
      = val149 ieee (lane_t_hi m x (lane_n m (lane_vn m x))) ∧
    toRat minus_ln2_o2048_hi = -(11629080 / 2 ^ 35) ∧
    (∃ N : Int, toRat (lane_n m (lane_vn m x)) = (N : ℚ) ∧
      (val149 m x = val149 ieee x →
        toRat (lane_t_hi m x (lane_n m (lane_vn m x)))
          = toRat x + (N : ℚ) * toRat minus_ln2_o2048_hi)) ∧
    (inDomain 0xC2AEAC4F ∧
      val149 ieee (lane_t ieee 0xC2AEAC4F (lane_n ieee (lane_vn ieee 0xC2AEAC4F))) * 2 ^ 149
        ≠ exactMulAdd ieee (lane_t_hi ieee 0xC2AEAC4F (lane_n ieee (lane_vn ieee 0xC2AEAC4F)))
            (lane_n ieee (lane_vn ieee 0xC2AEAC4F)) minus_ln2_o2048_lo) := by
  obtain ⟨⟨f1, _, m1, _⟩, _⟩ := stages_finite m x h
  obtain ⟨_, _, hn⟩ := lane_n_spec m x h
  have hex := lane_t_hi_exact m x h
  have hhi : toRat minus_ln2_o2048_hi = -(11629080 / 2 ^ 35) := by
    unfold toRat
    rw [val149_hi]
    push_cast
    norm_num
  refine ⟨f1, hex, m1, hhi, ⟨lane_N m x, toRat_of_val _ _ hn, ?_⟩, by decide!, by decide!⟩
  intro hx
  rw [exact_t_hi m x h, hx] at hex
  have hthi : val149 ieee (lane_t_hi m x (lane_n m (lane_vn m x)))
      = val149 ieee x - lane_N m x * (11629080 * 2 ^ 114) := by omega
  rw [hhi]
  unfold toRat
  rw [hthi]
  have hP : (0 : ℚ) < 2 ^ 149 := by positivity
  have e : ((val149 ieee x - lane_N m x * (11629080 * 2 ^ 114) : Int) : ℚ)
      = (val149 ieee x : ℚ) - (lane_N m x : ℚ) * (11629080 * 2 ^ 114) := by push_cast; ring
  have e2 : (2 : ℚ) ^ 149 = 2 ^ 114 * 2 ^ 35 := by rw [← pow_add]
  rw [e, e2]
  have hA : (0 : ℚ) < 2 ^ 114 := by positivity
  generalize (2 : ℚ) ^ 114 = A at hA ⊢
  field_simp
  ring

/-- Witness for C22: `x = -87.0`. -/
theorem first_cody_waite_step_is_exact_witness :
    inDomain 0xC2AE0000 ∧
    isFinite (lane_t_hi ieee 0xC2AE0000 (lane_n ieee (lane_vn ieee 0xC2AE0000))) = true ∧
    val149 ieee (lane_t_hi ieee 0xC2AE0000 (lane_n ieee (lane_vn ieee 0xC2AE0000))) * 2 ^ 149
      = exactMulAdd ieee 0xC2AE0000 (lane_n ieee (lane_vn ieee 0xC2AE0000))
          minus_ln2_o2048_hi ∧
    val149 ieee (lane_t_hi ieee 0xC2AE0000 (lane_n ieee (lane_vn ieee 0xC2AE0000)))
      = val149 ieee (lane_t_hi ieee 0xC2AE0000 (lane_n ieee (lane_vn ieee 0xC2AE0000))) ∧
    toRat minus_ln2_o2048_hi = -(11629080 / 2 ^ 35) ∧
    (∃ N : Int, toRat (lane_n ieee (lane_vn ieee 0xC2AE0000)) = (N : ℚ) ∧
      (val149 ieee 0xC2AE0000 = val149 ieee 0xC2AE0000 →
        toRat (lane_t_hi ieee 0xC2AE0000 (lane_n ieee (lane_vn ieee 0xC2AE0000)))
          = toRat 0xC2AE0000 + (N : ℚ) * toRat minus_ln2_o2048_hi)) ∧
    (inDomain 0xC2AEAC4F ∧
      val149 ieee (lane_t ieee 0xC2AEAC4F (lane_n ieee (lane_vn ieee 0xC2AEAC4F))) * 2 ^ 149
        ≠ exactMulAdd ieee (lane_t_hi ieee 0xC2AEAC4F (lane_n ieee (lane_vn ieee 0xC2AEAC4F)))
            (lane_n ieee (lane_vn ieee 0xC2AEAC4F)) minus_ln2_o2048_lo) :=
  ⟨by decide!, first_cody_waite_step_is_exact ieee 0xC2AE0000 (by decide!)⟩

/-- C23: the kernel has no clamp above the domain. `x = 100.0` is finite, positive and not
below the cutoff; its reduced argument is `N = 295464`, so `e = 144` and the exponent
field `127 + 144 = 271` does not fit in 8 bits: the scale `0x879A4B13` has its sign bit set.
The output is `0x879A4A55`, a negative number: finite, below zero, not at least 1. The same
in the IEEE reading and with flush-to-zero and default NaN. -/
theorem no_clamp_above_domain :
    isFinite 0x42C80000 = true ∧ f32Lt 0 0x42C80000 ∧ ¬ f32Lt 0x42C80000 denorm_cutoff ∧
    lane_N ieee 0x42C80000 = 295464 ∧ (295464 : Int) / 2048 = 144 ∧
    lane_idx (lane_vn ieee 0x42C80000) = 552 ∧
    expField (lane_l (lane_vn ieee 0x42C80000)) + 144 = 271 ∧
    lane_s (lane_vn ieee 0x42C80000) = 0x879A4B13 ∧
    signBit (lane_s (lane_vn ieee 0x42C80000)) = 1 ∧
    xnn_math_f32_expminus__neonfma_lut2048_p1 ieee 1 16 [0x42C80000, 0, 0, 0] [0, 0, 0, 0]
      = .ok ⟨0, 4, 4, [0x879A4A55, 0x3F800000, 0x3F800000, 0x3F800000]⟩ ∧
    xnn_math_f32_expminus__neonfma_lut2048_p1 ⟨true, true⟩ 1 16 [0x42C80000, 0, 0, 0]
      [0, 0, 0, 0] = .ok ⟨0, 4, 4, [0x879A4A55, 0x3F800000, 0x3F800000, 0x3F800000]⟩ ∧
    signBit 0x879A4A55 = 1 ∧ isFinite 0x879A4A55 = true ∧ f32Lt 0x879A4A55 0 ∧
    ¬ f32Le 0x3F800000 0x879A4A55 := by
  refine ⟨?_, ?_, ?_, ?_, ?_, ?_, ?_, ?_, ?_, ?_, ?_, ?_, ?_, ?_, ?_⟩ <;> decide!

/-- C24: the length precondition is necessary for termination. When `n` is not a multiple
of 16 the call stops at the assertion; without the assertion the loop started from `n`
does not return for any number of iterations allowed: `n` stays non-zero at every head of
the loop, with room in the buffers the loop is still running when the iterations are used
up, and `n - 16 * j` is non-zero modulo `2 ^ 64` for every `j`. -/
theorem loop_never_exits_without_precondition (m : FPMode) (fuel n : Nat)
    (input output : List Nat) (hmod : n % 16 ≠ 0) :
    xnn_math_f32_expminus__neonfma_lut2048_p1 m fuel n input output = .fault .assertion ∧
    (∀ s, loop m input fuel ⟨n, 0, 0, output⟩ ≠ .ok s) ∧
    (∀ s ∈ loopHeads m input fuel ⟨n, 0, 0, output⟩, s.n ≠ 0) ∧
    (4 * fuel ≤ input.length → 4 * fuel ≤ output.length →
      loop m input fuel ⟨n, 0, 0, output⟩ = .fault .fuel) ∧
    ∀ j : Nat, ((n : Int) - 16 * j) % 2 ^ 64 ≠ 0 := by
  refine ⟨?_, loop_not_ok m input fuel ⟨n, 0, 0, output⟩ hmod, ?_, ?_, ?_⟩
  · unfold xnn_math_f32_expminus__neonfma_lut2048_p1
    rw [if_neg (by unfold sizeof_float; omega)]
  · intro s hs
    have := loopHeads_mod m input fuel ⟨n, 0, 0, output⟩ s hs
    have e : (⟨n, 0, 0, output⟩ : LoopState).n = n := rfl
    rw [e] at this
    omega
  · intro hi ho
    exact loop_still_running m input fuel n 0 0 output hmod (by omega) (by omega)
  · intro j
    omega

/-- Witness for C24: `n = 20` with room for three iterations; the counter goes
`20, 4, 2 ^ 64 - 12, 2 ^ 64 - 28`. -/
theorem loop_never_exits_without_precondition_witness :
    (loopHeads ieee [0, 0, 0, 0, 0, 0, 0, 0, 0, 0, 0, 0] 3
      ⟨20, 0, 0, [7, 7, 7, 7, 7, 7, 7, 7, 7, 7, 7, 7]⟩).map (fun s => s.n)
      = [20, 4, 2 ^ 64 - 12, 2 ^ 64 - 28] ∧
    xnn_math_f32_expminus__neonfma_lut2048_p1 ieee 3 20 [0, 0, 0, 0, 0, 0, 0, 0, 0, 0, 0, 0]
      [7, 7, 7, 7, 7, 7, 7, 7, 7, 7, 7, 7] = .fault .assertion ∧
    (∀ s, loop ieee [0, 0, 0, 0, 0, 0, 0, 0, 0, 0, 0, 0] 3
      ⟨20, 0, 0, [7, 7, 7, 7, 7, 7, 7, 7, 7, 7, 7, 7]⟩ ≠ .ok s) ∧
    (∀ s ∈ loopHeads ieee [0, 0, 0, 0, 0, 0, 0, 0, 0, 0, 0, 0] 3
      ⟨20, 0, 0, [7, 7, 7, 7, 7, 7, 7, 7, 7, 7, 7, 7]⟩, s.n ≠ 0) ∧
    (4 * 3 ≤ [0, 0, 0, 0, 0, 0, 0, 0, 0, 0, 0, 0].length →
      4 * 3 ≤ [7, 7, 7, 7, 7, 7, 7, 7, 7, 7, 7, 7].length →
      loop ieee [0, 0, 0, 0, 0, 0, 0, 0, 0, 0, 0, 0] 3
        ⟨20, 0, 0, [7, 7, 7, 7, 7, 7, 7, 7, 7, 7, 7, 7]⟩ = .fault .fuel) ∧
    ∀ j : Nat, (((20 : Nat) : Int) - 16 * j) % 2 ^ 64 ≠ 0 :=
  ⟨by decide!,
    loop_never_exits_without_precondition ieee 3 20 [0, 0, 0, 0, 0, 0, 0, 0, 0, 0, 0, 0]
      [7, 7, 7, 7, 7, 7, 7, 7, 7, 7, 7, 7] (by decide)⟩

end XNN
